import Mathlib

/-! # pa-jail: a verification development

A shallow embedding of `pa-jail.cc` (the Peteramati jail tool) and theorems about it.

Conventions of the embedding.

* A C++ `std::string` is a `List Char`, one `Char` per byte.  A `const char*` walking through
  `name.c_str()` is the suffix of the list that starts at the pointer; the empty suffix is the
  pointer at the terminating NUL.
* `uid_t`, `gid_t`, `mode_t`, `dev_t` are `Nat`.
* `exit(n)` and every other way of leaving a function early is an explicit outcome.
* System calls are answered by an oracle that is a parameter of the model.
-/

namespace PaJail

/-- A C++ string: a list of bytes. -/
abbrev Str := List Char

/-! ## Pathname helpers (`pa-jail.cc` lines 73-93) -/

/-- `path_endslash`: append a slash unless the path already ends in one. -/
def path_endslash (path : Str) : Str :=
  if path = [] ∨ path.getLast? ≠ some '/' then path ++ ['/'] else path

/-- The loop `while (len > 1 && back == '/') drop the last byte`, on the reversed string. -/
def strip_slashes_rev : Str → Str
  | '/' :: c :: r => strip_slashes_rev (c :: r)
  | r => r

/-- `path_noendslash`: drop trailing slashes while the path is longer than one byte. -/
def path_noendslash (path : Str) : Str :=
  (strip_slashes_rev path.reverse).reverse

/-! ## `check_filename` (`pa-jail.cc` lines 766-793) -/

/-- The string `allowed_chars` of `check_filename`. -/
def allowed_chars : Str :=
  "/0123456789-._ABCDEFGHIJKLMNOPQRSTUVWXYZabcdefghijklmnopqrstuvwxyz~".toList

/-- `strspn(s, accept)`: length of the longest prefix of the C string `s` made of bytes of
`accept`; a NUL byte ends the C string. -/
def strspn (s accept : Str) : Nat :=
  (s.takeWhile (fun c => c != '\x00' && accept.contains c)).length

/-- `sizeof(buf)` in `check_filename`. -/
def BUFSIZE : Nat := 1024

/-- What a run of the C++ code can do other than return: `overread` is a read outside the
array a pointer or index belongs to, such as a read through a `const char*` that has moved
beyond the terminating NUL of `name.c_str()` (the C++ standard leaves the behaviour undefined,
the value read is whatever byte lies there in memory);
`nofuel` is the model running out of loop budget (never the case with the budget used). -/
inductive Fault where
  | overread
  | nofuel
  deriving DecidableEq, Repr

deriving instance DecidableEq for Except

/-- The inner loop `while (*s == '/' && s[1] == '/') ++s;` on the suffix at `s`. -/
def skip_slashes : Str → Str
  | '/' :: '/' :: rest => skip_slashes ('/' :: rest)
  | s => s

/-- The scanning loop `for (s = name.c_str(); *s; ++s) { ... }` of `check_filename`.

* `prev` is `s[-1]`, `none` when `s == name.c_str()`;
* `s` is the suffix at the pointer, `[]` when the pointer is at the terminator, so `*s` is the
  head of `s` (NUL for `[]`), `s[1]` the head of its tail, and so on;
* `out` is `buf[0 .. out)`.

After the body the `for` statement runs `++s` and then tests `*s`.  When the body left `s` on the
terminator that `++s` moves the pointer outside the string and the test reads there: this is
`Fault.overread`.  The result `none` stands for `return std::string()` inside the loop,
`some out` for leaving the loop with `buf[0 .. out)` filled. -/
def check_filename_scan : Nat → Option Char → Str → Str → Except Fault (Option Str)
  | 0, _, _, _ => .error .nofuel
  | fuel + 1, prev, s, out =>
    match s with
    | [] => .ok (some out)
    | c :: s1 =>
      -- `*out++ = *s;`
      if c = '.' ∧ (s1.head? = some '/' ∨ s1 = []) ∧ prev = some '/' then
        -- `--out; ++s;` then the `while`, then the `++s` of the `for`
        match skip_slashes s1 with
        | [] => .error .overread
        | d :: s2 => check_filename_scan fuel (some d) s2 out
      else if c = '.' ∧ s1.head? = some '.' ∧ ((s1.drop 1).head? = some '/' ∨ s1.drop 1 = [])
          ∧ (prev = none ∨ prev = some '/') then
        .ok none
      else
        match skip_slashes (c :: s1) with
        | [] => .error .overread
        | d :: s2 => check_filename_scan fuel (some d) s2 (out ++ [c])

/-- `check_filename(name)`.  `.ok []` is the rejection `return std::string()`; the last loop,
`while (out > buf + 1 && out[-1] == '/') --out;`, is `strip_slashes_rev` on the reversed
buffer. -/
def check_filename (name : Str) : Except Fault Str :=
  if strspn name allowed_chars ≠ name.length ∨ name = [] ∨ name.head? = some '~'
      ∨ name.length ≥ BUFSIZE then
    .ok []
  else
    match check_filename_scan (name.length + 1) none name [] with
    | .ok none => .ok []
    | .ok (some out) => .ok (strip_slashes_rev out.reverse).reverse
    | .error e => .error e

/-! ## Outcomes, `stat`, and the file-system oracle -/

/-- How a piece of the program ends: it returns (`ok`), it calls `exit(status)` in state
`final`, or it leaves defined behaviour (`fault`). -/
inductive Outcome (σ α : Type) where
  | ok (a : α)
  | exit (status : Nat) (final : σ)
  | fault (f : Fault)
  deriving DecidableEq, Repr

/-- The status of `exit`, when the outcome is an `exit`. -/
def Outcome.status {σ α : Type} : Outcome σ α → Option Nat
  | .exit n _ => some n
  | _ => none

/-- The state in which `exit` was called, when the outcome is an `exit`. -/
def Outcome.final {σ α : Type} : Outcome σ α → Option σ
  | .exit _ f => some f
  | _ => none

/-- The value returned, when the outcome is a return. -/
def Outcome.value {σ α : Type} : Outcome σ α → Option α
  | .ok a => some a
  | _ => none

/-- The fields of `struct stat` that the program reads. -/
structure Stat where
  st_mode : Nat
  st_uid : Nat
  st_gid : Nat
  st_dev : Nat
  deriving DecidableEq, Repr

/-- `#define ROOT 0` -/
def ROOT : Nat := 0
/-- The file-type mask of `st_mode`. -/
def S_IFMT : Nat := 0o170000
/-- The file type "directory". -/
def S_IFDIR : Nat := 0o040000
/-- Write permission, group. -/
def S_IWGRP : Nat := 0o020
/-- Write permission, others. -/
def S_IWOTH : Nat := 0o002

/-- `S_ISDIR(m)` -/
def S_ISDIR (m : Nat) : Bool := (m &&& S_IFMT) == S_IFDIR

/-- `writable_only_by_root` (lines 998-1002). -/
def writable_only_by_root (st : Stat) : Bool :=
  st.st_uid == ROOT
    && (st.st_gid == ROOT || !((st.st_mode &&& S_IWGRP) != 0))
    && !((st.st_mode &&& S_IWOTH) != 0)

/-- `enum jailaction` -/
inductive jailaction where
  | do_start | do_init | do_run | do_rm | do_mv
  deriving DecidableEq, Repr

/-- The `errno` values the program tells apart, and a few others. -/
inductive Errno where
  | ENOENT | ELOOP | EACCES | ENOTDIR | EBADF | EEXIST | EINVAL
  deriving DecidableEq, Repr

/-- `strerror(errno)` -/
def strerror : Errno → Str
  | .ENOENT => "No such file or directory".toList
  | .ELOOP => "Too many levels of symbolic links".toList
  | .EACCES => "Permission denied".toList
  | .ENOTDIR => "Not a directory".toList
  | .EBADF => "Bad file descriptor".toList
  | .EEXIST => "File exists".toList
  | .EINVAL => "Invalid argument".toList

/-- An open policy file: what `fstat` and `read` answer on its descriptor. -/
structure PermFile where
  /-- the answer of `fstat(conff, &st)` -/
  st : Except Errno Stat
  /-- the bytes `read(conff, buf, sizeof(buf))` delivers; nothing when it fails -/
  data : Str
  deriving DecidableEq, Repr

/-- The environment of a run: the two global flags that the path walk reads, and the answers
of the system to each call, keyed by the path the call is about. -/
structure Sys where
  /-- the global `verbose` -/
  verbose : Bool
  /-- the global `dryrun` -/
  dryrun : Bool
  /-- the line that `popen("pwd")` delivers to `absolute`, `none` when the checks on it fail -/
  pwd : Option Str
  /-- `fnmatch(pattern, string, FNM_PATHNAME | FNM_PERIOD) == 0` -/
  fnmatch : Str → Str → Bool
  /-- `open("/etc/pa-jail.conf", O_RDONLY | O_NOFOLLOW)`; `none` is `-1` -/
  etc_conf : Option PermFile
  /-- `openat(parentfd, component, O_PATH | O_CLOEXEC | O_NOFOLLOW)` for the directory
  `thisdir`, with a valid `parentfd`; `none` is success, `some e` is `-1` with `errno == e` -/
  on_openat : Str → Option Errno
  /-- `mkdirat(parentfd, component, 0755)` for the directory `thisdir`, same convention -/
  on_mkdirat : Str → Option Errno
  /-- the `openat` that follows the `mkdirat`, same convention as `openat` -/
  on_openat_made : Str → Option Errno
  /-- `fchmod(fd, 0755)` on the directory `thisdir`, same convention -/
  on_fchmod : Str → Option Errno
  /-- `fstat(fd, &s)` on the directory `thisdir` -/
  on_fstat : Str → Except Errno Stat
  /-- `openat(dirfd, permfilename, O_RDONLY | O_NOFOLLOW)` in the directory `thisdir` -/
  on_permfile : Str → Str → Except Errno PermFile

/-- A system call the path walk has issued (kept as a record of its effects). -/
inductive Event where
  | openat (thisdir : Str)
  | mkdirat (thisdir : Str)
  | openat_made (thisdir : Str)
  | fchmod (thisdir : Str)
  | fstat (thisdir : Str)
  | open_permfile (thisdir : Str) (name : Str)
  deriving DecidableEq, Repr

/-! ## `take_word` (lines 852-862) -/

/-- `isspace` in the C locale. -/
def isspace (c : Char) : Bool :=
  c == ' ' || c == '\t' || c == '\n' || c == '\x0b' || c == '\x0c' || c == '\r'

/-- `take_word(str, pos)` on the suffix of `str` at `pos`: the word, and the suffix at the new
`pos`. -/
def take_word (s : Str) : Str × Str :=
  -- `while (pos < str.length() && str[pos] != '\n' && isspace(str[pos])) ++pos;`
  let s1 := s.dropWhile (fun c => c != '\n' && isspace c)
  match s1 with
  | [] => ([], s1)
  | c :: _ =>
    if !isspace c then
      (s1.takeWhile (fun c => !isspace c), s1.dropWhile (fun c => !isspace c))
    else
      ([], s1)

/-- The loop `while (take_word(str, pos).length()) /* do nothing */;`. -/
def skip_words : Nat → Str → Str
  | 0, s => s
  | fuel + 1, s =>
    let w := take_word s
    if w.1.length ≠ 0 then skip_words fuel w.2 else w.2

/-! ## `jaildirinfo` (lines 873-1113) -/

/-- The members of `struct jaildirinfo`, with three record fields added: what was printed to
`stderr`, the system calls issued so far, and every value `permdir` has been assigned. -/
structure jaildirinfo where
  dir : Str
  parent : Str
  /-- the directory `parentfd` is open on; `none` is `-1` -/
  parentfd : Option Str
  component : Str
  allowed : Bool
  permdir : Str
  /-- `dev_t dev`, `none` for the initial `-1` -/
  dev : Option Nat
  alternate_permfile : Str
  /-- record: lines printed to `stderr`, oldest first -/
  stderr : List Str
  /-- record: system calls issued, oldest first -/
  syscalls : List Event
  /-- record: the values assigned to `permdir`, oldest first -/
  permdirs : List Str
  deriving DecidableEq, Repr

/-- The local variables `allowed_globally`, `allowed_locally`, `allowed_permdir` of
`parse_permfile`, and the member `alternate_permfile`. -/
structure PermVars where
  allowed_globally : Int
  allowed_locally : Int
  allowed_permdir : Str
  alternate_permfile : Str
  deriving DecidableEq, Repr

/-- The loop `while (wdir.length() > 2 && wdir[0] == '.' && wdir[1] == '/')
wdir = wdir.substr(2, wdir.length());`. -/
def strip_dotslash : Str → Str
  | '.' :: '/' :: c :: rest => strip_dotslash (c :: rest)
  | w => w

/-- The pattern directory `wdir` computed from `word2` (lines 1054-1061). -/
def wdir_of (thisdir word2 : Str) : Str :=
  let wdir := strip_dotslash word2
  let wdir := if wdir = [] ∨ wdir = ['.'] then thisdir else wdir
  let wdir := path_endslash wdir
  if wdir.head? ≠ some '/' then thisdir ++ wdir else wdir

/-- The first loop of lines 1065-1067: the number of slashes in `wdir`. -/
def slcount_of (wdir : Str) : Nat := wdir.count '/'

/-- Lines 1068-1071: `dir.substr(0, slpos)`, where `slpos` is just behind the `slcount`-th
slash of `dir`, or `npos` (so that the substring is all of `dir`) when `dir.find` fails
first. -/
def superdir_of : Nat → Str → Str
  | 0, _ => []
  | _ + 1, [] => []
  | slcount + 1, c :: rest =>
    c :: (if c = '/' then superdir_of slcount rest else superdir_of (slcount + 1) rest)

/-- One round of the loop `while (pos < str.length())` of `parse_permfile` (lines 1047-1089),
from the suffix `s` of `str` at `pos`: the new variables and the suffix at the new `pos`. -/
def parse_line (fnmatch : Str → Str → Bool) (dir thisdir permfilename : Str)
    (v : PermVars) (s : Str) : PermVars × Str :=
  let w1 := take_word s
  let w2 := take_word w1.2
  let s3 := skip_words w2.2.length w2.2
  let s4 := s3.dropWhile (fun c => c == '\n')
  let word1 := w1.1
  let word2 := w2.1
  let wdir := wdir_of thisdir word2
  let superdir := superdir_of (slcount_of wdir) dir
  let dirmatch := fnmatch wdir superdir
  if word1 = "disablejail".toList ∨ word1 = "nojail".toList then
    if word2 = [] then
      ({ v with allowed_globally := 0, allowed_locally := 0 }, s4)
    else if dirmatch then
      ({ v with allowed_locally := 0, allowed_permdir := word2 }, s4)
    else (v, s4)
  else if word1 = "enablejail".toList ∨ word1 = "allowjail".toList then
    if word2 = [] then
      ({ v with allowed_globally := 1 }, s4)
    else if dirmatch then
      ({ v with allowed_locally := 1, allowed_permdir := superdir }, s4)
    else
      ({ v with alternate_permfile := thisdir ++ permfilename }, s4)
  else (v, s4)

/-- The loop `while (pos < str.length())` of `parse_permfile`; `none` when the budget of
rounds is used up. -/
def parse_lines (fnmatch : Str → Str → Bool) (dir thisdir permfilename : Str) :
    Nat → PermVars → Str → Option PermVars
  | 0, _, _ => none
  | fuel + 1, v, s =>
    match s with
    | [] => some v
    | _ :: _ =>
      let r := parse_line fnmatch dir thisdir permfilename v s
      parse_lines fnmatch dir thisdir permfilename fuel r.1 r.2

/-- `sizeof(buf)` in `parse_permfile`. -/
def PERMBUF : Nat := 8192

/-- `jaildirinfo::parse_permfile` (lines 1023-1108). -/
def parse_permfile (sys : Sys) (j : jaildirinfo) (conff : PermFile) (thisdir0 : Str)
    (permfilename : Str) (islocal : Bool) : Outcome jaildirinfo jaildirinfo :=
  let thisdir := path_endslash thisdir0
  match conff.st with
  | .error e =>
    .exit 1 { j with stderr := j.stderr ++
      [thisdir ++ permfilename ++ ": ".toList ++ strerror e ++ "\n".toList] }
  | .ok st =>
    if !writable_only_by_root st then
      let j1 := if !j.allowed || sys.verbose then
          { j with stderr := j.stderr ++ [thisdir ++ permfilename ++
              (if j.allowed then ": Writable by non-root, ignoring\n".toList
               else ": Writable by non-root\n".toList)] }
        else j
      if !j.allowed then .exit 1 j1 else .ok j1
    else
      let str := conff.data.take PERMBUF
      match parse_lines sys.fnmatch j.dir thisdir permfilename (str.length + 1)
          ⟨-1, -1, [], j.alternate_permfile⟩ str with
      | none => .fault .nofuel
      | some v =>
        let j := { j with alternate_permfile := v.alternate_permfile }
        if v.allowed_locally > 0 then
          .ok { j with allowed := true, permdir := v.allowed_permdir,
                       permdirs := j.permdirs ++ [v.allowed_permdir] }
        else if v.allowed_locally = 0 then
          .exit 1 { j with stderr := j.stderr ++ [thisdir ++ permfilename ++
            ": Jails are disabled under ".toList ++ v.allowed_permdir ++ "\n".toList] }
        else if v.allowed_globally > 0 ∧ islocal then
          .ok { j with allowed := true, permdir := thisdir,
                       permdirs := j.permdirs ++ [thisdir] }
        else if v.allowed_globally = 0 ∧ islocal then
          .exit 1 { j with stderr := j.stderr ++ [thisdir ++ permfilename ++
            ": Jails are disabled here\n".toList] }
        else if v.allowed_globally = 0 then
          .exit 1 { j with stderr := j.stderr ++ [thisdir ++ permfilename ++
            ": Jails are disabled\n".toList] }
        else .ok j

/-- `jaildirinfo::check_permfile` (lines 1004-1021). -/
def check_permfile (sys : Sys) (j : jaildirinfo) (dirstat : Stat) (thisdir : Str) :
    Outcome jaildirinfo jaildirinfo :=
  let name1 := "pa-jail.conf".toList
  let name2 := "JAIL61".toList
  let j := { j with syscalls := j.syscalls ++ [Event.open_permfile thisdir name1] }
  let first := sys.on_permfile thisdir name1
  -- `if (conff == -1 && errno == ENOENT) { permfilename = "JAIL61"; conff = openat(...); }`
  let second : Bool := (first == .error .ENOENT)
  let permfilename := if second then name2 else name1
  let j := if second then
      { j with syscalls := j.syscalls ++ [Event.open_permfile thisdir name2] } else j
  let conff := if second then sys.on_permfile thisdir name2 else first
  match conff with
  | .error e =>
    if e ≠ .ENOENT ∧ e ≠ .ELOOP then
      .exit 1 { j with stderr := j.stderr ++
        [thisdir ++ "/".toList ++ permfilename ++ ": ".toList ++ strerror e ++ "\n".toList] }
    else .ok j
  | .ok f =>
    if writable_only_by_root dirstat then
      parse_permfile sys j f thisdir permfilename true
    else .ok j

/-- `absolute` (lines 795-814).  `pwd` is the line `fgets` delivers from `popen("pwd")` when
the three checks on it pass.  The loop `while (isspace(buf[buflen - 1]))` reads `buf[-1]` when
the whole line is white space. -/
def absolute (pwd : Option Str) (dir : Str) : Outcome Str Str :=
  if dir ≠ [] ∧ dir.head? = some '/' then .ok dir
  else
    match pwd with
    | some buf =>
      let r := buf.reverse.dropWhile isspace
      if r = [] then .fault .overread
      else .ok ((r.dropWhile (fun c => c == '/')).reverse ++ "/".toList ++ dir)
    | none => .exit 1 "pwd: Bogus absolute path\n".toList

/-- The local variables of the constructor that live across the rounds of its loop. -/
structure WalkVars where
  last_pos : Nat
  /-- the directory `fd` is open on; `none` is `-1` -/
  fd : Option Str
  dryrunning : Bool
  deriving DecidableEq, Repr

/-- Lines 915-919: the end `next_pos` of the component that starts at `last_pos`.  The loop
`while (next_pos && next_pos < dir.length() && dir[next_pos] != '/') ++next_pos;` does not
run when `next_pos` is 0, and `if (!next_pos) ++next_pos;` follows. -/
def next_pos_of (dir : Str) (last_pos : Nat) : Nat :=
  let next_pos :=
    if last_pos = 0 then 0
    else last_pos + ((dir.drop last_pos).takeWhile (fun c => c != '/')).length
  if next_pos = 0 then next_pos + 1 else next_pos

/-- Lines 923-925: `last_pos = next_pos; while (last_pos != dir.length() &&
dir[last_pos] == '/') ++last_pos;`. -/
def skip_pos_of (dir : Str) (next_pos : Nat) : Nat :=
  next_pos + ((dir.drop next_pos).takeWhile (fun c => c == '/')).length

/-- Lines 928-930: `allowed_here`. -/
def allowed_here_of (j : jaildirinfo) (last_pos : Nat) : Bool :=
  j.permdir ≠ [] && decide (last_pos ≥ j.permdir.length)
    && j.dir.take j.permdir.length == j.permdir

/-- Lines 937-955 of the constructor's loop: when the first `openat` gave `fd1` and the
directory is to be made (`fd == -1` in a dry run that is already making directories, or
`fd == -1` with `ENOENT` below the permission directory for `init` and `run`), make it, open
it and `fchmod` the last one.  The result is the state, the `fd` that is now current (`none`
is a valid descriptor, `some e` is `-1` with that `errno`) and whether `continue` is taken. -/
def walk_make (sys : Sys) (action : jailaction) (j : jaildirinfo) (w : WalkVars)
    (thisdir : Str) (last_pos : Nat) (allowed_here usable : Bool) (fd1 : Option Errno) :
    Outcome jaildirinfo (jaildirinfo × Option Errno × Bool) :=
  let making : Bool :=
    (fd1.isSome && w.dryrunning)
      || (fd1 == some .ENOENT && allowed_here
          && (action == .do_init || action == .do_run))
  if making then
    -- `v_mkdirat`
    let mk : Option Errno := if sys.dryrun then none else
      (if usable then sys.on_mkdirat thisdir else some .EBADF)
    let j := if sys.dryrun then j else { j with syscalls := j.syscalls ++ [Event.mkdirat thisdir] }
    match mk with
    | some e =>
      .exit 1 { j with stderr := j.stderr ++
        ["mkdir ".toList ++ thisdir ++ ": ".toList ++ strerror e ++ "\n".toList] }
    | none =>
      let fd2 : Option Errno := if usable then sys.on_openat_made thisdir else some .EBADF
      let j := { j with syscalls := j.syscalls ++ [Event.openat_made thisdir] }
      -- turn off suid+sgid on created root directory (`v_fchmod`)
      let chmodding : Bool := last_pos == j.dir.length && (fd2.isNone || sys.dryrun)
      let ch : Option Errno :=
        if chmodding then (if sys.dryrun then none else sys.on_fchmod thisdir) else none
      let j := if chmodding && !sys.dryrun then
          { j with syscalls := j.syscalls ++ [Event.fchmod thisdir] } else j
      match ch with
      | some e =>
        .exit 1 { j with stderr := j.stderr ++
          ["chmod ".toList ++ thisdir ++ ": ".toList ++ strerror e ++ "\n".toList] }
      | none => .ok (j, fd2, sys.dryrun)
  else .ok (j, fd1, false)

/-- Lines 963-986 of the constructor's loop, with a valid `fd` on `thisdir`: `fstat`, the
ownership checks, and `check_permfile`. -/
def walk_stat (sys : Sys) (j : jaildirinfo) (w : WalkVars) (thisdir parent : Str)
    (last_pos : Nat) (allowed_here : Bool) : Outcome jaildirinfo (jaildirinfo × WalkVars) :=
  -- stat it
  let j := { j with syscalls := j.syscalls ++ [Event.fstat thisdir] }
  match sys.on_fstat thisdir with
  | .error e =>
    .exit 1 { j with stderr := j.stderr ++
      [thisdir ++ ": ".toList ++ strerror e ++ "\n".toList] }
  | .ok s =>
    if !S_ISDIR s.st_mode then
      .exit 1 { j with stderr := j.stderr ++ [thisdir ++ ": Not a directory\n".toList] }
    else if !allowed_here ∧ last_pos ≠ j.dir.length ∧ s.st_uid ≠ ROOT then
      .exit 1 { j with stderr := j.stderr ++ [thisdir ++ ": Not owned by root\n".toList] }
    else if !allowed_here ∧ last_pos ≠ j.dir.length
        ∧ ((s.st_gid ≠ ROOT ∧ (s.st_mode &&& S_IWGRP) ≠ 0)
            ∨ (s.st_mode &&& S_IWOTH) ≠ 0) then
      .exit 1 { j with stderr := j.stderr ++
        [thisdir ++ ": Writable by non-root\n".toList] }
    else
      let j := { j with dev := some s.st_dev }
      let w1 : WalkVars := ⟨last_pos, some thisdir, w.dryrunning⟩
      -- check for "pa-jail.conf" allowance
      if parent.length ≠ 0 then
        match check_permfile sys j s thisdir with
        | .ok j => .ok (j, w1)
        | .exit n f => .exit n f
        | .fault f => .fault f
      else .ok (j, w1)

/-- One round of the loop `while (last_pos != dir.length())` of the constructor
(lines 914-986). -/
def walk_step (sys : Sys) (action : jailaction) (doforce : Bool) (j : jaildirinfo)
    (w : WalkVars) : Outcome jaildirinfo (jaildirinfo × WalkVars) :=
  let dir := j.dir
  -- extract component
  let next_pos := next_pos_of dir w.last_pos
  let parent := dir.take w.last_pos
  let component := (dir.drop w.last_pos).take (next_pos - w.last_pos)
  let thisdir := dir.take next_pos
  let last_pos := skip_pos_of dir next_pos
  -- check whether we are below the permission directory
  let allowed_here := allowed_here_of j last_pos
  -- open it and swap it in: `openat(parentfd, component, ...)` needs a valid `parentfd`
  -- unless `component` is absolute
  let parentfd := w.fd
  let usable : Bool := component.head? == some '/' || parentfd.isSome
  let fd1 : Option Errno := if usable then sys.on_openat thisdir else some .EBADF
  let j := { j with parent := parent, component := component, parentfd := parentfd,
                    syscalls := j.syscalls ++ [Event.openat thisdir] }
  match walk_make sys action j w thisdir last_pos allowed_here usable fd1 with
  | .exit n f => .exit n f
  | .fault f => .fault f
  | .ok (j, fd, true) =>
    -- `dryrunning = true; continue;`
    .ok (j, ⟨last_pos, if fd.isNone then some thisdir else none, true⟩)
  | .ok (j, fd, false) =>
    match fd with
    | some e =>
      if e = .ENOENT ∧ action = .do_rm ∧ doforce then .exit 0 j
      else .exit 1 { j with stderr := j.stderr ++
        [thisdir ++ ": ".toList ++ strerror e ++ "\n".toList] }
    | none => walk_stat sys j w thisdir parent last_pos allowed_here

/-- The loop `while (last_pos != dir.length())` of the constructor, with a budget of
rounds. -/
def walk (sys : Sys) (action : jailaction) (doforce : Bool) :
    Nat → jaildirinfo → WalkVars → Outcome jaildirinfo (jaildirinfo × WalkVars)
  | 0, _, _ => .fault .nofuel
  | fuel + 1, j, w =>
    if w.last_pos = j.dir.length then .ok (j, w)
    else
      match walk_step sys action doforce j w with
      | .ok (j1, w1) => walk sys action doforce fuel j1 w1
      | .exit n f => .exit n f
      | .fault f => .fault f

/-- The constructor `jaildirinfo::jaildirinfo(str, action, doforce)` (lines 895-996). -/
def jaildirinfo.construct (sys : Sys) (str : Str) (action : jailaction) (doforce : Bool) :
    Outcome jaildirinfo jaildirinfo :=
  let blank (d : Str) : jaildirinfo :=
    { dir := d, parent := [], parentfd := none, component := [], allowed := false,
      permdir := [], dev := none, alternate_permfile := [], stderr := [], syscalls := [],
      permdirs := [] }
  match absolute sys.pwd str with
  | .exit n msg => .exit n { blank [] with stderr := [msg] }
  | .fault f => .fault f
  | .ok a =>
    match check_filename a with
    | .error f => .fault f
    | .ok dir0 =>
      if dir0 = [] ∨ dir0 = ['/'] ∨ dir0.head? ≠ some '/' then
        .exit 1 { blank dir0 with stderr := [str ++ ": Bad characters in filename\n".toList] }
      else
        let j := blank (path_endslash dir0)
        let afterEtc : Outcome jaildirinfo jaildirinfo :=
          match sys.etc_conf with
          | some f => parse_permfile sys j f "/etc/".toList "pa-jail.conf".toList false
          | none => .ok j
        match afterEtc with
        | .exit n f => .exit n f
        | .fault f => .fault f
        | .ok j =>
          match walk sys action doforce (j.dir.length + 1) j ⟨0, none, false⟩ with
          | .exit n f => .exit n f
          | .fault f => .fault f
          | .ok (j, _) =>
            if !j.allowed then
              .exit 1 { j with stderr := j.stderr ++
                [j.dir ++ ": No `pa-jail.conf` enables jails here.\n".toList] ++
                (if j.alternate_permfile ≠ [] then
                  ["  (Perhaps you need to edit `".toList ++ j.alternate_permfile
                    ++ "`.)\n".toList] else []) }
            else .ok j

/-! ## `jailownerinfo` and the way from `main` to `execve` (lines 1197-1509, 1746-1983) -/

/-- The fields of `struct passwd` that `jailownerinfo::init` reads. -/
structure passwd where
  pw_uid : Nat
  pw_gid : Nat
  pw_dir : Str
  pw_shell : Str
  deriving DecidableEq, Repr

/-- The data members of `class jailownerinfo` set by `init`. -/
structure jailownerinfo where
  owner : Nat
  group : Nat
  owner_home : Str
  owner_sh : Str
  deriving DecidableEq, Repr

/-- The constructor `jailownerinfo::jailownerinfo()`: `owner(ROOT), group(ROOT)`. -/
def jailownerinfo.new : jailownerinfo := ⟨ROOT, ROOT, [], []⟩

/-- `jailownerinfo::init(owner_name)` (lines 1252-1288).  `getpwnam` is the password database,
`check_shell` the function of that name (a look-up in `/etc/shells`).  The error is the line
printed before `exit(1)`. -/
def jailownerinfo.init (getpwnam : Str → Option passwd) (check_shell : Str → Bool)
    (self : jailownerinfo) (owner_name : Str) : Except Str jailownerinfo :=
  if owner_name.length ≥ 1024 then .error (owner_name ++ ": Username too long\n".toList)
  else
    match getpwnam owner_name with
    | none => .error (owner_name ++ ": No such user\n".toList)
    | some pwnam =>
      let self := { self with owner := pwnam.pw_uid, group := pwnam.pw_gid }
      let home : Option Str :=
        if pwnam.pw_dir = "/".toList then some "/home/nobody".toList
        else if pwnam.pw_dir.take 6 = "/home/".toList then some pwnam.pw_dir
        else none
      match home with
      | none =>
        .error (owner_name ++ ": Home directory ".toList ++ pwnam.pw_dir
          ++ " not under /home\n".toList)
      | some h =>
        let self := { self with owner_home := h }
        if pwnam.pw_shell = "/bin/bash".toList ∨ pwnam.pw_shell = "/bin/sh".toList
            ∨ check_shell pwnam.pw_shell then
          let self := { self with owner_sh := pwnam.pw_shell }
          if self.owner = ROOT then .error (owner_name ++ ": Jail user cannot be root\n".toList)
          else .ok self
        else
          .error (owner_name ++ ": Shell ".toList ++ pwnam.pw_shell
            ++ " not allowed by /etc/shells\n".toList)

/-- A system call on the way to `execve`, with its argument and whether it succeeded.
`execve` records the effective uid and gid of the calling process. -/
inductive Call where
  | setgid (gid : Nat) (ok : Bool)
  | setuid (uid : Nat) (ok : Bool)
  | chdir (path : Str) (ok : Bool)
  | chroot (ok : Bool)
  | clone (ok : Bool)
  | posix_openpt (ok : Bool)
  | grantpt (ok : Bool)
  | unlockpt (ok : Bool)
  | ptsname (ok : Bool)
  | open_shell (path : Str) (ok : Bool)
  | pipe (ok : Bool)
  | fork (ok : Bool)
  | setsid (ok : Bool)
  | open_slave (ok : Bool)
  | execve (path : Str) (euid egid : Nat) (ok : Bool)
  deriving DecidableEq, Repr

/-- How the thread of control that is followed ends. -/
inductive Ending where
  /-- still running -/
  | running
  /-- `exit(status)`, `usage()` or `perror_exit` -/
  | exited (status : Nat)
  /-- `execve` succeeded: the process now runs the shell -/
  | shell
  /-- the branch of a `fork` or `clone` that is not followed (the supervising parent) -/
  | parent
  deriving DecidableEq, Repr

/-- The process that is followed: its effective ids and the calls it has made. -/
structure Proc where
  euid : Nat
  egid : Nat
  calls : List Call
  ending : Ending
  deriving DecidableEq, Repr

/-- The answers of the system to the calls of `exec` and `exec_go`. -/
structure ExecSys where
  clone : Bool
  chdir_jail : Bool
  chroot : Bool
  setgid : Bool
  setuid : Bool
  posix_openpt : Bool
  grantpt : Bool
  unlockpt : Bool
  ptsname : Bool
  chdir_home : Bool
  open_shell : Bool
  pipe : Bool
  /-- `fork()`: `none` is `-1`, `some true` is the child (`0`), `some false` the parent -/
  fork : Option Bool
  setsid : Bool
  open_slave : Bool
  execve : Bool

/-- Record a call; when it failed and `fatal` is set the process ends with `exit(status)`. -/
def Proc.call (p : Proc) (c : Call) (ok : Bool) (status : Nat) : Proc :=
  { p with calls := p.calls ++ [c], ending := if ok then p.ending else .exited status }

/-- `setgid(g)`: on success the effective gid is `g`. -/
def Proc.setgid (p : Proc) (g : Nat) (ok : Bool) : Proc :=
  let p := p.call (.setgid g ok) ok 1
  if ok then { p with egid := g } else p

/-- `setuid(u)`: on success the effective uid is `u`. -/
def Proc.setuid (p : Proc) (u : Nat) (ok : Bool) : Proc :=
  let p := p.call (.setuid u ok) ok 1
  if ok then { p with euid := u } else p

/-- Run the next step only while the process is still running. -/
def Proc.andThen (p : Proc) (f : Proc → Proc) : Proc :=
  if p.ending = .running then f p else p

/-- `jailownerinfo::exec_go()` (lines 1396-1509), following the child of its `fork`.  Every
`perror_exit` is `exit(1)`.  Left out are the calls whose result the function ignores and
which neither end the process nor change its ids: the printing in verbose mode, the remount of
`/proc` by `handle_mount` (lines 1406-1412, it returns on failure), and `close`, `ioctl`,
`tcgetattr`/`tcsetattr`, `dup2` and `signal` in the child (lines 1466-1497). -/
def jailownerinfo.exec_go (self : jailownerinfo) (dryrun : Bool) (jaildir : Str)
    (es : ExecSys) (p : Proc) : Proc :=
  -- chroot, remount /proc
  (if !dryrun then p.call (.chdir jaildir es.chdir_jail) es.chdir_jail 1 else p).andThen fun p =>
  (if !dryrun then p.call (.chroot es.chroot) es.chroot 1 else p).andThen fun p =>
  -- reduce privileges permanently
  (if !dryrun then p.setgid self.group es.setgid else p).andThen fun p =>
  (if !dryrun then p.setuid self.owner es.setuid else p).andThen fun p =>
  -- create a pty
  (if !dryrun then p.call (.posix_openpt es.posix_openpt) es.posix_openpt 1 else p).andThen
    fun p =>
  (if !dryrun then p.call (.grantpt es.grantpt) es.grantpt 1 else p).andThen fun p =>
  (if !dryrun then p.call (.unlockpt es.unlockpt) es.unlockpt 1 else p).andThen fun p =>
  (if !dryrun then p.call (.ptsname es.ptsname) es.ptsname 1 else p).andThen fun p =>
  -- change into their home directory
  (if !dryrun then p.call (.chdir self.owner_home es.chdir_home) es.chdir_home 1
    else p).andThen fun p =>
  -- check that shell exists
  (if !dryrun then p.call (.open_shell self.owner_sh es.open_shell) es.open_shell 1
    else p).andThen fun p =>
  if !dryrun then
    -- `start_sigpipe(); pid_t child = fork();`
    (p.call (.pipe es.pipe) es.pipe 1).andThen fun p =>
    match es.fork with
    | none => p.call (.fork false) false 1
    | some false => { p.call (.fork true) true 1 with ending := .parent }
    | some true =>
      ((p.call (.fork true) true 1).call (.setsid es.setsid) es.setsid 1).andThen fun p =>
      (p.call (.open_slave es.open_slave) es.open_slave 1).andThen fun p =>
      let p := p.call (.execve self.owner_sh p.euid p.egid es.execve) es.execve 126
      if es.execve then { p with ending := .shell } else p
  else
    -- `return 0;` from the function given to `clone`
    { p with ending := .exited 0 }

/-- `jailownerinfo::exec` (lines 1310-1394), following the child of `clone`, which runs
`exec_go`. -/
def jailownerinfo.exec (self : jailownerinfo) (dryrun : Bool) (jaildir : Str) (es : ExecSys)
    (p : Proc) : Proc :=
  (p.call (.clone es.clone) es.clone 1).andThen fun p =>
  self.exec_go dryrun jaildir es p

/-- The command line as `main` sees it when its option loop ends. -/
structure CmdLine where
  /-- `argv[optind]` when the first pass of the option loop ends: the subcommand -/
  subcommand : Str
  /-- `optind` after the second pass -/
  optind : Nat
  argc : Nat
  argv : List Str
  dryrun : Bool
  dokill : Bool
  linkdir_empty : Bool
  filesarg_empty : Bool
  inputarg_empty : Bool

/-- The `strcmp` chain of lines 1789-1798; `none` is `usage()`. -/
def action_of (word : Str) : Option jailaction :=
  if word = "rm".toList then some .do_rm
  else if word = "mv".toList then some .do_mv
  else if word = "init".toList then some .do_init
  else if word = "run".toList then some .do_run
  else none

/-- The test of lines 1807-1814 that leads to `usage()`. -/
def bad_arguments (c : CmdLine) (action : jailaction) : Bool :=
  let optind : Int := c.optind
  let argc : Int := c.argc
  (action == .do_rm && optind != argc - 1)
    || (action == .do_mv && optind != argc - 2)
    || (action == .do_init && optind != argc - 1 && optind != argc - 2)
    || (action == .do_run && decide (optind > argc - 3))
    || (action == .do_rm && (!c.linkdir_empty || !c.filesarg_empty || !c.inputarg_empty))
    || (action == .do_mv
        && (!c.linkdir_empty || !c.filesarg_empty || !c.inputarg_empty || c.dokill))
    || (c.argv.getD c.optind []) == []
    || (action == .do_mv && (c.argv.getD (c.optind + 1) []) == [])

/-- The answers of the system to what `main` does before `exec`: the password database,
whether the two escalating calls succeed, and whether the steps that can end the process let
it go on.  None of these steps calls `setuid`, `setgid` or `execve`. -/
structure MainSys where
  getpwnam : Str → Option passwd
  check_shell : Str → Bool
  /-- the file list, the input and the pid file can be opened (lines 1824-1860) -/
  opens_ok : Bool
  setgid_root : Bool
  setuid_root : Bool
  /-- the member `dir` of `jaildirinfo jaildir(argv[optind], action, doforce)` (line 1883);
  `none` when the constructor ends the process -/
  jaildir : Option Str
  /-- the teardown under `--replace`, the link directory, the home directory,
  `chown_recursive` and `construct_jail` (lines 1912-1972) do not end the process -/
  populate_ok : Bool

/-- `main` (lines 1746-1983), as far as it decides who runs `execve`: the subcommand, the
argument checks, `jailuser.init`, the escalation to root, and `jailuser.exec`. -/
def main (c : CmdLine) (ms : MainSys) (es : ExecSys) (p : Proc) : Proc :=
  match action_of c.subcommand with
  | none => { p with ending := .exited 1 }
  | some action =>
    -- check arguments
    let action := if action = .do_run ∧ c.optind + 2 ≥ c.argc then .do_init else action
    if bad_arguments c action then { p with ending := .exited 1 }
    else
      -- parse user
      let jailuser : Except Str jailownerinfo :=
        if (action = .do_init ∨ action = .do_run) ∧ c.optind + 1 < c.argc then
          jailownerinfo.new.init ms.getpwnam ms.check_shell (c.argv.getD (c.optind + 1) [])
        else .ok jailownerinfo.new
      match jailuser with
      | .error _ => { p with ending := .exited 1 }
      | .ok jailuser =>
        if !ms.opens_ok then { p with ending := .exited 1 }
        else
          -- escalate so that the real (not just effective) UID/GID is root
          (if !c.dryrun then p.setgid ROOT ms.setgid_root else p).andThen fun p =>
          (if !c.dryrun then p.setuid ROOT ms.setuid_root else p).andThen fun p =>
          -- check the jail directory
          if ms.jaildir.isNone then { p with ending := .exited 1 }
          -- move the sandbox if asked
          else if action = .do_mv then { p with ending := .exited 0 }
          -- kill the sandbox if asked
          else if action = .do_rm then { p with ending := .exited 0 }
          else if !ms.populate_ok then { p with ending := .exited 1 }
          -- maybe execute a command in the jail
          else if c.optind + 2 < c.argc then
            -- line 1915 has run when `dokill` is set
            jailuser.exec c.dryrun
              (if c.dokill then path_endslash (ms.jaildir.getD []) else ms.jaildir.getD []) es p
          else { p with ending := .exited 0 }

/-- The calls of `exec_go` up to `execve` when every one of them succeeds. -/
def exec_go_calls (self : jailownerinfo) (jaildir : Str) (ok : Bool) : List Call :=
  [.chdir jaildir true, .chroot true, .setgid self.group true, .setuid self.owner true,
   .posix_openpt true, .grantpt true, .unlockpt true, .ptsname true,
   .chdir self.owner_home true, .open_shell self.owner_sh true, .pipe true, .fork true,
   .setsid true, .open_slave true, .execve self.owner_sh self.owner self.group ok]

/-- A process that has made no call yet. -/
def Proc.start (euid egid : Nat) : Proc := ⟨euid, egid, [], .running⟩


/-! ## Concrete inputs used to exercise the theorems -/

/-- The command line `pa-jail run /srv/jails/a student /bin/echo`, after the subcommand has
been shifted away. -/
def run_cmdline : CmdLine :=
  { subcommand := "run".toList, optind := 1, argc := 4,
    argv := ["run".toList, "/srv/jails/a".toList, "student".toList, "/bin/echo".toList],
    dryrun := false, dokill := false, linkdir_empty := true, filesarg_empty := true,
    inputarg_empty := true }

/-- A password database with the single user `student` (uid and gid 1000). -/
def student_db : MainSys :=
  { getpwnam := fun n =>
      if n = "student".toList then
        some ⟨1000, 1000, "/home/student".toList, "/bin/bash".toList⟩
      else none,
    check_shell := fun _ => false,
    opens_ok := true, setgid_root := true, setuid_root := true,
    jaildir := some "/srv/jails/a".toList,
    populate_ok := true }

/-- A system in which every call of `exec` and `exec_go` succeeds; the child of `fork` is
followed. -/
def all_ok : ExecSys :=
  { clone := true, chdir_jail := true, chroot := true, setgid := true, setuid := true,
    posix_openpt := true, grantpt := true, unlockpt := true, ptsname := true,
    chdir_home := true, open_shell := true, pipe := true, fork := some true, setsid := true,
    open_slave := true, execve := true }

/-- A policy file owned by root with mode 0644. -/
def root_file (data : Str) : PermFile := ⟨.ok ⟨0o100644, 0, 0, 1⟩, data⟩

/-- A policy file owned by uid 1000 with mode 0644. -/
def user_file (data : Str) : PermFile := ⟨.ok ⟨0o100644, 1000, 1000, 1⟩, data⟩

/-- A directory owned by root with mode 0755. -/
def root_dir : Stat := ⟨0o040755, 0, 0, 1⟩

/-- A directory owned by uid 1000 with mode 0755. -/
def user_dir : Stat := ⟨0o040755, 1000, 1000, 1⟩

/-- A system with nothing but root-owned directories: every directory opens, no policy file
exists, `fnmatch` is string equality (its meaning on patterns without wildcards). -/
def plain_sys : Sys :=
  { verbose := false, dryrun := false, pwd := none,
    fnmatch := fun p s => p == s,
    etc_conf := none,
    on_openat := fun _ => none,
    on_mkdirat := fun _ => none,
    on_openat_made := fun _ => none,
    on_fchmod := fun _ => none,
    on_fstat := fun _ => .ok root_dir,
    on_permfile := fun _ _ => .error .ENOENT }

/-- The members of a `jaildirinfo` for the jail `dir` before any policy file is read. -/
def fresh (dir : Str) : jaildirinfo :=
  { dir := dir, parent := [], parentfd := none, component := [], allowed := false,
    permdir := [], dev := none, alternate_permfile := [], stderr := [], syscalls := [],
    permdirs := [] }

/-- The members of a `jaildirinfo` for the jail `dir` after a permit under `permdir`. -/
def permitted (dir permdir : Str) : jaildirinfo :=
  { fresh dir with allowed := true, permdir := permdir, permdirs := [permdir] }

/-- The system `plain_sys` with a root-owned `/etc/pa-jail.conf` that holds `data`. -/
def etc_sys (data : Str) : Sys := { plain_sys with etc_conf := some (root_file data) }

/-- The system of the policy-denial scenario: `/etc/pa-jail.conf` permits `/srv/jails/b/`, the
root-owned directory `/srv/jails` holds a root-owned `pa-jail.conf` with the one line
`disablejail`, and `/srv/jails/b` does not exist yet (`mkdirat` would succeed). -/
def denial_sys : Sys :=
  { plain_sys with
    etc_conf := some (root_file "enablejail /srv/jails/b/\n".toList),
    on_openat := fun d => if d = "/srv/jails/b".toList then some .ENOENT else none,
    on_permfile := fun d n =>
      if d = "/srv/jails".toList ∧ n = "pa-jail.conf".toList then
        .ok (root_file "disablejail\n".toList)
      else .error .ENOENT }

/-- What `jaildirinfo::check` asserts of `permdir`, with "is a prefix of `dir`" for
`dir.substr(0, permdir.length()) == permdir`: not empty, ends in a slash, a prefix of `dir`. -/
def PermdirOk (dir permdir : Str) : Prop :=
  permdir ≠ [] ∧ permdir.getLast? = some '/' ∧ permdir <+: dir

/-- The invariant of `jaildirinfo`: once `allowed` is set, `permdir` is as `check` asserts,
and it is among the values recorded for `permdir`. -/
def jaildirinfo.Inv (j : jaildirinfo) : Prop :=
  j.allowed = true → PermdirOk j.dir j.permdir ∧ j.permdir ∈ j.permdirs

/-- The invariant of the variables of `parse_permfile`: while `allowed_locally` is positive,
`allowed_permdir` is as `check` asserts. -/
def PermVars.Inv (dir : Str) (v : PermVars) : Prop :=
  0 < v.allowed_locally → PermdirOk dir v.allowed_permdir

/-- What the constructor has made of `dir` before its loop: it starts and ends with a
slash. -/
def DirOk (dir : Str) : Prop :=
  dir.head? = some '/' ∧ dir.getLast? = some '/'

/-- The members that decide the authorization are the same in `j1` as in `j`. -/
def jaildirinfo.SameAuth (j j1 : jaildirinfo) : Prop :=
  j1.dir = j.dir ∧ j1.allowed = j.allowed ∧ j1.permdir = j.permdir
    ∧ j1.permdirs = j.permdirs ∧ j1.alternate_permfile = j.alternate_permfile

/-- What the ownership checks of lines 972-981 let pass: owned by root, not writable by
others, and writable by the group only when the group is root. -/
def RootOnly (s : Stat) : Prop :=
  s.st_uid = ROOT ∧ (s.st_mode &&& S_IWOTH) = 0
    ∧ ((s.st_mode &&& S_IWGRP) ≠ 0 → s.st_gid = ROOT)

/-- The system `plain_sys` with a root-owned `pa-jail.conf` in `/srv/jails` that holds the one
line `enablejail`. -/
def local_sys : Sys :=
  { plain_sys with
    on_permfile := fun d n =>
      if d = "/srv/jails".toList ∧ n = "pa-jail.conf".toList then
        .ok (root_file "enablejail\n".toList)
      else .error .ENOENT }

/-- The state the constructor returns for the jail `/srv/jails/a` in `local_sys`. -/
def accepted_a : jaildirinfo :=
  { dir := "/srv/jails/a/".toList, parent := "/srv/jails/".toList,
    parentfd := some "/srv/jails".toList, component := "a".toList, allowed := true,
    permdir := "/srv/jails/".toList, dev := some 1, alternate_permfile := [], stderr := [],
    syscalls :=
      [.openat "/".toList, .fstat "/".toList,
       .openat "/srv".toList, .fstat "/srv".toList,
       .open_permfile "/srv".toList "pa-jail.conf".toList,
       .open_permfile "/srv".toList "JAIL61".toList,
       .openat "/srv/jails".toList, .fstat "/srv/jails".toList,
       .open_permfile "/srv/jails".toList "pa-jail.conf".toList,
       .openat "/srv/jails/a".toList, .fstat "/srv/jails/a".toList,
       .open_permfile "/srv/jails/a".toList "pa-jail.conf".toList,
       .open_permfile "/srv/jails/a".toList "JAIL61".toList],
    permdirs := ["/srv/jails/".toList] }

/-- A system in which `/srv` (owned by root) permits jails, `/srv/u` is owned by uid 1000, and
`/srv/u/jails` (owned by root) permits jails again. -/
def nested_sys : Sys :=
  { plain_sys with
    on_fstat := fun d => if d = "/srv/u".toList then .ok user_dir else .ok root_dir,
    on_permfile := fun d n =>
      if (d = "/srv".toList ∨ d = "/srv/u/jails".toList) ∧ n = "pa-jail.conf".toList then
        .ok (root_file "enablejail\n".toList)
      else .error .ENOENT }

/-- No two slashes in a row. -/
def NoDoubleSlash (l : Str) : Prop :=
  List.Chain' (fun a b => ¬(a = '/' ∧ b = '/')) l

/-- The directory `D` (written without a final slash, except for the root directory) is one of
the directories on the path `dir`: `D` followed by a slash is a prefix of `dir`. -/
def on_path (dir D : Str) : Prop :=
  path_endslash D <+: dir ∧ (D = ['/'] ∨ (D ≠ [] ∧ D.getLast? ≠ some '/'))

/-- Every non-empty `permdir` is among the recorded values. -/
def jaildirinfo.Recorded (j : jaildirinfo) : Prop :=
  j.permdir ≠ [] → j.permdir ∈ j.permdirs

/-- The directory `D` has passed the ownership checks, or it lies at or beneath a permission
directory that was in force. -/
def Covered (sys : Sys) (j : jaildirinfo) (D : Str) : Prop :=
  (∃ s, sys.on_fstat D = .ok s ∧ RootOnly s)
    ∨ (∃ P ∈ j.permdirs, P.length ≤ (path_endslash D).length)

/-- The invariant of the constructor's loop for the ownership checks: every directory of the
path up to `last_pos` is covered or is the jail directory itself, and a dry run that is making
directories is at or beneath a permission directory. -/
def WalkCov (sys : Sys) (j : jaildirinfo) (w : WalkVars) : Prop :=
  (∀ D, on_path j.dir D → (path_endslash D).length ≤ w.last_pos →
      Covered sys j D ∨ path_endslash D = j.dir)
    ∧ (w.dryrunning = true → ∃ P ∈ j.permdirs, P.length ≤ w.last_pos)

/-- The path components of a name: the pieces between slashes. -/
def components : Str → List Str
  | [] => [[]]
  | c :: rest =>
    if c = '/' then [] :: components rest
    else
      match components rest with
      | [] => [[c]]
      | w :: ws => (c :: w) :: ws

/-- The conditions under which claim C9 says `check_filename` rejects a name: it is empty, or
starts with `~`, or has length 1024 or more, or holds a character outside
`[A-Za-z0-9/._~-]`, or has a path component equal to `..`. -/
def rejected_by_spec (name : Str) : Bool :=
  name == [] || name.head? == some '~' || decide (name.length ≥ 1024)
    || name.any (fun c => !allowed_chars.contains c)
    || (components name).contains ['.', '.']

/-- The suffix `s`, whose predecessor in the name is `prev`, starts a path component `..`:
it starts with two dots, what follows is a slash or the end, and what precedes is the start of
the name or a slash. -/
def dotdot_at (prev : Option Char) (s : Str) : Bool :=
  match s with
  | '.' :: '.' :: rest =>
    (rest.head? == some '/' || rest == []) && (prev == none || prev == some '/')
  | _ => false

/-- Some path component `..` starts in the suffix `s`, whose predecessor is `prev`. -/
def has_dotdot_from (prev : Option Char) : Str → Bool
  | [] => false
  | c :: rest => dotdot_at prev (c :: rest) || has_dotdot_from (some c) rest

/-- The name ends in a component `.` that follows a slash: the suffix `s`, whose predecessor
is `prev`, ends in `/.`, or is the single `.` after a slash. -/
def ends_slash_dot (prev : Option Char) : Str → Bool
  | [] => false
  | [c] => c == '.' && prev == some '/'
  | c :: d :: rest => ends_slash_dot (some c) (d :: rest)

/-- The scanning loop of `check_filename` leaves the string `q`, whose predecessor is `prev`,
as it is: no `.` component after a slash, no `..` component, no two slashes in a row. -/
def clean (prev : Option Char) : Str → Bool
  | [] => true
  | c :: r =>
    !(c == '.' && (r.head? == some '/' || r == []) && prev == some '/')
      && !dotdot_at prev (c :: r)
      && !(c == '/' && r.head? == some '/')
      && clean (some c) r
/-- The result of the scanning loop started with `buf` holding `out`, from its result when
started with `buf` empty. -/
def scan_onto (out : Str) : Except Fault (Option Str) → Except Fault (Option Str)
  | .ok (some t) => .ok (some (out ++ t))
  | r => r



/-! ## Making the jail: the calls (`pa-jail.cc` lines 41-62, 122-126, 155-300, 432-450)

The functions that make the jail are embedded as functions from the state `JailState` to a
new state and a result.  What a function prints in verbose mode
(`if (verbose) fprintf(verbosefile, ...)`) is left out; what it prints to `stderr` is kept as
the format and the arguments of the call.  The system answers each call through `JailEnv`. -/

/-- `#define FLAG_CP 1`: copy even if source is symlink. -/
def FLAG_CP : Nat := 1
/-- `#define FLAG_NOLINK 2`: never link from source. -/
def FLAG_NOLINK : Nat := 2

/-- The file type "regular file". -/
def S_IFREG : Nat := 0o100000
/-- The file type "symbolic link". -/
def S_IFLNK : Nat := 0o120000
/-- The file type "character device". -/
def S_IFCHR : Nat := 0o020000
/-- The file type "block device". -/
def S_IFBLK : Nat := 0o060000
/-- The file type "FIFO". -/
def S_IFIFO : Nat := 0o010000
/-- The file type "socket". -/
def S_IFSOCK : Nat := 0o140000
/-- The set-user-id bit. -/
def S_ISUID : Nat := 0o4000
/-- The set-group-id bit. -/
def S_ISGID : Nat := 0o2000
/-- The permission bits of the owner. -/
def S_IRWXU : Nat := 0o700
/-- The permission bits of the group. -/
def S_IRWXG : Nat := 0o070
/-- The permission bits of others. -/
def S_IRWXO : Nat := 0o007

/-- `S_ISREG(m)` -/
def S_ISREG (m : Nat) : Bool := (m &&& S_IFMT) == S_IFREG
/-- `S_ISLNK(m)` -/
def S_ISLNK (m : Nat) : Bool := (m &&& S_IFMT) == S_IFLNK
/-- `S_ISCHR(m)` -/
def S_ISCHR (m : Nat) : Bool := (m &&& S_IFMT) == S_IFCHR
/-- `S_ISBLK(m)` -/
def S_ISBLK (m : Nat) : Bool := (m &&& S_IFMT) == S_IFBLK
/-- `S_ISFIFO(m)` -/
def S_ISFIFO (m : Nat) : Bool := (m &&& S_IFMT) == S_IFIFO
/-- `S_ISSOCK(m)` -/
def S_ISSOCK (m : Nat) : Bool := (m &&& S_IFMT) == S_IFSOCK

/-- The fields of `struct stat` that the jail-making functions read. -/
structure FileStat where
  st_mode : Nat
  st_uid : Nat
  st_gid : Nat
  st_dev : Nat
  st_ino : Nat
  st_rdev : Nat
  st_size : Nat
  st_mtime : Nat
  deriving DecidableEq, Repr

/-- The fields of `struct mntent` that `populate_mount_table` reads. -/
structure mntent where
  mnt_fsname : Str
  mnt_dir : Str
  mnt_type : Str
  mnt_opts : Str
  deriving DecidableEq, Repr

/-- `struct mountslot` (lines 328-335). -/
structure mountslot where
  fsname : Str
  type : Str
  alloptions : Str
  opts : Nat
  data : Str
  allowed : Bool
  deriving DecidableEq, Repr

/-- A call that changes the file system, as the jail-making functions issue it.  `cp_p` is
the `fork` of `x_cp_p`, whose child runs `/bin/cp -p src dst`; `renameat` leaves out its two
descriptors, which are both `jaildir.parentfd`. -/
inductive Op where
  | mkdir (pathname : Str) (mode : Nat)
  | link (oldpath newpath : Str)
  | chmod (path : Str) (mode : Nat)
  | lchown (path : Str) (owner group : Nat)
  | mknod (path : Str) (mode dev : Nat)
  | symlink (oldpath newpath : Str)
  | cp_p (src dst : Str)
  | mount (fsname dst type : Str) (opts : Nat) (data : Str)
  | renameat (component newpath : Str)
  | umount (target : Str)
  deriving DecidableEq, Repr

/-- The answers of the system to the calls of the jail-making functions.  Every answer may
depend on the calls issued so far (the first argument), so that the file system may change as
the jail is made.  For the calls that return `0` or `-1`, `none` is `0` and `some e` is `-1`
with `errno == e`. -/
structure JailEnv where
  lstat : List Op → Str → Except Errno FileStat
  stat : List Op → Str → Except Errno FileStat
  /-- the whole text of the link; `readlink` delivers as much of it as the buffer holds -/
  readlink : List Op → Str → Except Errno Str
  mkdir : List Op → Str → Nat → Option Errno
  link : List Op → Str → Str → Option Errno
  chmod : List Op → Str → Nat → Option Errno
  lchown : List Op → Str → Nat → Nat → Option Errno
  mknod : List Op → Str → Nat → Nat → Option Errno
  symlink : List Op → Str → Str → Option Errno
  /-- `fork` and `x_waitpid(child, 0)` in `x_cp_p`: `none` when `fork` fails, else the status
  that `x_waitpid` returns -/
  cp_p : List Op → Str → Str → Option Int
  mount : List Op → mountslot → Str → Option Errno
  renameat : List Op → Str → Str → Option Errno
  umount : List Op → Str → Option Errno
  /-- what `setmntent("/proc/mounts", "r")` and `getmntent` deliver: `none` when the file
  cannot be opened, else its entries -/
  proc_mounts : Option (List mntent)

/-- The global variables that stay as they are while the jail is made. -/
structure Globals where
  dryrun : Bool
  copy_samedev : Bool
  linkdir : Str
  dstroot : Str

/-- The global variables that change while the jail is made, with two record fields added:
what was printed to `stderr` and the calls issued.  Of `dst_table` and `linkdir_dirtable`,
whose values are all 1, the keys are kept; `mount_table` is kept in the order of its keys. -/
structure JailState where
  dst_table : List Str
  lnk_table : List (Str × Str)
  linkdir_dirtable : List Str
  exit_value : Int
  mount_table : List (Str × mountslot)
  /-- the static variable `mount_table_populated` of `populate_mount_table` -/
  mount_table_populated : Bool
  /-- the global `umount_table`, in the order of its keys -/
  umount_table : List (Str × Int)
  /-- record: the format and the string arguments of each `fprintf(stderr, ...)`, oldest
  first; an argument `strerror(errno)` is left out -/
  stderr : List (Str × List Str)
  /-- record: the calls issued, oldest first -/
  ops : List Op
  deriving DecidableEq, Repr

/-- `perror_fail(format, arg1)` (lines 122-126). -/
def perror_fail (σ : JailState) (format arg1 : Str) : JailState × Int :=
  ({ σ with stderr := σ.stderr ++ [(format, [arg1])], exit_value := 1 }, 1)

/-- `v_mkdir` (lines 155-159). -/
def v_mkdir (g : Globals) (env : JailEnv) (σ : JailState) (pathname : Str) (mode : Nat) :
    JailState × Option Errno :=
  if g.dryrun then (σ, none)
  else ({ σ with ops := σ.ops ++ [Op.mkdir pathname mode] }, env.mkdir σ.ops pathname mode)

/-- `v_ensuredir` (lines 173-186). -/
def v_ensuredir (g : Globals) (env : JailEnv) (σ : JailState) (pathname : Str) (mode : Nat) :
    JailState × Int :=
  match env.stat σ.ops pathname with
  | .ok s =>
    if S_ISDIR s.st_mode then (σ, 0) else (σ, -1)
  | .error e =>
    if e = .ENOENT then
      match v_mkdir g env σ pathname mode with
      | (σ1, none) => (σ1, 1)
      | (σ1, some _) => (σ1, -1)
    else (σ, -1)

/-- `x_link_eexist_ok` (lines 188-213).  The loop visits every slash of `newpath`, from the
right, and returns `true` at the first one for which an entry of `lnk_table` under
`dst.substr(0, slash)` leads to a name in `dst_table`; it changes nothing, so its result is
whether there is such a slash. -/
def x_link_eexist_ok (env : JailEnv) (σ : JailState) (oldpath newpath : Str) : Bool :=
  (match env.stat σ.ops oldpath, env.stat σ.ops newpath with
    | .ok oldstat, .ok newstat =>
      oldstat.st_dev == newstat.st_dev && oldstat.st_ino == newstat.st_ino
    | _, _ => false)
  || (List.range newpath.length).any (fun slash =>
        newpath.get? slash == some '/'
          && σ.lnk_table.any (fun it =>
                it.1 == newpath.take slash
                  && σ.dst_table.contains (it.2 ++ newpath.drop slash)))

/-- `x_link` (lines 215-222). -/
def x_link (g : Globals) (env : JailEnv) (σ : JailState) (oldpath newpath : Str) :
    JailState × Int :=
  if g.dryrun then (σ, 0)
  else
    let σ1 := { σ with ops := σ.ops ++ [Op.link oldpath newpath] }
    match env.link σ.ops oldpath newpath with
    | none => (σ1, 0)
    | some e =>
      if e ≠ .EEXIST ∨ !x_link_eexist_ok env σ1 oldpath newpath then (σ1, -1) else (σ1, 0)

/-- `x_chmod` (lines 224-230). -/
def x_chmod (g : Globals) (env : JailEnv) (σ : JailState) (path : Str) (mode : Nat) :
    JailState × Int :=
  if g.dryrun then (σ, 0)
  else
    let σ1 := { σ with ops := σ.ops ++ [Op.chmod path mode] }
    match env.chmod σ.ops path mode with
    | none => (σ1, 0)
    | some _ => perror_fail σ1 "chmod %s: %s\n".toList path

/-- `x_lchown` (lines 232-238). -/
def x_lchown (g : Globals) (env : JailEnv) (σ : JailState) (path : Str) (owner group : Nat) :
    JailState × Int :=
  if g.dryrun then (σ, 0)
  else
    let σ1 := { σ with ops := σ.ops ++ [Op.lchown path owner group] }
    match env.lchown σ.ops path owner group with
    | none => (σ1, 0)
    | some _ => perror_fail σ1 "chown %s: %s\n".toList path

/-- `x_mknod_eexist_ok` (lines 256-261). -/
def x_mknod_eexist_ok (env : JailEnv) (σ : JailState) (path : Str) (mode dev : Nat) : Bool :=
  match env.stat σ.ops path with
  | .ok st => st.st_mode == mode && st.st_rdev == dev
  | .error _ => false

/-- `x_mknod` (lines 276-283). -/
def x_mknod (g : Globals) (env : JailEnv) (σ : JailState) (path : Str) (mode dev : Nat) :
    JailState × Int :=
  if g.dryrun then (σ, 0)
  else
    let σ1 := { σ with ops := σ.ops ++ [Op.mknod path mode dev] }
    match env.mknod σ.ops path mode dev with
    | none => (σ1, 0)
    | some e =>
      if e ≠ .EEXIST ∨ !x_mknod_eexist_ok env σ1 path mode dev then
        perror_fail σ1 "mknod %s: %s\n".toList path
      else (σ1, 0)

/-- `x_symlink_eexist_ok` (lines 285-292): `readlink` into a buffer of 4096 bytes gives as many
bytes as `oldpath` has, and they are those of `oldpath`. -/
def x_symlink_eexist_ok (env : JailEnv) (σ : JailState) (oldpath newpath : Str) : Bool :=
  match env.readlink σ.ops newpath with
  | .ok target => target.take 4096 == oldpath
  | .error _ => false

/-- `x_symlink` (lines 294-301). -/
def x_symlink (g : Globals) (env : JailEnv) (σ : JailState) (oldpath newpath : Str) :
    JailState × Int :=
  if g.dryrun then (σ, 0)
  else
    let σ1 := { σ with ops := σ.ops ++ [Op.symlink oldpath newpath] }
    match env.symlink σ.ops oldpath newpath with
    | none => (σ1, 0)
    | some e =>
      if e ≠ .EEXIST ∨ !x_symlink_eexist_ok env σ1 oldpath newpath then
        perror_fail σ1 "symlink %s: %s\n".toList (oldpath ++ " ".toList ++ newpath)
      else (σ1, 0)

/-- `handle_mount` (lines 432-450). -/
def handle_mount (g : Globals) (env : JailEnv) (σ : JailState) (ms : mountslot) (dst : Str) :
    JailState × Int :=
  let mounted : Bool :=
    match σ.mount_table.lookup dst with
    | some it =>
      it.fsname == ms.fsname && it.type == ms.type && it.opts == ms.opts && it.data == ms.data
    | none => false
  if mounted then (σ, 0)  -- already mounted
  else if g.dryrun then (σ, 0)
  else
    let σ1 := { σ with ops := σ.ops ++ [Op.mount ms.fsname dst ms.type ms.opts ms.data] }
    match env.mount σ.ops ms dst with
    | none => (σ1, 0)
    | some _ => perror_fail σ1 "mount %s: %s\n".toList dst

/-- `x_cp_p` (lines 511-534), following the parent of its `fork`. -/
def x_cp_p (g : Globals) (env : JailEnv) (σ : JailState) (src dst : Str) : JailState × Int :=
  if g.dryrun then (σ, 0)
  else
    let σ1 := { σ with ops := σ.ops ++ [Op.cp_p src dst] }
    match env.cp_p σ.ops src dst with
    | none => perror_fail σ1 "%s: %s\n".toList "fork".toList
    | some status =>
      if status = 0 then (σ1, 0)
      else if status ≠ -1 then
        perror_fail σ1 "/bin/cp %s: Bad exit status\n".toList dst
      else perror_fail σ1 "/bin/cp %s: Did not exit\n".toList dst


/-! ## Making the jail: `handle_copy` (lines 464-673) -/

/-- The directories `lnk.substr(0, pos)` that the loop of `copy_for_xdev_link` visits: `pos`
runs through the slashes of `lnk` at or behind `linkdir.length()`, from the left. -/
def lnk_supers (lnk : Str) (start : Nat) : List Str :=
  ((List.range lnk.length).filter
    (fun pos => decide (start ≤ pos) && lnk.get? pos == some '/')).map (fun pos => lnk.take pos)

/-- The body of the loop of `copy_for_xdev_link` (lines 540-551) over the directories still to
visit; the result is 0 when the loop ends and the value returned when it returns. -/
def make_supers (g : Globals) (env : JailEnv) : JailState → List Str → JailState × Int
  | σ, [] => (σ, 0)
  | σ, lnksuper :: rest =>
    if σ.linkdir_dirtable.contains lnksuper then make_supers g env σ rest
    else
      match env.lstat σ.ops lnksuper with
      | .error e =>
        if e ≠ .ENOENT then perror_fail σ "lstat %s: %s\n".toList lnksuper
        else
          match v_mkdir g env σ lnksuper 0o770 with
          | (σ1, none) =>
            make_supers g env
              { σ1 with linkdir_dirtable := σ1.linkdir_dirtable ++ [lnksuper] } rest
          | (σ1, some e1) =>
            if e1 ≠ .EEXIST then perror_fail σ1 "mkdir %s: %s\n".toList lnksuper
            else
              make_supers g env
                { σ1 with linkdir_dirtable := σ1.linkdir_dirtable ++ [lnksuper] } rest
      | .ok dst =>
        if !S_ISDIR dst.st_mode then
          perror_fail σ "lstat %s: Not a directory\n".toList lnksuper
        else
          make_supers g env
            { σ with linkdir_dirtable := σ.linkdir_dirtable ++ [lnksuper] } rest

/-- `copy_for_xdev_link` (lines 536-556). -/
def copy_for_xdev_link (g : Globals) (env : JailEnv) (σ : JailState) (src lnk : Str) :
    JailState × Int :=
  -- create superdirectories
  match make_supers g env σ (lnk_supers lnk g.linkdir.length) with
  | (σ1, r) =>
    if r ≠ 0 then (σ1, r)
    else
      -- run /bin/cp -p
      x_cp_p g env σ1 src lnk

/-- Lines 563-574 of `handle_xdev_link`: the staged copy `lnk` is made anew unless `lstat`
finds it with the mode, owner, group, size and time of the source `st`.  The result is 0 when
the function carries on and the value it returns otherwise. -/
def xdev_stage (g : Globals) (env : JailEnv) (σ : JailState) (src lnk : Str)
    (st : FileStat) : JailState × Int :=
  match env.lstat σ.ops lnk with
  | .error _ =>
    match copy_for_xdev_link g env σ src lnk with
    | (σ1, r1) => if r1 ≠ 0 then (σ1, 1) else (σ1, 0)
  | .ok lst =>
    if lst.st_mode ≠ st.st_mode ∨ lst.st_uid ≠ st.st_uid ∨ lst.st_gid ≠ st.st_gid
        ∨ lst.st_size ≠ st.st_size ∨ lst.st_mtime ≠ st.st_mtime then
      if S_ISDIR lst.st_mode then perror_fail σ "%s: Is a directory\n".toList lnk
      else
        match copy_for_xdev_link g env σ src lnk with
        | (σ1, r1) => if r1 ≠ 0 then (σ1, 1) else (σ1, 0)
    else (σ, 0)

/-- `handle_xdev_link` (lines 558-579). -/
def handle_xdev_link (g : Globals) (env : JailEnv) (σ : JailState) (src dst : Str)
    (st : FileStat) : JailState × Int :=
  match xdev_stage g env σ src (g.linkdir ++ src) st with
  | (σ1, r1) =>
    if r1 ≠ 0 then (σ1, r1)
    else
      match x_link g env σ1 (g.linkdir ++ src) dst with
      | (σ2, r2) =>
        if r2 ≠ 0 then
          perror_fail σ2 "link %s: %s\n".toList (dst ++ " ".toList ++ (g.linkdir ++ src))
        else (σ2, 0)

/-- `s.rfind('/', pos)`: the last index at or before `pos` that holds a slash. -/
def rfind_slash (s : Str) (pos : Nat) : Option Nat :=
  (List.range (min (pos + 1) s.length)).reverse.find? (fun i => s.get? i == some '/')

/-- One round of the loop of `handle_symlink_dst` up to the test of `lnk` (lines 479-489):
`src` and `dst` lose their last component, or the function gives up (`none`).  The position
`length() - 2` is computed in `size_t`. -/
def up_one (dstroot src dst : Str) : Option (Str × Str) :=
  if src.length = 1 then none
  else
    match rfind_slash src ((src.length + 2 ^ 64 - 2) % 2 ^ 64),
          rfind_slash dst ((dst.length + 2 ^ 64 - 2) % 2 ^ 64) with
    | some srcslash, some dstslash =>
      if dstslash < dstroot.length then none
      else some (src.take (srcslash + 1), dst.take (dstslash + 1))
    | _, _ => none

/-- The loop of `handle_symlink_dst` for a relative `lnk` (lines 478-497): the `src` and `dst`
that `lnk` leads to, or `none` when the function gives up. -/
def expand_lnk (dstroot : Str) : Str → Str → Str → Option (Str × Str)
  | '.' :: '.' :: '/' :: c :: rest, src, dst =>
    match up_one dstroot src dst with
    | none => none
    | some (src1, dst1) => expand_lnk dstroot (c :: rest) src1 dst1
  | lnk, src, dst =>
    match up_one dstroot src dst with
    | none => none
    | some (src1, dst1) => some (src1 ++ lnk, dst1 ++ lnk)

/-- What a call of `handle_copy` yields: the state, and either the value returned together
with `*srcmode` (`none` when it was not written) or the fault that ended the run. -/
abbrev CopyResult := JailState × Except Fault (Int × Option Nat)

/-- `handle_symlink_dst` (lines 468-509); `copy src dst` is the call
`handle_copy(src, dst, true, 0, jaildev, &srcmode)`. -/
def handle_symlink_dst (g : Globals) (copy : JailState → Str → Str → CopyResult)
    (σ : JailState) (src dst lnk : Str) : JailState × Except Fault Unit :=
  let dst_lnkin := dst
  -- expand `lnk` into `dst`
  let expanded : Option (Str × Str) :=
    if lnk.head? = some '/' then some (lnk, g.dstroot ++ lnk)
    else expand_lnk g.dstroot lnk src dst
  match expanded with
  | none => (σ, .ok ())
  | some (src, dst) =>
    if (dst.drop g.dstroot.length).take 6 ≠ "/proc/".toList then
      match copy σ src dst with
      | (σ1, .error f) => (σ1, .error f)
      | (σ1, .ok (r, srcmode)) =>
        -- remember directory-level symbolic links
        if r = 0 ∧ srcmode.any S_ISDIR then
          ({ σ1 with lnk_table := σ1.lnk_table ++ [(dst, dst_lnkin), (dst_lnkin, dst)] },
            .ok ())
        else (σ1, .ok ())
    else (σ, .ok ())

/-- The members of `ds` that `handle_copy` reads. -/
structure DsVals where
  st_mode : Nat
  st_uid : Nat
  st_gid : Nat
  deriving DecidableEq, Repr

/-- How the branch of `handle_copy` on the file type (lines 613-656) ends: with `return r`;
or it carries on at line 658 with `ds` and `ss`; or, the symbolic link made, it has
`handle_symlink_dst(src, dst, lnkbuf, jaildev)` to call before it carries on. -/
inductive Branch where
  | ret (r : Int)
  | go (ds : DsVals) (ss : FileStat)
  | golink (lnkbuf : Str) (ds : DsVals) (ss : FileStat)
  deriving DecidableEq, Repr

/-- The branch of `handle_copy` on the file type (lines 611-656), without the call of
`handle_symlink_dst` in line 654. -/
def copy_branch (g : Globals) (env : JailEnv) (jaildev : Nat) (σ : JailState)
    (src dst : Str) (flags : Nat) (ss : FileStat) : JailState × Branch :=
  if S_ISREG ss.st_mode ∧ (flags &&& FLAG_NOLINK) ≠ 0 then
    match x_cp_p g env σ src dst with
    | (σ1, r) =>
      if r ≠ 0 then (σ1, .ret 1)
      else (σ1, .go ⟨ss.st_mode, ss.st_uid, ss.st_gid⟩ ss)
  else if S_ISREG ss.st_mode ∧ !g.copy_samedev ∧ (flags &&& FLAG_CP) = 0
      ∧ ss.st_dev = jaildev then
    match x_link g env σ src dst with
    | (σ1, r) =>
      if r ≠ 0 then
        match perror_fail σ1 "link %s: %s\n".toList (dst ++ " ".toList ++ src) with
        | (σ2, r2) => (σ2, .ret r2)
      else (σ1, .go ⟨ss.st_mode, ss.st_uid, ss.st_gid⟩ ss)
  else if S_ISREG ss.st_mode ∨ (S_ISLNK ss.st_mode ∧ (flags &&& FLAG_CP) ≠ 0) then
    -- `errno = EXDEV;`
    if g.linkdir = [] then
      match perror_fail σ "link %s: %s\n".toList dst with
      | (σ2, r2) => (σ2, .ret r2)
    else
      match handle_xdev_link g env σ src dst ss with
      | (σ1, r) =>
        if r ≠ 0 then
          match perror_fail σ1 "link %s: %s\n".toList dst with
          | (σ2, r2) => (σ2, .ret r2)
        else (σ1, .go ⟨ss.st_mode, ss.st_uid, ss.st_gid⟩ ss)
  else if S_ISDIR ss.st_mode then
    -- allow setuid/setgid bits
    -- allow the presence of a different directory
    let perm := ss.st_mode &&& (S_ISUID ||| S_ISGID ||| S_IRWXU ||| S_IRWXG ||| S_IRWXO)
    match v_mkdir g env σ dst perm with
    | (σ1, none) => (σ1, .go ⟨perm ||| S_IFDIR, ROOT, ROOT⟩ ss)
    | (σ1, some _) =>
      match env.lstat σ1.ops dst with
      | .error _ =>
        match perror_fail σ1 "lstat %s: %s\n".toList dst with
        | (σ2, r2) => (σ2, .ret r2)
      | .ok ds =>
        if !S_ISDIR ds.st_mode then
          match perror_fail σ1 "lstat %s: Not a directory\n".toList dst with
          | (σ2, r2) => (σ2, .ret r2)
        else (σ1, .go ⟨ds.st_mode, ds.st_uid, ds.st_gid⟩ ss)
  else if S_ISCHR ss.st_mode ∨ S_ISBLK ss.st_mode then
    let mode := ss.st_mode &&& (S_IFREG ||| S_IFCHR ||| S_IFBLK ||| S_IFIFO ||| S_IFSOCK
      ||| S_ISUID ||| S_ISGID ||| S_IRWXU ||| S_IRWXG ||| S_IRWXO)
    let ss := { ss with st_mode := mode }
    match x_mknod g env σ dst ss.st_mode ss.st_rdev with
    | (σ1, r) =>
      if r ≠ 0 then (σ1, .ret 1)
      else (σ1, .go ⟨ss.st_mode, ROOT, ROOT⟩ ss)
  else if S_ISLNK ss.st_mode then
    match env.readlink σ.ops src with
    | .error _ =>
      match perror_fail σ "readlink %s: %s\n".toList src with
      | (σ2, r2) => (σ2, .ret r2)
    | .ok target =>
      -- `readlink(src.c_str(), lnkbuf, sizeof(lnkbuf))`
      let r := min target.length 4096
      if r = 4096 then
        match perror_fail σ "%s: Symbolic link too long\n".toList src with
        | (σ2, r2) => (σ2, .ret r2)
      else
        -- `lnkbuf[r] = 0;`, and `lnkbuf` is read as a C string from here on
        let lnkbuf := (target.take r).takeWhile (fun c => c != '\x00')
        match x_symlink g env σ lnkbuf dst with
        | (σ1, r1) =>
          if r1 ≠ 0 then (σ1, .ret 1)
          else (σ1, .golink lnkbuf ⟨ss.st_mode, ROOT, ROOT⟩ ss)
  else
    match perror_fail σ "%s: Odd file type\n".toList src with
    | (σ2, r2) => (σ2, .ret r2)

/-- The end of `handle_copy` (lines 658-672). -/
def copy_finish (g : Globals) (env : JailEnv) (σ : JailState) (src dst : Str)
    (ds : DsVals) (ss : FileStat) : JailState × Int :=
  -- XXX preserve sticky bits/setuid/setgid?
  let chmodded : JailState × Int :=
    if ds.st_mode ≠ ss.st_mode then x_chmod g env σ dst ss.st_mode else (σ, 0)
  match chmodded with
  | (σ1, r1) =>
    if r1 ≠ 0 then (σ1, 1)
    else
      let chowned : JailState × Int :=
        if ds.st_uid ≠ ss.st_uid ∨ ds.st_gid ≠ ss.st_gid then
          x_lchown g env σ1 dst ss.st_uid ss.st_gid
        else (σ1, 0)
      match chowned with
      | (σ2, r2) =>
        if r2 ≠ 0 then (σ2, 1)
        else if S_ISDIR ss.st_mode then
          match σ2.mount_table.lookup src with
          | some it => if it.allowed then handle_mount g env σ2 it dst else (σ2, 0)
          | none => (σ2, 0)
        else (σ2, 0)

/-- The source and the destination of the call of `handle_copy` for the parent directory
(lines 590-604), when `check_parents` asks for one. -/
def parent_call (env : JailEnv) (σ : JailState) (src dst : Str) : Option (Str × Str) :=
  match rfind_slash dst dst.length with
  | none => none
  | some last_slash =>
    if last_slash ≠ 0 ∧ last_slash ≠ dst.length - 1 then
      let last_nchars := dst.length - last_slash
      if src.length > last_nchars
          ∧ src.drop (src.length - last_nchars) = dst.drop (dst.length - last_nchars) then
        let dstdir := dst.take last_slash
        if env.lstat σ.ops dstdir = .error .ENOENT then
          some (src.take (src.length - last_nchars), dst.take (dst.length - last_nchars))
        else none
      else none
    else none

/-- Lines 590-605 of `handle_copy`: the parent directory is copied first when `check_parents`
asks for it; `copy src dst` is the call `handle_copy(src, dst, true, 0, jaildev, NULL)`, whose
result is not read. -/
def copy_parents (env : JailEnv) (copy : JailState → Str → Str → CopyResult)
    (σ : JailState) (src dst : Str) (check_parents : Bool) : JailState × Except Fault Unit :=
  if check_parents then
    match parent_call env σ src dst with
    | some (psrc, pdst) =>
      match copy σ psrc pdst with
      | (σ1, .error f) => (σ1, .error f)
      | (σ1, .ok _) => (σ1, .ok ())
    | none => (σ, .ok ())
  else (σ, .ok ())

/-- `handle_copy(src, dst, check_parents, flags, jaildev, srcmode)` (lines 581-673).  It calls
itself for the parent directory and, through `handle_symlink_dst`, for what a symbolic link
points to; the first argument bounds the depth of these calls, and a run that needs more ends
with `nofuel` in the state it has reached. -/
def handle_copy (g : Globals) (env : JailEnv) (jaildev : Nat) :
    Nat → JailState → Str → Str → Bool → Nat → CopyResult
  | 0, σ, _, _, _, _ => (σ, .error .nofuel)
  | fuel + 1, σ, src, dst, check_parents, flags =>
    if σ.dst_table.contains dst then (σ, .ok (1, none))
    else
      let σ := { σ with dst_table := σ.dst_table ++ [dst] }
      match copy_parents env (fun σ s d => handle_copy g env jaildev fuel σ s d true 0)
          σ src dst check_parents with
      | (σ, .error f) => (σ, .error f)
      | (σ, .ok _) =>
        match env.lstat σ.ops src with
        | .error _ =>
          match perror_fail σ "lstat %s: %s\n".toList src with
          | (σ1, r) => (σ1, .ok (r, none))
        | .ok ss0 =>
          let srcmode := some ss0.st_mode
          match copy_branch g env jaildev σ src dst flags ss0 with
          | (σ1, .ret r) => (σ1, .ok (r, srcmode))
          | (σ1, .go ds ss) =>
            match copy_finish g env σ1 src dst ds ss with
            | (σ2, r) => (σ2, .ok (r, srcmode))
          | (σ1, .golink lnkbuf ds ss) =>
            match handle_symlink_dst g
                (fun σ s d => handle_copy g env jaildev fuel σ s d true 0) σ1 src dst lnkbuf with
            | (σ2, .error f) => (σ2, .error f)
            | (σ2, .ok _) =>
              match copy_finish g env σ2 src dst ds ss with
              | (σ3, r) => (σ3, .ok (r, srcmode))


/-! ## Making the jail: the mount table (lines 339-419) -/

/-- `BUFSIZ` of `<stdio.h>` (glibc). -/
def BUFSIZ : Nat := 8192

/-- `allow_mount` (lines 339-344). -/
def allow_mount (dest : Str) (ms : mountslot) : Bool :=
  (dest == "/proc".toList && ms.type == "proc".toList)
    || (dest == "/sys".toList && ms.type == "sysfs".toList)
    || (dest == "/dev".toList && ms.type == "udev".toList)
    || (dest == "/dev/pts".toList && ms.type == "devpts".toList)

/-- The array `mountargs` (lines 356-373) on Linux, with the values of the `MS_` flags. -/
def mountargs : List (Str × Nat) :=
  [(",nosuid,".toList, 2), (",nodev,".toList, 4), (",noexec,".toList, 8), (",ro,".toList, 1),
   (",rw,".toList, 0), (",noatime,".toList, 1024), (",nodiratime,".toList, 2048),
   (",relatime,".toList, 2097152), (",strictatime,".toList, 16777216)]

/-- `strstr(haystack, needle)`: the index of the first occurrence, `none` for `NULL`. -/
def strstr (needle : Str) : Str → Option Nat
  | [] => if needle = [] then some 0 else none
  | c :: rest =>
    if needle.isPrefixOf (c :: rest) then some 0
    else (strstr needle rest).map (fun i => i + 1)

/-- One round of the loop over `mountargs` (lines 389-393): when `name` occurs in `options`,
its value is added to `opts` and its first occurrence is cut out up to its last comma. -/
def mount_option (st : Str × Nat) (ma : Str × Nat) : Str × Nat :=
  match strstr ma.1 st.1 with
  | some options_pos =>
    (st.1.take options_pos ++ st.1.drop (options_pos + ma.1.length - 1), st.2 ||| ma.2)
  | none => st

/-- The loop `while ((l = strlen(options)) > 1 && options[l - 1] == ',')
options[l - 1] = '\0';` on the reversed string. -/
def strip_commas_rev : Str → Str
  | ',' :: c :: r => strip_commas_rev (c :: r)
  | r => r

/-- The entry of `mount_table` made from one answer of `getmntent` (lines 385-399). -/
def mount_slot_of (me : mntent) : mountslot :=
  -- `snprintf(options, sizeof(options), ",%s,", me->mnt_opts);`
  let options := (",".toList ++ me.mnt_opts ++ ",".toList).take (BUFSIZ - 1)
  let parsed := mountargs.foldl mount_option (options, 0)
  let options := (strip_commas_rev parsed.1.reverse).reverse
  let ms : mountslot :=
    { fsname := me.mnt_fsname, type := me.mnt_type, alloptions := me.mnt_opts,
      opts := parsed.2, data := options.drop 1, allowed := false }
  { ms with allowed := allow_mount me.mnt_dir ms }

/-- `table[key] = value` on a `std::map` kept in the order of its keys. -/
def map_set {β : Type} (key : Str) (value : β) : List (Str × β) → List (Str × β)
  | [] => [(key, value)]
  | (k, v) :: rest =>
    if key = k then (key, value) :: rest
    else if key < k then (key, value) :: (k, v) :: rest
    else (k, v) :: map_set key value rest

/-- `populate_mount_table` (lines 375-419), the Linux branch. -/
def populate_mount_table (env : JailEnv) (σ : JailState) : JailState × Int :=
  if σ.mount_table_populated then (σ, 0)
  else
    let σ := { σ with mount_table_populated := true }
    match env.proc_mounts with
    | none => perror_fail σ "open %s: %s\n".toList "/proc/mounts".toList
    | some entries =>
      ({ σ with mount_table :=
          entries.foldl (fun t me => map_set me.mnt_dir (mount_slot_of me) t) σ.mount_table },
        0)

/-! ## Making the jail: `construct_jail` (lines 675-761) -/

/-- The chunks that the successive calls `fgets(buf, n, f)` deliver from the bytes of `f`:
each holds at most `n - 1` bytes and ends behind the first newline, if it has one.  `acc` is
the chunk being read, last byte first. -/
def fgets_chunks (n : Nat) : Str → Str → List Str
  | [], acc => if acc = [] then [] else [acc.reverse]
  | c :: rest, acc =>
    if c = '\n' ∨ acc.length + 1 = n - 1 then (c :: acc).reverse :: fgets_chunks n rest []
    else fgets_chunks n rest (c :: acc)

/-- The loop `while (l > 0 && isspace((unsigned char) buf[l-1])) buf[--l] = 0;`. -/
def rtrim (buf : Str) : Str := (buf.reverse.dropWhile isspace).reverse

/-- The loop `while (cursrcdir.length() > 1 && cursrcdir[cursrcdir.length() - 1] == '/' &&
cursrcdir[cursrcdir.length() - 2] == '/') cursrcdir = cursrcdir.substr(0,
cursrcdir.length() - 1);` on the reversed string. -/
def strip_double_rev : Str → Str
  | '/' :: '/' :: r => strip_double_rev ('/' :: r)
  | r => r

/-- A line `directory:` (lines 708-723): the new `cursrcdir` and `curdstdir`.  `buf` is the
line of length `l`, which ends in a colon. -/
def dir_line (dstroot buf : Str) : Str × Str :=
  let l := buf.length
  let cursrcdir : Str :=
    if l = 2 ∧ buf.head? = some '.' then "/".toList
    else if l > 2 ∧ buf.head? = some '.' ∧ buf.get? 1 = some '/' then
      (buf.take (l - 1)).drop 1
    else buf.take (l - 1)
  let cursrcdir := if cursrcdir.head? ≠ some '/' then "/".toList ++ cursrcdir else cursrcdir
  let cursrcdir := (strip_double_rev cursrcdir.reverse).reverse
  let cursrcdir := if cursrcdir.getLast? ≠ some '/' then cursrcdir ++ "/".toList else cursrcdir
  (cursrcdir, dstroot ++ cursrcdir)

/-- The loop `for (--l; l > 0 && buf[l-1] != '['; --l)` (line 728) on a line that ends in
`]`: the value of `l` behind it, which is 0 or the index behind the last `[` before the
closing bracket. -/
def bracket_pos (buf : Str) : Nat :=
  let body := buf.dropLast
  let t := (body.reverse.takeWhile (fun c => c != '[')).length
  if t = body.length then 0 else body.length - t

/-- The test of lines 733-735 for the flag `cp`, with `l` as `bracket_pos` gives it: the first
occurrence of `cp` behind `buf[l]` has `[` or `,` before it and `]` or `,` behind it. -/
def cp_flag (buf : Str) (l : Nat) : Bool :=
  match strstr "cp".toList (buf.drop l) with
  | none => false
  | some i =>
    (buf.get? (l + i - 1) == some '[' || buf.get? (l + i - 1) == some ',')
      && (buf.get? (l + i + 2) == some ']' || buf.get? (l + i + 2) == some ',')

/-- What a line of the manifest asks for: nothing, new current directories, or a call
`handle_copy(src, dst, check_parents, flags, jaildev, NULL)`. -/
inductive Entry where
  | skip
  | dir (cursrcdir curdstdir : Str)
  | copy (src dst : Str) (check_parents : Bool) (flags : Nat)
  deriving DecidableEq, Repr

/-- Lines 742-757: the call of `handle_copy` for the entry `buf`. -/
def entry_of (cursrcdir curdstdir buf : Str) (flags : Nat) : Entry :=
  let arrow := strstr " <- ".toList buf
  if buf.head? = some '/' then
    match arrow with
    | some a => .copy (buf.drop (a + 4)) (curdstdir ++ buf.take a) true flags
    | none => .copy buf (curdstdir ++ buf) true flags
  else
    match arrow with
    | some a => .copy (buf.drop (a + 4)) (curdstdir ++ buf.take a) false flags
    | none => .copy (cursrcdir ++ buf) (curdstdir ++ buf) false flags

/-- One round of the loop of `construct_jail` (lines 701-757) on the chunk `fgets` has
delivered, up to the call of `handle_copy`. -/
def manifest_line (dstroot : Str) (base_flags : Nat) (cursrcdir curdstdir chunk : Str) :
    Entry :=
  -- `int l = strlen(buf);`
  let buf := rtrim (chunk.takeWhile (fun c => c != '\x00'))
  if buf = [] ∨ buf.head? = some '#' then .skip
  -- 'directory:'
  else if buf.getLast? = some ':' then
    .dir (dir_line dstroot buf).1 (dir_line dstroot buf).2
  -- '[FLAGS]'
  else if buf.getLast? = some ']' then
    let l := bracket_pos buf
    if l = 0 then .skip
    else
      let flags := if cp_flag buf l then base_flags ||| FLAG_CP else base_flags
      -- `do { buf[--l] = 0; } while (l > 0 && isspace((unsigned char) buf[l-1]));`
      entry_of cursrcdir curdstdir (rtrim (buf.take (l - 1))) flags
  else entry_of cursrcdir curdstdir buf base_flags

/-- The loop `while (fgets(buf, BUFSIZ, f))` of `construct_jail` over the chunks still to
read; `depth` bounds the nesting of the calls of `handle_copy`. -/
def jail_lines (g : Globals) (env : JailEnv) (jaildev depth base_flags : Nat) :
    JailState → Str → Str → List Str → JailState × Except Fault Unit
  | σ, _, _, [] => (σ, .ok ())
  | σ, cursrcdir, curdstdir, chunk :: rest =>
    match manifest_line g.dstroot base_flags cursrcdir curdstdir chunk with
    | .skip => jail_lines g env jaildev depth base_flags σ cursrcdir curdstdir rest
    | .dir s d => jail_lines g env jaildev depth base_flags σ s d rest
    | .copy src dst check_parents flags =>
      match handle_copy g env jaildev depth σ src dst check_parents flags with
      | (σ1, .error f) => (σ1, .error f)
      | (σ1, .ok _) => jail_lines g env jaildev depth base_flags σ1 cursrcdir curdstdir rest

/-- The three calls of `handle_copy` in lines 684-693 (Linux), whose results are not read. -/
def jail_mounts (g : Globals) (env : JailEnv) (jaildev depth : Nat) (σ : JailState) :
    JailState × Except Fault Unit :=
  match handle_copy g env jaildev depth σ "/proc".toList (g.dstroot ++ "/proc".toList)
      true 0 with
  | (σ1, .error f) => (σ1, .error f)
  | (σ1, .ok _) =>
    match handle_copy g env jaildev depth σ1 "/dev/pts".toList
        (g.dstroot ++ "/dev/pts".toList) true 0 with
    | (σ2, .error f) => (σ2, .error f)
    | (σ2, .ok _) =>
      match handle_copy g env jaildev depth σ2 "/dev/ptmx".toList
          (g.dstroot ++ "/dev/ptmx".toList) true 0 with
      | (σ3, .error f) => (σ3, .error f)
      | (σ3, .ok _) => (σ3, .ok ())

/-- Lines 676-680 of `construct_jail`: prepare the root of the jail.  The result is 1 when
`construct_jail` returns 1 here, and 0 when it carries on. -/
def jail_root (g : Globals) (env : JailEnv) (σ : JailState) : JailState × Int :=
  match x_chmod g env σ g.dstroot 0o755 with
  | (σ1, r1) =>
    if r1 ≠ 0 then (σ1, 1)
    else
      match x_lchown g env σ1 g.dstroot 0 0 with
      | (σ2, r2) =>
        if r2 ≠ 0 then (σ2, 1)
        else
          -- `dst_table[dstroot + "/"] = 1;`
          if σ2.dst_table.contains (g.dstroot ++ "/".toList) then (σ2, 0)
          else ({ σ2 with dst_table := σ2.dst_table ++ [g.dstroot ++ "/".toList] }, 0)

/-- `construct_jail(jaildev, f)` (lines 675-761) on Linux; `f` is what is left to read of the
manifest, and `depth` bounds the nesting of the calls of `handle_copy`. -/
def construct_jail (g : Globals) (env : JailEnv) (depth : Nat) (σ : JailState)
    (jaildev : Nat) (f : Str) : JailState × Except Fault Int :=
  -- prepare root
  match jail_root g env σ with
  | (σ3, r) =>
    if r ≠ 0 then (σ3, .ok 1)
    else
      -- Mounts
      match jail_mounts g env jaildev depth (populate_mount_table env σ3).1 with
      | (σ5, .error e) => (σ5, .error e)
      | (σ5, .ok _) =>
        -- Read a line at a time
        match jail_lines g env jaildev depth (if g.linkdir = [] then FLAG_NOLINK else 0) σ5
            "/".toList g.dstroot (fgets_chunks BUFSIZ f []) with
        | (σ6, .error e) => (σ6, .error e)
        | (σ6, .ok _) => (σ6, .ok σ6.exit_value)

/-! ## `main`: the home directory and `mv` (lines 1886-1909, 1946-1957) -/

/-- `perror_exit(message)` (lines 320-323): the state in which `exit(1)` is called. -/
def perror_exit (σ : JailState) (message : Str) : JailState :=
  { σ with stderr := σ.stderr ++ [("%s: %s\n".toList, [message])] }

/-- Lines 1946-1957 of `main`: create the home directory.  `caller_owner` and `caller_group`
are what `getuid()` and `getgid()` returned in lines 1864-1865, before the process made
itself root, and `dir` is `jaildir.dir`. -/
def main_home (g : Globals) (env : JailEnv) (σ : JailState) (action : jailaction)
    (jailuser : jailownerinfo) (caller_owner caller_group : Nat) (dir : Str) :
    Outcome JailState JailState :=
  if jailuser.owner_home ≠ [] then
    match v_ensuredir g env σ (dir ++ "/home".toList) 0o755 with
    | (σ1, r1) =>
      if r1 < 0 then .exit 1 (perror_exit σ1 (dir ++ "/home".toList))
      else
        let jailhome := dir ++ jailuser.owner_home
        match v_ensuredir g env σ1 jailhome 0o700 with
        | (σ2, r) =>
          let want_owner := if action = .do_init then caller_owner else jailuser.owner
          let want_group := if action = .do_init then caller_group else jailuser.group
          if r < 0 then .exit 1 (perror_exit σ2 jailhome)
          else if r > 0 then
            match x_lchown g env σ2 jailhome want_owner want_group with
            | (σ3, r3) => if r3 ≠ 0 then .exit 1 (perror_exit σ3 jailhome) else .ok σ3
          else .ok σ2
  else .ok σ

/-- Lines 1886-1909 of `main`: the action `mv`, which always ends the process.  `pwd` is what
`absolute` reads, `j` the `jaildirinfo` built from `argv[optind]`, and `arg` is
`argv[optind + 1]`. -/
def main_mv (pwd : Option Str) (g : Globals) (env : JailEnv) (σ : JailState)
    (j : jaildirinfo) (arg : Str) : Outcome JailState Unit :=
  match absolute pwd arg with
  | .exit n msg => .exit n { σ with stderr := σ.stderr ++ [(msg, [])] }
  | .fault f => .fault f
  | .ok a =>
    match check_filename a with
    | .error f => .fault f
    | .ok newpath =>
      if newpath = [] ∨ newpath.head? ≠ some '/' then
        .exit 1 { σ with stderr := σ.stderr ++
          [("%s: Bad characters in move destination\n".toList, [arg])] }
      else if newpath.length ≤ j.permdir.length
          ∨ newpath.take j.permdir.length ≠ j.permdir then
        .exit 1 { σ with stderr := σ.stderr ++
          [("%s: Not a subdirectory of %s\n".toList, [newpath, j.permdir])] }
      else
        -- allow second argument to be a directory
        let isdir : Bool :=
          match env.stat σ.ops newpath with
          | .ok s => S_ISDIR s.st_mode
          | .error _ => false
        let newpath := if isdir then path_endslash newpath ++ j.component else newpath
        if g.dryrun then .exit 0 σ
        else
          let σ1 := { σ with ops := σ.ops ++ [Op.renameat j.component newpath] }
          match env.renameat σ.ops j.component newpath with
          | some _ =>
            .exit 1 { σ1 with stderr := σ1.stderr ++
              [("mv %s%s %s: %s\n".toList, [j.parent, j.component, newpath])] }
          | none => .exit 0 σ1


/-! ## Concrete inputs for the jail-making functions -/

/-- The files of the host in the examples: directories `/`, `/bin`, `/dev`, `/proc` and
`/dev/pts`, the regular file `/bin/ls` on device 1, the regular file `/opt/tool` on device 2,
the symbolic link `/bin/sh`, the character device `/dev/ptmx` and the FIFO `/run/fifo`. -/
def host_lstat (path : Str) : Except Errno FileStat :=
  if path = "/".toList ∨ path = "/bin".toList ∨ path = "/dev".toList
      ∨ path = "/proc".toList ∨ path = "/dev/pts".toList then
    .ok ⟨0o040755, 0, 0, 1, 2, 0, 4096, 0⟩
  else if path = "/bin/ls".toList then .ok ⟨0o100755, 0, 0, 1, 10, 0, 1000, 0⟩
  else if path = "/opt/tool".toList then .ok ⟨0o100755, 0, 0, 2, 11, 0, 1000, 0⟩
  else if path = "/bin/sh".toList then .ok ⟨0o120777, 0, 0, 1, 12, 0, 4, 0⟩
  else if path = "/dev/ptmx".toList then .ok ⟨0o020666, 0, 0, 5, 13, 1282, 0, 0⟩
  else if path = "/run/fifo".toList then .ok ⟨0o010644, 0, 0, 1, 14, 0, 0, 0⟩
  else .error .ENOENT

/-- A system that answers `lstat` and `stat` from `host_lstat`, in which `/bin/sh` links to
`dash`, every other call succeeds, and `/proc/mounts` is empty. -/
def host_env : JailEnv :=
  { lstat := fun _ path => host_lstat path,
    stat := fun _ path => host_lstat path,
    readlink := fun _ path =>
      if path = "/bin/sh".toList then .ok "dash".toList else .error .EINVAL,
    mkdir := fun _ _ _ => none,
    link := fun _ _ _ => none,
    chmod := fun _ _ _ => none,
    lchown := fun _ _ _ _ => none,
    mknod := fun _ _ _ _ => none,
    symlink := fun _ _ _ => none,
    cp_p := fun _ _ _ => some 0,
    mount := fun _ _ _ => none,
    renameat := fun _ _ _ => none,
    umount := fun _ _ => none,
    proc_mounts := some [] }

/-- The globals of a run for the jail `/srv/jails/a` without a link directory. -/
def jail_a : Globals :=
  { dryrun := false, copy_samedev := false, linkdir := [], dstroot := "/srv/jails/a".toList }

/-- The state in which nothing has been copied or printed yet. -/
def JailState.start : JailState :=
  { dst_table := [], lnk_table := [], linkdir_dirtable := [], exit_value := 0,
    mount_table := [], mount_table_populated := false, umount_table := [], stderr := [],
    ops := [] }

/-- The system `host_env` in which `/srv/jails/keep` is a directory. -/
def mv_env : JailEnv :=
  { host_env with
    stat := fun _ path =>
      if path = "/srv/jails/keep".toList then .ok ⟨0o040755, 0, 0, 1, 20, 0, 4096, 0⟩
      else .error .ENOENT }


/-- What justifies a call `link(oldpath, newpath)` issued after the calls `pre`: either
`lstat` has just found a regular file on the device of the jail at `oldpath`; or a link
directory is configured and `oldpath` is `linkdir + src` for a source `src` that `lstat` found
to be a regular file or a symbolic link at some point before. -/
def LinkJustified (g : Globals) (env : JailEnv) (jaildev : Nat) (pre : List Op)
    (oldpath : Str) : Prop :=
  (∃ ss, env.lstat pre oldpath = .ok ss ∧ S_ISREG ss.st_mode = true ∧ ss.st_dev = jaildev)
    ∨ (g.linkdir ≠ [] ∧ ∃ src hist ss, oldpath = g.linkdir ++ src ∧ hist <+: pre
        ∧ env.lstat hist src = .ok ss
        ∧ (S_ISREG ss.st_mode = true ∨ S_ISLNK ss.st_mode = true))

/-- Every call of `link` among `ops` that comes behind the first `start` calls is justified
by what came before it. -/
def LinksOk (g : Globals) (env : JailEnv) (jaildev : Nat) (start : Nat) (ops : List Op) :
    Prop :=
  ∀ pre post oldpath newpath, ops = pre ++ Op.link oldpath newpath :: post →
    start ≤ pre.length → LinkJustified g env jaildev pre oldpath

/-- The state `σ1` comes after `σ`: `dst_table` and the record of calls have only grown at
their ends, and the calls of `link` are justified as far as they were in `σ`. -/
def Later (g : Globals) (env : JailEnv) (jaildev : Nat) (σ σ1 : JailState) : Prop :=
  σ.dst_table <+: σ1.dst_table ∧ σ.ops <+: σ1.ops
    ∧ ∀ start, LinksOk g env jaildev start σ.ops → LinksOk g env jaildev start σ1.ops

/-! ## `main`: unmounting what is mounted in the jail (lines 1912-1921) -/

/-- `handle_umount(it)` (lines 452-462), where `mnt_dir` is `it->first`. -/
def handle_umount (g : Globals) (env : JailEnv) (σ : JailState) (mnt_dir : Str) :
    Outcome JailState JailState :=
  if ¬ g.dryrun then
    let σ1 := { σ with ops := σ.ops ++ [Op.umount mnt_dir] }
    match env.umount σ.ops mnt_dir with
    | some _ =>
      .exit 1 { σ1 with stderr := σ1.stderr ++ [("umount %s: %s\n".toList, [mnt_dir])] }
    | none => .ok σ1
  else .ok { σ with umount_table := map_set mnt_dir 1 σ.umount_table }

/-- The loop of lines 1917-1921 over the entries of `mount_table` from `it` on, where `dir` is
`jaildir.dir`. -/
def umount_loop (g : Globals) (env : JailEnv) (dir : Str) :
    List (Str × mountslot) → JailState → Outcome JailState JailState
  | [], σ => .ok σ
  | it :: rest, σ =>
    if it.1.length ≥ dir.length ∧ it.1.take dir.length = dir then
      match handle_umount g env σ it.1 with
      | .ok σ1 => umount_loop g env dir rest σ1
      | .exit n final => .exit n final
      | .fault f => .fault f
    else umount_loop g env dir rest σ

/-- Lines 1915-1921 of `main`, run when the action is `rm` or `--replace` was given: `j` is
`jaildir`, and the value returned is `jaildir` with its new `dir` and the state after the
loop. -/
def main_umount (g : Globals) (env : JailEnv) (σ : JailState) (j : jaildirinfo) :
    Outcome JailState (jaildirinfo × JailState) :=
  let j := { j with dir := path_endslash j.dir }
  let σ1 := (populate_mount_table env σ).1
  match umount_loop g env j.dir σ1.mount_table σ1 with
  | .ok σ2 => .ok (j, σ2)
  | .exit n final => .exit n final
  | .fault f => .fault f

/-- The system `host_env` with a file system mounted on the jail `/srv/jails/a` itself, one on
its sibling `/srv/jails/ab`, and two inside the jail. -/
def mounted_env : JailEnv :=
  { host_env with
    proc_mounts := some
      [⟨"/dev/sdb1".toList, "/srv/jails/a".toList, "ext4".toList, "rw,relatime".toList⟩,
       ⟨"proc".toList, "/srv/jails/a/proc".toList, "proc".toList, "rw,nosuid".toList⟩,
       ⟨"/dev/sdc1".toList, "/srv/jails/ab".toList, "ext4".toList, "rw".toList⟩,
       ⟨"devpts".toList, "/srv/jails/a/dev/pts".toList, "devpts".toList, "rw".toList⟩] }

/-- The mount points of `table` that start with `dir`, in the order of the table. -/
def umount_targets (dir : Str) (table : List (Str × mountslot)) : List Str :=
  (table.map Prod.fst).filter (fun mnt_dir => dir.isPrefixOf mnt_dir)

/-! ## Password databases for `jailownerinfo::init` -/

/-- A password database in which `student` has the uid 1000 and the gid 0. -/
def wheel_db (n : Str) : Option passwd :=
  if n = "student".toList then some ⟨1000, 0, "/home/student".toList, "/bin/bash".toList⟩
  else none

/-- A password database in which every user has the uid and gid 1000, the shell `/bin/sh`, and
a home directory that is the user name. -/
def home_db (n : Str) : Option passwd := some ⟨1000, 1000, n, "/bin/sh".toList⟩

/-! ## The supervisor: `struct buffer` and `handle_child` (lines 303-317, 1219-1233, 1550-1698)

The loop of `handle_child` moves bytes between the input and the pty and between the pty and
the standard output, and ends the process when the child is gone, when the time is up, or
when the input holds the escape sequence.  The answers of the system are arguments of the
functions; the calls of `read` and `write` are recorded in a trace.  Bytes are `Char`s.  The
calls before the loop (`tcgetattr`, `tcsetattr`, `make_nonblocking`, `fflush`) and the call of
`select` are left out, except that `block` may leave a new `errno`. -/

/-- The value of `EINTR` on Linux. -/
def EINTR : Int := 4

/-- The value of `EIO` on Linux. -/
def EIO : Int := 5

/-- The value of `EAGAIN` on Linux. -/
def EAGAIN : Int := 11

/-- The value of `SIGTERM`. -/
def SIGTERM : Int := 15

/-- The file descriptor of the standard output. -/
def STDOUT_FILENO : Int := 1

/-- What `read(fd, p, count)` answers: the bytes read, of which it stores at most `count` at
`p` and whose number it returns, or `-1` with an `errno`. -/
inductive ReadAnswer where
  | bytes (data : Str)
  | error (errno : Int)
  deriving DecidableEq, Repr

/-- What `write(fd, p, count)` answers: the number of bytes written, or `-1` with an
`errno`. -/
inductive WriteAnswer where
  | wrote (nw : Nat)
  | error (errno : Int)
  deriving DecidableEq, Repr

/-- What `waitpid(child, &status, WNOHANG)` answers: `child` with a status for which
`WIFEXITED` holds and `WEXITSTATUS` is `status`; `child` with another status, of which
`WTERMSIG` is `sig`; `0`; or `-1` with an `errno`. -/
inductive WaitAnswer where
  | exited (status : Nat)
  | signaled (sig : Nat)
  | running
  | error (errno : Int)
  deriving DecidableEq, Repr

/-- A call recorded in the trace, with its answer: for `read` the count asked for, for `write`
the bytes offered. -/
inductive SupCall where
  | read (fd : Int) (count : Nat) (answer : ReadAnswer)
  | write (fd : Int) (offered : Str) (answer : WriteAnswer)
  deriving DecidableEq, Repr

/-- The global `errno` and the record of the calls issued, oldest first. -/
structure SupIO where
  errno : Int
  trace : List SupCall
  deriving DecidableEq, Repr

/-- `struct buffer` (lines 1219-1233); `head` and `tail` are of the type `size_t`, of 64
bits. -/
structure buffer where
  buf : Str
  head : Nat
  tail : Nat
  input_closed : Bool
  input_isfifo : Bool
  output_closed : Bool
  rerrno : Int
  deriving DecidableEq, Repr

/-- The value of `sizeof(buf)` in `struct buffer`. -/
def SIZEOF_BUF : Nat := 8192

/-- The constructor `buffer()` (lines 1227-1230); it leaves the 8192 bytes of `buf` as they
are, here `garbage`. -/
def buffer.new (garbage : Str) : buffer :=
  { buf := garbage, head := 0, tail := 0, input_closed := false, input_isfifo := false,
    output_closed := false, rerrno := 0 }

/-- The bytes `buf[head..tail)`: those read in and not yet written out. -/
def buffer.pending (self : buffer) : Str :=
  (self.buf.drop self.head).take (self.tail - self.head)

/-- The first statement of `buffer::transfer_in` (lines 1551-1555): when the bytes reach the
end of `buf` and do not start at its beginning, they are moved to the beginning.  `memmove`
with `head > tail` reaches outside `buf`: the fault `overread`. -/
def buffer.compact (self : buffer) : Except Fault buffer :=
  if self.tail = SIZEOF_BUF ∧ self.head ≠ 0 then
    if self.head ≤ self.tail then
      .ok { self with
        buf := (self.buf.drop self.head).take (self.tail - self.head)
          ++ self.buf.drop (self.tail - self.head),
        tail := self.tail - self.head,
        head := 0 }
    else .error .overread
  else .ok self

/-- The second statement of `buffer::transfer_in` (lines 1557-1572).  `sys_read count` is what
`read` answers when asked for `count` bytes, and `sys_fstat` is what `fstat` answers: whether
the descriptor is a FIFO, or `-1` with an `errno`.  `read` with `tail > sizeof(buf)` reaches outside `buf`: the fault
`overread`. -/
def buffer.fill (self : buffer) (from_fd : Int) (sys_read : Nat → ReadAnswer)
    (sys_fstat : Except Int Bool) (io : SupIO) : Except Fault (buffer × SupIO) :=
  if from_fd ≥ 0 ∧ ¬ self.input_closed ∧ self.tail ≠ SIZEOF_BUF then
    if self.tail > SIZEOF_BUF then .error .overread
    else
      let count := SIZEOF_BUF - self.tail
      let io := { io with trace := io.trace ++ [SupCall.read from_fd count (sys_read count)] }
      match sys_read count with
      | .bytes data =>
        let stored := data.take count
        let self := { self with
          buf := self.buf.take self.tail ++ stored
            ++ self.buf.drop (self.tail + stored.length) }
        if data.length ≠ 0 then
          .ok ({ self with tail := (self.tail + data.length) % 2 ^ 64 }, io)
        else if ¬ self.input_isfifo then
          -- don't want to give up on input if it's a fifo
          match sys_fstat with
          | .ok true => .ok ({ self with input_isfifo := true }, io)
          | .ok false => .ok ({ self with input_closed := true }, io)
          | .error errno =>
            .ok ({ self with input_closed := true }, { io with errno := errno })
        else .ok (self, io)
      | .error errno =>
        let io := { io with errno := errno }
        if errno ≠ EINTR ∧ errno ≠ EAGAIN then
          .ok ({ self with input_closed := true, rerrno := errno }, io)
        else .ok (self, io)
  else .ok (self, io)

/-- `buffer::transfer_in(from)` (lines 1550-1573). -/
def buffer.transfer_in (self : buffer) (from_fd : Int) (sys_read : Nat → ReadAnswer)
    (sys_fstat : Except Int Bool) (io : SupIO) : Except Fault (buffer × SupIO) :=
  match self.compact with
  | .error f => .error f
  | .ok self => self.fill from_fd sys_read sys_fstat io

/-- `buffer::transfer_out(to)` (lines 1575-1583).  `sys_write offered` is what `write` answers
when offered the bytes `offered`.  With `head > tail` the call of `write` reaches outside
`buf`: the fault `overread`. -/
def buffer.transfer_out (self : buffer) (to_fd : Int) (sys_write : Str → WriteAnswer)
    (io : SupIO) : Except Fault (buffer × SupIO) :=
  if to_fd ≥ 0 ∧ ¬ self.output_closed ∧ self.head ≠ self.tail then
    if self.head > self.tail ∨ self.tail > SIZEOF_BUF then .error .overread
    else
      let offered := self.pending
      let io := { io with trace := io.trace ++ [SupCall.write to_fd offered (sys_write offered)] }
      match sys_write offered with
      | .wrote nw =>
        if nw ≠ 0 then .ok ({ self with head := (self.head + nw) % 2 ^ 64 }, io)
        else if io.errno ≠ EINTR ∧ io.errno ≠ EAGAIN then
          .ok ({ self with output_closed := true }, io)
        else .ok (self, io)
      | .error errno =>
        let io := { io with errno := errno }
        if errno ≠ EINTR ∧ errno ≠ EAGAIN then .ok ({ self with output_closed := true }, io)
        else .ok (self, io)
  else .ok (self, io)

/-- `struct timeval`. -/
structure timeval where
  tv_sec : Int
  tv_usec : Int
  deriving DecidableEq, Repr

/-- `timerisset(tvp)`. -/
def timerisset (tvp : timeval) : Bool := tvp.tv_sec != 0 || tvp.tv_usec != 0

/-- `timercmp(a, b, >)`. -/
def timercmp_gt (a b : timeval) : Bool :=
  if a.tv_sec = b.tv_sec then decide (a.tv_usec > b.tv_usec) else decide (a.tv_sec > b.tv_sec)

/-- `x_waitpid(child, WNOHANG)` (lines 303-317): the value returned and the new `errno`.
`answers` are the successive answers of `waitpid`; when they run out before the loop ends,
the result is the fault `nofuel`. -/
def x_waitpid : List WaitAnswer → Int → Except Fault (Int × Int)
  | [], _ => .error .nofuel
  | .exited status :: _, errno => .ok (status, errno)
  | .signaled sig :: _, errno => .ok (128 + sig, errno)
  | .running :: _, _ => .ok (-1, EAGAIN)
  | .error e :: rest, _ => if e ≠ EINTR then .ok (-1, e) else x_waitpid rest e

/-- `jailownerinfo::check_child_timeout(child, waitpid)` (lines 1626-1646): the value returned
and the new `errno`.  `answers` are the answers of `waitpid`, `got_sigterm` is the value of
the global of that name, `timeout` the member, and `gettimeofday` the time that the call
delivers, `none` when it fails. -/
def check_child_timeout (timeout : timeval) (waitpid : Bool) (answers : List WaitAnswer)
    (got_sigterm : Bool) (gettimeofday : Option timeval) (errno : Int) :
    Except Fault (Int × Int) :=
  let rest (errno : Int) : Except Fault (Int × Int) :=
    if got_sigterm then .ok (128 + SIGTERM, errno)
    else if timerisset timeout
        && (match gettimeofday with
            | some now => timercmp_gt now timeout
            | none => false) then
      .ok (124, errno)
    else .ok (-1, EAGAIN)
  if waitpid then
    match x_waitpid answers errno with
    | .error f => .error f
    | .ok (r, errno) =>
      if r ≠ -1 then .ok (r, errno)
      else if errno ≠ EAGAIN then .ok (125, errno)
      else rest errno
  else rest errno

/-- The members of `jailownerinfo` that `handle_child` uses, with two record fields added:
what was printed to `stdout` and `stderr`. -/
structure Supervisor where
  inputfd : Int
  timeout : timeval
  to_slave : buffer
  from_slave : buffer
  io : SupIO
  stdout : List Str
  stderr : List Str
  deriving DecidableEq, Repr

/-- The answers of the system in one round of the loop of `handle_child`: the `errno` that
`block` leaves, if it sets one; the answers to the `read` from the input (and to the `fstat`
behind it), the `write` to the pty, the `read` from the pty (and to its `fstat`) and the
`write` to the standard output; and what `check_child_timeout` finds. -/
structure Round where
  block_errno : Option Int
  input_read : Nat → ReadAnswer
  input_fstat : Except Int Bool
  pty_write : Str → WriteAnswer
  pty_read : Nat → ReadAnswer
  pty_fstat : Except Int Bool
  stdout_write : Str → WriteAnswer
  waitpid : List WaitAnswer
  got_sigterm : Bool
  gettimeofday : Option timeval

/-- `jailownerinfo::exec_done(child, exit_status)` (lines 1685-1698) on Linux. -/
def exec_done {α : Type} (quiet : Bool) (s : Supervisor) (exit_status : Int) :
    Outcome Supervisor α :=
  let s := if exit_status = 124 ∧ ¬ quiet then
      { s with stdout := s.stdout ++ ["\n\x1b[3;7;31m...timed out\x1b[0m\n".toList] }
    else s
  let s := if exit_status = 128 + SIGTERM ∧ ¬ quiet then
      { s with stdout := s.stdout ++ ["\n\x1b[3;7;31m...terminated\x1b[0m\n".toList] }
    else s
  .exit exit_status.toNat s

/-- The escape sequence of `handle_child`: the bytes `0x1B 0x03`. -/
def escape_sequence : Str := ['\x1b', '\x03']

/-- `jailownerinfo::block(ptymaster)` (lines 1585-1624), of which only the `errno` it leaves
is kept. -/
def block (r : Round) (s : Supervisor) : Supervisor :=
  match r.block_errno with
  | some e => { s with io := { s.io with errno := e } }
  | none => s

/-- One round of the loop of `handle_child` (lines 1661-1681); `.ok` is the state in which
the next round starts.  `memmem` over `buf[head..tail)` with `head > tail` or
`tail > sizeof(buf)` reaches outside `buf`: the fault `overread`. -/
def handle_child_round (quiet : Bool) (ptymaster : Int) (r : Round) (s : Supervisor) :
    Outcome Supervisor Supervisor :=
  let s := block r s
  match s.to_slave.transfer_in s.inputfd r.input_read r.input_fstat s.io with
  | .error f => .fault f
  | .ok (b, io) =>
    let s := { s with to_slave := b, io := io }
    if s.to_slave.head ≠ s.to_slave.tail
        ∧ (s.to_slave.head > s.to_slave.tail ∨ s.to_slave.tail > SIZEOF_BUF) then
      .fault .overread
    else if s.to_slave.head ≠ s.to_slave.tail
        ∧ strstr escape_sequence s.to_slave.pending ≠ none then
      exec_done quiet s (128 + SIGTERM)
    else
      match s.to_slave.transfer_out ptymaster r.pty_write s.io with
      | .error f => .fault f
      | .ok (b, io) =>
        let s := { s with to_slave := b, io := io }
        match s.from_slave.transfer_in ptymaster r.pty_read r.pty_fstat s.io with
        | .error f => .fault f
        | .ok (b, io) =>
          let s := { s with from_slave := b, io := io }
          match s.from_slave.transfer_out STDOUT_FILENO r.stdout_write s.io with
          | .error f => .fault f
          | .ok (b, io) =>
            let s := { s with from_slave := b, io := io }
            -- check child and timeout
            match check_child_timeout s.timeout s.from_slave.input_closed r.waitpid
                r.got_sigterm r.gettimeofday s.io.errno with
            | .error f => .fault f
            | .ok (exit_status, errno) =>
              let s := { s with io := { s.io with errno := errno } }
              if exit_status ≠ -1 then exec_done quiet s exit_status
              -- if child has not died, and read produced error, report it
              else if s.from_slave.input_closed ∧ s.from_slave.rerrno ≠ EIO then
                exec_done quiet { s with stderr := s.stderr ++ ["read: %s\n".toList] } 125
              else .ok s

/-- The loop of `handle_child` (lines 1660-1682), which ends only in `exit`.  `rounds` are
the answers of the system round by round; when they run out, the result is the fault
`nofuel`. -/
def handle_child (quiet : Bool) (ptymaster : Int) :
    List Round → Supervisor → Outcome Supervisor Unit
  | [], _ => .fault .nofuel
  | r :: rounds, s =>
    match handle_child_round quiet ptymaster r s with
    | .ok s1 => handle_child quiet ptymaster rounds s1
    | .exit n final => .exit n final
    | .fault f => .fault f


/-! ## The invariant of `struct buffer` and the streams of a trace -/

/-- The invariant of a buffer: `head ≤ tail ≤ sizeof(buf)`, and `buf` has its 8192 bytes. -/
def buffer.Inv (self : buffer) : Prop :=
  self.head ≤ self.tail ∧ self.tail ≤ SIZEOF_BUF ∧ self.buf.length = SIZEOF_BUF

/-- The bytes that a recorded call read in. -/
def bytes_in : SupCall → Str
  | .read _ count (.bytes data) => data.take count
  | _ => []

/-- The bytes that a recorded call wrote out. -/
def bytes_out : SupCall → Str
  | .write _ offered (.wrote nw) => offered.take nw
  | _ => []

/-- The bytes that the calls of a trace read in, in their order. -/
def stream_in (calls : List SupCall) : Str := (calls.map bytes_in).flatten

/-- The bytes that the calls of a trace wrote out, in their order. -/
def stream_out (calls : List SupCall) : Str := (calls.map bytes_out).flatten

/-- The time of a `struct timeval` in microseconds. -/
def timeval.micros (t : timeval) : Int := t.tv_sec * 1000000 + t.tv_usec

/-- A `struct timeval` as `gettimeofday` and `timeradd` deliver it: with
`0 ≤ tv_usec < 1000000`. -/
def timeval.Normal (t : timeval) : Prop := 0 ≤ t.tv_usec ∧ t.tv_usec < 1000000

/-- A call of one of the two transfer functions of a buffer, with the answers of the
system. -/
inductive Transfer where
  | transfer_in (from_fd : Int) (sys_read : Nat → ReadAnswer) (sys_fstat : Except Int Bool)
  | transfer_out (to_fd : Int) (sys_write : Str → WriteAnswer)

/-- The system keeps to what was asked: `read` returns at most the count asked for, and
`write` at most the number of bytes offered. -/
def Transfer.Bounded : Transfer → Prop
  | .transfer_in _ sys_read _ => ∀ count data, sys_read count = .bytes data → data.length ≤ count
  | .transfer_out _ sys_write => ∀ offered nw, sys_write offered = .wrote nw → nw ≤ offered.length

/-- A sequence of calls of the transfer functions on one buffer. -/
def buffer.transfers : List Transfer → buffer → SupIO → Except Fault (buffer × SupIO)
  | [], self, io => .ok (self, io)
  | .transfer_in from_fd sys_read sys_fstat :: rest, self, io =>
    match self.transfer_in from_fd sys_read sys_fstat io with
    | .error f => .error f
    | .ok (self, io) => buffer.transfers rest self io
  | .transfer_out to_fd sys_write :: rest, self, io =>
    match self.transfer_out to_fd sys_write io with
    | .error f => .error f
    | .ok (self, io) => buffer.transfers rest self io


/-- A buffer as its constructor leaves it, with zero bytes in `buf`. -/
def fresh_buffer : buffer := buffer.new (List.replicate 8192 '\x00')

/-- A `read` that delivers `hello`, a `write` that takes two bytes, a `read` that delivers
`, world`, and a `write` that takes everything. -/
def demo_transfers : List Transfer :=
  [.transfer_in 0 (fun count => .bytes ("hello".toList.take count)) (.ok false),
   .transfer_out 5 (fun offered => .wrote (min 2 offered.length)),
   .transfer_in 0 (fun count => .bytes (", world".toList.take count)) (.ok false),
   .transfer_out 5 (fun offered => .wrote offered.length)]


/-- A buffer whose bytes `hello` reach the end of `buf`: `head` is 8187 and `tail` 8192. -/
def full_buffer : buffer :=
  { fresh_buffer with
    buf := List.replicate 8187 '\x00' ++ "hello".toList, head := 8187, tail := 8192 }

/-- The supervisor at the start of `handle_child`, with the input on the descriptor 0 and the
deadline at 100 seconds. -/
def sup_start : Supervisor :=
  { inputfd := 0, timeout := ⟨100, 0⟩, to_slave := fresh_buffer, from_slave := fresh_buffer,
    io := ⟨0, []⟩, stdout := [], stderr := [] }

/-- A round in which the input delivers `ab`, the escape sequence, and `cd`; the pty takes
whatever it is offered and delivers `out`; the child runs, and the time is 50 seconds. -/
def escape_round : Round :=
  { block_errno := none,
    input_read := fun count => .bytes ("ab\x1b\x03cd".toList.take count),
    input_fstat := .ok false,
    pty_write := fun offered => .wrote offered.length,
    pty_read := fun count => .bytes ("out".toList.take count),
    pty_fstat := .ok false,
    stdout_write := fun offered => .wrote offered.length,
    waitpid := [.running],
    got_sigterm := false,
    gettimeofday := some ⟨50, 0⟩ }

/-- A round in which the input has nothing (`EAGAIN`), the child writes 200 bytes to the pty
and runs, and the time is 100 seconds and one microsecond. -/
def late_round : Round :=
  { block_errno := none,
    input_read := fun _ => .error EAGAIN,
    input_fstat := .ok false,
    pty_write := fun offered => .wrote offered.length,
    pty_read := fun count => .bytes ((List.replicate 200 'y').take count),
    pty_fstat := .ok false,
    stdout_write := fun offered => .wrote offered.length,
    waitpid := [.running],
    got_sigterm := false,
    gettimeofday := some ⟨100, 1⟩ }

/-! ## `shell_quote` (lines 95-119) and the command of `jailownerinfo::exec` (lines 1345-1350) -/

/-- `isalnum` in the C locale. -/
def isalnum (c : Char) : Bool :=
  (48 ≤ c.toNat && c.toNat ≤ 57) || (65 ≤ c.toNat && c.toNat ≤ 90)
    || (97 ≤ c.toNat && c.toNat ≤ 122)

/-- The test of the loop of `shell_quote` (lines 99-105) on the character `c` at `pos`. -/
def needs_quote (pos : Nat) (c : Char) : Bool :=
  (pos == 0 && c == '~')
    || !(isalnum c || c == '_' || c == '-' || c == '~' || c == '.' || c == '/')

/-- The loop of `shell_quote` (lines 98-112) from `pos` on, where `rest` is what `argument`
holds from `pos` on: the final `quoted` and `last`. -/
def shell_quote_loop (argument : Str) : Str → Nat → Str → Nat → Str × Nat
  | [], _, quoted, last => (quoted, last)
  | c :: rest, pos, quoted, last =>
    if needs_quote pos c then
      let quoted := if quoted = [] then "'".toList else quoted
      if c = '\'' then
        shell_quote_loop argument rest (pos + 1)
          (quoted ++ (argument.drop last).take (pos - last) ++ "'\\''".toList) (pos + 1)
      else shell_quote_loop argument rest (pos + 1) quoted last
    else shell_quote_loop argument rest (pos + 1) quoted last

/-- `shell_quote(argument)` (lines 95-119). -/
def shell_quote (argument : Str) : Str :=
  match shell_quote_loop argument argument 0 [] 0 with
  | (quoted, last) =>
    if quoted = [] then argument
    else quoted ++ argument.drop last ++ "'".toList

/-- The command that `jailownerinfo::exec` hands to the shell behind `-c` (lines 1345-1350),
where `args` are `argv[optind + 2]` to `argv[argc - 1]`; `exec` is called with at least one
of them. -/
def exec_command : List Str → Str
  | [] => []
  | [a] => a
  | a :: rest =>
    rest.foldl (fun command arg => command ++ " ".toList ++ shell_quote arg) (shell_quote a)

/-! ## How a POSIX shell reads a command line into words

This follows the words of claim C29 and not the source: a span between single quotes is
literal, a backslash outside quotes makes the next character literal, and blanks outside
quotes end a word.  A character outside quotes that the shell would treat in another way (an
operator, an expansion, a comment, a double quote, or `~` at the start of a word) is not
read: the result is `none`. -/

/-- Where the reader is: outside quotes, between single quotes, or behind a backslash. -/
inductive ShMode where
  | plain
  | single
  | escaped
  deriving DecidableEq, Repr

/-- The blanks that end a word outside quotes. -/
def sh_blank (c : Char) : Bool := c == ' ' || c == '\t' || c == '\n'

/-- The characters that are not literal outside quotes, besides the blanks, the single quote
and the backslash. -/
def sh_special (c : Char) : Bool :=
  "|&;<>()$`\"*?[#=%!\x7b\x7d".toList.contains c

/-- The word under construction with one more character. -/
def sh_push (cur : Option Str) (c : Char) : Option Str := some (cur.getD [] ++ [c])

/-- The words of a command line as a POSIX shell reads it: `cur` is the word under
construction, `none` between words, and `acc` are the words read. -/
def posix_read : Str → ShMode → Option Str → List Str → Option (List Str)
  | [], .plain, cur, acc => some (acc ++ cur.toList)
  | [], .single, _, _ => none
  | [], .escaped, _, _ => none
  | c :: rest, .single, cur, acc =>
    if c = '\'' then posix_read rest .plain cur acc
    else posix_read rest .single (sh_push cur c) acc
  | c :: rest, .escaped, cur, acc => posix_read rest .plain (sh_push cur c) acc
  | c :: rest, .plain, cur, acc =>
    if sh_blank c then posix_read rest .plain none (acc ++ cur.toList)
    else if c = '\'' then posix_read rest .single (some (cur.getD [])) acc
    else if c = '\\' then posix_read rest .escaped (some (cur.getD [])) acc
    else if sh_special c ∨ (c = '~' ∧ cur = none) then none
    else posix_read rest .plain (sh_push cur c) acc

/-- The words of a command line as a POSIX shell reads it. -/
def posix_words (line : Str) : Option (List Str) := posix_read line .plain none []

/-- The text that stands for `a` between single quotes: every single quote of `a` is replaced
by the four characters that end the quoted span, give an escaped quote, and start a new
span. -/
def sq_escape (a : Str) : Str :=
  (a.map (fun c => if c = '\'' then "'\\''".toList else [c])).flatten

/-! ## The options of a mount as a list of tokens

These definitions follow the words of claim C27 and not the source. -/

/-- The recognized options with their flag bits. -/
def mount_flags : List (Str × Nat) :=
  [("nosuid".toList, 2), ("nodev".toList, 4), ("noexec".toList, 8), ("ro".toList, 1),
   ("rw".toList, 0), ("noatime".toList, 1024), ("nodiratime".toList, 2048),
   ("relatime".toList, 2097152), ("strictatime".toList, 16777216)]

/-- The tokens joined by commas. -/
def join_commas : List Str → Str
  | [] => []
  | [t] => t
  | t :: ts => t ++ ',' :: join_commas ts

/-- The tokens, each behind a comma, and one more comma: the buffer `options`. -/
def enc_options (tokens : List Str) : Str := (tokens.map (fun t => ',' :: t)).flatten ++ [',']

/-- Where the token `name` stands first in the buffer `options` of the tokens. -/
def token_pos (name : Str) : List Str → Option Nat
  | [] => none
  | t :: ts => if t = name then some 0 else (token_pos name ts).map (fun p => p + (t.length + 1))


/-- The loop over the recognized options on the tokens: of each option in turn the first
token is taken out, and its flag is set when there was one. -/
def flags_fold : List (Str × Nat) → List Str → Nat → List Str × Nat
  | [], ts, o => (ts, o)
  | f :: fs, ts, o => flags_fold fs (ts.erase f.1) (if f.1 ∈ ts then o ||| f.2 else o)

/-! ## The rules of a policy file, as the loop of `parse_permfile` reads them -/

/-- The words `word1` and `word2` of every round of the loop `while (pos < str.length())` of
`parse_permfile` (lines 1046-1052), from the suffix of `str` at `pos`, in the order of the
rounds. -/
def permfile_rounds : Nat → Str → List (Str × Str)
  | 0, _ => []
  | _ + 1, [] => []
  | fuel + 1, c :: r =>
    let w1 := take_word (c :: r)
    let w2 := take_word w1.2
    let s3 := skip_words w2.2.length w2.2
    (w1.1, w2.1) :: permfile_rounds fuel (s3.dropWhile (fun c => c == '\n'))

/-- The first word of a rule that permits (line 1081). -/
def is_enable_word (word1 : Str) : Bool :=
  word1 == "enablejail".toList || word1 == "allowjail".toList

/-- The first word of a rule that forbids (line 1074). -/
def is_disable_word (word1 : Str) : Bool :=
  word1 == "disablejail".toList || word1 == "nojail".toList

/-- The rules of a policy file with the content `str`: the rounds whose first word is one of
the four words that `parse_permfile` knows; every other line is skipped.  A rule whose second
word is empty is a rule without a pattern. -/
def permfile_rules (str : Str) : List (Str × Str) :=
  (permfile_rounds (str.length + 1) str).filter
    (fun r => is_enable_word r.1 || is_disable_word r.1)

/-- What a rule without a pattern does to the variables of `parse_permfile` (lines 1075-1076
and 1082-1083); a line that is not a rule does nothing. -/
def patternless_effect (v : PermVars) (r : Str × Str) : PermVars :=
  if is_disable_word r.1 then { v with allowed_globally := 0, allowed_locally := 0 }
  else if is_enable_word r.1 then { v with allowed_globally := 1 }
  else v

/-! ## The calls of `handle_copy` where every call succeeds -/

/-- Every call that makes or changes something succeeds, whatever was issued before. -/
def CallsSucceed (env : JailEnv) : Prop :=
  (∀ ops pathname mode, env.mkdir ops pathname mode = none)
    ∧ (∀ ops path mode, env.chmod ops path mode = none)
    ∧ (∀ ops path owner group, env.lchown ops path owner group = none)
    ∧ (∀ ops path mode dev, env.mknod ops path mode dev = none)
    ∧ (∀ ops ms dst, env.mount ops ms dst = none)

/-- Whether `handle_mount` finds the slot `ms` mounted at `dst` already (lines 433-438):
`mount_table` holds a slot for `dst` with the same name, type, flags and data. -/
def already_mounted (table : List (Str × mountslot)) (ms : mountslot) (dst : Str) : Bool :=
  match table.lookup dst with
  | some it =>
    it.fsname == ms.fsname && it.type == ms.type && it.opts == ms.opts && it.data == ms.data
  | none => false

/-- The call that `handle_mount` issues for the directory `src` copied to `dst` (lines
665-670 and 432-450): a `mount` when `mount_table` holds an allowed slot for `src` that is not
mounted at `dst` already, and none otherwise. -/
def mount_calls (table : List (Str × mountslot)) (src dst : Str) : List Op :=
  match table.lookup src with
  | some ms =>
    if ms.allowed && !already_mounted table ms dst then
      [Op.mount ms.fsname dst ms.type ms.opts ms.data]
    else []
  | none => []

/-- The calls that the end of `handle_copy` issues (lines 658-672): `chmod` when the mode of
what was made differs from that of the source, `lchown` when its owner or group does, and for
a directory the `mount` of `mount_calls`. -/
def finish_calls (table : List (Str × mountslot)) (src dst : Str) (ds : DsVals)
    (ss : FileStat) : List Op :=
  (if ds.st_mode ≠ ss.st_mode then [Op.chmod dst ss.st_mode] else [])
    ++ (if ds.st_uid ≠ ss.st_uid ∨ ds.st_gid ≠ ss.st_gid then
        [Op.lchown dst ss.st_uid ss.st_gid] else [])
    ++ (if S_ISDIR ss.st_mode then mount_calls table src dst else [])

/-- The calls that `handle_copy` issues for a directory `src` with the status `ss` that it
makes at `dst`: `mkdir` with the permission bits of the source, and the calls of its end. -/
def dir_copy_calls (table : List (Str × mountslot)) (src dst : Str) (ss : FileStat) :
    List Op :=
  Op.mkdir dst (ss.st_mode &&& (S_ISUID ||| S_ISGID ||| S_IRWXU ||| S_IRWXG ||| S_IRWXO))
    :: finish_calls table src dst
        ⟨(ss.st_mode &&& (S_ISUID ||| S_ISGID ||| S_IRWXU ||| S_IRWXG ||| S_IRWXO)) ||| S_IFDIR,
          ROOT, ROOT⟩ ss

/-- The calls that `handle_copy` issues for a device `src` with the status `ss` that it makes
at `dst`: `mknod` with the type and permission bits and the device number of the source, and
the calls of its end. -/
def node_copy_calls (table : List (Str × mountslot)) (src dst : Str) (ss : FileStat) :
    List Op :=
  Op.mknod dst (ss.st_mode &&& 0o176777) ss.st_rdev
    :: finish_calls table src dst ⟨ss.st_mode &&& 0o176777, ROOT, ROOT⟩
        { ss with st_mode := ss.st_mode &&& 0o176777 }

/-- The calls that put a file, or a link to one, into the jail: `link`, the `cp -p` of
`x_cp_p`, and `symlink`. -/
def Op.puts_file : Op → Bool
  | .link _ _ => true
  | .cp_p _ _ => true
  | .symlink _ _ => true
  | _ => false

/-- The state in which `main`, run by the caller with uid and gid 33 for `init`, has made the
home directory `/home/student` in the jail `/srv/jails/a`. -/
def home_made : JailState :=
  { JailState.start with
    ops := [Op.mkdir "/srv/jails/a//home".toList 0o755,
            Op.mkdir "/srv/jails/a//home/student".toList 0o700,
            Op.lchown "/srv/jails/a//home/student".toList 33 33] }

/-! ## The rounds of the loop of the constructor -/

/-- The states in which the rounds of the loop `while (last_pos != dir.length())` of the
constructor start (line 914), in their order: the members, as the policy files read so far
have left them, and the local variables.  The round that starts in `(j, w)` visits the
directory `dir.substr(0, next_pos)`, where `next_pos` is `next_pos_of j.dir w.last_pos`. -/
def walk_rounds (sys : Sys) (action : jailaction) (doforce : Bool) :
    Nat → jaildirinfo → WalkVars → List (jaildirinfo × WalkVars)
  | 0, _, _ => []
  | fuel + 1, j, w =>
    if w.last_pos = j.dir.length then []
    else
      (j, w) :: (match walk_step sys action doforce j w with
        | .ok (j1, w1) => walk_rounds sys action doforce fuel j1 w1
        | .exit _ _ => []
        | .fault _ => [])

/-- The states in which the rounds of the loop of the constructor
`jaildirinfo::jaildirinfo(str, action, doforce)` start: what precedes the loop is as in
`jaildirinfo.construct` (lines 895-912), and there are no rounds when the constructor ends
before its loop. -/
def jaildirinfo.construct_rounds (sys : Sys) (str : Str) (action : jailaction)
    (doforce : Bool) : List (jaildirinfo × WalkVars) :=
  let blank (d : Str) : jaildirinfo :=
    { dir := d, parent := [], parentfd := none, component := [], allowed := false,
      permdir := [], dev := none, alternate_permfile := [], stderr := [], syscalls := [],
      permdirs := [] }
  match absolute sys.pwd str with
  | .exit _ _ => []
  | .fault _ => []
  | .ok a =>
    match check_filename a with
    | .error _ => []
    | .ok dir0 =>
      if dir0 = [] ∨ dir0 = ['/'] ∨ dir0.head? ≠ some '/' then []
      else
        let j := blank (path_endslash dir0)
        let afterEtc : Outcome jaildirinfo jaildirinfo :=
          match sys.etc_conf with
          | some f => parse_permfile sys j f "/etc/".toList "pa-jail.conf".toList false
          | none => .ok j
        match afterEtc with
        | .exit _ _ => []
        | .fault _ => []
        | .ok j => walk_rounds sys action doforce (j.dir.length + 1) j ⟨0, none, false⟩

/-- A system in which `/etc/pa-jail.conf` permits jails under `/srv/`, the root-owned
directory `/srv` holds a policy file that permits them under `/srv/u/jails/`, and `/srv/u` is
owned by uid 1000. -/
def deeper_sys : Sys :=
  { plain_sys with
    etc_conf := some (root_file "enablejail /srv/\n".toList),
    on_fstat := fun d => if d = "/srv/u".toList then .ok user_dir else .ok root_dir,
    on_permfile := fun d n =>
      if d = "/srv".toList ∧ n = "pa-jail.conf".toList then
        .ok (root_file "enablejail /srv/u/jails/\n".toList)
      else .error .ENOENT }

/-! # Theorems -/

theorem exec_go_execve (self : jailownerinfo) (dryrun : Bool) (jaildir : Str) (es : ExecSys)
    (p : Proc) (hrun : p.ending = .running)
    (hp : ∀ path u g ok, Call.execve path u g ok ∉ p.calls)
    (path : Str) (u g : Nat) (ok : Bool)
    (h : Call.execve path u g ok ∈ (self.exec_go dryrun jaildir es p).calls) :
    dryrun = false ∧ path = self.owner_sh ∧ u = self.owner ∧ g = self.group ∧
      (self.exec_go dryrun jaildir es p).calls = p.calls ++ exec_go_calls self jaildir ok := by
  obtain ⟨cl, b1, b2, b3, b4, b5, b6, b7, b8, b9, b10, b11, fk, b12, b13, b14⟩ := es
  obtain ⟨e0, g0, calls0, end0⟩ := p
  simp only at hrun hp
  subst hrun
  cases dryrun
  swap
  · simp [jailownerinfo.exec_go, Proc.andThen, Proc.call, Proc.setgid, Proc.setuid, hp] at h
  cases b1
  · simp [jailownerinfo.exec_go, Proc.andThen, Proc.call, Proc.setgid, Proc.setuid, hp] at h
  cases b2
  · simp [jailownerinfo.exec_go, Proc.andThen, Proc.call, Proc.setgid, Proc.setuid, hp] at h
  cases b3
  · simp [jailownerinfo.exec_go, Proc.andThen, Proc.call, Proc.setgid, Proc.setuid, hp] at h
  cases b4
  · simp [jailownerinfo.exec_go, Proc.andThen, Proc.call, Proc.setgid, Proc.setuid, hp] at h
  cases b5
  · simp [jailownerinfo.exec_go, Proc.andThen, Proc.call, Proc.setgid, Proc.setuid, hp] at h
  cases b6
  · simp [jailownerinfo.exec_go, Proc.andThen, Proc.call, Proc.setgid, Proc.setuid, hp] at h
  cases b7
  · simp [jailownerinfo.exec_go, Proc.andThen, Proc.call, Proc.setgid, Proc.setuid, hp] at h
  cases b8
  · simp [jailownerinfo.exec_go, Proc.andThen, Proc.call, Proc.setgid, Proc.setuid, hp] at h
  cases b9
  · simp [jailownerinfo.exec_go, Proc.andThen, Proc.call, Proc.setgid, Proc.setuid, hp] at h
  cases b10
  · simp [jailownerinfo.exec_go, Proc.andThen, Proc.call, Proc.setgid, Proc.setuid, hp] at h
  cases b11
  · simp [jailownerinfo.exec_go, Proc.andThen, Proc.call, Proc.setgid, Proc.setuid, hp] at h
  rcases fk with _ | _ | _
  · simp [jailownerinfo.exec_go, Proc.andThen, Proc.call, Proc.setgid, Proc.setuid, hp] at h
  · simp [jailownerinfo.exec_go, Proc.andThen, Proc.call, Proc.setgid, Proc.setuid, hp] at h
  cases b12
  · simp [jailownerinfo.exec_go, Proc.andThen, Proc.call, Proc.setgid, Proc.setuid, hp] at h
  cases b13
  · simp [jailownerinfo.exec_go, Proc.andThen, Proc.call, Proc.setgid, Proc.setuid, hp] at h
  cases b14 <;>
  · simp [jailownerinfo.exec_go, Proc.andThen, Proc.call, Proc.setgid, Proc.setuid, hp] at h
    simp [jailownerinfo.exec_go, Proc.andThen, Proc.call, Proc.setgid, Proc.setuid,
      exec_go_calls, h]

theorem init_ok (getpwnam : Str → Option passwd) (check_shell : Str → Bool)
    (self self1 : jailownerinfo) (owner_name : Str)
    (h : self.init getpwnam check_shell owner_name = .ok self1) :
    ∃ pw, getpwnam owner_name = some pw ∧ self1.owner = pw.pw_uid ∧ self1.group = pw.pw_gid
      ∧ pw.pw_uid ≠ ROOT := by
  unfold jailownerinfo.init at h
  split at h
  · simp at h
  · cases hpw : getpwnam owner_name with
    | none => simp [hpw] at h
    | some pw =>
      refine ⟨pw, rfl, ?_⟩
      simp only [hpw] at h
      split at h
      · simp at h
      · split at h
        · split at h
          · simp at h
          · rename_i hne
            simp only [Except.ok.injEq] at h
            subst h
            exact ⟨rfl, rfl, hne⟩
        · simp at h

theorem exec_execve (self : jailownerinfo) (dryrun : Bool) (jaildir : Str) (es : ExecSys)
    (p : Proc) (hrun : p.ending = .running)
    (hp : ∀ path u g ok, Call.execve path u g ok ∉ p.calls)
    (path : Str) (u g : Nat) (ok : Bool)
    (h : Call.execve path u g ok ∈ (self.exec dryrun jaildir es p).calls) :
    dryrun = false ∧ path = self.owner_sh ∧ u = self.owner ∧ g = self.group ∧
      (self.exec dryrun jaildir es p).calls
        = p.calls ++ Call.clone true :: exec_go_calls self jaildir ok := by
  unfold jailownerinfo.exec at h ⊢
  cases hcl : es.clone
  · simp [Proc.andThen, Proc.call, hcl, hp] at h
  · have hrun1 : (p.call (.clone true) true 1).ending = .running := by
      simp [Proc.call, hrun]
    have hp1 : ∀ path u g ok, Call.execve path u g ok ∉ (p.call (.clone true) true 1).calls := by
      intro path u g ok
      simp [Proc.call, hp]
    simp only [hcl, Proc.andThen, hrun1, if_true] at h ⊢
    obtain ⟨h1, h2, h3, h4, h5⟩ := exec_go_execve self dryrun jaildir es _ hrun1 hp1 path u g ok h
    refine ⟨h1, h2, h3, h4, ?_⟩
    rw [h5]
    simp [Proc.call]

/-- Claim C1.  On every run of `main` in which `execve` of the shell is called, dry-run is
off, the uid `u` the process runs under at that call is the uid of the password entry of the
jail user and is not 0, and the calls made before it include a successful `setgid` to that
entry's gid directly followed by a successful `setuid` to `u`: a failed `setgid` or `setuid`
ends the process before `execve`. -/
theorem execve_only_after_privilege_drop (c : CmdLine) (ms : MainSys) (es : ExecSys) (e g : Nat)
    (path : Str) (u gid : Nat) (ok : Bool)
    (h : Call.execve path u gid ok ∈ (main c ms es (Proc.start e g)).calls) :
    c.dryrun = false ∧ u ≠ ROOT
      ∧ (∃ pw, ms.getpwnam (c.argv.getD (c.optind + 1) []) = some pw
            ∧ pw.pw_uid = u ∧ pw.pw_gid = gid ∧ pw.pw_uid ≠ 0)
      ∧ ∃ pre mid, (main c ms es (Proc.start e g)).calls
          = pre ++ Call.setgid gid true :: Call.setuid u true :: mid
              ++ [Call.execve path u gid ok] := by
  unfold main at h ⊢
  cases ha : action_of c.subcommand with
  | none => simp [ha, Proc.start] at h
  | some action0 =>
    simp only [ha] at h ⊢
    generalize hact : (if action0 = jailaction.do_run ∧ c.optind + 2 ≥ c.argc
      then jailaction.do_init else action0) = action at h ⊢
    by_cases hbad : bad_arguments c action = true
    · simp [hbad, Proc.start] at h
    simp only [hbad] at h ⊢
    generalize hju : (if (action = jailaction.do_init ∨ action = jailaction.do_run)
        ∧ c.optind + 1 < c.argc then
          jailownerinfo.new.init ms.getpwnam ms.check_shell (c.argv.getD (c.optind + 1) [])
        else Except.ok jailownerinfo.new) = ju at h ⊢
    simp only [Bool.false_eq_true, if_false] at h ⊢
    cases ju with
    | error msg => simp [Proc.start] at h
    | ok jailuser =>
      simp only at h ⊢
      have hnoexec : ∀ (q : Proc), q.calls = [] ∨ q.calls = [Call.setgid ROOT true, Call.setuid ROOT true] →
          ∀ path u g ok, Call.execve path u g ok ∉ q.calls := by
        intro q hq path u g ok
        rcases hq with hq | hq <;> simp [hq]
      -- the action is `do_run` whenever `exec` is reached
      have hrun : c.optind + 2 < c.argc → action ≠ .do_mv → action ≠ .do_rm →
          ∃ pw, ms.getpwnam (c.argv.getD (c.optind + 1) []) = some pw
            ∧ jailuser.owner = pw.pw_uid ∧ jailuser.group = pw.pw_gid ∧ pw.pw_uid ≠ ROOT := by
        intro hlt hmv hrm
        have hact2 : action = .do_run := by
          cases action with
          | do_run => rfl
          | do_mv => exact absurd rfl hmv
          | do_rm => exact absurd rfl hrm
          | do_init =>
            exfalso
            apply hbad
            simp [bad_arguments]
            omega
          | do_start =>
            exfalso
            unfold action_of at ha
            split at hact
            · cases hact
            · subst hact
              split at ha
              · cases ha
              · split at ha
                · cases ha
                · split at ha
                  · cases ha
                  · split at ha
                    · cases ha
                    · cases ha
        subst hact2
        have hlt1 : c.optind + 1 < c.argc := by omega
        simp only [hlt1, and_true, or_true, if_true] at hju
        exact init_ok _ _ _ _ _ hju
      cases hd : c.dryrun
      · -- dry-run off
        simp only [hd, Bool.not_false, if_true] at h ⊢
        cases h1 : ms.opens_ok
        · simp [h1, Proc.start] at h
        cases h2 : ms.setgid_root
        · simp [h1, h2, Proc.start, Proc.andThen, Proc.setgid, Proc.call] at h
        cases h3 : ms.setuid_root
        · simp [h1, h2, h3, Proc.start, Proc.andThen, Proc.setgid, Proc.setuid, Proc.call] at h
        cases h4 : ms.jaildir.isNone
        swap
        · simp [h1, h2, h3, h4, Proc.start, Proc.andThen, Proc.setgid, Proc.setuid, Proc.call] at h
        by_cases hmv : action = .do_mv
        · simp [h1, h2, h3, h4, hmv, Proc.start, Proc.andThen, Proc.setgid, Proc.setuid, Proc.call] at h
        by_cases hrm : action = .do_rm
        · simp [h1, h2, h3, h4, hmv, hrm, Proc.start, Proc.andThen, Proc.setgid, Proc.setuid, Proc.call] at h
        cases h5 : ms.populate_ok
        · simp [h1, h2, h3, h4, h5, hmv, hrm, Proc.start, Proc.andThen, Proc.setgid, Proc.setuid, Proc.call] at h
        by_cases hlt : c.optind + 2 < c.argc
        swap
        · simp [h1, h2, h3, h4, h5, hmv, hrm, hlt, Proc.start, Proc.andThen, Proc.setgid, Proc.setuid, Proc.call] at h
        obtain ⟨pw, hpw, ho, hg, hne⟩ := hrun hlt hmv hrm
        simp only [h1, h2, h3, h4, h5, hmv, hrm, hlt, Proc.start, Proc.andThen, Proc.setgid, Proc.setuid,
          Proc.call, Bool.not_true, Bool.false_eq_true, if_false, if_true] at h ⊢
        obtain ⟨-, e2, e3, e4, e5⟩ := exec_execve jailuser false _ es _ rfl
          (hnoexec _ (Or.inr (by simp))) path u gid ok h
        refine ⟨trivial, ?_, ⟨pw, hpw, ?_, ?_, hne⟩, ?_⟩
        · rw [e3, ho]; exact hne
        · rw [e3, ho]
        · rw [e4, hg]
        · rw [e5]
          refine ⟨[Call.setgid ROOT true, Call.setuid ROOT true, Call.clone true,
            Call.chdir (if c.dokill then path_endslash (ms.jaildir.getD [])
              else ms.jaildir.getD []) true, Call.chroot true],
            [Call.posix_openpt true, Call.grantpt true, Call.unlockpt true, Call.ptsname true,
             Call.chdir jailuser.owner_home true, Call.open_shell jailuser.owner_sh true,
             Call.pipe true, Call.fork true, Call.setsid true, Call.open_slave true], ?_⟩
          simp [exec_go_calls, e2, e3, e4]
      · -- dry-run on: `execve` is never reached
        exfalso
        simp only [hd, Bool.not_true, Bool.false_eq_true, if_false] at h
        cases h1 : ms.opens_ok
        · simp [h1, Proc.start] at h
        cases h4 : ms.jaildir.isNone
        swap
        · simp [h1, h4, Proc.start, Proc.andThen] at h
        by_cases hmv : action = .do_mv
        · simp [h1, h4, hmv, Proc.start, Proc.andThen] at h
        by_cases hrm : action = .do_rm
        · simp [h1, h4, hmv, hrm, Proc.start, Proc.andThen] at h
        cases h5 : ms.populate_ok
        · simp [h1, h4, h5, hmv, hrm, Proc.start, Proc.andThen] at h
        by_cases hlt : c.optind + 2 < c.argc
        swap
        · simp [h1, h4, h5, hmv, hrm, hlt, Proc.start, Proc.andThen] at h
        simp only [h1, h4, h5, hmv, hrm, hlt, Proc.start, Proc.andThen, Bool.not_true,
          Bool.false_eq_true, if_false, if_true] at h
        have := exec_execve jailuser true _ es _ rfl (hnoexec _ (Or.inl rfl)) path u gid ok h
        simp at this

/-- Claim C1, exercised: `pa-jail run /srv/jails/a student /bin/echo` with every call
succeeding reaches `execve` of `/bin/bash` as uid 1000. -/
theorem execve_only_after_privilege_drop_witness :
    Call.execve "/bin/bash".toList 1000 1000 true
        ∈ (main run_cmdline student_db all_ok (Proc.start 0 0)).calls
      ∧ (run_cmdline.dryrun = false ∧ 1000 ≠ ROOT
        ∧ (∃ pw, student_db.getpwnam (run_cmdline.argv.getD (run_cmdline.optind + 1) [])
              = some pw ∧ pw.pw_uid = 1000 ∧ pw.pw_gid = 1000 ∧ pw.pw_uid ≠ 0)
        ∧ ∃ pre mid, (main run_cmdline student_db all_ok (Proc.start 0 0)).calls
            = pre ++ Call.setgid 1000 true :: Call.setuid 1000 true :: mid
                ++ [Call.execve "/bin/bash".toList 1000 1000 true]) :=
  ⟨by decide,
   execve_only_after_privilege_drop run_cmdline student_db all_ok 0 0 "/bin/bash".toList
     1000 1000 true (by decide)⟩

theorem not_writable_only_by_root (st : Stat)
    (h : st.st_uid ≠ 0 ∨ (st.st_mode &&& S_IWOTH) ≠ 0
          ∨ ((st.st_mode &&& S_IWGRP) ≠ 0 ∧ st.st_gid ≠ 0)) :
    writable_only_by_root st = false := by
  simp only [writable_only_by_root, ROOT]
  rcases h with h | h | ⟨h1, h2⟩
  · simp [h]
  · simp [h]
  · simp [h1, h2]

/-- Claim C7.  `parse_permfile` on a policy file that is not writable only by root (its owner
is not uid 0, or it is world-writable, or it is group-writable with a gid other than 0),
whatever the file contains: when `allowed` is already set it returns, and nothing but the
record of `stderr` changes (the line "Writable by non-root, ignoring" is printed in verbose
mode); when `allowed` is not set it ends the process with `exit(1)`. -/
theorem parse_permfile_not_only_root (sys : Sys) (j : jaildirinfo) (f : PermFile) (st : Stat)
    (thisdir permfilename : Str) (islocal : Bool) (hst : f.st = .ok st)
    (h : st.st_uid ≠ 0 ∨ (st.st_mode &&& S_IWOTH) ≠ 0
          ∨ ((st.st_mode &&& S_IWGRP) ≠ 0 ∧ st.st_gid ≠ 0)) :
    (j.allowed = true →
      parse_permfile sys j f thisdir permfilename islocal
        = .ok { j with stderr := j.stderr ++
            (if sys.verbose then [path_endslash thisdir ++ permfilename
              ++ ": Writable by non-root, ignoring\n".toList] else []) })
    ∧ (j.allowed = false →
      parse_permfile sys j f thisdir permfilename islocal
        = .exit 1 { j with stderr := j.stderr ++ [path_endslash thisdir ++ permfilename
              ++ ": Writable by non-root\n".toList] }) := by
  have hw := not_writable_only_by_root st h
  cases j
  constructor
  · intro ha
    simp only at ha
    subst ha
    cases hv : sys.verbose <;> simp [parse_permfile, hst, hw, hv]
  · intro ha
    simp only at ha
    subst ha
    simp [parse_permfile, hst, hw]


/-- Claim C7, exercised on a policy file owned by uid 1000 that holds `disablejail`, read
after a permit under `/srv/`. -/
theorem parse_permfile_not_only_root_witness :
    ((1000 : Nat) ≠ 0 ∨ ((0o100644 : Nat) &&& S_IWOTH) ≠ 0
        ∨ (((0o100644 : Nat) &&& S_IWGRP) ≠ 0 ∧ (1000 : Nat) ≠ 0))
    ∧ ((permitted "/srv/jails/a/".toList "/srv/".toList).allowed = true →
        parse_permfile plain_sys (permitted "/srv/jails/a/".toList "/srv/".toList)
            (user_file "disablejail\n".toList) "/srv/jails".toList "pa-jail.conf".toList true
          = .ok { permitted "/srv/jails/a/".toList "/srv/".toList with
              stderr := (permitted "/srv/jails/a/".toList "/srv/".toList).stderr ++
                (if plain_sys.verbose then [path_endslash "/srv/jails".toList
                  ++ "pa-jail.conf".toList ++ ": Writable by non-root, ignoring\n".toList]
                 else []) })
    ∧ ((permitted "/srv/jails/a/".toList "/srv/".toList).allowed = false →
        parse_permfile plain_sys (permitted "/srv/jails/a/".toList "/srv/".toList)
            (user_file "disablejail\n".toList) "/srv/jails".toList "pa-jail.conf".toList true
          = .exit 1 { permitted "/srv/jails/a/".toList "/srv/".toList with
              stderr := (permitted "/srv/jails/a/".toList "/srv/".toList).stderr ++
                [path_endslash "/srv/jails".toList ++ "pa-jail.conf".toList
                  ++ ": Writable by non-root\n".toList] }) :=
  ⟨by decide,
   parse_permfile_not_only_root plain_sys (permitted "/srv/jails/a/".toList "/srv/".toList)
     (user_file "disablejail\n".toList) ⟨0o100644, 1000, 1000, 1⟩ "/srv/jails".toList
     "pa-jail.conf".toList true rfl (by decide)⟩

/-- Claim C6, refuted as stated: a root-owned `/etc/pa-jail.conf` whose only rule is a
pattern-less `enablejail` leaves `allowed` unset, and with no other policy file the
construction ends with `exit(1)` and the line "No `pa-jail.conf` enables jails here." -/
theorem etc_enablejail_not_honored :
    parse_permfile plain_sys (fresh "/srv/jails/a/".toList) (root_file "enablejail\n".toList)
        "/etc/".toList "pa-jail.conf".toList false
      = .ok (fresh "/srv/jails/a/".toList)
    ∧ (fresh "/srv/jails/a/".toList).allowed = false
    ∧ (jaildirinfo.construct (etc_sys "enablejail\n".toList) "/srv/jails/a".toList
          .do_init false).status = some 1
    ∧ (jaildirinfo.construct (etc_sys "enablejail\n".toList) "/srv/jails/a".toList
          .do_init false).final.map (fun j => (j.allowed, j.stderr))
        = some (false, ["/srv/jails/a/: No `pa-jail.conf` enables jails here.\n".toList]) := by
  decide

/-- A root-owned local policy file whose only line is a pattern-less `disablejail` ends the
process with `exit(1)` whatever was permitted before; the line printed is "Jails are disabled
under " followed by the empty `allowed_permdir`, because the rule sets `allowed_locally` to 0
as well and that is tested first. -/
theorem local_disablejail_exits (sys : Sys) (j : jaildirinfo) (f : PermFile) (st : Stat)
    (thisdir permfilename : Str) (hst : f.st = .ok st)
    (hroot : writable_only_by_root st = true) (hd : f.data = "disablejail\n".toList) :
    parse_permfile sys j f thisdir permfilename true
      = .exit 1 { j with stderr := j.stderr ++ [path_endslash thisdir ++ permfilename ++
            ": Jails are disabled under \n".toList] } := by
  have hp : parse_lines sys.fnmatch j.dir (path_endslash thisdir) permfilename
      ((List.take PERMBUF "disablejail\n".toList).length + 1)
      ⟨-1, -1, [], j.alternate_permfile⟩ (List.take PERMBUF "disablejail\n".toList)
      = some ⟨0, 0, [], j.alternate_permfile⟩ := rfl
  simp only [parse_permfile, hst, hroot, hd, hp]
  simp

/-- Claim C5, evaluated on the scenario of the specification: `init /srv/jails/b` with a
root-owned `/srv/jails/pa-jail.conf` that holds only `disablejail`, after a permit from
`/etc/pa-jail.conf`.  The process ends with `exit(1)`; no call is made on `/srv/jails/b` (it
is neither opened nor created); but the line printed is "Jails are disabled under ", not
"Jails are disabled here". -/
theorem local_disablejail_scenario :
    (jaildirinfo.construct denial_sys "/srv/jails/b".toList .do_init false).status = some 1
    ∧ (jaildirinfo.construct denial_sys "/srv/jails/b".toList .do_init false).final.map
        (fun j => j.stderr)
        = some ["/srv/jails/pa-jail.conf: Jails are disabled under \n".toList]
    ∧ (jaildirinfo.construct denial_sys "/srv/jails/b".toList .do_init false).final.map
        (fun j => j.stderr)
        ≠ some ["/srv/jails/pa-jail.conf: Jails are disabled here\n".toList]
    ∧ (jaildirinfo.construct denial_sys "/srv/jails/b".toList .do_init false).final.map
        (fun j => j.syscalls)
        = some [.openat "/".toList, .fstat "/".toList,
           .openat "/srv".toList, .fstat "/srv".toList,
           .open_permfile "/srv".toList "pa-jail.conf".toList,
           .open_permfile "/srv".toList "JAIL61".toList,
           .openat "/srv/jails".toList, .fstat "/srv/jails".toList,
           .open_permfile "/srv/jails".toList "pa-jail.conf".toList] := by
  decide

/-! ## The permission directory is a prefix of the jail directory -/

theorem path_endslash_ne_nil (p : Str) : path_endslash p ≠ [] := by
  unfold path_endslash
  split
  · simp
  · rename_i h
    intro hp
    exact h (Or.inl hp)

theorem path_endslash_getLast (p : Str) : (path_endslash p).getLast? = some '/' := by
  unfold path_endslash
  split
  · simp
  · rename_i h
    by_contra hne
    exact h (Or.inr hne)

theorem superdir_of_isPrefix (n : Nat) (dir : Str) : superdir_of n dir <+: dir := by
  induction dir generalizing n with
  | nil => cases n <;> simp [superdir_of]
  | cons c rest ih =>
    cases n with
    | zero => simp [superdir_of]
    | succ n =>
      simp only [superdir_of]
      split
      · exact List.cons_prefix_cons.mpr ⟨rfl, ih n⟩
      · exact List.cons_prefix_cons.mpr ⟨rfl, ih (n + 1)⟩

theorem superdir_of_ends (n : Nat) (dir : Str) (hn : 0 < n) (hd : dir.getLast? = some '/') :
    ∃ body, superdir_of n dir = body ++ ['/'] := by
  induction dir generalizing n with
  | nil => simp at hd
  | cons c rest ih =>
    obtain ⟨m, rfl⟩ : ∃ m, n = m + 1 := ⟨n - 1, by omega⟩
    simp only [superdir_of]
    cases rest with
    | nil =>
      have hc : c = '/' := by simpa using hd
      subst hc
      cases m <;> exact ⟨[], by simp [superdir_of]⟩
    | cons d rest1 =>
      have hd1 : (d :: rest1).getLast? = some '/' := by
        simpa [List.getLast?_cons_cons] using hd
      by_cases hc : c = '/'
      · subst hc
        cases m with
        | zero => exact ⟨[], by simp [superdir_of]⟩
        | succ m =>
          obtain ⟨body, hb⟩ := ih (m + 1) (by omega) hd1
          exact ⟨'/' :: body, by simp [hb]⟩
      · obtain ⟨body, hb⟩ := ih (m + 1) (by omega) hd1
        exact ⟨c :: body, by simp [hc, hb]⟩

theorem wdir_of_getLast (thisdir word2 : Str) :
    (wdir_of thisdir word2).getLast? = some '/' := by
  unfold wdir_of
  simp only
  generalize (if strip_dotslash word2 = [] ∨ strip_dotslash word2 = ['.'] then thisdir
    else strip_dotslash word2) = x
  split
  · rw [List.getLast?_append_of_ne_nil _ (path_endslash_ne_nil _)]
    exact path_endslash_getLast _
  · exact path_endslash_getLast _

theorem slcount_of_wdir_pos (thisdir word2 : Str) :
    0 < slcount_of (wdir_of thisdir word2) := by
  unfold slcount_of
  rw [List.count_pos_iff]
  exact List.mem_of_getLast?_eq_some (wdir_of_getLast thisdir word2)

theorem superdir_ok (dir thisdir word2 : Str) (hdir : DirOk dir) :
    PermdirOk dir (superdir_of (slcount_of (wdir_of thisdir word2)) dir) := by
  obtain ⟨body, hb⟩ := superdir_of_ends _ dir (slcount_of_wdir_pos thisdir word2) hdir.2
  refine ⟨?_, ?_, superdir_of_isPrefix _ _⟩
  · rw [hb]; simp
  · rw [hb]; simp

theorem parse_line_inv (fnmatch : Str → Str → Bool) (dir thisdir permfilename : Str)
    (v : PermVars) (s : Str) (hdir : DirOk dir) (hv : v.Inv dir) :
    (parse_line fnmatch dir thisdir permfilename v s).1.Inv dir := by
  unfold parse_line
  simp only
  split
  · split
    · intro h; simp at h
    · split
      · intro h; simp at h
      · exact hv
  · split
    · split
      · exact hv
      · split
        · intro _
          exact superdir_ok dir thisdir _ hdir
        · exact hv
    · exact hv

theorem parse_lines_inv (fnmatch : Str → Str → Bool) (dir thisdir permfilename : Str)
    (fuel : Nat) (v v1 : PermVars) (s : Str) (hdir : DirOk dir) (hv : v.Inv dir)
    (h : parse_lines fnmatch dir thisdir permfilename fuel v s = some v1) : v1.Inv dir := by
  induction fuel generalizing v s with
  | zero => simp [parse_lines] at h
  | succ fuel ih =>
    cases s with
    | nil =>
      simp only [parse_lines, Option.some.injEq] at h
      subst h
      exact hv
    | cons c rest =>
      simp only [parse_lines] at h
      exact ih _ _ (parse_line_inv fnmatch dir thisdir permfilename v (c :: rest) hdir hv) h

/-- What a returning call of a member function keeps: the jail directory, and the invariant. -/
theorem parse_permfile_inv (sys : Sys) (j j1 : jaildirinfo) (f : PermFile)
    (thisdir permfilename : Str) (islocal : Bool) (hdir : DirOk j.dir) (hj : j.Inv)
    (hthis : islocal = true → path_endslash thisdir <+: j.dir)
    (h : parse_permfile sys j f thisdir permfilename islocal = .ok j1) :
    j1.dir = j.dir ∧ j1.Inv := by
  unfold parse_permfile at h
  simp only at h
  split at h
  · simp at h
  · split at h
    · split at h
      · simp at h
      · simp only [Outcome.ok.injEq] at h
        subst h
        split
        · exact ⟨rfl, hj⟩
        · exact ⟨rfl, hj⟩
    · split at h
      · simp at h
      · rename_i v hv
        have hvi : v.Inv j.dir :=
          parse_lines_inv _ _ _ _ _ _ v _ hdir (by intro h0; simp at h0) hv
        split at h
        · rename_i hpos
          simp only [Outcome.ok.injEq] at h
          subst h
          exact ⟨rfl, fun _ => ⟨hvi hpos, by simp⟩⟩
        · split at h
          · simp at h
          · split at h
            · rename_i hg
              simp only [Outcome.ok.injEq] at h
              subst h
              exact ⟨rfl, fun _ => ⟨⟨path_endslash_ne_nil _, path_endslash_getLast _,
                hthis hg.2⟩, by simp⟩⟩
            · split at h
              · simp at h
              · split at h
                · simp at h
                · simp only [Outcome.ok.injEq] at h
                  subst h
                  refine ⟨rfl, ?_⟩
                  intro ha
                  exact hj ha

theorem SameAuth.refl (j : jaildirinfo) : j.SameAuth j := ⟨rfl, rfl, rfl, rfl, rfl⟩

theorem SameAuth.trans {j j1 j2 : jaildirinfo} (h1 : j.SameAuth j1) (h2 : j1.SameAuth j2) :
    j.SameAuth j2 := by
  obtain ⟨a1, a2, a3, a4, a5⟩ := h1
  obtain ⟨b1, b2, b3, b4, b5⟩ := h2
  exact ⟨b1.trans a1, b2.trans a2, b3.trans a3, b4.trans a4, b5.trans a5⟩

theorem walk_make_ok (sys : Sys) (action : jailaction) (j j1 : jaildirinfo) (w : WalkVars)
    (thisdir : Str) (last_pos : Nat) (allowed_here usable : Bool) (fd1 fd : Option Errno)
    (b : Bool)
    (h : walk_make sys action j w thisdir last_pos allowed_here usable fd1 = .ok (j1, fd, b)) :
    j.SameAuth j1 ∧ (b = true → w.dryrunning = true ∨ allowed_here = true) := by
  unfold walk_make at h
  simp only at h
  split at h
  · rename_i hmaking
    split at h
    · simp at h
    · split at h
      · simp at h
      · simp only [Outcome.ok.injEq, Prod.mk.injEq] at h
        obtain ⟨h1, -, h3⟩ := h
        subst h1
        refine ⟨?_, ?_⟩
        · unfold jaildirinfo.SameAuth
          split_ifs <;> exact ⟨rfl, rfl, rfl, rfl, rfl⟩
        · intro _
          simp only [Bool.or_eq_true, Bool.and_eq_true] at hmaking
          rcases hmaking with hm | hm
          · exact Or.inl hm.2
          · exact Or.inr hm.1.2
  · simp only [Outcome.ok.injEq, Prod.mk.injEq] at h
    obtain ⟨h1, -, h3⟩ := h
    subst h1
    exact ⟨SameAuth.refl _, fun hb => by simp [hb] at h3⟩

theorem walk_stat_ok (sys : Sys) (j j1 : jaildirinfo) (w w1 : WalkVars) (thisdir parent : Str)
    (last_pos : Nat) (allowed_here : Bool)
    (h : walk_stat sys j w thisdir parent last_pos allowed_here = .ok (j1, w1)) :
    w1 = ⟨last_pos, some thisdir, w.dryrunning⟩
      ∧ ∃ s jm, sys.on_fstat thisdir = .ok s
          ∧ (allowed_here = false → last_pos ≠ j.dir.length → RootOnly s)
          ∧ j.SameAuth jm
          ∧ ((parent.length ≠ 0 ∧ check_permfile sys jm s thisdir = .ok j1) ∨ j1 = jm) := by
  unfold walk_stat at h
  simp only at h
  split at h
  · simp at h
  · rename_i s hs
    split at h
    · simp at h
    · split at h
      · simp at h
      · rename_i huid
        split at h
        · simp at h
        · rename_i hw
          have hroot : allowed_here = false → last_pos ≠ j.dir.length → RootOnly s := by
            intro ha hl
            simp only [ha, Bool.not_false, true_and, not_and, Decidable.not_not] at huid hw
            have hu := huid hl
            have hw2 := hw hl
            simp only [not_or, not_and, Decidable.not_not] at hw2
            refine ⟨hu, hw2.2, ?_⟩
            intro hg
            by_contra hne
            exact hg (hw2.1 hne)
          split at h
          · rename_i hpar
            split at h
            · rename_i jr hc
              simp only [Outcome.ok.injEq, Prod.mk.injEq] at h
              obtain ⟨h1, h2⟩ := h
              subst h1
              exact ⟨h2.symm, s, _, hs, hroot,
                (⟨rfl, rfl, rfl, rfl, rfl⟩ : j.SameAuth
                  { j with syscalls := j.syscalls ++ [Event.fstat thisdir], dev := some s.st_dev }),
                Or.inl ⟨hpar, hc⟩⟩
            · simp at h
            · simp at h
          · simp only [Outcome.ok.injEq, Prod.mk.injEq] at h
            obtain ⟨h1, h2⟩ := h
            subst h1
            exact ⟨h2.symm, s, _, hs, hroot,
              (⟨rfl, rfl, rfl, rfl, rfl⟩ : j.SameAuth
                { j with syscalls := j.syscalls ++ [Event.fstat thisdir], dev := some s.st_dev }),
              Or.inr rfl⟩


/-- What a returning round of the constructor's loop has done: either it took the `continue`
of a dry run (and then it was already making directories, or is below the permission
directory), or it has passed the ownership checks on `thisdir` and, except for the root
directory, `check_permfile`. -/
theorem walk_step_ok (sys : Sys) (action : jailaction) (doforce : Bool) (j j1 : jaildirinfo)
    (w w1 : WalkVars) (h : walk_step sys action doforce j w = .ok (j1, w1)) :
    w1.last_pos = skip_pos_of j.dir (next_pos_of j.dir w.last_pos)
    ∧ ∃ jm, j.SameAuth jm
      ∧ ((j1 = jm ∧ w1.dryrunning = true
            ∧ (w.dryrunning = true
                ∨ allowed_here_of j (skip_pos_of j.dir (next_pos_of j.dir w.last_pos)) = true))
        ∨ (w1.dryrunning = w.dryrunning
            ∧ ∃ s, sys.on_fstat (j.dir.take (next_pos_of j.dir w.last_pos)) = .ok s
              ∧ (allowed_here_of j (skip_pos_of j.dir (next_pos_of j.dir w.last_pos)) = false →
                  skip_pos_of j.dir (next_pos_of j.dir w.last_pos) ≠ j.dir.length → RootOnly s)
              ∧ ((w.last_pos ≠ 0
                    ∧ check_permfile sys jm s (j.dir.take (next_pos_of j.dir w.last_pos))
                        = .ok j1)
                  ∨ j1 = jm))) := by
  unfold walk_step at h
  simp only at h
  split at h
  · simp at h
  · simp at h
  · rename_i jm fd hmake
    simp only [Outcome.ok.injEq, Prod.mk.injEq] at h
    obtain ⟨h1, h2⟩ := h
    subst h1 h2
    obtain ⟨hs, hb⟩ := walk_make_ok _ _ _ _ _ _ _ _ _ _ _ _ hmake
    refine ⟨rfl, jm, SameAuth.trans ⟨rfl, rfl, rfl, rfl, rfl⟩ hs, Or.inl ⟨rfl, rfl, ?_⟩⟩
    exact hb rfl
  · rename_i jm fd hmake
    obtain ⟨hs, -⟩ := walk_make_ok _ _ _ _ _ _ _ _ _ _ _ _ hmake
    split at h
    · split at h <;> simp at h
    · obtain ⟨hw1, s, jm2, hst, hroot, hs2, hperm⟩ := walk_stat_ok _ _ _ _ _ _ _ _ _ h
      have hd : jm.dir = j.dir := hs.1
      subst hw1
      refine ⟨rfl, jm2, SameAuth.trans (SameAuth.trans ⟨rfl, rfl, rfl, rfl, rfl⟩ hs) hs2,
        Or.inr ⟨rfl, s, hst, ?_, ?_⟩⟩
      · intro ha hl
        exact hroot ha (by rw [hd]; exact hl)
      · rcases hperm with ⟨hp, hc⟩ | hj
        · refine Or.inl ⟨?_, hc⟩
          intro h0
          apply hp
          simp [h0]
        · exact Or.inr hj

theorem Inv_of_SameAuth {j j1 : jaildirinfo} (hs : j.SameAuth j1) (hj : j.Inv) : j1.Inv := by
  obtain ⟨h1, h2, h3, h4, -⟩ := hs
  intro ha
  rw [h1, h3, h4]
  exact hj (h2 ▸ ha)

theorem check_permfile_inv (sys : Sys) (j j1 : jaildirinfo) (s : Stat) (thisdir : Str)
    (hdir : DirOk j.dir) (hj : j.Inv) (hthis : path_endslash thisdir <+: j.dir)
    (h : check_permfile sys j s thisdir = .ok j1) : j1.dir = j.dir ∧ j1.Inv := by
  unfold check_permfile at h
  simp only at h
  split at h
  · split at h
    · simp at h
    · simp only [Outcome.ok.injEq] at h
      subst h
      split_ifs <;> exact ⟨rfl, fun ha => hj ha⟩
  · split at h
    · have key := parse_permfile_inv sys _ j1 _ thisdir _ true ?_ ?_ ?_ h
      · refine ⟨?_, key.2⟩
        rw [key.1]
        split_ifs <;> rfl
      · split_ifs <;> exact hdir
      · split_ifs <;> exact fun ha => hj ha
      · intro _
        split_ifs <;> exact hthis
    · simp only [Outcome.ok.injEq] at h
      subst h
      split_ifs <;> exact ⟨rfl, fun ha => hj ha⟩

theorem dropWhile_ne_slash (l : Str) (h : l.getLast? = some '/') :
    ∃ rest, l.dropWhile (fun c => c != '/') = '/' :: rest := by
  cases hd : l.dropWhile (fun c => c != '/') with
  | nil =>
    exfalso
    rw [List.dropWhile_eq_nil_iff] at hd
    have := hd '/' (List.mem_of_getLast?_eq_some h)
    simp at this
  | cons a rest =>
    have hne : l.dropWhile (fun c => c != '/') ≠ [] := by simp [hd]
    have := List.head_dropWhile_not (fun c => c != '/') l hne
    simp only [hd, List.head_cons, bne_iff_ne, ne_eq, Bool.not_eq_true, bne_eq_false_iff_eq] at this
    exact ⟨rest, by rw [this]⟩

theorem next_pos_of_spec (dir : Str) (lp : Nat) (hlast : dir.getLast? = some '/')
    (hlp : lp < dir.length) (h0 : lp ≠ 0) :
    dir.take (next_pos_of dir lp) ++ ['/'] <+: dir ∧ next_pos_of dir lp < dir.length := by
  have hdrop : (dir.drop lp).getLast? = some '/' := by
    rw [List.getLast?_drop]
    simp [Nat.not_le.mpr hlp, hlast]
  obtain ⟨rest, hrest⟩ := dropWhile_ne_slash _ hdrop
  have hsplit : dir = (dir.take lp ++ (dir.drop lp).takeWhile (fun c => c != '/'))
      ++ '/' :: rest := by
    rw [← hrest, List.append_assoc, List.takeWhile_append_dropWhile, List.take_append_drop]
  have hnp : next_pos_of dir lp
      = (dir.take lp ++ (dir.drop lp).takeWhile (fun c => c != '/')).length := by
    unfold next_pos_of
    simp only [h0, if_false]
    have : lp + ((dir.drop lp).takeWhile (fun c => c != '/')).length ≠ 0 := by omega
    simp only [this, if_false, List.length_append, List.length_take]
    omega
  obtain ⟨A, hA⟩ : ∃ A, A = dir.take lp ++ (dir.drop lp).takeWhile (fun c => c != '/') :=
    ⟨_, rfl⟩
  rw [← hA] at hsplit hnp
  have htake : dir.take (next_pos_of dir lp) = A := by
    rw [hnp]
    conv_lhs => rw [hsplit]
    exact List.take_left' rfl
  constructor
  · rw [htake]
    exact ⟨rest, by rw [List.append_assoc]; exact hsplit.symm⟩
  · rw [hnp]
    have := congrArg List.length hsplit
    simp only [List.length_append, List.length_cons] at this ⊢
    omega

theorem path_endslash_isPrefix (t dir : Str) (h : t ++ ['/'] <+: dir) :
    path_endslash t <+: dir := by
  unfold path_endslash
  split
  · exact h
  · exact (List.prefix_append t ['/']).trans h

theorem skip_pos_of_le (dir : Str) (np : Nat) (h : np ≤ dir.length) :
    skip_pos_of dir np ≤ dir.length := by
  unfold skip_pos_of
  have := (List.takeWhile_prefix (fun c => c == '/') (l := dir.drop np)).length_le
  simp only [List.length_drop] at this
  omega

theorem next_pos_of_le (dir : Str) (lp : Nat) (hdir : DirOk dir) (hlp : lp < dir.length) :
    next_pos_of dir lp ≤ dir.length := by
  by_cases h0 : lp = 0
  · subst h0
    simp only [next_pos_of, if_true]
    omega
  · exact (next_pos_of_spec dir lp hdir.2 hlp h0).2.le

theorem walk_step_inv (sys : Sys) (action : jailaction) (doforce : Bool) (j j1 : jaildirinfo)
    (w w1 : WalkVars) (hdir : DirOk j.dir) (hj : j.Inv) (hlp : w.last_pos < j.dir.length)
    (h : walk_step sys action doforce j w = .ok (j1, w1)) :
    j1.dir = j.dir ∧ j1.Inv ∧ w1.last_pos ≤ j.dir.length := by
  obtain ⟨hw1, jm, hs, hcase⟩ := walk_step_ok sys action doforce j j1 w w1 h
  have hle : w1.last_pos ≤ j.dir.length := by
    rw [hw1]
    exact skip_pos_of_le _ _ (next_pos_of_le _ _ hdir hlp)
  have hjm : jm.Inv := Inv_of_SameAuth hs hj
  rcases hcase with ⟨h1, -, -⟩ | ⟨-, s, -, -, hperm⟩
  · subst h1
    exact ⟨hs.1, hjm, hle⟩
  · rcases hperm with ⟨h0, hc⟩ | h1
    · have hpre : path_endslash (j.dir.take (next_pos_of j.dir w.last_pos)) <+: jm.dir := by
        rw [hs.1]
        exact path_endslash_isPrefix _ _ (next_pos_of_spec _ _ hdir.2 hlp h0).1
      obtain ⟨hd1, hi1⟩ := check_permfile_inv sys jm j1 s _ (hs.1 ▸ hdir) hjm hpre hc
      exact ⟨hd1.trans hs.1, hi1, hle⟩
    · subst h1
      exact ⟨hs.1, hjm, hle⟩

theorem walk_inv (sys : Sys) (action : jailaction) (doforce : Bool) (fuel : Nat)
    (j j1 : jaildirinfo) (w w1 : WalkVars) (hdir : DirOk j.dir) (hj : j.Inv)
    (hlp : w.last_pos ≤ j.dir.length)
    (h : walk sys action doforce fuel j w = .ok (j1, w1)) :
    j1.dir = j.dir ∧ j1.Inv := by
  induction fuel generalizing j w with
  | zero => simp [walk] at h
  | succ fuel ih =>
    simp only [walk] at h
    split at h
    · simp only [Outcome.ok.injEq, Prod.mk.injEq] at h
      obtain ⟨h1, -⟩ := h
      subst h1
      exact ⟨rfl, hj⟩
    · rename_i hne
      split at h
      · rename_i j2 w2 hstep
        have hlt : w.last_pos < j.dir.length := lt_of_le_of_ne hlp hne
        obtain ⟨hd2, hi2, hl2⟩ := walk_step_inv sys action doforce j j2 w w2 hdir hj hlt hstep
        obtain ⟨hd1, hi1⟩ := ih j2 w2 (hd2 ▸ hdir) hi2 (hd2 ▸ hl2) h
        exact ⟨hd1.trans hd2, hi1⟩
      · simp at h
      · simp at h


theorem path_endslash_DirOk (dir0 : Str) (h : dir0.head? = some '/') :
    DirOk (path_endslash dir0) := by
  refine ⟨?_, path_endslash_getLast _⟩
  unfold path_endslash
  split
  · cases dir0 with
    | nil => simp at h
    | cons c rest => simpa using h
  · exact h

/-- Every jail the constructor accepts: `dir` starts and ends with a slash, the invariant
holds, and `allowed` is set. -/
theorem construct_ok (sys : Sys) (str : Str) (action : jailaction) (doforce : Bool)
    (j : jaildirinfo) (h : jaildirinfo.construct sys str action doforce = .ok j) :
    DirOk j.dir ∧ j.Inv ∧ j.allowed = true := by
  unfold jaildirinfo.construct at h
  simp only at h
  split at h
  · simp at h
  · simp at h
  · split at h
    · simp at h
    · rename_i dir0 _
      split at h
      · simp at h
      · rename_i hcond
        have hhead : dir0.head? = some '/' := by
          by_contra hne
          exact hcond (Or.inr (Or.inr hne))
        have hdir := path_endslash_DirOk dir0 hhead
        split at h
        · simp at h
        · simp at h
        · rename_i j0 hetc
          have h0 : j0.dir = path_endslash dir0 ∧ j0.Inv := by
            split at hetc
            · have := parse_permfile_inv sys _ j0 _ _ _ false hdir
                (fun ha => by simp at ha) (fun hf => by simp at hf) hetc
              exact this
            · simp only [Outcome.ok.injEq] at hetc
              subst hetc
              exact ⟨rfl, fun ha => by simp at ha⟩
          split at h
          · simp at h
          · simp at h
          · rename_i j1 w1 hwalk
            obtain ⟨hd1, hi1⟩ := walk_inv sys action doforce _ j0 j1 _ w1 (h0.1 ▸ hdir) h0.2
              (Nat.zero_le _) hwalk
            split at h
            · simp at h
            · rename_i hall
              simp only [Outcome.ok.injEq] at h
              subst h
              refine ⟨?_, hi1, ?_⟩
              · rw [hd1, h0.1]; exact hdir
              · simpa using hall

/-- Claim C3.  Whenever the constructor of `jaildirinfo` succeeds, whatever the policy files
hold and whatever `fnmatch` answers, `allowed` is set and `permdir` is not empty, ends in a
slash and is a prefix of `dir`; so the two assertions of `jaildirinfo::check` hold
(`permdir[permdir.length() - 1] == '/'` and `dir.substr(0, permdir.length()) == permdir`). -/
theorem permdir_is_prefix_of_dir (sys : Sys) (str : Str) (action : jailaction)
    (doforce : Bool) (j : jaildirinfo)
    (h : jaildirinfo.construct sys str action doforce = .ok j) :
    j.allowed = true ∧ j.permdir ≠ [] ∧ j.permdir.getLast? = some '/'
      ∧ j.permdir <+: j.dir ∧ j.dir.take j.permdir.length = j.permdir := by
  obtain ⟨-, hinv, hall⟩ := construct_ok sys str action doforce j h
  obtain ⟨⟨h1, h2, h3⟩, -⟩ := hinv hall
  exact ⟨hall, h1, h2, h3, List.prefix_iff_eq_take.mp h3 |>.symm⟩

/-- Claim C4, as amended.  For every accepted jail the jail directory lies at or beneath its
permission directory: `permdir` is no longer than `dir` and `dir` starts with it; what
follows `permdir` in `dir` is empty (the jail is the permission directory itself) or ends in a
slash. -/
theorem jail_at_or_beneath_permdir (sys : Sys) (str : Str) (action : jailaction)
    (doforce : Bool) (j : jaildirinfo)
    (h : jaildirinfo.construct sys str action doforce = .ok j) :
    j.permdir.length ≤ j.dir.length
      ∧ ∃ below, j.dir = j.permdir ++ below ∧ (below = [] ∨ below.getLast? = some '/') := by
  obtain ⟨hdir, hinv, hall⟩ := construct_ok sys str action doforce j h
  obtain ⟨⟨-, -, h3⟩, -⟩ := hinv hall
  refine ⟨h3.length_le, ?_⟩
  obtain ⟨below, hb⟩ := h3
  refine ⟨below, hb.symm, ?_⟩
  by_cases hnil : below = []
  · exact Or.inl hnil
  · right
    have := hdir.2
    rw [← hb, List.getLast?_append_of_ne_nil _ hnil] at this
    exact this

/-- Claim C3, exercised on the jail `/srv/jails/a` permitted by `/srv/jails/pa-jail.conf`. -/
theorem permdir_is_prefix_of_dir_witness :
    jaildirinfo.construct local_sys "/srv/jails/a".toList .do_init false = .ok accepted_a
    ∧ (accepted_a.allowed = true ∧ accepted_a.permdir ≠ []
        ∧ accepted_a.permdir.getLast? = some '/'
        ∧ accepted_a.permdir <+: accepted_a.dir
        ∧ accepted_a.dir.take accepted_a.permdir.length = accepted_a.permdir) :=
  ⟨by decide,
   permdir_is_prefix_of_dir local_sys "/srv/jails/a".toList .do_init false accepted_a
     (by decide)⟩

/-- Claim C4, refuted as stated: with `enablejail /srv/jails/a/` in `/etc/pa-jail.conf` the
jail `/srv/jails/a` is accepted and its `permdir` is `dir` itself, not a proper prefix. -/
theorem jail_can_be_its_permdir :
    (jaildirinfo.construct (etc_sys "enablejail /srv/jails/a/\n".toList) "/srv/jails/a".toList
        .do_init false).value.map (fun j => (j.allowed, j.dir, j.permdir))
      = some (true, "/srv/jails/a/".toList, "/srv/jails/a/".toList) := by
  decide

/-- Claim C4 as amended, exercised on the jail `/srv/jails/a` of `local_sys`. -/
theorem jail_at_or_beneath_permdir_witness :
    jaildirinfo.construct local_sys "/srv/jails/a".toList .do_init false = .ok accepted_a
    ∧ (accepted_a.permdir.length ≤ accepted_a.dir.length
        ∧ ∃ below, accepted_a.dir = accepted_a.permdir ++ below
            ∧ (below = [] ∨ below.getLast? = some '/')) :=
  ⟨by decide,
   jail_at_or_beneath_permdir local_sys "/srv/jails/a".toList .do_init false accepted_a
     (by decide)⟩

/-! ## `check_filename` leaves no two slashes in a row -/

theorem skip_slashes_head (s : Str) : (skip_slashes s).head? = s.head? := by
  induction s using skip_slashes.induct with
  | case1 rest ih => rw [skip_slashes, ih]; rfl
  | case2 s h => rw [skip_slashes]; intro rest hr; exact h rest hr

theorem skip_slashes_single (s s2 : Str) (h : skip_slashes s = '/' :: s2) :
    s2.head? ≠ some '/' := by
  induction s using skip_slashes.induct with
  | case1 rest ih => rw [skip_slashes] at h; exact ih h
  | case2 s hs =>
    rw [skip_slashes] at h
    · subst h
      intro hh
      cases s2 with
      | nil => simp at hh
      | cons c r =>
        simp at hh
        subst hh
        exact hs r rfl
    · intro rest hr; exact hs rest hr


theorem scan_noDouble (fuel : Nat) (prev : Option Char) (s out res : Str)
    (h : check_filename_scan fuel prev s out = .ok (some res))
    (ha : NoDoubleSlash out) (hb : out.getLast? = some '/' → prev = some '/')
    (hc : prev = some '/' → s.head? ≠ some '/') : NoDoubleSlash res := by
  induction fuel generalizing prev s out with
  | zero => simp [check_filename_scan] at h
  | succ fuel ih =>
    cases s with
    | nil =>
      simp only [check_filename_scan, Except.ok.injEq, Option.some.injEq] at h
      subst h
      exact ha
    | cons c s1 =>
      simp only [check_filename_scan] at h
      split at h
      · rename_i hcond
        split at h
        · simp at h
        · rename_i d s2 hskip
          have hd : d = '/' := by
            have hh := skip_slashes_head s1
            rw [hskip] at hh
            rcases hcond.2.1 with h1 | h1
            · rw [h1] at hh
              simpa using hh
            · subst h1
              simp [skip_slashes] at hskip
          subst hd
          exact ih _ _ _ h ha (fun _ => rfl) (fun _ => skip_slashes_single _ _ hskip)
      · split at h
        · simp at h
        · split at h
          · simp at h
          · rename_i d s2 hskip
            have hd : d = c := by
              have hh := skip_slashes_head (c :: s1)
              rw [hskip] at hh
              simpa using hh
            subst hd
            refine ih _ _ _ h ?_ ?_ ?_
            · unfold NoDoubleSlash at ha ⊢
              rw [List.chain'_append]
              refine ⟨ha, List.chain'_singleton _, ?_⟩
              intro x hx y hy
              simp only [List.head?_cons, Option.mem_def, Option.some.injEq] at hy
              subst hy
              rintro ⟨hx1, hy1⟩
              subst hx1
              have := hc (hb hx)
              simp [hy1] at this
            · intro hl
              simp only [List.getLast?_append, List.getLast?_singleton, Option.or_some,
                Option.some.injEq] at hl
              rw [hl]
            · intro hp
              simp only [Option.some.injEq] at hp
              subst hp
              exact skip_slashes_single _ _ hskip

theorem strip_slashes_rev_suffix (r : Str) : strip_slashes_rev r <:+ r := by
  induction r using strip_slashes_rev.induct with
  | case1 c r ih =>
    rw [strip_slashes_rev]
    exact ih.trans (List.suffix_cons _ _)
  | case2 r h =>
    rw [strip_slashes_rev]
    intro c r1 hr
    exact h c r1 hr

theorem strip_slashes_rev_head (r : Str) (h : (strip_slashes_rev r).head? = some '/') :
    (strip_slashes_rev r).length ≤ 1 := by
  induction r using strip_slashes_rev.induct with
  | case1 c r ih =>
    rw [strip_slashes_rev] at h ⊢
    exact ih h
  | case2 r hr =>
    rw [strip_slashes_rev] at h ⊢
    · cases r with
      | nil => simp
      | cons a r1 =>
        cases r1 with
        | nil => simp
        | cons b r2 =>
          simp only [List.head?_cons, Option.some.injEq] at h
          subst h
          exact absurd rfl (hr b r2)
    · intro c r1 h1; exact hr c r1 h1
    · intro c r1 h1; exact hr c r1 h1

/-- The directory the constructor walks has no two slashes in a row. -/
theorem check_filename_noDouble (a dir0 : Str) (h : check_filename a = .ok dir0)
    (h1 : dir0 ≠ ['/']) : NoDoubleSlash (path_endslash dir0) := by
  unfold check_filename at h
  split at h
  · simp only [Except.ok.injEq] at h
    subst h
    simp [path_endslash, NoDoubleSlash]
  · split at h
    · simp only [Except.ok.injEq] at h
      subst h
      simp [path_endslash, NoDoubleSlash]
    · rename_i out hscan
      simp only [Except.ok.injEq] at h
      have hout : NoDoubleSlash out :=
        scan_noDouble _ _ _ _ _ hscan (by simp [NoDoubleSlash]) (by simp) (by simp)
      have hpre : dir0 <+: out := by
        rw [← h, ← List.reverse_suffix, List.reverse_reverse]
        exact strip_slashes_rev_suffix _
      have hnd : NoDoubleSlash dir0 := by
        rw [List.prefix_iff_eq_take] at hpre
        rw [hpre]
        exact List.Chain'.take hout _
      have hlast : dir0.getLast? ≠ some '/' := by
        intro hl
        have hlen : dir0.length ≤ 1 := by
          rw [← h] at hl ⊢
          rw [List.getLast?_reverse] at hl
          rw [List.length_reverse]
          exact strip_slashes_rev_head _ hl
        cases dir0 with
        | nil => simp at hl
        | cons c r =>
          cases r with
          | nil =>
            simp only [List.getLast?_singleton, Option.some.injEq] at hl
            subst hl
            exact h1 rfl
          | cons d r2 => simp at hlen
      have hend : path_endslash dir0 = dir0 ++ ['/'] := by
        unfold path_endslash
        simp [hlast]
      rw [hend]
      unfold NoDoubleSlash at hnd ⊢
      rw [List.chain'_append]
      refine ⟨hnd, List.chain'_singleton _, ?_⟩
      intro x hx y _
      rintro ⟨hx1, -⟩
      subst hx1
      exact hlast hx
    · simp at h

/-! ## The ownership checks on the directories above the permission directory -/

theorem parse_permfile_recorded (sys : Sys) (j j1 : jaildirinfo) (f : PermFile)
    (thisdir permfilename : Str) (islocal : Bool) (hj : j.Recorded)
    (h : parse_permfile sys j f thisdir permfilename islocal = .ok j1) :
    j1.Recorded ∧ (∀ P ∈ j.permdirs, P ∈ j1.permdirs) ∧ j1.dir = j.dir := by
  unfold parse_permfile at h
  simp only at h
  split at h
  · simp at h
  · split at h
    · split at h
      · simp at h
      · simp only [Outcome.ok.injEq] at h
        subst h
        split_ifs <;> exact ⟨hj, fun P hP => hP, rfl⟩
    · split at h
      · simp at h
      · split at h
        · simp only [Outcome.ok.injEq] at h
          subst h
          exact ⟨fun _ => by simp, fun P hP => by simp [hP], rfl⟩
        · split at h
          · simp at h
          · split at h
            · simp only [Outcome.ok.injEq] at h
              subst h
              exact ⟨fun _ => by simp, fun P hP => by simp [hP], rfl⟩
            · split at h
              · simp at h
              · split at h
                · simp at h
                · simp only [Outcome.ok.injEq] at h
                  subst h
                  exact ⟨hj, fun P hP => hP, rfl⟩

theorem check_permfile_recorded (sys : Sys) (j j1 : jaildirinfo) (s : Stat) (thisdir : Str)
    (hj : j.Recorded) (h : check_permfile sys j s thisdir = .ok j1) :
    j1.Recorded ∧ (∀ P ∈ j.permdirs, P ∈ j1.permdirs) ∧ j1.dir = j.dir := by
  unfold check_permfile at h
  simp only at h
  split at h
  · split at h
    · simp at h
    · simp only [Outcome.ok.injEq] at h
      subst h
      split_ifs <;> exact ⟨hj, fun P hP => hP, rfl⟩
  · split at h
    · have key := parse_permfile_recorded sys _ j1 _ thisdir _ true ?_ h
      · refine ⟨key.1, fun P hP => key.2.1 P ?_, ?_⟩
        · split_ifs <;> exact hP
        · rw [key.2.2]
          split_ifs <;> rfl
      · split_ifs <;> exact hj
    · simp only [Outcome.ok.injEq] at h
      subst h
      split_ifs <;> exact ⟨hj, fun P hP => hP, rfl⟩

theorem Recorded_of_SameAuth {j j1 : jaildirinfo} (hs : j.SameAuth j1) (hj : j.Recorded) :
    j1.Recorded := by
  obtain ⟨-, -, h3, h4, -⟩ := hs
  intro hne
  rw [h3, h4]
  exact hj (h3 ▸ hne)

theorem on_path_length (dir D : Str) (h : on_path dir D) :
    (D = ['/'] ∧ (path_endslash D).length = 1)
      ∨ (D ≠ ['/'] ∧ path_endslash D = D ++ ['/'] ∧ D ≠ [] ∧ D.getLast? ≠ some '/') := by
  rcases h.2 with h1 | ⟨h1, h2⟩
  · subst h1
    exact Or.inl ⟨rfl, by decide⟩
  · right
    refine ⟨?_, ?_, h1, h2⟩
    · intro hD
      subst hD
      simp at h2
    · unfold path_endslash
      simp [h2]


theorem next_pos_split (dir : Str) (lp : Nat) (hlast : dir.getLast? = some '/')
    (hlp : lp < dir.length) (h0 : lp ≠ 0) :
    ∃ tw rest, dir = (dir.take lp ++ tw) ++ '/' :: rest ∧ (∀ c ∈ tw, c ≠ '/')
      ∧ next_pos_of dir lp = lp + tw.length := by
  have hdrop : (dir.drop lp).getLast? = some '/' := by
    rw [List.getLast?_drop]
    simp [Nat.not_le.mpr hlp, hlast]
  obtain ⟨rest, hrest⟩ := dropWhile_ne_slash _ hdrop
  refine ⟨(dir.drop lp).takeWhile (fun c => c != '/'), rest, ?_, ?_, ?_⟩
  · rw [← hrest, List.append_assoc, List.takeWhile_append_dropWhile, List.take_append_drop]
  · intro c hc
    have := List.mem_takeWhile_imp hc
    simpa using this
  · unfold next_pos_of
    simp only [h0, if_false]
    have : lp + ((dir.drop lp).takeWhile (fun c => c != '/')).length ≠ 0 := by omega
    simp only [this, if_false]

theorem skip_pos_one (dir B rest : Str) (hnd : NoDoubleSlash dir)
    (h : dir = B ++ '/' :: rest) : skip_pos_of dir B.length = B.length + 1 := by
  unfold skip_pos_of
  have hd : dir.drop B.length = '/' :: rest := by
    rw [h]
    exact List.drop_left' rfl
  rw [hd]
  have hch : NoDoubleSlash ('/' :: rest) := by
    have := List.Chain'.drop hnd B.length
    rw [hd] at this
    exact this
  cases rest with
  | nil => simp
  | cons c r =>
    unfold NoDoubleSlash at hch
    rw [List.chain'_cons] at hch
    have hc : c ≠ '/' := fun hc => hch.1 ⟨rfl, hc⟩
    simp [List.takeWhile_cons, hc]

theorem step_geometry (dir : Str) (lp : Nat) (hdir : DirOk dir) (hnd : NoDoubleSlash dir)
    (hlp : lp < dir.length) (D : Str) (hD : on_path dir D)
    (h1 : lp < (path_endslash D).length)
    (h2 : (path_endslash D).length ≤ skip_pos_of dir (next_pos_of dir lp)) :
    D = dir.take (next_pos_of dir lp)
      ∧ (path_endslash D).length = skip_pos_of dir (next_pos_of dir lp) := by
  by_cases h0 : lp = 0
  · subst h0
    have hnp : next_pos_of dir 0 = 1 := by simp [next_pos_of]
    rw [hnp] at h2 ⊢
    cases dir with
    | nil => simp at hlp
    | cons c rest0 =>
      have hc : c = '/' := by simpa using hdir.1
      subst hc
      have hsk : skip_pos_of ('/' :: rest0) 1 = 1 := by
        unfold skip_pos_of
        cases rest0 with
        | nil => simp
        | cons c r =>
          unfold NoDoubleSlash at hnd
          rw [List.chain'_cons] at hnd
          have hc : c ≠ '/' := fun hc => hnd.1 ⟨rfl, hc⟩
          simp [List.takeWhile_cons, hc]
      rw [hsk] at h2 ⊢
      rcases on_path_length _ D hD with ⟨hD1, hl⟩ | ⟨-, hD2, hne, -⟩
      · subst hD1
        exact ⟨rfl, hl⟩
      · exfalso
        rw [hD2] at h2
        cases D with
        | nil => exact hne rfl
        | cons d r => simp at h2
  · obtain ⟨tw, rest, hsplit, htw, hnp⟩ := next_pos_split dir lp hdir.2 hlp h0
    obtain ⟨B, hB⟩ : ∃ B, B = dir.take lp ++ tw := ⟨_, rfl⟩
    have hBlen : B.length = lp + tw.length := by
      rw [hB, List.length_append, List.length_take]
      omega
    rw [← hB] at hsplit
    have hnpB : next_pos_of dir lp = B.length := by rw [hnp, hBlen]
    have hsk : skip_pos_of dir B.length = B.length + 1 := skip_pos_one dir B rest hnd hsplit
    have htake : dir.take B.length = B := by
      conv_lhs => rw [hsplit]
      exact List.take_left' rfl
    rw [hnpB, hsk] at h2
    rw [hnpB, hsk, htake]
    rcases on_path_length _ D hD with ⟨hD1, hl⟩ | ⟨-, hD2, hne, hlast⟩
    · exfalso
      omega
    · rw [hD2] at h1 h2 ⊢
      simp only [List.length_append, List.length_singleton] at h1 h2 ⊢
      obtain ⟨t, ht⟩ := hD.1
      rw [hD2, List.append_assoc] at ht
      have heq : D ++ ('/' :: t) = B ++ ('/' :: rest) := by
        rw [← hsplit]
        exact ht
      have hDB : D = B := by
        rcases List.append_eq_append_iff.mp heq with ⟨a, hBa, hta⟩ | ⟨c, hDc, -⟩
        · cases a with
          | nil => simpa using hBa.symm
          | cons x a1 =>
            exfalso
            simp only [List.cons_append, List.cons.injEq] at hta
            obtain ⟨hx, -⟩ := hta
            subst hx
            -- the slash `x` lies in `tw`
            have h3 : dir.take lp ++ tw = D ++ ('/' :: a1) := by rw [← hB, hBa]
            rcases List.append_eq_append_iff.mp h3 with ⟨b, hDb, htwb⟩ | ⟨c, hc1, hc2⟩
            · have : '/' ∈ tw := by rw [htwb]; simp
              exact htw _ this rfl
            · cases c with
              | nil =>
                simp only [List.nil_append] at hc2
                have : '/' ∈ tw := by rw [← hc2]; simp
                exact htw _ this rfl
              | cons y c1 =>
                have := congrArg List.length hc1
                simp only [List.length_take, List.length_append, List.length_cons] at this
                omega
        · have := congrArg List.length hDc
          simp only [List.length_append] at this
          have hc0 : c = [] := by
            apply List.eq_nil_of_length_eq_zero
            omega
          rw [hDc, hc0, List.append_nil]
      subst hDB
      exact ⟨rfl, rfl⟩



theorem next_pos_of_ge (dir : Str) (lp : Nat) : lp ≤ next_pos_of dir lp := by
  unfold next_pos_of
  simp only
  split_ifs <;> omega

theorem skip_pos_of_ge (dir : Str) (np : Nat) : np ≤ skip_pos_of dir np := by
  unfold skip_pos_of
  omega

theorem allowed_here_of_true (j : jaildirinfo) (lp : Nat) (h : allowed_here_of j lp = true) :
    j.permdir ≠ [] ∧ j.permdir.length ≤ lp := by
  unfold allowed_here_of at h
  simp only [Bool.and_eq_true, decide_eq_true_eq] at h
  exact ⟨by simpa using h.1.1, h.1.2⟩

theorem Covered_mono (sys : Sys) (j j1 : jaildirinfo) (D : Str)
    (hm : ∀ P ∈ j.permdirs, P ∈ j1.permdirs) (h : Covered sys j D) : Covered sys j1 D := by
  rcases h with h | ⟨P, hP, hl⟩
  · exact Or.inl h
  · exact Or.inr ⟨P, hm P hP, hl⟩

theorem walk_step_cov (sys : Sys) (action : jailaction) (doforce : Bool) (j j1 : jaildirinfo)
    (w w1 : WalkVars) (hdir : DirOk j.dir) (hnd : NoDoubleSlash j.dir) (hrec : j.Recorded)
    (hcov : WalkCov sys j w) (hlp : w.last_pos < j.dir.length)
    (h : walk_step sys action doforce j w = .ok (j1, w1)) :
    j1.dir = j.dir ∧ j1.Recorded ∧ WalkCov sys j1 w1 ∧ w1.last_pos ≤ j.dir.length := by
  obtain ⟨hw1, jm, hs, hcase⟩ := walk_step_ok sys action doforce j j1 w w1 h
  have hle : w1.last_pos ≤ j.dir.length := by
    rw [hw1]
    exact skip_pos_of_le _ _ (next_pos_of_le _ _ hdir (by omega))
  have hge : w.last_pos ≤ w1.last_pos := by
    rw [hw1]
    exact (next_pos_of_ge _ _).trans (skip_pos_of_ge _ _)
  have hjm : jm.Recorded := Recorded_of_SameAuth hs hrec
  -- a permission directory that covers `thisdir` when `allowed_here` holds
  have hallowed : allowed_here_of j w1.last_pos = true →
      ∃ P ∈ j.permdirs, P.length ≤ w1.last_pos := by
    intro ha
    obtain ⟨hne, hl⟩ := allowed_here_of_true j _ ha
    exact ⟨j.permdir, hrec hne, hl⟩
  -- the facts about the new state that do not depend on the case
  have hfacts : j1.dir = j.dir ∧ j1.Recorded ∧ (∀ P ∈ j.permdirs, P ∈ j1.permdirs) := by
    rcases hcase with ⟨h1, -, -⟩ | ⟨-, s, -, -, hperm⟩
    · subst h1
      exact ⟨hs.1, hjm, fun P hP => by rw [hs.2.2.2.1]; exact hP⟩
    · rcases hperm with ⟨-, hc⟩ | h1
      · obtain ⟨hr1, hm1, hd1⟩ := check_permfile_recorded sys jm j1 s _ hjm hc
        exact ⟨hd1.trans hs.1, hr1, fun P hP => hm1 P (by rw [hs.2.2.2.1]; exact hP)⟩
      · subst h1
        exact ⟨hs.1, hjm, fun P hP => by rw [hs.2.2.2.1]; exact hP⟩
  obtain ⟨hd1, hr1, hm1⟩ := hfacts
  refine ⟨hd1, hr1, ⟨?_, ?_⟩, hle⟩
  · intro D hD hDl
    rw [hd1] at hD ⊢
    by_cases hold : (path_endslash D).length ≤ w.last_pos
    · rcases hcov.1 D hD hold with hc | hc
      · exact Or.inl (Covered_mono sys j j1 D hm1 hc)
      · exact Or.inr hc
    · have hgeo := step_geometry j.dir w.last_pos hdir hnd hlp D hD (by omega)
        (by rw [← hw1]; exact hDl)
      rw [← hw1] at hgeo
      obtain ⟨hDeq, hDlen⟩ := hgeo
      have hbyP : (∃ P ∈ j.permdirs, P.length ≤ w1.last_pos) →
          Covered sys j1 D ∨ path_endslash D = j.dir := by
        rintro ⟨P, hP, hl⟩
        exact Or.inl (Or.inr ⟨P, hm1 P hP, by omega⟩)
      rcases hcase with ⟨-, -, hwhy⟩ | ⟨-, s, hst, hroot, -⟩
      · rcases hwhy with hdry | ha
        · obtain ⟨P, hP, hl⟩ := hcov.2 hdry
          exact hbyP ⟨P, hP, by omega⟩
        · rw [← hw1] at ha
          exact hbyP (hallowed ha)
      · rw [← hw1] at hroot
        cases ha : allowed_here_of j w1.last_pos
        · by_cases hlast : w1.last_pos = j.dir.length
          · right
            exact List.IsPrefix.eq_of_length hD.1 (by omega)
          · left
            left
            exact ⟨s, by rw [hDeq]; exact hst, hroot ha hlast⟩
        · exact hbyP (hallowed ha)
  · intro hdry
    rcases hcase with ⟨-, -, hwhy⟩ | ⟨hsame, -⟩
    · rcases hwhy with hdry0 | ha
      · obtain ⟨P, hP, hl⟩ := hcov.2 hdry0
        exact ⟨P, hm1 P hP, by omega⟩
      · rw [← hw1] at ha
        obtain ⟨P, hP, hl⟩ := hallowed ha
        exact ⟨P, hm1 P hP, hl⟩
    · rw [hsame] at hdry
      obtain ⟨P, hP, hl⟩ := hcov.2 hdry
      exact ⟨P, hm1 P hP, by omega⟩


theorem walk_cov (sys : Sys) (action : jailaction) (doforce : Bool) (fuel : Nat)
    (j j1 : jaildirinfo) (w w1 : WalkVars) (hdir : DirOk j.dir) (hnd : NoDoubleSlash j.dir)
    (hrec : j.Recorded) (hcov : WalkCov sys j w) (hlp : w.last_pos ≤ j.dir.length)
    (h : walk sys action doforce fuel j w = .ok (j1, w1)) :
    j1.dir = j.dir ∧ WalkCov sys j1 w1 ∧ w1.last_pos = j.dir.length := by
  induction fuel generalizing j w with
  | zero => simp [walk] at h
  | succ fuel ih =>
    simp only [walk] at h
    split at h
    · rename_i heq
      simp only [Outcome.ok.injEq, Prod.mk.injEq] at h
      obtain ⟨h1, h2⟩ := h
      subst h1 h2
      exact ⟨rfl, hcov, heq⟩
    · rename_i hne
      split at h
      · rename_i j2 w2 hstep
        have hlt : w.last_pos < j.dir.length := lt_of_le_of_ne hlp hne
        obtain ⟨hd2, hr2, hc2, hl2⟩ :=
          walk_step_cov sys action doforce j j2 w w2 hdir hnd hrec hcov hlt hstep
        obtain ⟨hd1, hc1, hl1⟩ := ih j2 w2 (hd2 ▸ hdir) (hd2 ▸ hnd) hr2 hc2 (hd2 ▸ hl2) h
        exact ⟨hd1.trans hd2, hc1, by rw [hl1, hd2]⟩
      · simp at h
      · simp at h

theorem construct_cov (sys : Sys) (str : Str) (action : jailaction) (doforce : Bool)
    (j : jaildirinfo) (h : jaildirinfo.construct sys str action doforce = .ok j) (D : Str)
    (hD : on_path j.dir D) : Covered sys j D ∨ path_endslash D = j.dir := by
  unfold jaildirinfo.construct at h
  simp only at h
  split at h
  · simp at h
  · simp at h
  · split at h
    · simp at h
    · rename_i dir0 hcf
      split at h
      · simp at h
      · rename_i hcond
        have hhead : dir0.head? = some '/' := by
          by_contra hne
          exact hcond (Or.inr (Or.inr hne))
        have hne1 : dir0 ≠ ['/'] := fun h1 => hcond (Or.inr (Or.inl h1))
        have hdir := path_endslash_DirOk dir0 hhead
        have hnd := check_filename_noDouble _ dir0 hcf hne1
        split at h
        · simp at h
        · simp at h
        · rename_i j0 hetc
          have h0 : j0.dir = path_endslash dir0 ∧ j0.Recorded := by
            split at hetc
            · have := parse_permfile_recorded sys _ j0 _ _ _ false
                (fun hp => by simp at hp) hetc
              exact ⟨this.2.2, this.1⟩
            · simp only [Outcome.ok.injEq] at hetc
              subst hetc
              exact ⟨rfl, fun hp => by simp at hp⟩
          split at h
          · simp at h
          · simp at h
          · rename_i j1 w1 hwalk
            have hcov0 : WalkCov sys j0 ⟨0, none, false⟩ := by
              refine ⟨fun D _ hl => ?_, fun hd => by simp at hd⟩
              exfalso
              have := path_endslash_ne_nil D
              simp only [Nat.le_zero, List.length_eq_zero] at hl
              exact this hl
            obtain ⟨hd1, hc1, hl1⟩ := walk_cov sys action doforce _ j0 j1 _ w1
              (h0.1 ▸ hdir) (h0.1 ▸ hnd) h0.2 hcov0 (Nat.zero_le _) hwalk
            split at h
            · simp at h
            · simp only [Outcome.ok.injEq] at h
              subst h
              refine hc1.1 D hD ?_
              rw [hl1, ← hd1]
              exact hD.1.length_le

/-- For every jail path the constructor accepts, over any file system and any policy files,
every directory `D` on the path that lies strictly above every value `permdir` has taken
during the construction (every recorded `P` is longer than `D` with its slash) has been
`fstat`ed and is owned by uid 0, is not world-writable, and is not group-writable unless its
gid is 0. -/
theorem above_every_permdir_root_only (sys : Sys) (str : Str)
    (action : jailaction) (doforce : Bool) (j : jaildirinfo)
    (h : jaildirinfo.construct sys str action doforce = .ok j) (D : Str)
    (hD : on_path j.dir D)
    (habove : ∀ P ∈ j.permdirs, (path_endslash D).length < P.length) :
    ∃ s, sys.on_fstat D = .ok s ∧ s.st_uid = 0 ∧ (s.st_mode &&& S_IWOTH) = 0
      ∧ ((s.st_mode &&& S_IWGRP) ≠ 0 → s.st_gid = 0) := by
  obtain ⟨-, hinv, hall⟩ := construct_ok sys str action doforce j h
  obtain ⟨⟨-, -, hpre⟩, hmem⟩ := hinv hall
  rcases construct_cov sys str action doforce j h D hD with (⟨s, hs, hr⟩ | ⟨P, hP, hl⟩) | hlast
  · exact ⟨s, hs, hr.1, hr.2.1, hr.2.2⟩
  · exact absurd (habove P hP) (by omega)
  · exfalso
    have h1 := habove j.permdir hmem
    have h2 := hpre.length_le
    rw [hlast] at h1
    omega


/-- Claim C2, refuted as stated: in `nested_sys` the jail `/srv/u/jails/a` is accepted with
the final `permdir` `/srv/u/jails/`; the directory `/srv/u` is on the path and strictly above
that `permdir`, and it is owned by uid 1000.  It was passed without a check because `/srv/`
was the permission directory when the walk visited it. -/
theorem unchecked_directory_above_final_permdir :
    (jaildirinfo.construct nested_sys "/srv/u/jails/a".toList .do_init false).value.map
        (fun j => (j.allowed, j.dir, j.permdir, j.permdirs))
      = some (true, "/srv/u/jails/a/".toList, "/srv/u/jails/".toList,
          ["/srv/".toList, "/srv/u/jails/".toList])
    ∧ on_path "/srv/u/jails/a/".toList "/srv/u".toList
    ∧ (path_endslash "/srv/u".toList).length < "/srv/u/jails/".toList.length
    ∧ (nested_sys.on_fstat "/srv/u".toList).toOption.map (fun s => s.st_uid) = some 1000 := by
  refine ⟨by decide, ?_, by decide, by decide⟩
  unfold on_path
  decide

/-- A round that takes the `continue` of line 955 belongs to a dry run. -/
theorem walk_make_dry (sys : Sys) (action : jailaction) (j j1 : jaildirinfo) (w : WalkVars)
    (thisdir : Str) (last_pos : Nat) (allowed_here usable : Bool) (fd1 fd : Option Errno)
    (h : walk_make sys action j w thisdir last_pos allowed_here usable fd1
      = .ok (j1, fd, true)) : sys.dryrun = true := by
  unfold walk_make at h
  simp only at h
  split at h
  · split at h
    · simp at h
    · split at h
      · simp at h
      · simp only [Outcome.ok.injEq, Prod.mk.injEq] at h
        exact h.2.2
  · simp at h

/-- The variable `dryrunning` is set in a dry run only. -/
theorem walk_step_dry (sys : Sys) (action : jailaction) (doforce : Bool) (j j1 : jaildirinfo)
    (w w1 : WalkVars) (h : walk_step sys action doforce j w = .ok (j1, w1))
    (hd : w1.dryrunning = true) : w.dryrunning = true ∨ sys.dryrun = true := by
  unfold walk_step at h
  simp only at h
  split at h
  · simp at h
  · simp at h
  · rename_i jm fd hmake
    exact Or.inr (walk_make_dry _ _ _ _ _ _ _ _ _ _ _ hmake)
  · split at h
    · split at h <;> simp at h
    · obtain ⟨hw1, -⟩ := walk_stat_ok _ _ _ _ _ _ _ _ _ h
      rw [hw1] at hd
      exact Or.inl hd

set_option maxRecDepth 100000 in
/-- A directory beneath an earlier permission directory is checked when a later policy file
has moved `permdir` deeper before the loop visits it: in `deeper_sys` the jail
`/srv/u/jails/a` is refused, because `/srv/u` is not owned by root. -/
theorem directory_beneath_earlier_permdir_checked :
    (jaildirinfo.construct deeper_sys "/srv/u/jails/a".toList .do_init false).status = some 1
    ∧ (jaildirinfo.construct deeper_sys "/srv/u/jails/a".toList .do_init false).final.map
        (fun j => (j.permdirs, j.stderr))
      = some (["/srv/".toList, "/srv/u/jails/".toList],
          ["/srv/u: Not owned by root\n".toList])
    ∧ (jaildirinfo.construct_rounds deeper_sys "/srv/u/jails/a".toList .do_init false).map
        (fun r => (r.1.dir.take (next_pos_of r.1.dir r.2.last_pos), r.1.permdir))
      = [("/".toList, "/srv/".toList), ("/srv".toList, "/srv/".toList),
         ("/srv/u".toList, "/srv/u/jails/".toList)] := by
  decide

/-- Every directory of the path that the loop has yet to visit, other than the jail directory
itself, is visited by a round of an accepting run; and in that round it passes the ownership
checks, unless it is at or beneath the permission directory in force in that round, or the
round belongs to a dry run that is making directories. -/
theorem walk_rounds_checked (sys : Sys) (action : jailaction) (doforce : Bool) (fuel : Nat)
    (j jf : jaildirinfo) (w wf : WalkVars) (hdir : DirOk j.dir) (hnd : NoDoubleSlash j.dir)
    (hrec : j.Recorded) (hlp : w.last_pos ≤ j.dir.length)
    (hdry : w.dryrunning = true → sys.dryrun = true)
    (h : walk sys action doforce fuel j w = .ok (jf, wf)) (D : Str)
    (hD : on_path j.dir D) (hbeyond : w.last_pos < (path_endslash D).length)
    (hnot : path_endslash D ≠ j.dir) :
    ∃ r ∈ walk_rounds sys action doforce fuel j w,
      r.1.dir = j.dir ∧ j.dir.take (next_pos_of j.dir r.2.last_pos) = D
        ∧ ((∃ s, sys.on_fstat D = .ok s ∧ RootOnly s)
          ∨ (r.1.permdir ≠ [] ∧ r.1.permdir.length ≤ (path_endslash D).length
              ∧ r.1.permdir <+: j.dir)
          ∨ (sys.dryrun = true ∧ r.2.dryrunning = true)) := by
  induction fuel generalizing j w with
  | zero => simp [walk] at h
  | succ fuel ih =>
    simp only [walk] at h
    split at h
    · rename_i heq
      exfalso
      have := hD.1.length_le
      omega
    · rename_i hne
      have hlt : w.last_pos < j.dir.length := lt_of_le_of_ne hlp hne
      split at h
      · rename_i j2 w2 hstep
        obtain ⟨hw2, jm, hs, hcase⟩ := walk_step_ok sys action doforce j j2 w w2 hstep
        have hle : w2.last_pos ≤ j.dir.length := by
          rw [hw2]
          exact skip_pos_of_le _ _ (next_pos_of_le _ _ hdir (by omega))
        have hjm : jm.Recorded := Recorded_of_SameAuth hs hrec
        have hd2 : j2.dir = j.dir ∧ j2.Recorded := by
          rcases hcase with ⟨h1, -, -⟩ | ⟨-, s, -, -, hperm⟩
          · rw [h1]; exact ⟨hs.1, hjm⟩
          · rcases hperm with ⟨-, hc⟩ | h1
            · obtain ⟨hr1, -, hd1⟩ := check_permfile_recorded sys jm j2 s _ hjm hc
              exact ⟨hd1.trans hs.1, hr1⟩
            · rw [h1]; exact ⟨hs.1, hjm⟩
        obtain ⟨hd2, hrec2⟩ := hd2
        have hrounds : walk_rounds sys action doforce (fuel + 1) j w
            = (j, w) :: walk_rounds sys action doforce fuel j2 w2 := by
          simp only [walk_rounds, hne, if_false, hstep]
        rw [hrounds]
        by_cases hthis : (path_endslash D).length ≤ w2.last_pos
        · -- this round visits `D`
          obtain ⟨hDeq, hDlen⟩ := step_geometry j.dir w.last_pos hdir hnd hlt D hD hbeyond
            (by rw [← hw2]; exact hthis)
          refine ⟨(j, w), List.mem_cons_self _ _, rfl, hDeq.symm, ?_⟩
          rw [← hDlen] at hcase
          rcases hcase with ⟨-, -, hwhy⟩ | ⟨-, s, hst, hroot, -⟩
          · rcases hwhy with hw | ha
            · exact Or.inr (Or.inr ⟨hdry hw, hw⟩)
            · right; left
              obtain ⟨hne1, hl⟩ := allowed_here_of_true j _ ha
              refine ⟨hne1, hl, ?_⟩
              unfold allowed_here_of at ha
              simp only [Bool.and_eq_true, beq_iff_eq] at ha
              exact List.prefix_iff_eq_take.mpr ha.2.symm
          · cases ha : allowed_here_of j (path_endslash D).length
            · left
              refine ⟨s, by rw [hDeq]; exact hst, hroot ha ?_⟩
              intro hl
              exact hnot (List.IsPrefix.eq_of_length hD.1 hl)
            · right; left
              obtain ⟨hne1, hl⟩ := allowed_here_of_true j _ ha
              refine ⟨hne1, hl, ?_⟩
              unfold allowed_here_of at ha
              simp only [Bool.and_eq_true, beq_iff_eq] at ha
              exact List.prefix_iff_eq_take.mpr ha.2.symm
        · -- a later round visits `D`
          have hdry2 : w2.dryrunning = true → sys.dryrun = true := by
            intro hd
            rcases walk_step_dry sys action doforce j j2 w w2 hstep hd with h1 | h1
            · exact hdry h1
            · exact h1
          obtain ⟨r, hr, hrd, hrv, hrc⟩ := ih j2 w2 (hd2 ▸ hdir) (hd2 ▸ hnd) hrec2
            (hd2 ▸ hle) hdry2 h
            (hd2 ▸ hD) (by omega) (hd2 ▸ hnot)
          rw [hd2] at hrd hrv hrc
          exact ⟨r, List.mem_cons_of_mem _ hr, hrd, hrv, hrc⟩
      · simp at h
      · simp at h

/-- An accepting run of the constructor reaches its loop, and `construct_rounds` lists the
rounds of that loop. -/
theorem construct_rounds_start (sys : Sys) (str : Str) (action : jailaction) (doforce : Bool)
    (j : jaildirinfo) (h : jaildirinfo.construct sys str action doforce = .ok j) :
    ∃ j0 wf, DirOk j0.dir ∧ NoDoubleSlash j0.dir ∧ j0.Recorded
      ∧ walk sys action doforce (j0.dir.length + 1) j0 ⟨0, none, false⟩ = .ok (j, wf)
      ∧ jaildirinfo.construct_rounds sys str action doforce
          = walk_rounds sys action doforce (j0.dir.length + 1) j0 ⟨0, none, false⟩ := by
  unfold jaildirinfo.construct at h
  unfold jaildirinfo.construct_rounds
  cases ha : absolute sys.pwd str with
  | exit n msg => simp [ha] at h
  | fault f => simp [ha] at h
  | ok a =>
    simp only [ha] at h ⊢
    cases hcf : check_filename a with
    | error f => simp [hcf] at h
    | ok dir0 =>
      simp only [hcf] at h ⊢
      by_cases hcond : dir0 = [] ∨ dir0 = ['/'] ∨ dir0.head? ≠ some '/'
      · rw [if_pos hcond] at h
        simp at h
      · rw [if_neg hcond] at h ⊢
        have hhead : dir0.head? = some '/' := by
          by_contra hne
          exact hcond (Or.inr (Or.inr hne))
        have hne1 : dir0 ≠ ['/'] := fun h1 => hcond (Or.inr (Or.inl h1))
        have hdir := path_endslash_DirOk dir0 hhead
        have hnd := check_filename_noDouble _ dir0 hcf hne1
        have hwalk : ∀ j0 : jaildirinfo,
            (match walk sys action doforce (j0.dir.length + 1) j0 ⟨0, none, false⟩ with
              | .exit n f => Outcome.exit n f
              | .fault f => .fault f
              | .ok (j, _) =>
                if (!j.allowed) = true then
                  .exit 1 { j with stderr := j.stderr ++
                    [j.dir ++ ": No `pa-jail.conf` enables jails here.\n".toList] ++
                    (if j.alternate_permfile ≠ [] then
                      ["  (Perhaps you need to edit `".toList ++ j.alternate_permfile
                        ++ "`.)\n".toList] else []) }
                else .ok j) = .ok j →
            ∃ wf, walk sys action doforce (j0.dir.length + 1) j0 ⟨0, none, false⟩
              = .ok (j, wf) := by
          intro j0 hw
          split at hw
          · simp at hw
          · simp at hw
          · rename_i j1 w1 hw1
            split at hw
            · simp at hw
            · simp only [Outcome.ok.injEq] at hw
              subst hw
              exact ⟨w1, hw1⟩
        cases hec : sys.etc_conf with
        | none =>
          simp only [hec] at h ⊢
          obtain ⟨wf, hwf⟩ := hwalk _ h
          exact ⟨_, wf, hdir, hnd, fun hp => by simp at hp, hwf, rfl⟩
        | some f =>
          simp only [hec] at h ⊢
          cases hpp : parse_permfile sys
              { dir := path_endslash dir0, parent := [], parentfd := none, component := [],
                allowed := false, permdir := [], dev := none, alternate_permfile := [],
                stderr := [], syscalls := [], permdirs := [] }
              f "/etc/".toList "pa-jail.conf".toList false with
          | exit n fin =>
            rw [hpp] at h
            simp at h
          | fault e =>
            rw [hpp] at h
            simp at h
          | ok j0 =>
            simp only [hpp] at h ⊢
            have hrec := parse_permfile_recorded sys _ j0 _ _ _ false
              (fun hp => by simp at hp) hpp
            obtain ⟨wf, hwf⟩ := hwalk _ h
            have hd0 : j0.dir = path_endslash dir0 := hrec.2.2
            exact ⟨j0, wf, hd0 ▸ hdir, hd0 ▸ hnd, hrec.1, hwf, rfl⟩

/-- Claim C2, as amended.  Let the constructor accept a jail path, over any file system and
any policy files, and let `D` be a directory on the path.  When `D` is not the jail directory
itself, one round of the loop visits `D`, and of that round one of three holds: `D` has been
`fstat`ed and is owned by uid 0, is not world-writable, and is not group-writable unless its
gid is 0; or `D` lies at or beneath the permission directory in force in that round, the value
that the policy files read before have left in `permdir`; or the round belongs to a dry run
that is making directories.  So a directory is checked against the `permdir` of the round
that visits it, not against the final one.  In particular every `D` that lies strictly above
every value `permdir` has taken during the construction passes the checks. -/
theorem ancestors_root_only_unless_permitted (sys : Sys) (str : Str)
    (action : jailaction) (doforce : Bool) (j : jaildirinfo)
    (h : jaildirinfo.construct sys str action doforce = .ok j) (D : Str)
    (hD : on_path j.dir D) :
    (path_endslash D ≠ j.dir →
      ∃ r ∈ jaildirinfo.construct_rounds sys str action doforce,
        r.1.dir = j.dir ∧ j.dir.take (next_pos_of j.dir r.2.last_pos) = D
          ∧ ((∃ s, sys.on_fstat D = .ok s ∧ s.st_uid = 0 ∧ (s.st_mode &&& S_IWOTH) = 0
                ∧ ((s.st_mode &&& S_IWGRP) ≠ 0 → s.st_gid = 0))
            ∨ (r.1.permdir ≠ [] ∧ r.1.permdir.length ≤ (path_endslash D).length
                ∧ r.1.permdir <+: j.dir)
            ∨ (sys.dryrun = true ∧ r.2.dryrunning = true)))
    ∧ ((∀ P ∈ j.permdirs, (path_endslash D).length < P.length) →
      ∃ s, sys.on_fstat D = .ok s ∧ s.st_uid = 0 ∧ (s.st_mode &&& S_IWOTH) = 0
        ∧ ((s.st_mode &&& S_IWGRP) ≠ 0 → s.st_gid = 0)) := by
  constructor
  · intro hnot
    obtain ⟨j0, wf, hdir, hnd, hrec, hwalk, hrounds⟩ :=
      construct_rounds_start sys str action doforce j h
    obtain ⟨hd, -⟩ := walk_cov sys action doforce _ j0 j _ wf hdir hnd hrec
      ⟨fun D _ hl => by
          exfalso
          have := path_endslash_ne_nil D
          simp only [Nat.le_zero, List.length_eq_zero] at hl
          exact this hl,
        fun hd => by simp at hd⟩
      (Nat.zero_le _) hwalk
    rw [hrounds]
    have hpos : 0 < (path_endslash D).length :=
      List.length_pos.mpr (path_endslash_ne_nil D)
    obtain ⟨r, hr, hrd, hrv, hrc⟩ := walk_rounds_checked sys action doforce _ j0 j _ wf hdir
      hnd hrec (Nat.zero_le _) (fun hd => by simp at hd) hwalk D (hd ▸ hD) hpos (hd ▸ hnot)
    rw [← hd] at hrd hrv hrc
    refine ⟨r, hr, hrd, hrv, ?_⟩
    rcases hrc with ⟨s, hs, hroot⟩ | hperm | hdry
    · exact Or.inl ⟨s, hs, hroot.1, hroot.2.1, hroot.2.2⟩
    · exact Or.inr (Or.inl hperm)
    · exact Or.inr (Or.inr hdry)
  · exact above_every_permdir_root_only sys str action doforce j h D hD

/-- Claim C2 as amended, exercised on the jail `/srv/jails/a` of `local_sys` and the directory
`/srv`, which lies above the only permission directory `/srv/jails/`. -/
theorem ancestors_root_only_unless_permitted_witness :
    jaildirinfo.construct local_sys "/srv/jails/a".toList .do_init false = .ok accepted_a
    ∧ on_path accepted_a.dir "/srv".toList
    ∧ (path_endslash "/srv".toList ≠ accepted_a.dir →
      ∃ r ∈ jaildirinfo.construct_rounds local_sys "/srv/jails/a".toList .do_init false,
        r.1.dir = accepted_a.dir
          ∧ accepted_a.dir.take (next_pos_of accepted_a.dir r.2.last_pos) = "/srv".toList
          ∧ ((∃ s, local_sys.on_fstat "/srv".toList = .ok s ∧ s.st_uid = 0
                ∧ (s.st_mode &&& S_IWOTH) = 0 ∧ ((s.st_mode &&& S_IWGRP) ≠ 0 → s.st_gid = 0))
            ∨ (r.1.permdir ≠ []
                ∧ r.1.permdir.length ≤ (path_endslash "/srv".toList).length
                ∧ r.1.permdir <+: accepted_a.dir)
            ∨ (local_sys.dryrun = true ∧ r.2.dryrunning = true)))
    ∧ ((∀ P ∈ accepted_a.permdirs, (path_endslash "/srv".toList).length < P.length) →
      ∃ s, local_sys.on_fstat "/srv".toList = .ok s ∧ s.st_uid = 0
        ∧ (s.st_mode &&& S_IWOTH) = 0 ∧ ((s.st_mode &&& S_IWGRP) ≠ 0 → s.st_gid = 0)) :=
  have h1 : jaildirinfo.construct local_sys "/srv/jails/a".toList .do_init false
      = .ok accepted_a := by decide
  have h2 : on_path accepted_a.dir "/srv".toList := by unfold on_path; decide
  ⟨h1, h2,
   ancestors_root_only_unless_permitted local_sys "/srv/jails/a".toList .do_init false
     accepted_a h1 "/srv".toList h2⟩

/-! ## Rules of one policy file -/

theorem take_word_newline (rest : Str) : take_word ('\n' :: rest) = ([], '\n' :: rest) := by
  simp [take_word, List.dropWhile_cons, isspace]


theorem skip_words_newline (fuel : Nat) (rest : Str) :
    skip_words fuel ('\n' :: rest) = '\n' :: rest := by
  cases fuel with
  | zero => rfl
  | succ n => simp [skip_words, take_word_newline]

/-- Claim C9, evaluated where the code fails it.  The name `/srv/jails/a/.` meets none of the
conditions of rejection, so the claim has `check_filename` return a non-empty string; in the
code the scanning loop drops the final `.`, steps onto the terminating NUL with the `++s` of
that branch and beyond it with the `++s` of the `for` statement, and then reads `*s` outside
the string: no value is returned that the name determines.  Names that do not end in `/.`
are not affected: `/srv/jails/a/` gives `/srv/jails/a`, and `/srv/../a` is rejected. -/
theorem check_filename_slash_dot_overread :
    rejected_by_spec "/srv/jails/a/.".toList = false
    ∧ check_filename "/srv/jails/a/.".toList = .error .overread
    ∧ check_filename "/srv/jails/a/".toList = .ok "/srv/jails/a".toList
    ∧ rejected_by_spec "/srv/../a".toList = true
    ∧ check_filename "/srv/../a".toList = .ok [] := by
  decide

/-- Claim C10, evaluated where the code fails it.  For `p = /a/b/./.` the first application
of `check_filename` already reads beyond the terminating NUL of `p`, so there is no value
`check_filename(p)` to apply it to again; where the first application returns, as for
`/a//b/./c/`, the second returns the same string. -/
theorem check_filename_idempotence_overread :
    check_filename "/a/b/./.".toList = .error .overread
    ∧ check_filename "/a//b/./c/".toList = .ok "/a/b/c".toList
    ∧ check_filename "/a/b/c".toList = .ok "/a/b/c".toList := by
  decide

/-! ## What `check_filename` does on every name -/

theorem skip_slashes_not_slash (c : Char) (s : Str) (hc : c ≠ '/') :
    skip_slashes (c :: s) = c :: s := by
  rw [skip_slashes]
  intro rest h
  simp only [List.cons.injEq] at h
  exact hc h.1

theorem skip_slashes_slash (p : Option Char) (t : Str) :
    ∃ s2, skip_slashes ('/' :: t) = '/' :: s2 ∧ s2.length ≤ t.length
      ∧ has_dotdot_from p ('/' :: t) = has_dotdot_from (some '/') s2
      ∧ ends_slash_dot p ('/' :: t) = ends_slash_dot (some '/') s2 := by
  induction t generalizing p with
  | nil =>
    refine ⟨[], ?_, le_refl _, ?_, ?_⟩
    · rw [skip_slashes]
      intro rest h
      simp at h
    · simp [has_dotdot_from, dotdot_at]
    · simp [ends_slash_dot]
  | cons c t1 ih =>
    by_cases hc : c = '/'
    · subst hc
      obtain ⟨s2, h1, h2, h3, h4⟩ := ih (some '/')
      refine ⟨s2, ?_, ?_, ?_, ?_⟩
      · rw [skip_slashes]
        exact h1
      · simp only [List.length_cons]
        omega
      · rw [← h3]
        simp [has_dotdot_from, dotdot_at]
      · rw [← h4]
        simp [ends_slash_dot]
    · refine ⟨c :: t1, ?_, le_refl _, ?_, ?_⟩
      · rw [skip_slashes]
        intro rest h
        simp only [List.cons.injEq, true_and] at h
        exact hc h.1
      · simp [has_dotdot_from, dotdot_at]
      · simp [ends_slash_dot]


theorem dotdot_at_iff (prev : Option Char) (c : Char) (s1 : Str) :
    dotdot_at prev (c :: s1) = true ↔
      (c = '.' ∧ s1.head? = some '.' ∧ ((s1.drop 1).head? = some '/' ∨ s1.drop 1 = [])
        ∧ (prev = none ∨ prev = some '/')) := by
  cases s1 with
  | nil => simp [dotdot_at]
  | cons d r =>
    by_cases hc : c = '.'
    · by_cases hd : d = '.'
      · subst hc hd
        simp [dotdot_at]
      · subst hc
        have : dotdot_at prev ('.' :: d :: r) = false := by
          unfold dotdot_at
          split
          · rename_i heq
            simp only [List.cons.injEq, true_and] at heq
            exact absurd heq.1 hd
          · rfl
        simp [this, hd]
    · have : dotdot_at prev (c :: d :: r) = false := by
        unfold dotdot_at
        split
        · rename_i heq
          simp only [List.cons.injEq] at heq
          exact absurd heq.1 hc
        · rfl
      simp [this, hc]

/-- The scanning loop, classified: it returns early exactly when a component `..` starts in
what is left to scan; otherwise it reads beyond the terminator exactly when the name ends in a
component `.` after a slash; otherwise it ends with `buf` holding at least what it held. -/
theorem scan_classify (fuel : Nat) (prev : Option Char) (s out : Str)
    (hfuel : s.length < fuel) :
    (has_dotdot_from prev s = true → check_filename_scan fuel prev s out = .ok none)
    ∧ (has_dotdot_from prev s = false → ends_slash_dot prev s = true →
        check_filename_scan fuel prev s out = .error .overread)
    ∧ (has_dotdot_from prev s = false → ends_slash_dot prev s = false →
        ∃ res, check_filename_scan fuel prev s out = .ok (some res) ∧ out <+: res
          ∧ (s ≠ [] → prev ≠ some '/' → res ≠ [])) := by
  induction fuel generalizing prev s out with
  | zero => omega
  | succ fuel ih =>
    cases s with
    | nil =>
      simp only [check_filename_scan, has_dotdot_from, ends_slash_dot]
      refine ⟨by simp, by simp, fun _ _ => ⟨out, rfl, List.prefix_rfl, by simp⟩⟩
    | cons c s1 =>
      simp only [List.length_cons] at hfuel
      simp only [check_filename_scan]
      by_cases h1 : c = '.' ∧ (s1.head? = some '/' ∨ s1 = []) ∧ prev = some '/'
      · rw [if_pos h1]
        obtain ⟨hc, hs1, hprev⟩ := h1
        subst hc hprev
        cases s1 with
        | nil =>
          have e1 : has_dotdot_from (some '/') ['.'] = false := by
            simp [has_dotdot_from, dotdot_at]
          have e2 : ends_slash_dot (some '/') ['.'] = true := by simp [ends_slash_dot]
          have e3 : skip_slashes ([] : Str) = [] := by simp [skip_slashes]
          simp only [e1, e2, e3]
          simp
        | cons d s1a =>
          have hd : d = '/' := by simpa using hs1
          subst hd
          obtain ⟨s2, k1, k2, k3, k4⟩ := skip_slashes_slash (some '.') s1a
          have e1 : has_dotdot_from (some '/') ('.' :: '/' :: s1a)
              = has_dotdot_from (some '/') s2 := by
            rw [← k3]
            simp [has_dotdot_from, dotdot_at]
          have e2 : ends_slash_dot (some '/') ('.' :: '/' :: s1a)
              = ends_slash_dot (some '/') s2 := by
            rw [← k4]
            simp [ends_slash_dot]
          simp only [k1, e1, e2]
          obtain ⟨i1, i2, i3⟩ := ih (some '/') s2 out (by simp only [List.length_cons] at hfuel; omega)
          refine ⟨i1, i2, fun a b => ?_⟩
          obtain ⟨res, r1, r2, -⟩ := i3 a b
          exact ⟨res, r1, r2, fun _ hp => absurd rfl hp⟩
      · rw [if_neg h1]
        by_cases h2 : c = '.' ∧ s1.head? = some '.'
            ∧ ((s1.drop 1).head? = some '/' ∨ s1.drop 1 = [])
            ∧ (prev = none ∨ prev = some '/')
        · rw [if_pos h2]
          have e1 : has_dotdot_from prev (c :: s1) = true := by
            simp only [has_dotdot_from, Bool.or_eq_true]
            exact Or.inl ((dotdot_at_iff prev c s1).mpr h2)
          simp [e1]
        · rw [if_neg h2]
          have hda : dotdot_at prev (c :: s1) = false := by
            rw [← Bool.not_eq_true]
            exact fun h => h2 ((dotdot_at_iff prev c s1).mp h)
          have hne : ∀ res : Str, out ++ [c] <+: res → res ≠ [] := by
            intro res hp hnil
            subst hnil
            have := hp.length_le
            simp at this
          by_cases hc : c = '/'
          · subst hc
            obtain ⟨s2, k1, k2, k3, k4⟩ := skip_slashes_slash prev s1
            simp only [k1, k3, k4]
            obtain ⟨i1, i2, i3⟩ := ih (some '/') s2 (out ++ ['/']) (by omega)
            refine ⟨i1, i2, fun a b => ?_⟩
            obtain ⟨res, r1, r2, -⟩ := i3 a b
            exact ⟨res, r1, (List.prefix_append _ _).trans r2, fun _ _ => hne res r2⟩
          · have e1 : has_dotdot_from prev (c :: s1) = has_dotdot_from (some c) s1 := by
              simp [has_dotdot_from, hda]
            have e2 : ends_slash_dot prev (c :: s1) = ends_slash_dot (some c) s1 := by
              cases s1 with
              | nil =>
                simp only [ends_slash_dot, Bool.and_eq_false_imp, beq_iff_eq]
                intro hdot
                subst hdot
                simp only [true_and, or_true] at h1
                simpa using h1
              | cons d r => simp [ends_slash_dot]
            simp only [skip_slashes_not_slash c s1 hc, e1, e2]
            obtain ⟨i1, i2, i3⟩ := ih (some c) s1 (out ++ [c]) (by omega)
            refine ⟨i1, i2, fun a b => ?_⟩
            obtain ⟨res, r1, r2, -⟩ := i3 a b
            exact ⟨res, r1, (List.prefix_append _ _).trans r2, fun _ _ => hne res r2⟩


theorem ends_slash_dot_iff (prev : Option Char) (s : Str) :
    ends_slash_dot prev s = true ↔ (s = ['.'] ∧ prev = some '/') ∨ ['/', '.'] <:+ s := by
  induction s generalizing prev with
  | nil =>
    simp [ends_slash_dot]
  | cons c r ih =>
    cases r with
    | nil =>
      have : ¬ (['/', '.'] <:+ [c]) := by
        intro h
        have := h.length_le
        simp at this
      simp [ends_slash_dot, this]
    | cons d r1 =>
      simp only [ends_slash_dot]
      rw [ih (some c)]
      constructor
      · rintro (⟨h1, h2⟩ | h)
        · simp only [List.cons.injEq, Option.some.injEq] at h1 h2
          obtain ⟨hd, hr⟩ := h1
          subst hd hr h2
          exact Or.inr List.suffix_rfl
        · exact Or.inr (List.suffix_cons_iff.mpr (Or.inr h))
      · rintro (⟨h1, -⟩ | h)
        · simp at h1
        · rcases List.suffix_cons_iff.mp h with h | h
          · simp only [List.cons.injEq] at h
            obtain ⟨hc, hd, hr⟩ := h
            subst hc hd hr
            exact Or.inl ⟨rfl, rfl⟩
          · exact Or.inr h

theorem components_head (s : Str) :
    ∃ ws, components s = s.takeWhile (fun c => c != '/') :: ws := by
  induction s with
  | nil => exact ⟨[], rfl⟩
  | cons c r ih =>
    obtain ⟨ws, hws⟩ := ih
    by_cases hc : c = '/'
    · subst hc
      exact ⟨components r, by simp [components, List.takeWhile_cons]⟩
    · exact ⟨ws, by simp [components, hc, hws, List.takeWhile_cons]⟩

theorem takeWhile_eq_dot (r : Str) :
    r.takeWhile (fun c => c != '/') = ['.']
      ↔ ∃ r1, r = '.' :: r1 ∧ (r1.head? = some '/' ∨ r1 = []) := by
  cases r with
  | nil => simp
  | cons d r1 =>
    by_cases hd : d = '/'
    · subst hd
      simp [List.takeWhile_cons]
    · cases r1 with
      | nil =>
        simp only [List.takeWhile_cons, bne_iff_ne, ne_eq, hd, not_false_eq_true, decide_True,
          if_true, List.takeWhile_nil, List.cons.injEq, and_true]
        exact ⟨fun h => ⟨[], ⟨h, rfl⟩, Or.inr rfl⟩, fun ⟨_, ⟨h, _⟩, _⟩ => h⟩
      | cons e r2 =>
        by_cases he : e = '/'
        · subst he
          simp only [List.takeWhile_cons, bne_iff_ne, ne_eq, hd, not_false_eq_true,
            decide_True, if_true, not_true_eq_false, decide_False, Bool.false_eq_true,
            if_false, List.cons.injEq, and_true]
          exact ⟨fun h => ⟨'/' :: r2, ⟨h, rfl⟩, Or.inl rfl⟩, fun ⟨_, ⟨h, _⟩, _⟩ => h⟩
        · simp [List.takeWhile_cons, hd, he]

theorem has_dotdot_from_iff (prev : Option Char) (s : Str) :
    has_dotdot_from prev s = true ↔
      (if prev = none ∨ prev = some '/' then ['.', '.'] ∈ components s
       else ['.', '.'] ∈ (components s).tail) := by
  induction s generalizing prev with
  | nil =>
    simp [has_dotdot_from, components]
  | cons c r ih =>
    simp only [has_dotdot_from, Bool.or_eq_true]
    by_cases hc : c = '/'
    · subst hc
      have hd : dotdot_at prev ('/' :: r) = false := by simp [dotdot_at]
      rw [hd, ih (some '/')]
      simp [components]
    · obtain ⟨ws, hws⟩ := components_head r
      have hcomp : components (c :: r) = (c :: r.takeWhile (fun c => c != '/')) :: ws := by
        simp [components, hc, hws]
      rw [ih (some c), hcomp, hws]
      have hmid : ¬ (some c = none ∨ some c = some '/') := by simp [hc]
      rw [if_neg hmid]
      simp only [List.tail_cons, List.mem_cons]
      by_cases hp : prev = none ∨ prev = some '/'
      · rw [if_pos hp]
        have key : dotdot_at prev (c :: r) = true
            ↔ c :: r.takeWhile (fun c => c != '/') = ['.', '.'] := by
          rw [dotdot_at_iff]
          constructor
          · rintro ⟨h1, h2, h3, -⟩
            subst h1
            have : r.takeWhile (fun c => c != '/') = ['.'] := by
              rw [takeWhile_eq_dot]
              cases r with
              | nil => simp at h2
              | cons d r1 =>
                simp only [List.head?_cons, Option.some.injEq] at h2
                subst h2
                exact ⟨r1, rfl, by simpa using h3⟩
            rw [this]
          · intro h
            simp only [List.cons.injEq] at h
            obtain ⟨h1, h2⟩ := h
            have h2a : r.takeWhile (fun c => c != '/') = ['.'] := by
              simpa using h2
            obtain ⟨r1, hr, hr1⟩ := (takeWhile_eq_dot r).mp h2a
            subst hr
            exact ⟨h1, rfl, by simpa using hr1, hp⟩
        rw [key]
        constructor
        · rintro (h | h)
          · exact Or.inl h.symm
          · exact Or.inr h
        · rintro (h | h)
          · exact Or.inl h.symm
          · exact Or.inr h
      · rw [if_neg hp]
        have hd : dotdot_at prev (c :: r) = false := by
          rw [← Bool.not_eq_true]
          intro h
          exact hp ((dotdot_at_iff prev c r).mp h).2.2.2
        simp [hd]

theorem strspn_allowed (name : Str) :
    strspn name allowed_chars ≠ name.length
      ↔ name.any (fun c => !allowed_chars.contains c) = true := by
  unfold strspn
  have hp : ∀ c : Char, (c != '\x00' && allowed_chars.contains c) = allowed_chars.contains c := by
    intro c
    by_cases hc : c = '\x00'
    · subst hc
      decide
    · simp [hc]
  simp only [hp]
  induction name with
  | nil => simp
  | cons c r ih =>
    by_cases hc : allowed_chars.contains c = true
    · simp only [List.takeWhile_cons, hc, if_true, List.length_cons, List.any_cons,
        Bool.not_true, Bool.false_or]
      exact ⟨fun h => ih.mp (fun heq => h (by omega)), fun h heq => ih.mpr h (by omega)⟩
    · simp only [Bool.not_eq_true] at hc
      simp only [List.takeWhile_cons, hc, Bool.false_eq_true, if_false, List.length_nil,
        List.length_cons, List.any_cons, Bool.not_false, Bool.true_or, iff_true]
      omega

theorem strip_slashes_rev_ne_nil (r : Str) (h : r ≠ []) : strip_slashes_rev r ≠ [] := by
  induction r using strip_slashes_rev.induct with
  | case1 c r ih =>
    rw [strip_slashes_rev]
    exact ih (by simp)
  | case2 r hr =>
    rw [strip_slashes_rev]
    · exact h
    · intro c r1 h1; exact hr c r1 h1


/-- What `check_filename` does on every name.  A name that meets one of the conditions of
rejection (empty, starting with `~`, 1024 bytes or more, a character outside the allowed set,
a path component `..`) is rejected with the empty string.  A name that meets none of them and
does not end in `/.` gives a non-empty string.  A name that meets none of them and ends in
`/.` makes the scanning loop read beyond the terminating NUL. -/
theorem check_filename_spec (name : Str) :
    (rejected_by_spec name = true → check_filename name = .ok [])
    ∧ (rejected_by_spec name = false → ['/', '.'] <:+ name →
        check_filename name = .error .overread)
    ∧ (rejected_by_spec name = false → ¬ ['/', '.'] <:+ name →
        ∃ q, q ≠ [] ∧ check_filename name = .ok q) := by
  have hdd : has_dotdot_from none name = (components name).contains ['.', '.'] := by
    have := has_dotdot_from_iff none name
    simp only [true_or, if_true] at this
    rw [Bool.eq_iff_iff, this]
    simp
  have hesd : ends_slash_dot none name = true ↔ ['/', '.'] <:+ name := by
    rw [ends_slash_dot_iff]
    simp
  by_cases hinit : strspn name allowed_chars ≠ name.length ∨ name = []
      ∨ name.head? = some '~' ∨ name.length ≥ BUFSIZE
  · have hrej : rejected_by_spec name = true := by
      unfold rejected_by_spec
      rcases hinit with h | h | h | h
      · have := (strspn_allowed name).mp h
        simp only [this, Bool.or_true, Bool.true_or]
      · simp [h]
      · simp [h]
      · have h1 : name.length ≥ 1024 := h
        simp [h1]
    have hcf : check_filename name = .ok [] := by
      unfold check_filename
      rw [if_pos hinit]
    exact ⟨fun _ => hcf, fun h => by simp [hrej] at h, fun h => by simp [hrej] at h⟩
  · have hrej : rejected_by_spec name = has_dotdot_from none name := by
      simp only [not_or] at hinit
      obtain ⟨h1, h2, h3, h4⟩ := hinit
      have h1a : name.any (fun c => !allowed_chars.contains c) = false := by
        rw [← Bool.not_eq_true]
        exact fun h => h1 ((strspn_allowed name).mpr h)
      have h4a : ¬ name.length ≥ 1024 := h4
      unfold rejected_by_spec
      rw [hdd, h1a]
      simp [h2, h3, h4a]
    have hne : name ≠ [] := fun h => hinit (Or.inr (Or.inl h))
    obtain ⟨c1, c2, c3⟩ := scan_classify (name.length + 1) none name [] (by omega)
    unfold check_filename
    rw [if_neg hinit, hrej]
    refine ⟨fun h => ?_, fun h hs => ?_, fun h hs => ?_⟩
    · rw [c1 h]
    · rw [c2 h (hesd.mpr hs)]
    · have hns : ends_slash_dot none name = false := by
        rw [← Bool.not_eq_true]
        exact fun he => hs (hesd.mp he)
      obtain ⟨res, r1, -, r3⟩ := c3 h hns
      rw [r1]
      refine ⟨_, ?_, rfl⟩
      have hres : res ≠ [] := r3 hne (by simp)
      intro hnil
      have := congrArg List.reverse hnil
      simp only [List.reverse_reverse, List.reverse_nil] at this
      exact strip_slashes_rev_ne_nil _ (by simpa using hres) this

/-! ## `check_filename` is idempotent wherever it returns -/

theorem skip_slashes_single_slash (r : Str) (h : r.head? ≠ some '/') :
    skip_slashes ('/' :: r) = '/' :: r := by
  rw [skip_slashes]
  intro rest hr
  simp only [List.cons.injEq, true_and] at hr
  subst hr
  simp at h

/-- On a clean string the scanning loop copies every byte. -/
theorem scan_of_clean (fuel : Nat) (prev : Option Char) (q out : Str)
    (hq : clean prev q = true) (hfuel : q.length < fuel) :
    check_filename_scan fuel prev q out = .ok (some (out ++ q)) := by
  induction fuel generalizing prev q out with
  | zero => omega
  | succ fuel ih =>
    cases q with
    | nil => simp [check_filename_scan]
    | cons c r =>
      simp only [clean, Bool.and_eq_true, Bool.not_eq_true', Bool.and_eq_false_imp,
        Bool.or_eq_true, beq_iff_eq] at hq
      obtain ⟨⟨⟨h1, h2⟩, h3⟩, h4⟩ := hq
      simp only [List.length_cons] at hfuel
      simp only [check_filename_scan]
      have n1 : ¬ (c = '.' ∧ (r.head? = some '/' ∨ r = []) ∧ prev = some '/') := by
        rintro ⟨a, b, c1⟩
        have := h1 ⟨a, b⟩
        simp [c1] at this
      have n2 : ¬ (c = '.' ∧ r.head? = some '.' ∧ ((r.drop 1).head? = some '/' ∨ r.drop 1 = [])
          ∧ (prev = none ∨ prev = some '/')) := by
        intro h
        have := (dotdot_at_iff prev c r).mpr h
        rw [h2] at this
        exact Bool.false_ne_true this
      rw [if_neg n1, if_neg n2]
      have hskip : skip_slashes (c :: r) = c :: r := by
        by_cases hc : c = '/'
        · subst hc
          apply skip_slashes_single_slash
          intro hh
          have := h3 rfl
          simp [hh] at this
        · exact skip_slashes_not_slash c r hc
      simp only [hskip]
      rw [ih (some c) r (out ++ [c]) h4 (by omega)]
      simp


theorem scan_onto_onto (a b : Str) (r : Except Fault (Option Str)) :
    scan_onto a (scan_onto b r) = scan_onto (a ++ b) r := by
  cases r with
  | error e => rfl
  | ok o =>
    cases o with
    | none => rfl
    | some t => simp [scan_onto]

/-- What the scanning loop appends to `buf` does not depend on what `buf` holds. -/
theorem scan_out (fuel : Nat) (prev : Option Char) (s out : Str) :
    check_filename_scan fuel prev s out
      = scan_onto out (check_filename_scan fuel prev s []) := by
  induction fuel generalizing prev s out with
  | zero => simp [check_filename_scan, scan_onto]
  | succ fuel ih =>
    cases s with
    | nil => simp [check_filename_scan, scan_onto]
    | cons c s1 =>
      simp only [check_filename_scan]
      split_ifs
      · split
        · rfl
        · rename_i d s2 _
          exact ih (some d) s2 out
      · rfl
      · split
        · rfl
        · rename_i d s2 _
          rw [ih (some d) s2 (out ++ [c]), ih (some d) s2 ([] ++ [c]), scan_onto_onto]
          simp

theorem skip_slashes_cons (c d : Char) (t s2 : Str) (h : skip_slashes (c :: t) = d :: s2) :
    d = c ∧ s2 <:+ t := by
  have hh := skip_slashes_head (c :: t)
  rw [h] at hh
  have hd : d = c := by simpa using hh
  refine ⟨hd, ?_⟩
  subst hd
  clear hh
  induction t generalizing s2 with
  | nil =>
    rw [skip_slashes] at h
    · simp only [List.cons.injEq, true_and] at h
      subst h
      exact List.suffix_rfl
    · intro rest hr
      simp at hr
  | cons e t1 ih =>
    by_cases hc : d = '/' ∧ e = '/'
    · obtain ⟨h1, h2⟩ := hc
      subst h1 h2
      rw [skip_slashes] at h
      exact (ih s2 h).trans (List.suffix_cons _ _)
    · rw [skip_slashes] at h
      · simp only [List.cons.injEq, true_and] at h
        subst h
        exact List.suffix_rfl
      · intro rest hr
        simp only [List.cons.injEq] at hr
        exact hc ⟨hr.1, hr.2.1⟩

/-- A step of the scanning loop from a predecessor that is a byte other than a slash: the
byte at `s` is copied. -/
theorem scan_step_copy (fuel : Nat) (x e : Char) (s1 T : Str) (hx : x ≠ '/')
    (h : check_filename_scan fuel (some x) (e :: s1) [] = .ok (some T)) :
    ∃ fuel1 s2 T1, fuel = fuel1 + 1 ∧ skip_slashes (e :: s1) = e :: s2 ∧ T = e :: T1
      ∧ check_filename_scan fuel1 (some e) s2 [] = .ok (some T1) := by
  cases fuel with
  | zero => simp [check_filename_scan] at h
  | succ fuel1 =>
    simp only [check_filename_scan] at h
    have n1 : ¬ (e = '.' ∧ (s1.head? = some '/' ∨ s1 = []) ∧ some x = some '/') := by
      rintro ⟨-, -, h3⟩
      simp only [Option.some.injEq] at h3
      exact hx h3
    have n2 : ¬ (e = '.' ∧ s1.head? = some '.' ∧ ((s1.drop 1).head? = some '/' ∨ s1.drop 1 = [])
        ∧ (some x = none ∨ some x = some '/')) := by
      rintro ⟨-, -, -, h4⟩
      rcases h4 with h4 | h4
      · simp at h4
      · simp only [Option.some.injEq] at h4
        exact hx h4
    rw [if_neg n1, if_neg n2] at h
    split at h
    · simp at h
    · rename_i d s2 hskip
      obtain ⟨hd, -⟩ := skip_slashes_cons e d s1 s2 hskip
      subst hd
      rw [scan_out] at h
      cases hr : check_filename_scan fuel1 (some d) s2 [] with
      | error err => simp [hr, scan_onto] at h
      | ok o =>
        cases o with
        | none => simp [hr, scan_onto] at h
        | some T1 =>
          simp only [hr, scan_onto, List.nil_append, Except.ok.injEq, Option.some.injEq] at h
          exact ⟨fuel1, s2, T1, rfl, hskip, by rw [← h]; rfl, hr⟩


/-- What the scanning loop leaves in `buf` is clean, is made of bytes of the name in their
order, and starts with the first byte of the name. -/
theorem scan_clean (fuel : Nat) (prev : Option Char) (s T : Str)
    (h : check_filename_scan fuel prev s [] = .ok (some T))
    (hpre : prev = some '/' → s.head? ≠ some '/') :
    clean prev T = true ∧ (prev = some '/' → T.head? ≠ some '/') ∧ T.Sublist s
      ∧ (prev = none → T.head? = s.head?) := by
  induction fuel generalizing prev s T with
  | zero => simp [check_filename_scan] at h
  | succ fuel ih =>
    cases s with
    | nil =>
      simp only [check_filename_scan, Except.ok.injEq, Option.some.injEq] at h
      subst h
      simp [clean]
    | cons c s1 =>
      simp only [check_filename_scan] at h
      by_cases h1 : c = '.' ∧ (s1.head? = some '/' ∨ s1 = []) ∧ prev = some '/'
      · rw [if_pos h1] at h
        obtain ⟨hc, hs1, hprev⟩ := h1
        subst hc hprev
        cases s1 with
        | nil => simp [skip_slashes] at h
        | cons e s1a =>
          have he : e = '/' := by simpa using hs1
          subst he
          split at h
          · simp at h
          · rename_i d s2 hskip
            obtain ⟨hd, hsuf⟩ := skip_slashes_cons _ _ _ _ hskip
            subst hd
            obtain ⟨i1, i2, i3, -⟩ := ih (some '/') s2 T h
              (fun _ => skip_slashes_single _ _ hskip)
            refine ⟨i1, i2, ?_, fun hp => by simp at hp⟩
            exact i3.trans (hsuf.sublist.trans
              ((List.sublist_cons_self _ _).trans (List.sublist_cons_self _ _)))
      · rw [if_neg h1] at h
        by_cases h2 : c = '.' ∧ s1.head? = some '.'
            ∧ ((s1.drop 1).head? = some '/' ∨ s1.drop 1 = [])
            ∧ (prev = none ∨ prev = some '/')
        · rw [if_pos h2] at h
          simp at h
        · rw [if_neg h2] at h
          split at h
          · simp at h
          · rename_i d s2 hskip
            obtain ⟨hd, hsuf⟩ := skip_slashes_cons _ _ _ _ hskip
            subst hd
            rw [scan_out] at h
            cases hr : check_filename_scan fuel (some d) s2 [] with
            | error err => simp [hr, scan_onto] at h
            | ok o =>
              cases o with
              | none => simp [hr, scan_onto] at h
              | some T1 =>
                simp only [hr, scan_onto, List.nil_append, Except.ok.injEq,
                  Option.some.injEq] at h
                have hT : T = d :: T1 := by rw [← h]; rfl
                subst hT
                have hpre1 : some d = some '/' → s2.head? ≠ some '/' := by
                  intro hd
                  simp only [Option.some.injEq] at hd
                  subst hd
                  exact skip_slashes_single _ _ hskip
                obtain ⟨i1, i2, i3, -⟩ := ih (some d) s2 T1 hr hpre1
                -- when `d` is a dot, nothing is skipped behind it
                have hdot : d = '.' → s2 = s1 := by
                  intro hd
                  subst hd
                  have := skip_slashes_not_slash '.' s1 (by decide)
                  rw [this] at hskip
                  simpa using hskip.symm
                refine ⟨?_, ?_, ?_, fun _ => rfl⟩
                · simp only [clean, Bool.and_eq_true, Bool.not_eq_true',
                    Bool.and_eq_false_imp, Bool.or_eq_true, beq_iff_eq]
                  refine ⟨⟨⟨?_, ?_⟩, ?_⟩, i1⟩
                  · -- no `.` component after a slash
                    rintro ⟨hd, hT1⟩
                    subst hd
                    rw [hdot rfl] at hr
                    by_contra hp
                    have hp1 : prev = some '/' := by simpa using hp
                    have hsrc : ¬ (s1.head? = some '/' ∨ s1 = []) :=
                      fun hh => h1 ⟨rfl, hh, hp1⟩
                    cases s1 with
                    | nil => exact hsrc (Or.inr rfl)
                    | cons e s1a =>
                      obtain ⟨_, _, T2, -, -, hT2, -⟩ :=
                        scan_step_copy fuel '.' e s1a T1 (by decide) hr
                      subst hT2
                      rcases hT1 with hT1 | hT1
                      · simp only [List.head?_cons, Option.some.injEq] at hT1
                        subst hT1
                        exact hsrc (Or.inl rfl)
                      · simp at hT1
                  · -- no `..` component
                    rw [← Bool.not_eq_true]
                    intro hdd
                    obtain ⟨hd, hT1h, hT1d, hp⟩ := (dotdot_at_iff prev d T1).mp hdd
                    subst hd
                    rw [hdot rfl] at hr
                    cases s1 with
                    | nil =>
                      cases fuel with
                      | zero => simp [check_filename_scan] at hr
                      | succ f =>
                        simp only [check_filename_scan, Except.ok.injEq,
                          Option.some.injEq] at hr
                        subst hr
                        simp at hT1h
                    | cons e s1a =>
                      obtain ⟨f1, s3, T2, -, hsk3, hT2, hr2⟩ :=
                        scan_step_copy fuel '.' e s1a T1 (by decide) hr
                      subst hT2
                      simp only [List.head?_cons, Option.some.injEq] at hT1h
                      subst hT1h
                      have hs3 : s3 = s1a := by
                        have := skip_slashes_not_slash '.' s1a (by decide)
                        rw [this] at hsk3
                        simpa using hsk3.symm
                      subst hs3
                      have hsrc : ¬ (s3.head? = some '/' ∨ s3 = []) := by
                        intro hh
                        exact h2 ⟨rfl, rfl, by simpa using hh, hp⟩
                      simp only [List.drop_succ_cons, List.drop_zero] at hT1d
                      cases s3 with
                      | nil => exact hsrc (Or.inr rfl)
                      | cons g s3a =>
                        obtain ⟨_, _, T3, -, -, hT3, -⟩ :=
                          scan_step_copy f1 '.' g s3a T2 (by decide) hr2
                        subst hT3
                        rcases hT1d with hh | hh
                        · simp only [List.head?_cons, Option.some.injEq] at hh
                          subst hh
                          exact hsrc (Or.inl rfl)
                        · simp at hh
                  · -- no two slashes in a row
                    intro hd
                    subst hd
                    simpa using i2 rfl
                · intro hp
                  have := hpre hp
                  simpa using this
                · exact List.Sublist.cons₂ _ (i3.trans hsuf.sublist)


/-- The bytes `strip_slashes_rev` drops are slashes. -/
theorem strip_slashes_rev_spec (r : Str) :
    ∃ k, r = List.replicate k '/' ++ strip_slashes_rev r := by
  induction r using strip_slashes_rev.induct with
  | case1 c r ih =>
    obtain ⟨k, hk⟩ := ih
    refine ⟨k + 1, ?_⟩
    rw [strip_slashes_rev, List.replicate_succ, List.cons_append, ← hk]
  | case2 r h =>
    refine ⟨0, ?_⟩
    rw [strip_slashes_rev]
    · rfl
    · intro c r1 hr
      exact h c r1 hr

/-- Dropping trailing slashes twice drops no more than dropping them once. -/
theorem strip_slashes_rev_idem (r : Str) :
    strip_slashes_rev (strip_slashes_rev r) = strip_slashes_rev r := by
  induction r using strip_slashes_rev.induct with
  | case1 c r ih =>
    rw [strip_slashes_rev]
    exact ih
  | case2 r h =>
    have : strip_slashes_rev r = r := by
      rw [strip_slashes_rev]
      intro c r1 hr
      exact h c r1 hr
    rw [this, this]

/-- A clean string stays clean without its last slash. -/
theorem clean_append_slash (p : Option Char) (a : Str) (h : clean p (a ++ ['/']) = true) :
    clean p a = true := by
  induction a generalizing p with
  | nil => rfl
  | cons c r ih =>
    simp only [List.cons_append, clean, Bool.and_eq_true, Bool.not_eq_true'] at h ⊢
    obtain ⟨⟨⟨h1, h2⟩, h3⟩, h4⟩ := h
    refine ⟨⟨⟨?_, ?_⟩, ?_⟩, ih _ h4⟩
    · cases r with
      | nil => simpa using h1
      | cons e r1 => simpa using h1
    · rw [← Bool.not_eq_true] at h2 ⊢
      intro hd
      apply h2
      obtain ⟨q1, q2, q3, q4⟩ := (dotdot_at_iff p c r).mp hd
      refine (dotdot_at_iff p c (r ++ ['/'])).mpr ⟨q1, ?_, ?_, q4⟩
      · cases r with
        | nil => simp at q2
        | cons e r1 => simpa using q2
      · cases r with
        | nil => simp at q2
        | cons e r1 =>
          cases r1 with
          | nil => simp
          | cons g r2 => simpa using q3
    · cases r with
      | nil => simp
      | cons e r1 => simpa using h3

/-- A clean string stays clean without its trailing slashes. -/
theorem clean_append_slashes (p : Option Char) (a : Str) (k : Nat)
    (h : clean p (a ++ List.replicate k '/') = true) : clean p a = true := by
  induction k with
  | zero => simpa using h
  | succ k ih =>
    apply ih
    apply clean_append_slash
    rw [List.append_assoc, ← List.replicate_succ']
    exact h

/-- Wherever `check_filename` returns, it returns a fixed point of itself: running it on its own
result returns that result. -/
theorem check_filename_idempotent_where_defined (name q : Str)
    (h : check_filename name = .ok q) : check_filename q = .ok q := by
  have hnil : check_filename [] = .ok [] := by decide
  unfold check_filename at h
  split_ifs at h with h0
  · simp only [Except.ok.injEq] at h
    subst h
    exact hnil
  · simp only [not_or, not_not, not_le] at h0
    obtain ⟨a1, a2, a3, a4⟩ := h0
    cases hs : check_filename_scan (name.length + 1) none name [] with
    | error e => simp [hs] at h
    | ok o =>
      cases o with
      | none =>
        simp only [hs, Except.ok.injEq] at h
        subst h
        exact hnil
      | some out =>
        simp only [hs, Except.ok.injEq] at h
        obtain ⟨c1, -, c3, c4⟩ := scan_clean _ none name out hs (by simp)
        have c4 := c4 rfl
        obtain ⟨k, hk⟩ := strip_slashes_rev_spec out.reverse
        have hout : out = q ++ List.replicate k '/' := by
          have := congrArg List.reverse hk
          rw [List.reverse_reverse, List.reverse_append, List.reverse_replicate, h] at this
          exact this
        have hqc : clean none q = true := clean_append_slashes none q k (hout ▸ c1)
        have hout_ne : out ≠ [] := by
          intro ho
          rw [ho] at c4
          cases name with
          | nil => exact a2 rfl
          | cons c r => simp at c4
        have hq_ne : q ≠ [] := by
          rw [← h]
          intro hh
          have := congrArg List.reverse hh
          rw [List.reverse_reverse, List.reverse_nil] at this
          exact strip_slashes_rev_ne_nil out.reverse (by simpa using hout_ne) this
        have hq_sub : q.Sublist name :=
          (List.Sublist.trans (by rw [hout]; exact List.sublist_append_left _ _) c3)
        have hq_head : q.head? = name.head? := by
          rw [← c4, hout]
          cases q with
          | nil => exact absurd rfl hq_ne
          | cons c r => rfl
        have b1 : ¬ strspn q allowed_chars ≠ q.length := by
          rw [strspn_allowed]
          intro hany
          have a1 : ¬ strspn name allowed_chars ≠ name.length := by simpa using a1
          apply a1
          rw [strspn_allowed]
          rw [List.any_eq_true] at hany ⊢
          obtain ⟨x, hx, hx1⟩ := hany
          exact ⟨x, hq_sub.subset hx, hx1⟩
        have b4 : ¬ q.length ≥ BUFSIZE := by
          have := hq_sub.length_le
          omega
        have b3 : ¬ q.head? = some '~' := by rw [hq_head]; exact a3
        unfold check_filename
        rw [if_neg (by
          rintro (hh | hh | hh | hh)
          · exact b1 hh
          · exact hq_ne hh
          · exact b3 hh
          · exact b4 hh)]
        rw [scan_of_clean _ none q [] hqc (by omega)]
        simp only [List.nil_append, Except.ok.injEq]
        have : strip_slashes_rev q.reverse = q.reverse := by
          rw [← h, List.reverse_reverse]
          exact strip_slashes_rev_idem _
        rw [this, List.reverse_reverse]

/-- The fixed-point property at a name with doubled slashes, a `.` component and a trailing
slash. -/
theorem check_filename_idempotent_where_defined_witness :
    check_filename "/srv//jails/./a/".toList = .ok "/srv/jails/a".toList
      ∧ check_filename "/srv/jails/a".toList = .ok "/srv/jails/a".toList :=
  ⟨by decide, check_filename_idempotent_where_defined "/srv//jails/./a/".toList _ (by decide)⟩

/-! ## The loops of `parse_permfile` run to their end -/

/-- The byte at which `dropWhile` stops fails the test. -/
theorem dropWhile_stop (p : Char → Bool) (s : Str) (c : Char) (r : Str)
    (h : s.dropWhile p = c :: r) : p c = false := by
  induction s with
  | nil => simp at h
  | cons a t ih =>
    rw [List.dropWhile_cons] at h
    split at h
    · exact ih h
    · rename_i hp
      simp only [List.cons.injEq] at h
      rw [← h.1]
      simpa using hp

/-- `take_word` never moves `pos` backwards. -/
theorem take_word_le (s : Str) : (take_word s).2.length ≤ s.length := by
  have h1 := (List.dropWhile_suffix (fun c => c != '\n' && isspace c) (l := s)).length_le
  cases hs : s.dropWhile (fun c => c != '\n' && isspace c) with
  | nil => simp [take_word, hs]
  | cons c r =>
    rw [hs] at h1
    simp only [take_word, hs]
    split_ifs
    · exact le_trans (List.dropWhile_suffix _).length_le h1
    · exact h1

/-- A `take_word` that returns a word moves `pos` forward. -/
theorem take_word_lt (s : Str) (h : (take_word s).1 ≠ []) :
    (take_word s).2.length < s.length := by
  have h1 := (List.dropWhile_suffix (fun c => c != '\n' && isspace c) (l := s)).length_le
  cases hs : s.dropWhile (fun c => c != '\n' && isspace c) with
  | nil => simp [take_word, hs] at h
  | cons c r =>
    rw [hs] at h1
    simp only [take_word, hs] at h ⊢
    split_ifs at h ⊢ with hc
    · have h2 := List.takeWhile_append_dropWhile (fun c => !isspace c) (c :: r)
      have h3 := congrArg List.length h2
      rw [List.length_append] at h3
      have h4 : 0 < ((c :: r).takeWhile (fun c => !isspace c)).length :=
        List.length_pos.mpr h
      show ((c :: r).dropWhile (fun c => !isspace c)).length < s.length
      omega
    · exact absurd rfl h

/-- A `take_word` that returns no word leaves `pos` at the end or at a newline. -/
theorem take_word_stop (s : Str) (h : (take_word s).1 = []) :
    (take_word s).2 = [] ∨ (take_word s).2.head? = some '\n' := by
  cases hs : s.dropWhile (fun c => c != '\n' && isspace c) with
  | nil => simp [take_word, hs]
  | cons c r =>
    have hc := dropWhile_stop _ s c r hs
    simp only [take_word, hs] at h ⊢
    split_ifs at h ⊢ with hsp
    · rw [List.takeWhile_cons, if_pos hsp] at h
      simp at h
    · right
      have hsp1 : isspace c = true := by simpa using hsp
      rw [hsp1] at hc
      have : c = '\n' := by simpa using hc
      rw [this]
      rfl

/-- The loop that skips the remaining words never moves `pos` backwards. -/
theorem skip_words_le (fuel : Nat) (s : Str) : (skip_words fuel s).length ≤ s.length := by
  induction fuel generalizing s with
  | zero => simp [skip_words]
  | succ n ih =>
    simp only [skip_words]
    split
    · exact le_trans (ih _) (take_word_le s)
    · exact take_word_le s

/-- With the budget `parse_line` gives it, the loop that skips the remaining words ends because
`take_word` returned no word: `pos` is at the end or at a newline. -/
theorem skip_words_done (fuel : Nat) (s : Str) (h : s.length ≤ fuel) :
    skip_words fuel s = [] ∨ (skip_words fuel s).head? = some '\n' := by
  induction fuel generalizing s with
  | zero =>
    left
    have : s = [] := List.length_eq_zero.mp (by omega)
    subst this
    rfl
  | succ n ih =>
    simp only [skip_words]
    split
    · rename_i hw
      have := take_word_lt s (by
        intro hh
        rw [hh] at hw
        exact hw rfl)
      exact ih _ (by omega)
    · rename_i hw
      exact take_word_stop s (by
        have : (take_word s).1.length = 0 := by simpa using hw
        exact List.length_eq_zero.mp this)

/-- Where one round of the parsing loop leaves `pos`. -/
theorem parse_line_rest (fnmatch : Str → Str → Bool) (dir thisdir permfilename : Str)
    (v : PermVars) (s : Str) :
    (parse_line fnmatch dir thisdir permfilename v s).2
      = (skip_words (take_word (take_word s).2).2.length
          (take_word (take_word s).2).2).dropWhile (fun c => c == '\n') := by
  unfold parse_line
  simp only
  split_ifs <;> rfl

/-- Every round of the parsing loop moves `pos` forward. -/
theorem parse_line_progress (fnmatch : Str → Str → Bool) (dir thisdir permfilename : Str)
    (v : PermVars) (s : Str) (hs : s ≠ []) :
    (parse_line fnmatch dir thisdir permfilename v s).2.length < s.length := by
  rw [parse_line_rest]
  have hpos : 0 < s.length := List.length_pos.mpr hs
  have a1 := take_word_le s
  have a2 := take_word_le (take_word s).2
  have a3 := skip_words_le (take_word (take_word s).2).2.length (take_word (take_word s).2).2
  have a4 := (List.dropWhile_suffix (fun c => c == '\n')
    (l := skip_words (take_word (take_word s).2).2.length
      (take_word (take_word s).2).2)).length_le
  by_cases hw : (take_word s).1 = []
  · rcases take_word_stop s hw with h0 | h0
    · simp only [h0] at a2 a3 a4 ⊢
      simp only [List.length_nil] at a2
      omega
    · cases hr : (take_word s).2 with
      | nil => rw [hr] at h0; simp at h0
      | cons c r =>
        rw [hr] at h0 a1
        have hc : c = '\n' := by simpa using h0
        subst hc
        rw [take_word_newline, skip_words_newline]
        have := (List.dropWhile_suffix (fun c => c == '\n') (l := r)).length_le
        simp only [List.dropWhile_cons, beq_self_eq_true, if_true]
        simp only [List.length_cons] at a1
        omega
  · have := take_word_lt s hw
    omega

/-- The parsing loop ends within its budget of rounds. -/
theorem parse_lines_total (fnmatch : Str → Str → Bool) (dir thisdir permfilename : Str)
    (fuel : Nat) (v : PermVars) (s : Str) (h : s.length < fuel) :
    ∃ v1, parse_lines fnmatch dir thisdir permfilename fuel v s = some v1 := by
  induction fuel generalizing v s with
  | zero => omega
  | succ n ih =>
    cases s with
    | nil => exact ⟨v, rfl⟩
    | cons c r =>
      simp only [parse_lines]
      apply ih
      have := parse_line_progress fnmatch dir thisdir permfilename v (c :: r) (by simp)
      omega

/-- The function `parse_permfile` returns or calls `exit`: its loops end. -/
theorem parse_permfile_total (sys : Sys) (j : jaildirinfo) (conff : PermFile)
    (thisdir permfilename : Str) (islocal : Bool) (f : Fault) :
    parse_permfile sys j conff thisdir permfilename islocal ≠ .fault f := by
  unfold parse_permfile
  simp only
  split
  · simp
  · split
    · split <;> simp
    · obtain ⟨v1, hv⟩ := parse_lines_total sys.fnmatch j.dir (path_endslash thisdir)
        permfilename ((conff.data.take PERMBUF).length + 1)
        ⟨-1, -1, [], j.alternate_permfile⟩ (conff.data.take PERMBUF) (by omega)
      rw [hv]
      simp only
      split_ifs <;> simp

/-! ## Rules without a pattern in `/etc/pa-jail.conf` (claim C6) -/

theorem is_disable_word_iff (w : Str) :
    is_disable_word w = true ↔ (w = "disablejail".toList ∨ w = "nojail".toList) := by
  unfold is_disable_word
  rw [Bool.or_eq_true, beq_iff_eq, beq_iff_eq]

theorem is_enable_word_iff (w : Str) :
    is_enable_word w = true ↔ (w = "enablejail".toList ∨ w = "allowjail".toList) := by
  unfold is_enable_word
  rw [Bool.or_eq_true, beq_iff_eq, beq_iff_eq]

/-- No word both permits and forbids. -/
theorem enable_word_not_disable (w : Str) (h : is_enable_word w = true) :
    is_disable_word w = false := by
  rcases (is_enable_word_iff w).1 h with h1 | h1 <;> subst h1 <;> decide

/-- One round of the parsing loop on a line that is a rule without a pattern or no rule at
all. -/
theorem parse_line_patternless (fnmatch : Str → Str → Bool) (dir thisdir permfilename : Str)
    (v : PermVars) (s : Str)
    (h : (is_enable_word (take_word s).1 || is_disable_word (take_word s).1) = true →
      (take_word (take_word s).2).1 = []) :
    (parse_line fnmatch dir thisdir permfilename v s).1
      = patternless_effect v ((take_word s).1, (take_word (take_word s).2).1) := by
  unfold parse_line patternless_effect
  simp only
  by_cases hd : (take_word s).1 = "disablejail".toList ∨ (take_word s).1 = "nojail".toList
  · have hdw := (is_disable_word_iff _).2 hd
    have hw2 := h (by rw [hdw, Bool.or_true])
    rw [if_pos hd, if_pos hw2, if_pos hdw]
  · have hdw : ¬ is_disable_word (take_word s).1 = true :=
      fun hh => hd ((is_disable_word_iff _).1 hh)
    rw [if_neg hd, if_neg hdw]
    by_cases he : (take_word s).1 = "enablejail".toList ∨ (take_word s).1 = "allowjail".toList
    · have hew := (is_enable_word_iff _).2 he
      have hw2 := h (by rw [hew, Bool.true_or])
      rw [if_pos he, if_pos hw2, if_pos hew]
    · have hew : ¬ is_enable_word (take_word s).1 = true :=
        fun hh => he ((is_enable_word_iff _).1 hh)
      rw [if_neg he, if_neg hew]

/-- The parsing loop on a file all of whose rules are without a pattern. -/
theorem parse_lines_patternless (fnmatch : Str → Str → Bool) (dir thisdir permfilename : Str)
    (fuel : Nat) (v : PermVars) (s : Str) (hlen : s.length < fuel)
    (h : ∀ r ∈ permfile_rounds fuel s,
      (is_enable_word r.1 || is_disable_word r.1) = true → r.2 = []) :
    parse_lines fnmatch dir thisdir permfilename fuel v s
      = some ((permfile_rounds fuel s).foldl patternless_effect v) := by
  induction fuel generalizing v s with
  | zero => omega
  | succ n ih =>
    cases s with
    | nil => rfl
    | cons c r =>
      have hprog := parse_line_progress fnmatch dir thisdir permfilename v (c :: r) (by simp)
      have hrest := parse_line_rest fnmatch dir thisdir permfilename v (c :: r)
      have hhead := parse_line_patternless fnmatch dir thisdir permfilename v (c :: r)
        (h ((take_word (c :: r)).1, (take_word (take_word (c :: r)).2).1)
          (by simp [permfile_rounds]))
      have hstep : parse_lines fnmatch dir thisdir permfilename (n + 1) v (c :: r)
          = parse_lines fnmatch dir thisdir permfilename n
              (parse_line fnmatch dir thisdir permfilename v (c :: r)).1
              (parse_line fnmatch dir thisdir permfilename v (c :: r)).2 := rfl
      have hrounds : permfile_rounds (n + 1) (c :: r)
          = ((take_word (c :: r)).1, (take_word (take_word (c :: r)).2).1)
            :: permfile_rounds n (parse_line fnmatch dir thisdir permfilename v (c :: r)).2 := by
        rw [hrest]
        rfl
      rw [hstep, hrounds, List.foldl_cons, ← hhead]
      apply ih
      · simp only [List.length_cons] at hlen hprog
        omega
      · intro q hq
        exact h q (by rw [hrounds]; exact List.mem_cons_of_mem _ hq)

/-- Lines that are not rules do nothing. -/
theorem foldl_patternless_rules (l : List (Str × Str)) (v : PermVars) :
    l.foldl patternless_effect v
      = (l.filter (fun r => is_enable_word r.1 || is_disable_word r.1)).foldl
          patternless_effect v := by
  induction l generalizing v with
  | nil => rfl
  | cons a rest ih =>
    by_cases ha : (is_enable_word a.1 || is_disable_word a.1) = true
    · simp only [List.filter_cons, ha, if_true, List.foldl_cons]
      exact ih _
    · have hf : (is_enable_word a.1 || is_disable_word a.1) = false := by simpa using ha
      rw [Bool.or_eq_false_iff] at hf
      have hv : patternless_effect v a = v := by
        unfold patternless_effect
        rw [if_neg (by simp [hf.2]), if_neg (by simp [hf.1])]
      simp only [List.filter_cons, hf.1, hf.2, Bool.or_self, Bool.false_eq_true, if_false,
        List.foldl_cons, hv]
      exact ih _

/-- The variables of `parse_permfile` after the loop, for a file whose only rule is a rule
without a pattern. -/
theorem parse_lines_only_rule (fnmatch : Str → Str → Bool) (dir thisdir permfilename : Str)
    (v : PermVars) (str word1 : Str) (h : permfile_rules str = [(word1, [])]) :
    parse_lines fnmatch dir thisdir permfilename (str.length + 1) v str
      = some (patternless_effect v (word1, [])) := by
  rw [parse_lines_patternless fnmatch dir thisdir permfilename _ v str (Nat.lt_succ_self _),
    foldl_patternless_rules]
  · unfold permfile_rules at h
    rw [h]
    rfl
  · intro r hr hrule
    have hmem : r ∈ permfile_rules str := by
      unfold permfile_rules
      exact List.mem_filter.2 ⟨hr, hrule⟩
    rw [h, List.mem_singleton] at hmem
    rw [hmem]

/-- Where no directory holds a policy file, `check_permfile` leaves `allowed` as it is. -/
theorem check_permfile_absent (sys : Sys) (j j1 : jaildirinfo) (s : Stat) (thisdir : Str)
    (hno : ∀ d n, sys.on_permfile d n = .error .ENOENT)
    (h : check_permfile sys j s thisdir = .ok j1) : j1.allowed = j.allowed := by
  unfold check_permfile at h
  simp only [hno] at h
  simp at h
  rw [← h]

/-- Where no directory holds a policy file, the loop of the constructor leaves `allowed` as
it is. -/
theorem walk_absent (sys : Sys) (action : jailaction) (doforce : Bool) (fuel : Nat)
    (j j1 : jaildirinfo) (w w1 : WalkVars)
    (hno : ∀ d n, sys.on_permfile d n = .error .ENOENT)
    (h : walk sys action doforce fuel j w = .ok (j1, w1)) : j1.allowed = j.allowed := by
  induction fuel generalizing j w with
  | zero => simp [walk] at h
  | succ fuel ih =>
    simp only [walk] at h
    split at h
    · simp only [Outcome.ok.injEq, Prod.mk.injEq] at h
      rw [← h.1]
    · split at h
      · rename_i j2 w2 hstep
        have h2 := ih j2 w2 h
        obtain ⟨-, jm, hsame, hcase⟩ := walk_step_ok sys action doforce j j2 w w2 hstep
        have hjm : jm.allowed = j.allowed := hsame.2.1
        rcases hcase with ⟨e, -⟩ | ⟨-, s, -, -, hc⟩
        · rw [h2, e, hjm]
        · rcases hc with ⟨-, hc⟩ | e
          · rw [h2, check_permfile_absent sys jm j2 s _ hno hc, hjm]
          · rw [h2, e, hjm]
      · simp at h
      · simp at h

/-- Claim C6, as amended.  In a root-owned `/etc/pa-jail.conf` (`islocal` false) a rule
without a pattern is honored only when it forbids.  Let the only rule of the file be a rule
without a pattern, whatever other lines the file holds.  When the rule is `enablejail` (or
`allowjail`), `parse_permfile` returns with every member unchanged, so `allowed` is not set;
and where this file is the system-wide policy file and no directory holds a policy file, the
constructor accepts no argument.  When the rule is `disablejail` (or `nojail`),
`parse_permfile` ends the process with `exit(1)` after printing one line. -/
theorem etc_patternless_rules (sys : Sys) (j : jaildirinfo) (f : PermFile) (st : Stat)
    (word1 : Str) (hst : f.st = .ok st) (hroot : writable_only_by_root st = true)
    (honly : permfile_rules (f.data.take PERMBUF) = [(word1, [])]) :
    (is_enable_word word1 = true →
      parse_permfile sys j f "/etc/".toList "pa-jail.conf".toList false = .ok j
      ∧ (sys.etc_conf = some f → (∀ d n, sys.on_permfile d n = .error .ENOENT) →
          ∀ str action doforce j1, jaildirinfo.construct sys str action doforce ≠ .ok j1))
    ∧ (is_disable_word word1 = true →
      ∃ line, parse_permfile sys j f "/etc/".toList "pa-jail.conf".toList false
        = .exit 1 { j with stderr := j.stderr ++ [line] }) := by
  have hparse : ∀ j0 : jaildirinfo, parse_lines sys.fnmatch j0.dir
      (path_endslash "/etc/".toList) "pa-jail.conf".toList
      ((f.data.take PERMBUF).length + 1) ⟨-1, -1, [], j0.alternate_permfile⟩
      (f.data.take PERMBUF)
      = some (patternless_effect ⟨-1, -1, [], j0.alternate_permfile⟩ (word1, [])) :=
    fun j0 => parse_lines_only_rule sys.fnmatch j0.dir _ _ _ _ word1 honly
  have henable : is_enable_word word1 = true → ∀ j0 : jaildirinfo,
      parse_permfile sys j0 f "/etc/".toList "pa-jail.conf".toList false = .ok j0 := by
    intro he j0
    have hd := enable_word_not_disable word1 he
    have hv : patternless_effect ⟨-1, -1, [], j0.alternate_permfile⟩ (word1, [])
        = ⟨1, -1, [], j0.alternate_permfile⟩ := by
      unfold patternless_effect
      rw [if_neg (by simp [hd]), if_pos he]
    simp only [parse_permfile, hst, hroot, hparse j0, hv]
    rfl
  constructor
  · intro he
    refine ⟨henable he j, ?_⟩
    intro hetc hno str action doforce j1 h
    unfold jaildirinfo.construct at h
    simp only [hetc] at h
    split at h
    · simp at h
    · simp at h
    · split at h
      · simp at h
      · split at h
        · simp at h
        · rw [henable he] at h
          simp only at h
          split at h
          · simp at h
          · simp at h
          · rename_i j2 w2 hwalk
            have hall := walk_absent sys action doforce _ _ j2 _ w2 hno hwalk
            have hfalse : j2.allowed = false := hall
            rw [hfalse] at h
            simp at h
  · intro hd
    have hv : patternless_effect ⟨-1, -1, [], j.alternate_permfile⟩ (word1, [])
        = ⟨0, 0, [], j.alternate_permfile⟩ := by
      unfold patternless_effect
      rw [if_pos hd]
    refine ⟨path_endslash "/etc/".toList ++ "pa-jail.conf".toList
      ++ ": Jails are disabled under ".toList ++ [] ++ "\n".toList, ?_⟩
    simp only [parse_permfile, hst, hroot, hparse j, hv]
    rfl

/-- Claim C6 as amended, exercised on a root-owned file that holds a comment and the rule
`enablejail`. -/
theorem etc_patternless_rules_witness :
    (root_file "# policy\nenablejail\n".toList).st = .ok ⟨0o100644, 0, 0, 1⟩
    ∧ writable_only_by_root ⟨0o100644, 0, 0, 1⟩ = true
    ∧ permfile_rules ((root_file "# policy\nenablejail\n".toList).data.take PERMBUF)
        = [("enablejail".toList, [])]
    ∧ ((is_enable_word "enablejail".toList = true →
        parse_permfile (etc_sys "# policy\nenablejail\n".toList) (fresh "/srv/jails/a/".toList)
            (root_file "# policy\nenablejail\n".toList) "/etc/".toList "pa-jail.conf".toList
            false
          = .ok (fresh "/srv/jails/a/".toList)
        ∧ ((etc_sys "# policy\nenablejail\n".toList).etc_conf
              = some (root_file "# policy\nenablejail\n".toList) →
            (∀ d n, (etc_sys "# policy\nenablejail\n".toList).on_permfile d n
              = .error .ENOENT) →
            ∀ str action doforce j1,
              jaildirinfo.construct (etc_sys "# policy\nenablejail\n".toList) str action
                doforce ≠ .ok j1))
      ∧ (is_disable_word "enablejail".toList = true →
        ∃ line, parse_permfile (etc_sys "# policy\nenablejail\n".toList)
            (fresh "/srv/jails/a/".toList) (root_file "# policy\nenablejail\n".toList)
            "/etc/".toList "pa-jail.conf".toList false
          = .exit 1 { fresh "/srv/jails/a/".toList with
              stderr := (fresh "/srv/jails/a/".toList).stderr ++ [line] })) :=
  ⟨rfl, by decide, by decide,
   etc_patternless_rules (etc_sys "# policy\nenablejail\n".toList)
     (fresh "/srv/jails/a/".toList) (root_file "# policy\nenablejail\n".toList)
     ⟨0o100644, 0, 0, 1⟩ "enablejail".toList rfl (by decide) (by decide)⟩

/-- The two rules without a pattern in a root-owned `/etc/pa-jail.conf`, evaluated: with
`enablejail` the members are unchanged, and with `disablejail`, alone or among other lines,
the process ends with `exit(1)`. -/
theorem patternless_rules_in_etc_run :
    parse_permfile plain_sys (fresh "/srv/jails/a/".toList)
        (root_file "# policy\nenablejail\n".toList) "/etc/".toList "pa-jail.conf".toList false
      = .ok (fresh "/srv/jails/a/".toList)
    ∧ permfile_rules "# policy\n\ndisablejail\nother words\n".toList
        = [("disablejail".toList, [])]
    ∧ (parse_permfile plain_sys (fresh "/srv/jails/a/".toList)
        (root_file "# policy\n\ndisablejail\nother words\n".toList) "/etc/".toList
        "pa-jail.conf".toList false).status = some 1
    ∧ (parse_permfile plain_sys (fresh "/srv/jails/a/".toList)
        (root_file "disablejail\n".toList) "/etc/".toList "pa-jail.conf".toList false).status
        = some 1 := by
  decide

/-! ## The jail directory is sanitized (claim C11) -/

/-- What `check_filename` returns is clean: no `.` component behind a slash, no `..`
component, no two slashes in a row. -/
theorem check_filename_clean (name q : Str) (h : check_filename name = .ok q) :
    clean none q = true := by
  unfold check_filename at h
  split_ifs at h with h0
  · simp only [Except.ok.injEq] at h
    subst h
    rfl
  · cases hs : check_filename_scan (name.length + 1) none name [] with
    | error e => simp [hs] at h
    | ok o =>
      cases o with
      | none =>
        simp only [hs, Except.ok.injEq] at h
        subst h
        rfl
      | some out =>
        simp only [hs, Except.ok.injEq] at h
        obtain ⟨c1, -, -, -⟩ := scan_clean _ none name out hs (by simp)
        obtain ⟨k, hk⟩ := strip_slashes_rev_spec out.reverse
        have hout : out = q ++ List.replicate k '/' := by
          have := congrArg List.reverse hk
          rw [List.reverse_reverse, List.reverse_append, List.reverse_replicate, h] at this
          exact this
        exact clean_append_slashes none q k (hout ▸ c1)

/-- What `check_filename` returns does not end in a slash, unless it is one byte long. -/
theorem check_filename_last (name q : Str) (h : check_filename name = .ok q) :
    q.length ≤ 1 ∨ q.getLast? ≠ some '/' := by
  unfold check_filename at h
  split_ifs at h with h0
  · simp only [Except.ok.injEq] at h
    subst h
    exact Or.inl (by simp)
  · cases hs : check_filename_scan (name.length + 1) none name [] with
    | error e => simp [hs] at h
    | ok o =>
      cases o with
      | none =>
        simp only [hs, Except.ok.injEq] at h
        subst h
        exact Or.inl (by simp)
      | some out =>
        simp only [hs, Except.ok.injEq] at h
        by_cases hl : q.getLast? = some '/'
        · left
          have hh : (strip_slashes_rev out.reverse).head? = some '/' := by
            rw [← h, List.getLast?_reverse] at hl
            exact hl
          have := strip_slashes_rev_head _ hh
          rw [← h, List.length_reverse]
          exact this
        · exact Or.inr hl

/-- The components of a clean string that start behind a slash are neither `.` nor `..`. -/
theorem clean_components (prev : Option Char) (s : Str) (h : clean prev s = true) :
    (∀ w ∈ (components s).tail, w ≠ ['.'] ∧ w ≠ ['.', '.'])
      ∧ (prev = some '/' → ∀ w ∈ components s, w ≠ ['.'] ∧ w ≠ ['.', '.']) := by
  induction s generalizing prev with
  | nil =>
    simp [components]
  | cons c r ih =>
    simp only [clean, Bool.and_eq_true, Bool.not_eq_true'] at h
    obtain ⟨⟨⟨h1, h2⟩, h3⟩, h4⟩ := h
    obtain ⟨i1, i2⟩ := ih (some c) h4
    obtain ⟨ws, hws⟩ := components_head r
    by_cases hc : c = '/'
    · subst hc
      have hall := i2 rfl
      simp only [components, if_true]
      refine ⟨fun w hw => hall w (by simpa using hw), fun _ w hw => ?_⟩
      simp only [List.mem_cons] at hw
      rcases hw with hw | hw
      · subst hw
        simp
      · exact hall w hw
    · have hcomp : components (c :: r)
          = (c :: r.takeWhile (fun c => c != '/')) :: ws := by
        simp [components, hc, hws]
      have htail : ∀ w ∈ ws, w ≠ ['.'] ∧ w ≠ ['.', '.'] := by
        intro w hw
        apply i1 w
        rw [hws]
        simpa using hw
      rw [hcomp]
      refine ⟨fun w hw => htail w (by simpa using hw), fun hp w hw => ?_⟩
      simp only [List.mem_cons] at hw
      rcases hw with hw | hw
      · subst hw
        constructor
        · -- a component `.` behind a slash
          intro heq
          simp only [List.cons.injEq] at heq
          obtain ⟨hdot, htw⟩ := heq
          subst hdot
          have : r.head? = some '/' ∨ r = [] := by
            cases r with
            | nil => exact Or.inr rfl
            | cons e r1 =>
              left
              by_contra hne
              have he : e ≠ '/' := by simpa using hne
              simp [List.takeWhile_cons, he] at htw
          subst hp
          rcases this with hh | hh
          · simp [hh] at h1
          · simp [hh] at h1
        · -- a component `..` behind a slash
          intro heq
          simp only [List.cons.injEq] at heq
          obtain ⟨hdot, htw⟩ := heq
          subst hdot
          rw [← Bool.not_eq_true] at h2
          apply h2
          rw [dotdot_at_iff]
          cases r with
          | nil => simp at htw
          | cons e r1 =>
            by_cases he : e = '/'
            · subst he
              simp [List.takeWhile_cons] at htw
            · simp only [List.takeWhile_cons, bne_iff_ne, ne_eq, he, not_false_eq_true,
                decide_True, if_true, List.cons.injEq] at htw
              obtain ⟨he1, htw1⟩ := htw
              subst he1
              refine ⟨rfl, rfl, ?_, Or.inr hp⟩
              cases r1 with
              | nil => exact Or.inr rfl
              | cons f r2 =>
                left
                by_contra hne
                have hf : f ≠ '/' := by simpa using hne
                simp [List.takeWhile_cons, hf] at htw1
      · exact htail w hw

/-- The components of a string followed by a slash. -/
theorem components_append_slash (s : Str) :
    components (s ++ ['/']) = components s ++ [[]] := by
  induction s with
  | nil => simp [components]
  | cons c r ih =>
    obtain ⟨ws, hws⟩ := components_head r
    by_cases hc : c = '/'
    · subst hc
      simp [components, ih]
    · simp [components, hc, ih, hws]

/-- The constructor keeps `dir` as it made it in line 902 from what `check_filename`
returned. -/
theorem construct_dir (sys : Sys) (str : Str) (action : jailaction) (doforce : Bool)
    (j : jaildirinfo) (h : jaildirinfo.construct sys str action doforce = .ok j) :
    ∃ a dir0, absolute sys.pwd str = .ok a ∧ check_filename a = .ok dir0 ∧ dir0 ≠ []
      ∧ dir0 ≠ ['/'] ∧ dir0.head? = some '/' ∧ j.dir = path_endslash dir0 := by
  unfold jaildirinfo.construct at h
  simp only at h
  split at h
  · simp at h
  · simp at h
  · rename_i a ha
    split at h
    · simp at h
    · rename_i dir0 hcf
      split at h
      · simp at h
      · rename_i hcond
        have hhead : dir0.head? = some '/' := by
          by_contra hne
          exact hcond (Or.inr (Or.inr hne))
        have hdir := path_endslash_DirOk dir0 hhead
        split at h
        · simp at h
        · simp at h
        · rename_i j0 hetc
          have h0 : j0.dir = path_endslash dir0 ∧ j0.Inv := by
            split at hetc
            · have := parse_permfile_inv sys _ j0 _ _ _ false hdir
                (fun ha => by simp at ha) (fun hf => by simp at hf) hetc
              exact this
            · simp only [Outcome.ok.injEq] at hetc
              subst hetc
              exact ⟨rfl, fun ha => by simp at ha⟩
          split at h
          · simp at h
          · simp at h
          · rename_i j1 w1 hwalk
            obtain ⟨hd1, -⟩ := walk_inv sys action doforce _ j0 j1 _ w1 (h0.1 ▸ hdir) h0.2
              (Nat.zero_le _) hwalk
            split at h
            · simp at h
            · simp only [Outcome.ok.injEq] at h
              subst h
              refine ⟨a, dir0, ha, hcf, fun hn => hcond (Or.inl hn),
                fun hn => hcond (Or.inr (Or.inl hn)), hhead, ?_⟩
              rw [hd1, h0.1]


/-- `path_noendslash` takes back the slash that `path_endslash` added. -/
theorem path_noendslash_append_slash (q : Str) (hne : q ≠ [])
    (hlast : q.getLast? ≠ some '/') : path_noendslash (q ++ ['/']) = q := by
  unfold path_noendslash
  rw [List.reverse_append]
  cases hr : q.reverse with
  | nil =>
    have : q = [] := by simpa using hr
    exact absurd this hne
  | cons c r =>
    have hc : c ≠ '/' := by
      intro hc
      apply hlast
      rw [← List.reverse_reverse q, hr, List.getLast?_reverse]
      simp [hc]
    have h1 : strip_slashes_rev (['/'].reverse ++ c :: r) = strip_slashes_rev (c :: r) := by
      show strip_slashes_rev ('/' :: c :: r) = strip_slashes_rev (c :: r)
      rw [strip_slashes_rev]
    have h2 : strip_slashes_rev (c :: r) = c :: r := by
      rw [strip_slashes_rev]
      intro c1 r1 heq
      simp only [List.cons.injEq] at heq
      exact hc heq.1
    rw [h1, h2, ← hr, List.reverse_reverse]

/-- Where the constructor of `jaildirinfo` returns, `dir` is
`dstroot` followed by one slash, where `dstroot` starts with a slash and does not end in one;
`dir` has no two slashes in a row and no component `.` or `..`, and is not `/`; and
`path_noendslash(dir)`, which `main` assigns to `dstroot`, is that `dstroot` and differs from
`/`, so that `assert(dstroot != "/")` holds. -/
theorem jail_dir_is_sanitized (sys : Sys) (str : Str) (action : jailaction) (doforce : Bool)
    (j : jaildirinfo) (h : jaildirinfo.construct sys str action doforce = .ok j) :
    ∃ dstroot : Str,
      j.dir = dstroot ++ ['/'] ∧ dstroot.head? = some '/' ∧ dstroot.getLast? ≠ some '/'
        ∧ NoDoubleSlash j.dir
        ∧ (∀ w ∈ components j.dir, w ≠ ['.'] ∧ w ≠ ['.', '.'])
        ∧ j.dir ≠ ['/']
        ∧ path_noendslash j.dir = dstroot ∧ dstroot ≠ ['/'] := by
  obtain ⟨a, dir0, -, hcf, hne, hroot, hhead, hdir⟩ := construct_dir sys str action doforce j h
  have hlast : dir0.getLast? ≠ some '/' := by
    rcases check_filename_last a dir0 hcf with hl | hl
    · exfalso
      cases dir0 with
      | nil => exact hne rfl
      | cons c r =>
        cases r with
        | nil =>
          simp only [List.head?_cons, Option.some.injEq] at hhead
          subst hhead
          exact hroot rfl
        | cons d r1 =>
          simp at hl
    · exact hl
  have hend : path_endslash dir0 = dir0 ++ ['/'] := by
    unfold path_endslash
    rw [if_pos (Or.inr hlast)]
  rw [hend] at hdir
  refine ⟨dir0, hdir, hhead, hlast, ?_, ?_, ?_, ?_, hroot⟩
  · rw [hdir, ← hend]
    exact check_filename_noDouble a dir0 hcf hroot
  · have hclean := check_filename_clean a dir0 hcf
    rw [hdir, components_append_slash]
    cases dir0 with
    | nil => exact absurd rfl hne
    | cons c rest =>
      simp only [List.head?_cons, Option.some.injEq] at hhead
      subst hhead
      simp only [clean, Bool.and_eq_true] at hclean
      have hall := (clean_components (some '/') rest hclean.2).2 rfl
      intro w hw
      simp only [components, if_true, List.cons_append, List.mem_cons, List.mem_append,
        List.mem_singleton] at hw
      rcases hw with hw | hw | hw
      · subst hw
        simp
      · exact hall w hw
      · have hw1 : w = [] := by simpa using hw
        subst hw1
        simp
  · rw [hdir]
    intro heq
    have : dir0 = [] := by
      have hl := congrArg List.length heq
      simp only [List.length_append, List.length_singleton] at hl
      exact List.length_eq_zero.mp (by omega)
    exact hne this
  · rw [hdir]
    exact path_noendslash_append_slash dir0 hne hlast

/-- The jail `/srv/jails/a` permitted by `/srv/jails/pa-jail.conf`: `dstroot` is
`/srv/jails/a`. -/
theorem jail_dir_is_sanitized_on_accepted_a :
    jaildirinfo.construct local_sys "/srv/jails/a".toList .do_init false = .ok accepted_a
    ∧ path_noendslash accepted_a.dir = "/srv/jails/a".toList
    ∧ ∃ dstroot : Str,
      accepted_a.dir = dstroot ++ ['/'] ∧ dstroot.head? = some '/'
        ∧ dstroot.getLast? ≠ some '/'
        ∧ NoDoubleSlash accepted_a.dir
        ∧ (∀ w ∈ components accepted_a.dir, w ≠ ['.'] ∧ w ≠ ['.', '.'])
        ∧ accepted_a.dir ≠ ['/']
        ∧ path_noendslash accepted_a.dir = dstroot ∧ dstroot ≠ ['/'] :=
  ⟨by decide, by decide,
   jail_dir_is_sanitized local_sys "/srv/jails/a".toList .do_init false accepted_a
     (by decide)⟩

/-- Claim C11, refuted where the argument ends in `/.`.  Let `a` be what `absolute` makes of
the argument of the constructor of `jaildirinfo`.  When `a` meets none of the conditions of
rejection of `check_filename` and ends in `/.`, as for the argument `/srv/jails/a/.`, the
constructor does not reject the argument: `check_filename` reads beyond the terminating NUL
of `a` in line 895, and what `dir` holds from then on is not determined by the argument.
Where the constructor does return, `a` does not end in `/.`, and `dir` is `dstroot` followed
by one slash, where `dstroot` starts with a slash and does not end in one; `dir` has no two
slashes in a row and no component `.` or `..`, and is not `/`; and `path_noendslash(dir)`,
which `main` assigns to `dstroot`, is that `dstroot` and differs from `/`. -/
theorem construct_overreads_on_slash_dot (sys : Sys) (str : Str) (action : jailaction)
    (doforce : Bool) (a : Str) (ha : absolute sys.pwd str = .ok a) :
    (rejected_by_spec a = false → ['/', '.'] <:+ a →
        check_filename a = .error .overread
        ∧ jaildirinfo.construct sys str action doforce = .fault .overread)
    ∧ ∀ j, jaildirinfo.construct sys str action doforce = .ok j →
        ¬ ['/', '.'] <:+ a
        ∧ ∃ dstroot : Str,
          j.dir = dstroot ++ ['/'] ∧ dstroot.head? = some '/' ∧ dstroot.getLast? ≠ some '/'
            ∧ NoDoubleSlash j.dir
            ∧ (∀ w ∈ components j.dir, w ≠ ['.'] ∧ w ≠ ['.', '.'])
            ∧ j.dir ≠ ['/']
            ∧ path_noendslash j.dir = dstroot ∧ dstroot ≠ ['/'] := by
  constructor
  · intro hrej hend
    have hcf := (check_filename_spec a).2.1 hrej hend
    refine ⟨hcf, ?_⟩
    unfold jaildirinfo.construct
    simp only [ha, hcf]
  · intro j h
    refine ⟨?_, jail_dir_is_sanitized sys str action doforce j h⟩
    obtain ⟨a1, dir0, ha1, hcf, hne, -⟩ := construct_dir sys str action doforce j h
    rw [ha] at ha1
    have haa : a = a1 := by
      injection ha1
    subst haa
    intro hend
    cases hrej : rejected_by_spec a with
    | true =>
      have := (check_filename_spec a).1 hrej
      rw [this] at hcf
      exact hne (Except.ok.inj hcf).symm
    | false =>
      have := (check_filename_spec a).2.1 hrej hend
      rw [this] at hcf
      simp at hcf

set_option maxRecDepth 100000 in
/-- Claim C11, exercised on the argument `/srv/jails/a/.`, on which `check_filename` reads
beyond the terminator, and on the argument `/srv/jails/a`, which the constructor accepts. -/
theorem construct_overreads_on_slash_dot_witness :
    absolute local_sys.pwd "/srv/jails/a/.".toList = .ok "/srv/jails/a/.".toList
    ∧ rejected_by_spec "/srv/jails/a/.".toList = false
    ∧ ['/', '.'] <:+ "/srv/jails/a/.".toList
    ∧ check_filename "/srv/jails/a/.".toList = .error .overread
    ∧ jaildirinfo.construct local_sys "/srv/jails/a/.".toList .do_init false
        = .fault .overread
    ∧ jaildirinfo.construct local_sys "/srv/jails/a".toList .do_init false = .ok accepted_a :=
  have h := construct_overreads_on_slash_dot local_sys "/srv/jails/a/.".toList .do_init false
    "/srv/jails/a/.".toList (by decide)
  have h1 := h.1 (by decide) (by decide)
  ⟨by decide, by decide, by decide, h1.1, h1.2, by decide⟩

/-! ## The member `component` is the last component of the jail directory -/

theorem parse_permfile_comp (sys : Sys) (j j1 : jaildirinfo) (f : PermFile)
    (thisdir permfilename : Str) (islocal : Bool)
    (h : parse_permfile sys j f thisdir permfilename islocal = .ok j1) :
    j1.parent = j.parent ∧ j1.component = j.component := by
  unfold parse_permfile at h
  simp only at h
  repeat' split at h
  all_goals first
    | (simp only [Outcome.ok.injEq] at h
       subst h
       exact ⟨rfl, rfl⟩)
    | simp at h

theorem check_permfile_comp (sys : Sys) (j j1 : jaildirinfo) (s : Stat) (thisdir : Str)
    (h : check_permfile sys j s thisdir = .ok j1) :
    j1.parent = j.parent ∧ j1.component = j.component := by
  unfold check_permfile at h
  simp only at h
  split at h
  · split at h
    · simp at h
    · simp only [Outcome.ok.injEq] at h
      subst h
      split_ifs <;> exact ⟨rfl, rfl⟩
  · split at h
    · have := parse_permfile_comp _ _ _ _ _ _ _ h
      refine ⟨this.1.trans ?_, this.2.trans ?_⟩ <;> split_ifs <;> rfl
    · simp only [Outcome.ok.injEq] at h
      subst h
      split_ifs <;> exact ⟨rfl, rfl⟩

theorem walk_make_comp (sys : Sys) (action : jailaction) (j j1 : jaildirinfo) (w : WalkVars)
    (thisdir : Str) (last_pos : Nat) (allowed_here usable : Bool) (fd1 fd : Option Errno)
    (b : Bool)
    (h : walk_make sys action j w thisdir last_pos allowed_here usable fd1 = .ok (j1, fd, b)) :
    j1.parent = j.parent ∧ j1.component = j.component ∧ j1.dir = j.dir := by
  unfold walk_make at h
  simp only at h
  split at h
  · split at h
    · simp at h
    · split at h
      · simp at h
      · simp only [Outcome.ok.injEq, Prod.mk.injEq] at h
        obtain ⟨h1, -, -⟩ := h
        subst h1
        split_ifs <;> exact ⟨rfl, rfl, rfl⟩
  · simp only [Outcome.ok.injEq, Prod.mk.injEq] at h
    obtain ⟨h1, -, -⟩ := h
    subst h1
    exact ⟨rfl, rfl, rfl⟩

theorem walk_stat_comp (sys : Sys) (j j1 : jaildirinfo) (w w1 : WalkVars)
    (thisdir parent : Str) (last_pos : Nat) (allowed_here : Bool)
    (h : walk_stat sys j w thisdir parent last_pos allowed_here = .ok (j1, w1)) :
    j1.parent = j.parent ∧ j1.component = j.component := by
  unfold walk_stat at h
  simp only at h
  split at h
  · simp at h
  · rename_i s hs
    split at h
    · simp at h
    · split at h
      · simp at h
      · split at h
        · simp at h
        · split at h
          · split at h
            · rename_i jr hc
              simp only [Outcome.ok.injEq, Prod.mk.injEq] at h
              obtain ⟨h1, -⟩ := h
              subst h1
              have := check_permfile_comp _ _ _ _ _ hc
              exact ⟨this.1, this.2⟩
            · simp at h
            · simp at h
          · simp only [Outcome.ok.injEq, Prod.mk.injEq] at h
            obtain ⟨h1, -⟩ := h
            subst h1
            exact ⟨rfl, rfl⟩

/-- A returning round of the constructor's loop leaves in `parent` and `component` the
pieces of `dir` it has cut out. -/
theorem walk_step_comp (sys : Sys) (action : jailaction) (doforce : Bool)
    (j j1 : jaildirinfo) (w w1 : WalkVars)
    (h : walk_step sys action doforce j w = .ok (j1, w1)) :
    j1.parent = j.dir.take w.last_pos
      ∧ j1.component
          = (j.dir.drop w.last_pos).take (next_pos_of j.dir w.last_pos - w.last_pos) := by
  unfold walk_step at h
  simp only at h
  split at h
  · simp at h
  · simp at h
  · rename_i jm fd hm
    have := walk_make_comp _ _ _ _ _ _ _ _ _ _ _ _ hm
    simp only [Outcome.ok.injEq, Prod.mk.injEq] at h
    obtain ⟨h1, -⟩ := h
    subst h1
    exact ⟨this.1, this.2.1⟩
  · rename_i jm fd hm
    have hmk := walk_make_comp _ _ _ _ _ _ _ _ _ _ _ _ hm
    split at h
    · split at h <;> simp at h
    · have := walk_stat_comp _ _ _ _ _ _ _ _ _ h
      exact ⟨this.1.trans hmk.1, this.2.trans hmk.2.1⟩

/-- When the constructor's loop has ended, `parent` and `component` are the pieces of `dir`
that its last round has cut out, and that round has reached the end of `dir`. -/
theorem walk_comp (sys : Sys) (action : jailaction) (doforce : Bool) (fuel : Nat)
    (j j1 : jaildirinfo) (w w1 : WalkVars) (hdir : DirOk j.dir) (hj : j.Inv)
    (hlp : w.last_pos ≤ j.dir.length)
    (hc : w.last_pos = 0 ∨ ∃ lp, lp < j.dir.length ∧ j.parent = j.dir.take lp
        ∧ j.component = (j.dir.drop lp).take (next_pos_of j.dir lp - lp)
        ∧ w.last_pos = skip_pos_of j.dir (next_pos_of j.dir lp))
    (h : walk sys action doforce fuel j w = .ok (j1, w1)) :
    w1.last_pos = j.dir.length
      ∧ (w1.last_pos = 0 ∨ ∃ lp, lp < j.dir.length ∧ j1.parent = j.dir.take lp
          ∧ j1.component = (j.dir.drop lp).take (next_pos_of j.dir lp - lp)
          ∧ w1.last_pos = skip_pos_of j.dir (next_pos_of j.dir lp)) := by
  induction fuel generalizing j w with
  | zero => simp [walk] at h
  | succ fuel ih =>
    simp only [walk] at h
    split at h
    · rename_i hend
      simp only [Outcome.ok.injEq, Prod.mk.injEq] at h
      obtain ⟨h1, h2⟩ := h
      subst h1 h2
      exact ⟨hend, hc⟩
    · rename_i hne
      split at h
      · rename_i jm wm hstep
        have hlt : w.last_pos < j.dir.length := lt_of_le_of_ne hlp hne
        obtain ⟨hd, hi, hle⟩ := walk_step_inv sys action doforce j jm w wm hdir hj hlt hstep
        obtain ⟨hp, hcomp⟩ := walk_step_comp sys action doforce j jm w wm hstep
        obtain ⟨hw, -⟩ := walk_step_ok sys action doforce j jm w wm hstep
        have := ih jm wm (hd ▸ hdir) hi (hd ▸ hle)
          (Or.inr ⟨w.last_pos, hd ▸ hlt, hd ▸ hp, hd ▸ hcomp, hd ▸ hw⟩) h
        rw [hd] at this
        exact this
      · simp at h
      · simp at h

/-- The shape of `dir` around the component that the last round of the loop has cut out. -/
theorem last_component_geometry (dir : Str) (lp : Nat) (hdir : DirOk dir)
    (hnd : NoDoubleSlash dir) (hlen : 2 ≤ dir.length) (hlp : lp < dir.length)
    (hend : skip_pos_of dir (next_pos_of dir lp) = dir.length) :
    dir = dir.take lp ++ (dir.drop lp).take (next_pos_of dir lp - lp) ++ ['/']
      ∧ '/' ∉ (dir.drop lp).take (next_pos_of dir lp - lp) := by
  by_cases h0 : lp = 0
  · exfalso
    subst h0
    have hnp : next_pos_of dir 0 = 1 := by simp [next_pos_of]
    rw [hnp] at hend
    cases dir with
    | nil => simp at hlp
    | cons c rest0 =>
      have hc : c = '/' := by simpa using hdir.1
      subst hc
      have : skip_pos_of ('/' :: rest0) 1 = 1 := by
        unfold skip_pos_of
        cases rest0 with
        | nil => simp
        | cons d r =>
          have hd : d ≠ '/' := by
            intro hd
            subst hd
            simp [NoDoubleSlash] at hnd
          simp [List.takeWhile_cons, hd]
      rw [this] at hend
      simp only [List.length_cons] at hend hlen
      omega
  · obtain ⟨tw, rest, hsplit, htw, hnp⟩ := next_pos_split dir lp hdir.2 hlp h0
    have hBlen : (dir.take lp ++ tw).length = lp + tw.length := by
      rw [List.length_append, List.length_take]
      omega
    have hskip := skip_pos_one dir (dir.take lp ++ tw) rest hnd hsplit
    rw [hBlen, ← hnp, hend] at hskip
    have hrest : rest = [] := by
      have hl := congrArg List.length hsplit
      rw [List.length_append, hBlen, List.length_cons] at hl
      have : rest.length = 0 := by omega
      exact List.length_eq_zero.mp this
    subst hrest
    have hdrop : dir.drop lp = tw ++ ['/'] := by
      have h1 : dir = dir.take lp ++ (tw ++ ['/']) := by
        rw [← List.append_assoc]
        exact hsplit
      have h2 := congrArg (List.drop lp) h1
      rw [List.drop_left' (by rw [List.length_take]; omega)] at h2
      exact h2
    have hcomp : (dir.drop lp).take (next_pos_of dir lp - lp) = tw := by
      rw [hdrop, hnp]
      simp
    rw [hcomp]
    refine ⟨hsplit, fun hmem => htw '/' hmem rfl⟩

/-- For every jail the constructor accepts, `dir` is `parent` followed by `component` and one
slash, and `component` holds no slash: `component` is the last component of the jail
directory, and `parent` the directory that holds it. -/
theorem construct_component (sys : Sys) (str : Str) (action : jailaction) (doforce : Bool)
    (j : jaildirinfo) (h : jaildirinfo.construct sys str action doforce = .ok j) :
    j.dir = j.parent ++ j.component ++ ['/'] ∧ '/' ∉ j.component := by
  obtain ⟨a, dir0, -, hcf, hne, hroot, hhead, hdireq⟩ :=
    construct_dir sys str action doforce j h
  have hnd : NoDoubleSlash j.dir := by
    rw [hdireq]
    exact check_filename_noDouble a dir0 hcf hroot
  obtain ⟨hdirok, -, -⟩ := construct_ok sys str action doforce j h
  have hlen : 2 ≤ j.dir.length := by
    rw [hdireq]
    unfold path_endslash
    cases dir0 with
    | nil => exact absurd rfl hne
    | cons c r =>
      cases r with
      | nil =>
        simp only [List.head?_cons, Option.some.injEq] at hhead
        subst hhead
        exact absurd rfl hroot
      | cons d r1 =>
        split <;> simp
  have hkey : ∃ lp, lp < j.dir.length ∧ j.parent = j.dir.take lp
      ∧ j.component = (j.dir.drop lp).take (next_pos_of j.dir lp - lp)
      ∧ skip_pos_of j.dir (next_pos_of j.dir lp) = j.dir.length := by
    unfold jaildirinfo.construct at h
    simp only at h
    split at h
    · simp at h
    · simp at h
    · split at h
      · simp at h
      · rename_i dir1 _
        split at h
        · simp at h
        · rename_i hcond
          have hhead1 : dir1.head? = some '/' := by
            by_contra hn
            exact hcond (Or.inr (Or.inr hn))
          have hdir := path_endslash_DirOk dir1 hhead1
          split at h
          · simp at h
          · simp at h
          · rename_i j0 hetc
            have h0 : j0.dir = path_endslash dir1 ∧ j0.Inv := by
              split at hetc
              · have := parse_permfile_inv sys _ j0 _ _ _ false hdir
                  (fun ha => by simp at ha) (fun hf => by simp at hf) hetc
                exact this
              · simp only [Outcome.ok.injEq] at hetc
                subst hetc
                exact ⟨rfl, fun ha => by simp at ha⟩
            split at h
            · simp at h
            · simp at h
            · rename_i j1 w1 hwalk
              obtain ⟨hd1, -⟩ := walk_inv sys action doforce _ j0 j1 _ w1 (h0.1 ▸ hdir) h0.2
                (Nat.zero_le _) hwalk
              obtain ⟨hw1, hc1⟩ := walk_comp sys action doforce _ j0 j1 _ w1 (h0.1 ▸ hdir)
                h0.2 (Nat.zero_le _) (Or.inl rfl) hwalk
              split at h
              · simp at h
              · simp only [Outcome.ok.injEq] at h
                subst h
                rw [hd1]
                rcases hc1 with hz | ⟨lp, q1, q2, q3, q4⟩
                · exfalso
                  rw [hz] at hw1
                  rw [hd1] at hlen
                  omega
                · exact ⟨lp, q1, q2, q3, by rw [← q4, hw1]⟩
  obtain ⟨lp, hlp, hpar, hcomp, hend⟩ := hkey
  have := last_component_geometry j.dir lp hdirok hnd hlen hlp hend
  rw [← hpar, ← hcomp] at this
  exact this

/-! ## `mv`: the destination lies under the permission directory (claim C12) -/

/-- Claim C12.  For a jail `j` that the constructor has accepted, the member `component` is
the last component of the jail directory: `dir` is `parent`, `component` and a slash, and
`component` holds no slash.  For a destination argument that `absolute` and `check_filename`
turn into `d`: when `d` is not longer than `permdir` or does not start with `permdir`, `mv`
ends with `exit(1)` and the line "Not a subdirectory of", and no call is issued.  Otherwise
the path given to `renameat` is `d`, or `d` followed by a slash and `component` when `stat`
finds a directory at `d`; in both cases `permdir` is a proper initial part of it, and
`renameat(parentfd, component, parentfd, target)` is the one call issued (none in a dry
run). -/
theorem mv_destination_under_permdir (sys : Sys) (str : Str) (action : jailaction)
    (doforce : Bool) (g : Globals) (env : JailEnv) (σ : JailState) (j : jaildirinfo)
    (arg a d : Str)
    (hj : jaildirinfo.construct sys str action doforce = .ok j)
    (ha : absolute sys.pwd arg = .ok a) (hd : check_filename a = .ok d)
    (hd0 : d ≠ []) (hd1 : d.head? = some '/') :
    (j.dir = j.parent ++ j.component ++ ['/'] ∧ '/' ∉ j.component)
    ∧ ((d.length ≤ j.permdir.length ∨ d.take j.permdir.length ≠ j.permdir) →
        main_mv sys.pwd g env σ j arg
          = .exit 1 { σ with stderr := σ.stderr ++
              [("%s: Not a subdirectory of %s\n".toList, [d, j.permdir])] })
    ∧ (¬ (d.length ≤ j.permdir.length ∨ d.take j.permdir.length ≠ j.permdir) →
        ∃ target : Str,
          target = (if (match env.stat σ.ops d with
                        | .ok s => S_ISDIR s.st_mode
                        | .error _ => false) = true
                    then d ++ "/".toList ++ j.component else d)
          ∧ j.permdir <+: target ∧ j.permdir.length < target.length
          ∧ (g.dryrun = true → main_mv sys.pwd g env σ j arg = .exit 0 σ)
          ∧ (g.dryrun = false → ∃ n σ1, main_mv sys.pwd g env σ j arg = .exit n σ1
              ∧ σ1.ops = σ.ops ++ [Op.renameat j.component target])) := by
  obtain ⟨-, hinv, hall⟩ := construct_ok sys str action doforce j hj
  obtain ⟨hperm, -⟩ := hinv hall
  have hpne : j.permdir ≠ [] := hperm.1
  refine ⟨construct_component sys str action doforce j hj, ?_, ?_⟩
  · intro hbad
    unfold main_mv
    simp only [ha, hd]
    rw [if_neg (by
      rintro (h | h)
      · exact hd0 h
      · exact h hd1)]
    rw [if_pos hbad]
  · intro hgood
    have hlen : j.permdir.length < d.length := by
      by_contra hh
      exact hgood (Or.inl (by omega))
    have htake : d.take j.permdir.length = j.permdir := by
      by_contra hh
      exact hgood (Or.inr hh)
    have hpre : j.permdir <+: d := by
      rw [← htake]
      exact List.take_prefix _ _
    have hplen : 0 < j.permdir.length := List.length_pos.mpr hpne
    have hlast : d.getLast? ≠ some '/' := by
      rcases check_filename_last a d hd with hl | hl
      · omega
      · exact hl
    have hend : path_endslash d = d ++ "/".toList := by
      unfold path_endslash
      rw [if_pos (Or.inr hlast)]
      rfl
    refine ⟨_, rfl, ?_, ?_, ?_, ?_⟩
    · split_ifs
      · rw [List.append_assoc]
        exact hpre.trans (List.prefix_append _ _)
      · exact hpre
    · split_ifs
      · simp only [List.length_append]
        omega
      · exact hlen
    · intro hdry
      unfold main_mv
      simp only [ha, hd]
      rw [if_neg (by
        rintro (h | h)
        · exact hd0 h
        · exact h hd1)]
      rw [if_neg hgood]
      simp only [hdry, if_true]
    · intro hdry
      unfold main_mv
      simp only [ha, hd]
      rw [if_neg (by
        rintro (h | h)
        · exact hd0 h
        · exact h hd1)]
      rw [if_neg hgood]
      simp only [hdry, Bool.false_eq_true, if_false, hend]
      split
      · exact ⟨_, _, rfl, rfl⟩
      · exact ⟨_, _, rfl, rfl⟩


/-- Claim C12, exercised: `pa-jail mv /srv/jails/a /srv/jails/keep` with a directory at the
destination renames the jail to `/srv/jails/keep/a`. -/
theorem mv_destination_under_permdir_witness :
    jaildirinfo.construct local_sys "/srv/jails/a".toList .do_mv false = .ok accepted_a
    ∧ absolute local_sys.pwd "/srv/jails/keep".toList = .ok "/srv/jails/keep".toList
    ∧ check_filename "/srv/jails/keep".toList = .ok "/srv/jails/keep".toList
    ∧ main_mv local_sys.pwd jail_a mv_env JailState.start accepted_a "/srv/jails/keep".toList
        = .exit 0 { JailState.start with
            ops := [Op.renameat "a".toList "/srv/jails/keep/a".toList] }
    ∧ ∃ target : Str,
        target = (if (match mv_env.stat JailState.start.ops "/srv/jails/keep".toList with
                      | .ok s => S_ISDIR s.st_mode
                      | .error _ => false) = true
                  then "/srv/jails/keep".toList ++ "/".toList ++ accepted_a.component
                  else "/srv/jails/keep".toList)
        ∧ accepted_a.permdir <+: target ∧ accepted_a.permdir.length < target.length
        ∧ (jail_a.dryrun = true →
            main_mv local_sys.pwd jail_a mv_env JailState.start accepted_a
              "/srv/jails/keep".toList = .exit 0 JailState.start)
        ∧ (jail_a.dryrun = false → ∃ n σ1,
            main_mv local_sys.pwd jail_a mv_env JailState.start accepted_a
              "/srv/jails/keep".toList = .exit n σ1
            ∧ σ1.ops = JailState.start.ops
                ++ [Op.renameat accepted_a.component target]) :=
  ⟨by decide, by decide, by decide, by decide,
   (mv_destination_under_permdir local_sys "/srv/jails/a".toList .do_mv false jail_a mv_env
      JailState.start accepted_a "/srv/jails/keep".toList "/srv/jails/keep".toList
      "/srv/jails/keep".toList (by decide) (by decide) (by decide) (by decide)
      (by decide)).2.2 (by decide)⟩


/-! ## What the jail-making functions keep -/

theorem LinksOk_append_other (g : Globals) (env : JailEnv) (jaildev start : Nat)
    (ops : List Op) (op : Op) (h : LinksOk g env jaildev start ops)
    (hop : ∀ o n, op ≠ Op.link o n) : LinksOk g env jaildev start (ops ++ [op]) := by
  intro pre post o n heq hst
  rcases List.eq_nil_or_concat post with hp | ⟨post1, x, hp⟩
  · subst hp
    have := List.append_inj' (show ops ++ [op] = pre ++ [Op.link o n] from heq) rfl
    simp only [List.cons.injEq, and_true] at this
    exact absurd this.2 (hop o n)
  · subst hp
    have h1 : ops ++ [op] = (pre ++ Op.link o n :: post1) ++ [x] := by
      rw [heq]
      simp
    have := List.append_inj' h1 rfl
    exact h pre post1 o n this.1 hst

theorem LinksOk_append_link (g : Globals) (env : JailEnv) (jaildev start : Nat)
    (ops : List Op) (oldpath newpath : Str) (h : LinksOk g env jaildev start ops)
    (hj : LinkJustified g env jaildev ops oldpath) :
    LinksOk g env jaildev start (ops ++ [Op.link oldpath newpath]) := by
  intro pre post o n heq hst
  rcases List.eq_nil_or_concat post with hp | ⟨post1, x, hp⟩
  · subst hp
    have := List.append_inj' (show ops ++ [Op.link oldpath newpath] = pre ++ [Op.link o n]
      from heq) rfl
    simp only [List.cons.injEq, and_true, Op.link.injEq] at this
    obtain ⟨h1, h2, -⟩ := this
    subst h1 h2
    exact hj
  · subst hp
    have h1 : ops ++ [Op.link oldpath newpath] = (pre ++ Op.link o n :: post1) ++ [x] := by
      rw [heq]
      simp
    have := List.append_inj' h1 rfl
    exact h pre post1 o n this.1 hst

theorem Later_refl (g : Globals) (env : JailEnv) (jaildev : Nat) (σ : JailState) :
    Later g env jaildev σ σ :=
  ⟨List.prefix_refl _, List.prefix_refl _, fun _ h => h⟩

theorem Later_trans {g : Globals} {env : JailEnv} {jaildev : Nat} {σ σ1 σ2 : JailState}
    (h1 : Later g env jaildev σ σ1) (h2 : Later g env jaildev σ1 σ2) :
    Later g env jaildev σ σ2 :=
  ⟨h1.1.trans h2.1, h1.2.1.trans h2.2.1, fun s h => h2.2.2 s (h1.2.2 s h)⟩

/-- A state that differs in neither `dst_table` nor the calls comes later. -/
theorem Later_same (g : Globals) (env : JailEnv) (jaildev : Nat) (σ σ1 : JailState)
    (hd : σ1.dst_table = σ.dst_table) (ho : σ1.ops = σ.ops) : Later g env jaildev σ σ1 :=
  ⟨by rw [hd], by rw [ho], fun _ h => by rw [ho]; exact h⟩

/-- One more call that is not a `link`. -/
theorem Later_op (g : Globals) (env : JailEnv) (jaildev : Nat) (σ σ1 : JailState) (op : Op)
    (hd : σ1.dst_table = σ.dst_table) (ho : σ1.ops = σ.ops ++ [op])
    (hop : ∀ o n, op ≠ Op.link o n) : Later g env jaildev σ σ1 :=
  ⟨by rw [hd], by rw [ho]; exact List.prefix_append _ _,
    fun s h => by rw [ho]; exact LinksOk_append_other g env jaildev s _ op h hop⟩

/-- One more call of `link` that is justified. -/
theorem Later_link (g : Globals) (env : JailEnv) (jaildev : Nat) (σ σ1 : JailState)
    (oldpath newpath : Str) (hd : σ1.dst_table = σ.dst_table)
    (ho : σ1.ops = σ.ops ++ [Op.link oldpath newpath])
    (hj : LinkJustified g env jaildev σ.ops oldpath) : Later g env jaildev σ σ1 :=
  ⟨by rw [hd], by rw [ho]; exact List.prefix_append _ _,
    fun s h => by rw [ho]; exact LinksOk_append_link g env jaildev s _ _ _ h hj⟩

theorem perror_fail_later (g : Globals) (env : JailEnv) (jaildev : Nat) (σ : JailState)
    (format arg1 : Str) : Later g env jaildev σ (perror_fail σ format arg1).1 :=
  Later_same g env jaildev _ _ rfl rfl

theorem v_mkdir_later (g : Globals) (env : JailEnv) (jaildev : Nat) (σ : JailState)
    (pathname : Str) (mode : Nat) :
    Later g env jaildev σ (v_mkdir g env σ pathname mode).1 := by
  unfold v_mkdir
  split
  · exact Later_refl _ _ _ _
  · exact Later_op g env jaildev _ _ _ rfl rfl (by intro o n h; cases h)

theorem x_chmod_later (g : Globals) (env : JailEnv) (jaildev : Nat) (σ : JailState)
    (path : Str) (mode : Nat) : Later g env jaildev σ (x_chmod g env σ path mode).1 := by
  unfold x_chmod
  split
  · exact Later_refl _ _ _ _
  · simp only
    split
    · exact Later_op g env jaildev _ _ _ rfl rfl (by intro o n h; cases h)
    · exact Later_op g env jaildev _ _ _ rfl rfl (by intro o n h; cases h)

theorem x_lchown_later (g : Globals) (env : JailEnv) (jaildev : Nat) (σ : JailState)
    (path : Str) (owner group : Nat) :
    Later g env jaildev σ (x_lchown g env σ path owner group).1 := by
  unfold x_lchown
  split
  · exact Later_refl _ _ _ _
  · simp only
    split
    · exact Later_op g env jaildev _ _ _ rfl rfl (by intro o n h; cases h)
    · exact Later_op g env jaildev _ _ _ rfl rfl (by intro o n h; cases h)

theorem x_mknod_later (g : Globals) (env : JailEnv) (jaildev : Nat) (σ : JailState)
    (path : Str) (mode dev : Nat) :
    Later g env jaildev σ (x_mknod g env σ path mode dev).1 := by
  unfold x_mknod
  split
  · exact Later_refl _ _ _ _
  · simp only
    split
    · exact Later_op g env jaildev _ _ _ rfl rfl (by intro o n h; cases h)
    · split
      · exact Later_op g env jaildev _ _ _ rfl rfl (by intro o n h; cases h)
      · exact Later_op g env jaildev _ _ _ rfl rfl (by intro o n h; cases h)

theorem x_symlink_later (g : Globals) (env : JailEnv) (jaildev : Nat) (σ : JailState)
    (oldpath newpath : Str) :
    Later g env jaildev σ (x_symlink g env σ oldpath newpath).1 := by
  unfold x_symlink
  split
  · exact Later_refl _ _ _ _
  · simp only
    split
    · exact Later_op g env jaildev _ _ _ rfl rfl (by intro o n h; cases h)
    · split
      · exact Later_op g env jaildev _ _ _ rfl rfl (by intro o n h; cases h)
      · exact Later_op g env jaildev _ _ _ rfl rfl (by intro o n h; cases h)

theorem x_cp_p_later (g : Globals) (env : JailEnv) (jaildev : Nat) (σ : JailState)
    (src dst : Str) : Later g env jaildev σ (x_cp_p g env σ src dst).1 := by
  unfold x_cp_p
  split
  · exact Later_refl _ _ _ _
  · simp only
    split
    · exact Later_op g env jaildev _ _ _ rfl rfl (by intro o n h; cases h)
    · split
      · exact Later_op g env jaildev _ _ _ rfl rfl (by intro o n h; cases h)
      · split
        · exact Later_op g env jaildev _ _ _ rfl rfl (by intro o n h; cases h)
        · exact Later_op g env jaildev _ _ _ rfl rfl (by intro o n h; cases h)

theorem handle_mount_later (g : Globals) (env : JailEnv) (jaildev : Nat) (σ : JailState)
    (ms : mountslot) (dst : Str) :
    Later g env jaildev σ (handle_mount g env σ ms dst).1 := by
  unfold handle_mount
  simp only
  split
  · exact Later_refl _ _ _ _
  · split
    · exact Later_refl _ _ _ _
    · split
      · exact Later_op g env jaildev _ _ _ rfl rfl (by intro o n h; cases h)
      · exact Later_op g env jaildev _ _ _ rfl rfl (by intro o n h; cases h)

theorem x_link_later (g : Globals) (env : JailEnv) (jaildev : Nat) (σ : JailState)
    (oldpath newpath : Str) (hj : LinkJustified g env jaildev σ.ops oldpath) :
    Later g env jaildev σ (x_link g env σ oldpath newpath).1 := by
  unfold x_link
  split
  · exact Later_refl _ _ _ _
  · simp only
    split
    · exact Later_link g env jaildev _ _ _ _ rfl rfl hj
    · split
      · exact Later_link g env jaildev _ _ _ _ rfl rfl hj
      · exact Later_link g env jaildev _ _ _ _ rfl rfl hj


theorem make_supers_later (g : Globals) (env : JailEnv) (jaildev : Nat) (σ : JailState)
    (supers : List Str) : Later g env jaildev σ (make_supers g env σ supers).1 := by
  induction supers generalizing σ with
  | nil => exact Later_refl _ _ _ _
  | cons lnksuper rest ih =>
    simp only [make_supers]
    split
    · exact ih σ
    · split
      · split
        · exact perror_fail_later _ _ _ _ _ _
        · have hL := v_mkdir_later g env jaildev σ lnksuper 0o770
          generalize v_mkdir g env σ lnksuper 0o770 = res at hL ⊢
          obtain ⟨σ1, r⟩ := res
          cases r with
          | none =>
            simp only
            refine Later_trans hL (Later_trans ?_ (ih _))
            exact Later_same g env jaildev _ _ rfl rfl
          | some e1 =>
            simp only
            split
            · exact Later_trans hL (perror_fail_later _ _ _ _ _ _)
            · refine Later_trans hL (Later_trans ?_ (ih _))
              exact Later_same g env jaildev _ _ rfl rfl
      · split
        · exact perror_fail_later _ _ _ _ _ _
        · refine Later_trans ?_ (ih _)
          exact Later_same g env jaildev _ _ rfl rfl

theorem copy_for_xdev_link_later (g : Globals) (env : JailEnv) (jaildev : Nat)
    (σ : JailState) (src lnk : Str) :
    Later g env jaildev σ (copy_for_xdev_link g env σ src lnk).1 := by
  unfold copy_for_xdev_link
  have hL := make_supers_later g env jaildev σ (lnk_supers lnk g.linkdir.length)
  generalize make_supers g env σ (lnk_supers lnk g.linkdir.length) = res at hL ⊢
  obtain ⟨σ1, r⟩ := res
  simp only
  split
  · exact hL
  · exact Later_trans hL (x_cp_p_later _ _ _ _ _ _)

theorem xdev_stage_later (g : Globals) (env : JailEnv) (jaildev : Nat) (σ : JailState)
    (src lnk : Str) (st : FileStat) :
    Later g env jaildev σ (xdev_stage g env σ src lnk st).1 := by
  have hcopy : Later g env jaildev σ
      (match copy_for_xdev_link g env σ src lnk with
        | (σ1, r1) => if r1 ≠ 0 then (σ1, (1 : Int)) else (σ1, 0)).1 := by
    have hL := copy_for_xdev_link_later g env jaildev σ src lnk
    generalize copy_for_xdev_link g env σ src lnk = res at hL ⊢
    obtain ⟨σ1, r⟩ := res
    dsimp only
    split <;> exact hL
  unfold xdev_stage
  split
  · exact hcopy
  · split
    · split
      · exact perror_fail_later _ _ _ _ _ _
      · exact hcopy
    · exact Later_refl _ _ _ _

theorem handle_xdev_link_later (g : Globals) (env : JailEnv) (jaildev : Nat) (σ : JailState)
    (src dst : Str) (st : FileStat) (hl : g.linkdir ≠ [])
    (hst : env.lstat σ.ops src = .ok st)
    (hkind : S_ISREG st.st_mode = true ∨ S_ISLNK st.st_mode = true) :
    Later g env jaildev σ (handle_xdev_link g env σ src dst st).1 := by
  unfold handle_xdev_link
  have hS := xdev_stage_later g env jaildev σ src (g.linkdir ++ src) st
  generalize xdev_stage g env σ src (g.linkdir ++ src) st = staged at hS ⊢
  obtain ⟨σ1, r1⟩ := staged
  dsimp only
  split
  · exact hS
  · have hL := x_link_later g env jaildev σ1 (g.linkdir ++ src) dst
      (Or.inr ⟨hl, src, σ.ops, st, rfl, hS.2.1, hst, hkind⟩)
    generalize x_link g env σ1 (g.linkdir ++ src) dst = res at hL ⊢
    obtain ⟨σ2, r2⟩ := res
    dsimp only
    split
    · exact Later_trans hS (Later_trans hL (perror_fail_later _ _ _ _ _ _))
    · exact Later_trans hS hL

theorem copy_finish_later (g : Globals) (env : JailEnv) (jaildev : Nat) (σ : JailState)
    (src dst : Str) (ds : DsVals) (ss : FileStat) :
    Later g env jaildev σ (copy_finish g env σ src dst ds ss).1 := by
  unfold copy_finish
  simp only
  have h1 : Later g env jaildev σ
      (if ds.st_mode ≠ ss.st_mode then x_chmod g env σ dst ss.st_mode else (σ, 0)).1 := by
    split
    · exact x_chmod_later _ _ _ _ _ _
    · exact Later_refl _ _ _ _
  generalize (if ds.st_mode ≠ ss.st_mode then x_chmod g env σ dst ss.st_mode else (σ, 0))
    = res1 at h1 ⊢
  obtain ⟨σ1, r1⟩ := res1
  simp only
  split
  · exact h1
  · have h2 : Later g env jaildev σ1
        (if ds.st_uid ≠ ss.st_uid ∨ ds.st_gid ≠ ss.st_gid then
          x_lchown g env σ1 dst ss.st_uid ss.st_gid else (σ1, 0)).1 := by
      split
      · exact x_lchown_later _ _ _ _ _ _ _
      · exact Later_refl _ _ _ _
    generalize (if ds.st_uid ≠ ss.st_uid ∨ ds.st_gid ≠ ss.st_gid then
          x_lchown g env σ1 dst ss.st_uid ss.st_gid else (σ1, 0)) = res2 at h2 ⊢
    obtain ⟨σ2, r2⟩ := res2
    simp only
    split
    · exact Later_trans h1 h2
    · split
      · split
        · split
          · exact Later_trans h1 (Later_trans h2 (handle_mount_later _ _ _ _ _ _))
          · exact Later_trans h1 h2
        · exact Later_trans h1 h2
      · exact Later_trans h1 h2


/-- The branch on the file type issues a `link` only when it is justified: from the source,
which `lstat` has just found to be a regular file on the device of the jail, or from the link
directory. -/
theorem copy_branch_later (g : Globals) (env : JailEnv) (jaildev : Nat) (σ : JailState)
    (src dst : Str) (flags : Nat) (ss : FileStat) (hss : env.lstat σ.ops src = .ok ss) :
    Later g env jaildev σ (copy_branch g env jaildev σ src dst flags ss).1 := by
  unfold copy_branch
  split
  · have hL := x_cp_p_later g env jaildev σ src dst
    generalize x_cp_p g env σ src dst = res at hL ⊢
    obtain ⟨σ1, r⟩ := res
    dsimp only
    split <;> exact hL
  · split
    · rename_i hreg
      have hL := x_link_later g env jaildev σ src dst
        (Or.inl ⟨ss, hss, hreg.1, hreg.2.2.2⟩)
      generalize x_link g env σ src dst = res at hL ⊢
      obtain ⟨σ1, r⟩ := res
      dsimp only
      split
      · exact Later_trans hL (perror_fail_later _ _ _ _ _ _)
      · exact hL
    · split
      · split
        · exact perror_fail_later _ _ _ _ _ _
        · rename_i hkind hl
          have hk : S_ISREG ss.st_mode = true ∨ S_ISLNK ss.st_mode = true :=
            hkind.elim Or.inl (fun h => Or.inr h.1)
          have hL := handle_xdev_link_later g env jaildev σ src dst ss hl hss hk
          generalize handle_xdev_link g env σ src dst ss = res at hL ⊢
          obtain ⟨σ1, r⟩ := res
          dsimp only
          split
          · exact Later_trans hL (perror_fail_later _ _ _ _ _ _)
          · exact hL
      · split
        · dsimp only
          have hL := v_mkdir_later g env jaildev σ dst
            (ss.st_mode &&& (S_ISUID ||| S_ISGID ||| S_IRWXU ||| S_IRWXG ||| S_IRWXO))
          generalize v_mkdir g env σ dst
            (ss.st_mode &&& (S_ISUID ||| S_ISGID ||| S_IRWXU ||| S_IRWXG ||| S_IRWXO))
            = res at hL ⊢
          obtain ⟨σ1, r⟩ := res
          cases r with
          | none => exact hL
          | some e =>
            dsimp only
            split
            · exact Later_trans hL (perror_fail_later _ _ _ _ _ _)
            · split
              · exact Later_trans hL (perror_fail_later _ _ _ _ _ _)
              · exact hL
        · split
          · dsimp only
            have hL := x_mknod_later g env jaildev σ dst
              (ss.st_mode &&& (S_IFREG ||| S_IFCHR ||| S_IFBLK ||| S_IFIFO ||| S_IFSOCK
                ||| S_ISUID ||| S_ISGID ||| S_IRWXU ||| S_IRWXG ||| S_IRWXO)) ss.st_rdev
            generalize x_mknod g env σ dst
              (ss.st_mode &&& (S_IFREG ||| S_IFCHR ||| S_IFBLK ||| S_IFIFO ||| S_IFSOCK
                ||| S_ISUID ||| S_ISGID ||| S_IRWXU ||| S_IRWXG ||| S_IRWXO)) ss.st_rdev
              = res at hL ⊢
            obtain ⟨σ1, r⟩ := res
            dsimp only
            split <;> exact hL
          · split
            · split
              · exact perror_fail_later _ _ _ _ _ _
              · rename_i target _
                dsimp only
                split
                · exact perror_fail_later _ _ _ _ _ _
                · have hL := x_symlink_later g env jaildev σ
                    ((target.take (min target.length 4096)).takeWhile (fun c => c != '\x00'))
                    dst
                  generalize x_symlink g env σ
                    ((target.take (min target.length 4096)).takeWhile (fun c => c != '\x00'))
                    dst = res at hL ⊢
                  obtain ⟨σ1, r⟩ := res
                  dsimp only
                  split <;> exact hL
            · exact perror_fail_later _ _ _ _ _ _

/-- `handle_symlink_dst` keeps what the call of `handle_copy` it makes keeps. -/
theorem handle_symlink_dst_later (g : Globals) (env : JailEnv) (jaildev : Nat)
    (copy : JailState → Str → Str → CopyResult)
    (hcopy : ∀ σ s d, Later g env jaildev σ (copy σ s d).1)
    (σ : JailState) (src dst lnk : Str) :
    Later g env jaildev σ (handle_symlink_dst g copy σ src dst lnk).1 := by
  unfold handle_symlink_dst
  dsimp only
  split
  · exact Later_refl _ _ _ _
  · rename_i src1 dst1 _
    split
    · have hL := hcopy σ src1 dst1
      generalize copy σ src1 dst1 = res at hL ⊢
      obtain ⟨σ1, r⟩ := res
      cases r with
      | error f => exact hL
      | ok v =>
        obtain ⟨r, srcmode⟩ := v
        dsimp only
        split
        · exact Later_trans hL (Later_same g env jaildev _ _ rfl rfl)
        · exact hL
    · exact Later_refl _ _ _ _

/-- The copy of the parent directory keeps what `handle_copy` keeps. -/
theorem copy_parents_later (g : Globals) (env : JailEnv) (jaildev : Nat)
    (copy : JailState → Str → Str → CopyResult)
    (hcopy : ∀ σ s d, Later g env jaildev σ (copy σ s d).1)
    (σ : JailState) (src dst : Str) (check_parents : Bool) :
    Later g env jaildev σ (copy_parents env copy σ src dst check_parents).1 := by
  unfold copy_parents
  split
  · split
    · rename_i psrc pdst _
      have hL := hcopy σ psrc pdst
      generalize copy σ psrc pdst = res at hL ⊢
      obtain ⟨σ1, r⟩ := res
      cases r with
      | error f => exact hL
      | ok v => exact hL
    · exact Later_refl _ _ _ _
  · exact Later_refl _ _ _ _

/-- What a call of `handle_copy` does behind the insertion of `dst` into `dst_table`, when the
calls it makes of itself keep `dst_table`, the record of calls and the justification of every
`link`. -/
theorem handle_copy_step (g : Globals) (env : JailEnv) (jaildev : Nat) (fuel : Nat)
    (ih : ∀ (σ : JailState) (src dst : Str) (check_parents : Bool) (flags : Nat),
      Later g env jaildev σ (handle_copy g env jaildev fuel σ src dst check_parents flags).1)
    (σ : JailState) (src dst : Str) (check_parents : Bool) (flags : Nat)
    (hfresh : σ.dst_table.contains dst = false) :
    Later g env jaildev { σ with dst_table := σ.dst_table ++ [dst] }
      (handle_copy g env jaildev (fuel + 1) σ src dst check_parents flags).1 := by
  simp only [handle_copy, hfresh, Bool.false_eq_true, if_false]
  have hP := copy_parents_later g env jaildev
    (fun σ s d => handle_copy g env jaildev fuel σ s d true 0)
    (fun σ s d => ih σ s d true 0) { σ with dst_table := σ.dst_table ++ [dst] } src dst
    check_parents
  generalize copy_parents env (fun σ s d => handle_copy g env jaildev fuel σ s d true 0)
    { σ with dst_table := σ.dst_table ++ [dst] } src dst check_parents = res at hP ⊢
  obtain ⟨σ1, r⟩ := res
  cases r with
  | error f => exact hP
  | ok u =>
    dsimp only
    split
    · exact Later_trans hP (perror_fail_later _ _ _ _ _ _)
    · rename_i ss0 hss
      have hB := copy_branch_later g env jaildev σ1 src dst flags ss0 hss
      generalize copy_branch g env jaildev σ1 src dst flags ss0 = res at hB ⊢
      obtain ⟨σ2, b⟩ := res
      cases b with
      | ret r => exact Later_trans hP hB
      | go ds ss =>
        dsimp only
        exact Later_trans hP (Later_trans hB (copy_finish_later _ _ _ _ _ _ _ _))
      | golink lnkbuf ds ss =>
        dsimp only
        have hS := handle_symlink_dst_later g env jaildev
          (fun σ s d => handle_copy g env jaildev fuel σ s d true 0)
          (fun σ s d => ih σ s d true 0) σ2 src dst lnkbuf
        generalize handle_symlink_dst g
          (fun σ s d => handle_copy g env jaildev fuel σ s d true 0) σ2 src dst lnkbuf
          = res at hS ⊢
        obtain ⟨σ3, r3⟩ := res
        cases r3 with
        | error f => exact Later_trans hP (Later_trans hB hS)
        | ok u3 =>
          dsimp only
          exact Later_trans hP (Later_trans hB (Later_trans hS (copy_finish_later _ _ _ _ _ _ _ _)))

/-- Every call of `handle_copy`, whatever the bound on the depth of its calls, leaves
`dst_table` and the record of calls grown at their ends only, and every `link` justified. -/
theorem handle_copy_later (g : Globals) (env : JailEnv) (jaildev : Nat) (fuel : Nat)
    (σ : JailState) (src dst : Str) (check_parents : Bool) (flags : Nat) :
    Later g env jaildev σ (handle_copy g env jaildev fuel σ src dst check_parents flags).1 := by
  induction fuel generalizing σ src dst check_parents flags with
  | zero => exact Later_refl _ _ _ _
  | succ fuel ih =>
    cases hfresh : σ.dst_table.contains dst with
    | true =>
      simp only [handle_copy, hfresh, if_true]
      exact Later_refl _ _ _ _
    | false =>
      refine Later_trans ?_ (handle_copy_step g env jaildev fuel ih σ src dst check_parents
        flags hfresh)
      exact ⟨List.prefix_append _ _, List.prefix_refl _, fun _ h => h⟩


/-! ## No hard link across devices (claim C13) -/

/-- Claim C13.  Whatever the file system answers and however deep the calls of `handle_copy`
go, every `link(oldpath, newpath)` that a call of `handle_copy` issues has one of two forms.
Either `oldpath` is a source that `lstat` has just found to be a regular file with `st_dev`
equal to `jaildev`; or a link directory is configured and `oldpath` is the staged copy
`linkdir + src` of a source `src`.  So no link is made from a regular file on another device.
And for a source that is a regular file on another device while no link directory is
configured, the branch on the file type issues no `link` at all: under `FLAG_NOLINK` it runs
`cp -p`, and otherwise it fails with the line "link ...". -/
theorem no_direct_link_across_devices (g : Globals) (env : JailEnv) (jaildev fuel : Nat)
    (σ : JailState) (src dst : Str) (check_parents : Bool) (flags : Nat) :
    (∀ pre post oldpath newpath,
      (handle_copy g env jaildev fuel σ src dst check_parents flags).1.ops
          = pre ++ Op.link oldpath newpath :: post →
      σ.ops.length ≤ pre.length →
        (∃ ss, env.lstat pre oldpath = .ok ss ∧ S_ISREG ss.st_mode = true
            ∧ ss.st_dev = jaildev)
        ∨ (g.linkdir ≠ [] ∧ ∃ s hist ss, oldpath = g.linkdir ++ s ∧ hist <+: pre
            ∧ env.lstat hist s = .ok ss
            ∧ (S_ISREG ss.st_mode = true ∨ S_ISLNK ss.st_mode = true)))
    ∧ (∀ (σ0 : JailState) (ss : FileStat), S_ISREG ss.st_mode = true → ss.st_dev ≠ jaildev →
        g.linkdir = [] →
        ((flags &&& FLAG_NOLINK) ≠ 0 →
          (copy_branch g env jaildev σ0 src dst flags ss).1 = (x_cp_p g env σ0 src dst).1)
        ∧ ((flags &&& FLAG_NOLINK) = 0 →
          copy_branch g env jaildev σ0 src dst flags ss
            = ({ σ0 with stderr := σ0.stderr ++ [("link %s: %s\n".toList, [dst])],
                         exit_value := 1 }, .ret 1))) := by
  constructor
  · have hL := (handle_copy_later g env jaildev fuel σ src dst check_parents flags).2.2
      σ.ops.length
    have h0 : LinksOk g env jaildev σ.ops.length σ.ops := by
      intro pre post o n heq hle
      have := congrArg List.length heq
      simp only [List.length_append, List.length_cons] at this
      omega
    exact hL h0
  · intro σ0 ss hreg hdev hlink
    constructor
    · intro hno
      unfold copy_branch
      rw [if_pos ⟨hreg, hno⟩]
      generalize x_cp_p g env σ0 src dst = res
      obtain ⟨σ1, r⟩ := res
      dsimp only
      split <;> rfl
    · intro hno
      unfold copy_branch
      rw [if_neg (fun h => h.2 hno), if_neg (fun h => hdev h.2.2.2), if_pos (Or.inl hreg),
        if_pos hlink]
      rfl

/-- Claim C13, exercised on the host of the examples with the link directory `/var/stage`:
`/opt/tool`, a regular file on another device than the jail, is copied to the link directory
and linked from there, and that `link` is justified by the second form. -/
theorem no_direct_link_across_devices_witness :
    (handle_copy { jail_a with linkdir := "/var/stage".toList } host_env 1 2
        JailState.start "/opt/tool".toList "/srv/jails/a/opt/tool".toList false 0).1.ops
      = [Op.mkdir "/var/stage".toList 0o770, Op.mkdir "/var/stage/opt".toList 0o770,
         Op.cp_p "/opt/tool".toList "/var/stage/opt/tool".toList]
        ++ Op.link "/var/stage/opt/tool".toList "/srv/jails/a/opt/tool".toList :: []
    ∧ JailState.start.ops.length ≤ 3
    ∧ ((∃ ss, host_env.lstat
            [Op.mkdir "/var/stage".toList 0o770, Op.mkdir "/var/stage/opt".toList 0o770,
             Op.cp_p "/opt/tool".toList "/var/stage/opt/tool".toList]
            "/var/stage/opt/tool".toList = .ok ss
          ∧ S_ISREG ss.st_mode = true ∧ ss.st_dev = 1)
        ∨ (({ jail_a with linkdir := "/var/stage".toList } : Globals).linkdir ≠ []
          ∧ ∃ s hist ss, "/var/stage/opt/tool".toList
              = ({ jail_a with linkdir := "/var/stage".toList } : Globals).linkdir ++ s
            ∧ hist <+: [Op.mkdir "/var/stage".toList 0o770,
                Op.mkdir "/var/stage/opt".toList 0o770,
                Op.cp_p "/opt/tool".toList "/var/stage/opt/tool".toList]
            ∧ host_env.lstat hist s = .ok ss
            ∧ (S_ISREG ss.st_mode = true ∨ S_ISLNK ss.st_mode = true))) :=
  ⟨by decide, by decide,
   (no_direct_link_across_devices { jail_a with linkdir := "/var/stage".toList } host_env 1 2
      JailState.start "/opt/tool".toList "/srv/jails/a/opt/tool".toList false 0).1
      [Op.mkdir "/var/stage".toList 0o770, Op.mkdir "/var/stage/opt".toList 0o770,
       Op.cp_p "/opt/tool".toList "/var/stage/opt/tool".toList] []
      "/var/stage/opt/tool".toList "/srv/jails/a/opt/tool".toList (by decide) (by decide)⟩

/-! ## A destination is copied once (claim C14) -/

/-- Claim C14, refuted as stated: a second call of `handle_copy` for a destination that is in
`dst_table` changes nothing, but the value it returns is 1, not 0. -/
theorem handle_copy_known_dst_returns_one :
    (handle_copy jail_a host_env 1 2 JailState.start "/dev/ptmx".toList
        "/srv/jails/a/dev/ptmx".toList false 0).2 = .ok (0, some 0o020666)
    ∧ handle_copy jail_a host_env 1 2
        (handle_copy jail_a host_env 1 2 JailState.start "/dev/ptmx".toList
          "/srv/jails/a/dev/ptmx".toList false 0).1
        "/dev/ptmx".toList "/srv/jails/a/dev/ptmx".toList false 0
      = ((handle_copy jail_a host_env 1 2 JailState.start "/dev/ptmx".toList
          "/srv/jails/a/dev/ptmx".toList false 0).1, .ok (1, none)) := by
  decide

/-- Claim C14, as amended.  A call of `handle_copy` with a `dst` that is in `dst_table`
returns 1 and leaves the whole state as it is: no call is issued, nothing is printed, and
`dst_table`, `lnk_table` and `exit_value` keep their values.  A call with a `dst` that is not
in `dst_table` first appends it: in the state the call ends in, `dst_table` starts with the
old keys followed by `dst`. -/
theorem handle_copy_known_dst (g : Globals) (env : JailEnv) (jaildev fuel : Nat)
    (σ : JailState) (src dst : Str) (check_parents : Bool) (flags : Nat) :
    (dst ∈ σ.dst_table →
      handle_copy g env jaildev (fuel + 1) σ src dst check_parents flags = (σ, .ok (1, none)))
    ∧ (dst ∉ σ.dst_table →
      σ.dst_table ++ [dst]
        <+: (handle_copy g env jaildev (fuel + 1) σ src dst check_parents flags).1.dst_table)
    := by
  constructor
  · intro h
    have hc : σ.dst_table.contains dst = true := by simpa using h
    simp only [handle_copy, hc, if_true]
  · intro h
    have hc : σ.dst_table.contains dst = false := by simpa using h
    exact (handle_copy_step g env jaildev fuel
      (handle_copy_later g env jaildev fuel) σ src dst check_parents flags hc).1

/-- Claim C14 as amended, exercised: with `/srv/jails/a/bin/ls` in `dst_table`, the call for
that destination returns 1 in the state it was given. -/
theorem handle_copy_known_dst_witness :
    "/srv/jails/a/bin/ls".toList
      ∈ ({ JailState.start with dst_table := ["/srv/jails/a/bin/ls".toList] } : JailState).dst_table
    ∧ handle_copy jail_a host_env 1 (0 + 1)
        { JailState.start with dst_table := ["/srv/jails/a/bin/ls".toList] }
        "/bin/ls".toList "/srv/jails/a/bin/ls".toList true 0
      = ({ JailState.start with dst_table := ["/srv/jails/a/bin/ls".toList] }, .ok (1, none)) :=
  ⟨by decide,
   (handle_copy_known_dst jail_a host_env 1 0
      { JailState.start with dst_table := ["/srv/jails/a/bin/ls".toList] }
      "/bin/ls".toList "/srv/jails/a/bin/ls".toList true 0).1 (by decide)⟩


/-! ## Symbolic links (claim C15) -/

/-- The branch on the file type for a symbolic link without the flag `cp`: `readlink`, the
test of the length, and `x_symlink`. -/
theorem copy_branch_symlink (g : Globals) (env : JailEnv) (jaildev : Nat) (σ : JailState)
    (src dst : Str) (flags : Nat) (ss : FileStat) (target : Str)
    (hlnk : S_ISLNK ss.st_mode = true) (hcp : flags &&& FLAG_CP = 0)
    (hrl : env.readlink σ.ops src = .ok target) :
    copy_branch g env jaildev σ src dst flags ss
      = (if min target.length 4096 = 4096 then
          ({ σ with stderr := σ.stderr ++ [("%s: Symbolic link too long\n".toList, [src])],
                    exit_value := 1 }, .ret 1)
        else
          match x_symlink g env σ
              ((target.take (min target.length 4096)).takeWhile (fun c => c != '\x00'))
              dst with
          | (σ1, r1) =>
            if r1 ≠ 0 then (σ1, .ret 1)
            else (σ1, .golink
              ((target.take (min target.length 4096)).takeWhile (fun c => c != '\x00'))
              ⟨ss.st_mode, ROOT, ROOT⟩ ss)) := by
  have hfmt : (ss.st_mode &&& S_IFMT) = S_IFLNK := by simpa [S_ISLNK] using hlnk
  have hreg : S_ISREG ss.st_mode = false := by simp only [S_ISREG, hfmt]; decide
  have hdir : S_ISDIR ss.st_mode = false := by simp only [S_ISDIR, hfmt]; decide
  have hchr : S_ISCHR ss.st_mode = false := by simp only [S_ISCHR, hfmt]; decide
  have hblk : S_ISBLK ss.st_mode = false := by simp only [S_ISBLK, hfmt]; decide
  unfold copy_branch
  simp only [hreg, hdir, hchr, hblk, hlnk, hcp, hrl, Bool.false_eq_true, false_and, false_or,
    or_self, if_false, if_true, ne_eq, not_true_eq_false, and_false]
  split
  · rfl
  · rfl

/-- Claim C15, refuted as stated: with the flag `cp` the symbolic link `/bin/sh`, whose text
`dash` has 4 bytes, is not made anew as a symbolic link; without a link directory the call
ends with the line "link ..." and issues no call. -/
theorem symlink_with_cp_flag_not_materialized :
    host_env.readlink [] "/bin/sh".toList = .ok "dash".toList
    ∧ handle_copy jail_a host_env 1 2 JailState.start "/bin/sh".toList
        "/srv/jails/a/bin/sh".toList false FLAG_CP
      = ({ JailState.start with
            dst_table := ["/srv/jails/a/bin/sh".toList],
            stderr := [("link %s: %s\n".toList, ["/srv/jails/a/bin/sh".toList])],
            exit_value := 1 }, .ok (1, some 0o120777)) := by
  decide

/-- Claim C15, as amended.  Take a call of `handle_copy` for a `dst` that is not in
`dst_table`, without the flag `cp`, whose copy of the parent directory has ended in the state
`σ1`, for a source that `lstat` finds to be a symbolic link and whose text `readlink` can
read (`readlink` fills at most the 4096 bytes of its buffer).  When the text has at most
4095 bytes (none of them NUL) and the run is not a dry run, the call issues
`symlink(text, dst)` with the whole text as its next call.  When the text has 4096 bytes or
more, the call returns 1 with the line "Symbolic link too long" and `exit_value` set, and
issues no call. -/
theorem symlink_length_boundary (g : Globals) (env : JailEnv) (jaildev fuel : Nat)
    (σ σ1 : JailState) (src dst : Str) (check_parents : Bool) (flags : Nat) (ss : FileStat)
    (target : Str)
    (hfresh : dst ∉ σ.dst_table)
    (hpar : copy_parents env (fun σ s d => handle_copy g env jaildev fuel σ s d true 0)
      { σ with dst_table := σ.dst_table ++ [dst] } src dst check_parents = (σ1, .ok ()))
    (hss : env.lstat σ1.ops src = .ok ss) (hlnk : S_ISLNK ss.st_mode = true)
    (hcp : flags &&& FLAG_CP = 0)
    (hrl : env.readlink σ1.ops src = .ok target) :
    (target.length ≤ 4095 → g.dryrun = false → '\x00' ∉ target →
      σ1.ops ++ [Op.symlink target dst]
        <+: (handle_copy g env jaildev (fuel + 1) σ src dst check_parents flags).1.ops)
    ∧ (4096 ≤ target.length →
      handle_copy g env jaildev (fuel + 1) σ src dst check_parents flags
        = ({ σ1 with stderr := σ1.stderr ++ [("%s: Symbolic link too long\n".toList, [src])],
                     exit_value := 1 }, .ok (1, some ss.st_mode))) := by
  have hc : σ.dst_table.contains dst = false := by simpa using hfresh
  have hB := copy_branch_symlink g env jaildev σ1 src dst flags ss target hlnk hcp hrl
  constructor
  · intro hlen hdry hnul
    have hmin : min target.length 4096 = target.length := by omega
    have hne : ¬ (min target.length 4096 = 4096) := by omega
    have htext : (target.take (min target.length 4096)).takeWhile (fun c => c != '\x00')
        = target := by
      rw [hmin, List.take_length]
      rw [List.takeWhile_eq_self_iff]
      intro c hcmem
      simp only [bne_iff_ne, ne_eq]
      intro heq
      exact hnul (heq ▸ hcmem)
    rw [if_neg hne, htext] at hB
    simp only [handle_copy, hc, Bool.false_eq_true, if_false, hpar, hss, hB]
    -- the call of `symlink`
    have hx : (x_symlink g env σ1 target dst).1.ops = σ1.ops ++ [Op.symlink target dst] := by
      unfold x_symlink
      simp only [hdry, Bool.false_eq_true, if_false]
      split
      · rfl
      · split <;> rfl
    generalize x_symlink g env σ1 target dst = res at hx ⊢
    obtain ⟨σ2, r2⟩ := res
    simp only at hx
    by_cases hr : r2 = 0
    · subst hr
      simp only [ne_eq, not_true_eq_false, if_false]
      have hS := handle_symlink_dst_later g env jaildev
        (fun σ s d => handle_copy g env jaildev fuel σ s d true 0)
        (fun σ s d => handle_copy_later g env jaildev fuel σ s d true 0) σ2 src dst target
      generalize handle_symlink_dst g
        (fun σ s d => handle_copy g env jaildev fuel σ s d true 0) σ2 src dst target
        = res at hS ⊢
      obtain ⟨σ3, r3⟩ := res
      cases r3 with
      | error f =>
        rw [← hx]
        exact hS.2.1
      | ok u =>
        rw [← hx]
        exact hS.2.1.trans (copy_finish_later g env jaildev σ3 src dst _ _).2.1
    · simp only [ne_eq, hr, not_false_eq_true, if_true]
      rw [← hx]
  · intro hlen
    have hmin : min target.length 4096 = 4096 := by omega
    rw [if_pos hmin] at hB
    simp only [handle_copy, hc, Bool.false_eq_true, if_false, hpar, hss, hB]

/-- Claim C15 as amended, exercised: the symbolic link `/bin/sh` of the host, whose text
`dash` has 4 bytes, is made anew by `symlink("dash", "/srv/jails/a/bin/sh")`. -/
theorem symlink_length_boundary_witness :
    "/srv/jails/a/bin/sh".toList ∉ JailState.start.dst_table
    ∧ host_lstat "/bin/sh".toList = .ok ⟨0o120777, 0, 0, 1, 12, 0, 4, 0⟩
    ∧ ("dash".toList.length ≤ 4095 → jail_a.dryrun = false → '\x00' ∉ "dash".toList →
        JailState.start.ops ++ [Op.symlink "dash".toList "/srv/jails/a/bin/sh".toList]
          <+: (handle_copy jail_a host_env 1 (1 + 1) JailState.start "/bin/sh".toList
                "/srv/jails/a/bin/sh".toList false 0).1.ops)
    ∧ (handle_copy jail_a host_env 1 (1 + 1) JailState.start "/bin/sh".toList
          "/srv/jails/a/bin/sh".toList false 0).1.ops
        = [Op.symlink "dash".toList "/srv/jails/a/bin/sh".toList] :=
  ⟨by decide, by decide,
   (symlink_length_boundary jail_a host_env 1 1 JailState.start
      { JailState.start with dst_table := ["/srv/jails/a/bin/sh".toList] }
      "/bin/sh".toList "/srv/jails/a/bin/sh".toList false 0 ⟨0o120777, 0, 0, 1, 12, 0, 4, 0⟩
      "dash".toList (by decide) (by decide) (by decide) (by decide) (by decide)
      (by decide)).1,
   by decide⟩


/-! ## Devices, FIFOs and sockets (claim C16) -/

/-- A character or block device is made anew with `mknod`, with the mode of the source
reduced to its file type, set-id and permission bits, and with the `st_rdev` of the source. -/
theorem copy_branch_device (g : Globals) (env : JailEnv) (jaildev : Nat) (σ : JailState)
    (src dst : Str) (flags : Nat) (ss : FileStat)
    (h : S_ISCHR ss.st_mode = true ∨ S_ISBLK ss.st_mode = true) :
    copy_branch g env jaildev σ src dst flags ss
      = (match x_mknod g env σ dst (ss.st_mode &&& 0o176777) ss.st_rdev with
          | (σ1, r) =>
            if r ≠ 0 then (σ1, .ret 1)
            else (σ1, .go ⟨ss.st_mode &&& 0o176777, ROOT, ROOT⟩
              { ss with st_mode := ss.st_mode &&& 0o176777 })) := by
  have hfmt : (ss.st_mode &&& S_IFMT) = S_IFCHR ∨ (ss.st_mode &&& S_IFMT) = S_IFBLK := by
    rcases h with h | h
    · exact Or.inl (by simpa [S_ISCHR] using h)
    · exact Or.inr (by simpa [S_ISBLK] using h)
  have hreg : S_ISREG ss.st_mode = false := by
    rcases hfmt with h1 | h1 <;> simp only [S_ISREG, h1] <;> decide
  have hlnk : S_ISLNK ss.st_mode = false := by
    rcases hfmt with h1 | h1 <;> simp only [S_ISLNK, h1] <;> decide
  have hdir : S_ISDIR ss.st_mode = false := by
    rcases hfmt with h1 | h1 <;> simp only [S_ISDIR, h1] <;> decide
  have hmask : (S_IFREG ||| S_IFCHR ||| S_IFBLK ||| S_IFIFO ||| S_IFSOCK
      ||| S_ISUID ||| S_ISGID ||| S_IRWXU ||| S_IRWXG ||| S_IRWXO) = 0o176777 := by decide
  unfold copy_branch
  simp only [hreg, hlnk, hdir, hmask, Bool.false_eq_true, false_and, false_or, if_false]
  rw [if_pos h]

/-- A FIFO or a socket is not made anew: the branch on the file type ends with the line
"Odd file type" and issues no call. -/
theorem copy_branch_fifo_or_socket (g : Globals) (env : JailEnv) (jaildev : Nat)
    (σ : JailState) (src dst : Str) (flags : Nat) (ss : FileStat)
    (h : S_ISFIFO ss.st_mode = true ∨ S_ISSOCK ss.st_mode = true) :
    copy_branch g env jaildev σ src dst flags ss
      = ({ σ with stderr := σ.stderr ++ [("%s: Odd file type\n".toList, [src])],
                  exit_value := 1 }, .ret 1) := by
  have hfmt : (ss.st_mode &&& S_IFMT) = S_IFIFO ∨ (ss.st_mode &&& S_IFMT) = S_IFSOCK := by
    rcases h with h | h
    · exact Or.inl (by simpa [S_ISFIFO] using h)
    · exact Or.inr (by simpa [S_ISSOCK] using h)
  have hreg : S_ISREG ss.st_mode = false := by
    rcases hfmt with h1 | h1 <;> simp only [S_ISREG, h1] <;> decide
  have hlnk : S_ISLNK ss.st_mode = false := by
    rcases hfmt with h1 | h1 <;> simp only [S_ISLNK, h1] <;> decide
  have hdir : S_ISDIR ss.st_mode = false := by
    rcases hfmt with h1 | h1 <;> simp only [S_ISDIR, h1] <;> decide
  have hchr : S_ISCHR ss.st_mode = false := by
    rcases hfmt with h1 | h1 <;> simp only [S_ISCHR, h1] <;> decide
  have hblk : S_ISBLK ss.st_mode = false := by
    rcases hfmt with h1 | h1 <;> simp only [S_ISBLK, h1] <;> decide
  unfold copy_branch
  simp only [hreg, hlnk, hdir, hchr, hblk, Bool.false_eq_true, false_and, false_or, or_self,
    if_false]
  rfl

/-- Claim C16, where the code departs from it: for the FIFO `/run/fifo` of the host,
`handle_copy` issues no `mknod` (no call at all), prints "Odd file type", sets `exit_value`
and returns 1; the character device `/dev/ptmx` is made anew with `mknod`. -/
theorem fifo_source_is_odd_file_type :
    handle_copy jail_a host_env 1 1 JailState.start "/run/fifo".toList
        "/srv/jails/a/run/fifo".toList false FLAG_NOLINK
      = ({ JailState.start with
            dst_table := ["/srv/jails/a/run/fifo".toList],
            stderr := [("%s: Odd file type\n".toList, ["/run/fifo".toList])],
            exit_value := 1 }, .ok (1, some 0o010644))
    ∧ S_ISFIFO 0o010644 = true
    ∧ handle_copy jail_a host_env 1 1 JailState.start "/dev/ptmx".toList
        "/srv/jails/a/dev/ptmx".toList false FLAG_NOLINK
      = ({ JailState.start with
            dst_table := ["/srv/jails/a/dev/ptmx".toList],
            ops := [Op.mknod "/srv/jails/a/dev/ptmx".toList 0o020666 1282] },
          .ok (0, some 0o020666)) := by
  decide


/-! ## The current directories of `construct_jail` (claim C17) -/

/-- An entry without an arrow that does not start with a slash is copied from `cursrcdir`
followed by the entry to `curdstdir` followed by the entry. -/
theorem entry_of_relative (cursrcdir curdstdir buf : Str) (flags : Nat)
    (hrel : buf.head? ≠ some '/') (harrow : strstr " <- ".toList buf = none) :
    entry_of cursrcdir curdstdir buf flags
      = .copy (cursrcdir ++ buf) (curdstdir ++ buf) false flags := by
  unfold entry_of
  simp only [harrow, if_neg hrel]

/-- Claim C17, where the code departs from it: before any line `directory:`, the current
destination directory is `dstroot` without a slash behind it.  For the jail `/srv/jails/a` and
the manifest `bin/ls`, the entry is copied from `/bin/ls` to `/srv/jails/abin/ls`, as the call
of `handle_copy` and the `cp -p` that `construct_jail` issues show; behind the line `.:` the
same entry is copied to `/srv/jails/a/bin/ls`. -/
theorem relative_entry_lacks_slash :
    manifest_line "/srv/jails/a".toList FLAG_NOLINK "/".toList "/srv/jails/a".toList
        "bin/ls\n".toList
      = .copy "/bin/ls".toList "/srv/jails/abin/ls".toList false FLAG_NOLINK
    ∧ (construct_jail jail_a host_env 5 JailState.start 1 "bin/ls\n".toList).1.ops
      = [Op.chmod "/srv/jails/a".toList 0o755, Op.lchown "/srv/jails/a".toList 0 0,
         Op.mkdir "/srv/jails/a/proc".toList 0o755, Op.mkdir "/srv/jails/a/dev".toList 0o755,
         Op.mkdir "/srv/jails/a/dev/pts".toList 0o755,
         Op.mknod "/srv/jails/a/dev/ptmx".toList 0o020666 1282,
         Op.cp_p "/bin/ls".toList "/srv/jails/abin/ls".toList]
    ∧ (construct_jail jail_a host_env 5 JailState.start 1 ".:\nbin/ls\n".toList).1.ops
      = [Op.chmod "/srv/jails/a".toList 0o755, Op.lchown "/srv/jails/a".toList 0 0,
         Op.mkdir "/srv/jails/a/proc".toList 0o755, Op.mkdir "/srv/jails/a/dev".toList 0o755,
         Op.mkdir "/srv/jails/a/dev/pts".toList 0o755,
         Op.mknod "/srv/jails/a/dev/ptmx".toList 0o020666 1282,
         Op.cp_p "/bin/ls".toList "/srv/jails/a/bin/ls".toList] := by
  decide


/-! ## The flag `cp` (claim C18) -/

/-- Where `strstr` finds the needle, the needle is. -/
theorem strstr_some (needle hay : Str) (i : Nat) (h : strstr needle hay = some i) :
    needle <+: hay.drop i := by
  induction hay generalizing i with
  | nil =>
    simp only [strstr] at h
    split at h
    · rename_i hn
      simp only [Option.some.injEq] at h
      subst h hn
      simp
    · simp at h
  | cons c rest ih =>
    simp only [strstr] at h
    split at h
    · rename_i hp
      simp only [Option.some.injEq] at h
      subst h
      simpa using List.isPrefixOf_iff_prefix.mp hp
    · cases hr : strstr needle rest with
      | none => simp [hr] at h
      | some k =>
        simp only [hr, Option.map_some', Option.some.injEq] at h
        subst h
        simpa using ih k hr

/-- The half of claim C18 that holds: when the flag is set, `cp` stands in the section with
`[` or `,` before it and `]` or `,` behind it. -/
theorem cp_flag_sound (buf : Str) (l : Nat) (h : cp_flag buf l = true) :
    ∃ i, "cp".toList <+: buf.drop (l + i)
      ∧ (buf.get? (l + i - 1) = some '[' ∨ buf.get? (l + i - 1) = some ',')
      ∧ (buf.get? (l + i + 2) = some ']' ∨ buf.get? (l + i + 2) = some ',') := by
  unfold cp_flag at h
  split at h
  · simp at h
  · rename_i i hi
    refine ⟨i, ?_, ?_, ?_⟩
    · have := strstr_some _ _ _ hi
      rwa [List.drop_drop] at this
    · simp only [Bool.and_eq_true, Bool.or_eq_true, beq_iff_eq] at h
      exact h.1
    · simp only [Bool.and_eq_true, Bool.or_eq_true, beq_iff_eq] at h
      exact h.2

/-- Claim C18, where the code departs from it: only the first `cp` of the section is looked
at.  In `bin/ls [xcp,cp]` the token `cp` stands between a comma and the closing bracket, yet
`FLAG_CP` is not set, because the first `cp` is the one in `xcp`; in `bin/ls [cp,xcp]` it is
set. -/
theorem cp_token_behind_another_cp_is_missed :
    manifest_line "/srv/jails/a".toList 0 "/".toList "/srv/jails/a/".toList
        "bin/ls [xcp,cp]\n".toList
      = .copy "/bin/ls".toList "/srv/jails/a/bin/ls".toList false 0
    ∧ manifest_line "/srv/jails/a".toList 0 "/".toList "/srv/jails/a/".toList
        "bin/ls [cp,xcp]\n".toList
      = .copy "/bin/ls".toList "/srv/jails/a/bin/ls".toList false FLAG_CP
    ∧ 0 &&& FLAG_CP = 0 := by
  decide


/-! ## An empty manifest (claim C19) -/

/-- Claim C19, refuted as stated: with a manifest of no bytes, `construct_jail` on the host of
the examples still sets the mode and the owner of the root of the jail and copies `/proc`,
`/dev/pts` (with its parent `/dev`) and `/dev/ptmx` into it: three directories and a device
node are made. -/
theorem empty_manifest_still_copies :
    (construct_jail jail_a host_env 5 JailState.start 1 []).1.ops
      = [Op.chmod "/srv/jails/a".toList 0o755, Op.lchown "/srv/jails/a".toList 0 0,
         Op.mkdir "/srv/jails/a/proc".toList 0o755, Op.mkdir "/srv/jails/a/dev".toList 0o755,
         Op.mkdir "/srv/jails/a/dev/pts".toList 0o755,
         Op.mknod "/srv/jails/a/dev/ptmx".toList 0o020666 1282]
    ∧ (construct_jail jail_a host_env 5 JailState.start 1 []).2 = .ok 0 := by
  decide

/-- The last index below `n` at which `p` holds is what the search from the right finds. -/
theorem range_reverse_find (p : Nat → Bool) (n k : Nat) (hk : k < n) (hp : p k = true)
    (hlater : ∀ i, k < i → i < n → p i = false) :
    (List.range n).reverse.find? p = some k := by
  induction n with
  | zero => omega
  | succ n ih =>
    rw [List.range_succ, List.reverse_append, List.reverse_singleton, List.singleton_append]
    by_cases hkn : k = n
    · subst hkn
      rw [List.find?_cons_of_pos _ hp]
    · have hpn : p n = false := hlater n (by omega) (by omega)
      rw [List.find?_cons_of_neg _ (by simp [hpn])]
      exact ih (by omega) (fun i h1 h2 => hlater i h1 (by omega))

/-- The last slash of a string that ends in a slash and a word without slashes. -/
theorem rfind_slash_last (a w : Str) (hw : '/' ∉ w) :
    rfind_slash (a ++ '/' :: w) (a ++ '/' :: w).length = some a.length := by
  unfold rfind_slash
  rw [Nat.min_eq_right (Nat.le_succ _)]
  apply range_reverse_find
  · simp
  · rw [List.get?_eq_getElem?, List.getElem?_append_right (Nat.le_refl _), Nat.sub_self]
    simp
  · intro i h1 h2
    have hi : (a ++ '/' :: w).get? i = w.get? (i - a.length - 1) := by
      obtain ⟨m, hm⟩ : ∃ m, i = a.length + (m + 1) := ⟨i - a.length - 1, by omega⟩
      subst hm
      rw [List.get?_eq_getElem?, List.get?_eq_getElem?,
        List.getElem?_append_right (by omega)]
      have e1 : a.length + (m + 1) - a.length = m + 1 := by omega
      rw [e1, List.getElem?_cons_succ, Nat.add_sub_cancel]
    rw [hi]
    cases hg : w.get? (i - a.length - 1) with
    | none => rfl
    | some c =>
      have hc : c ∈ w := List.get?_mem hg
      have : c ≠ '/' := fun e => hw (e ▸ hc)
      simp [this]

/-- The call of `handle_copy` for the parent directory, for a source `p/w` and the destination
`R p/w`: there is one when `p` is not empty and `lstat` finds nothing at `R p`. -/
theorem parent_call_of (env : JailEnv) (σ : JailState) (R p w : Str) (hw : '/' ∉ w)
    (hne : w ≠ []) :
    parent_call env σ (p ++ '/' :: w) (R ++ (p ++ '/' :: w))
      = if p ≠ [] ∧ env.lstat σ.ops (R ++ p) = .error .ENOENT then some (p, R ++ p)
        else none := by
  have hdst : R ++ (p ++ '/' :: w) = (R ++ p) ++ '/' :: w := by simp
  have hwl : 0 < w.length := List.length_pos.mpr hne
  unfold parent_call
  rw [hdst, rfind_slash_last (R ++ p) w hw]
  simp only
  by_cases hp : p = []
  · subst hp
    simp only [List.append_nil, List.nil_append, List.length_append, List.length_cons,
      ne_eq, not_true_eq_false, false_and, if_false]
    split
    · split
      · omega
      · rfl
    · rfl
  · have hpl : 0 < p.length := List.length_pos.mpr hp
    have h1 : (R ++ p).length ≠ 0 ∧ (R ++ p).length ≠ ((R ++ p) ++ '/' :: w).length - 1 := by
      simp only [List.length_append, List.length_cons]
      omega
    have hn : ((R ++ p) ++ '/' :: w).length - (R ++ p).length = w.length + 1 := by
      simp only [List.length_append, List.length_cons]
      omega
    have h2 : (p ++ '/' :: w).length > w.length + 1 := by
      simp only [List.length_append, List.length_cons]
      omega
    have h3 : (p ++ '/' :: w).drop ((p ++ '/' :: w).length - (w.length + 1)) = '/' :: w := by
      have : (p ++ '/' :: w).length - (w.length + 1) = p.length := by
        simp only [List.length_append, List.length_cons]
        omega
      rw [this, List.drop_left _ _]
    have h4 : ((R ++ p) ++ '/' :: w).drop (((R ++ p) ++ '/' :: w).length - (w.length + 1))
        = '/' :: w := by
      have : ((R ++ p) ++ '/' :: w).length - (w.length + 1) = (R ++ p).length := by
        simp only [List.length_append, List.length_cons]
        omega
      rw [this, List.drop_left _ _]
    have h5 : (p ++ '/' :: w).take ((p ++ '/' :: w).length - (w.length + 1)) = p := by
      have : (p ++ '/' :: w).length - (w.length + 1) = p.length := by
        simp only [List.length_append, List.length_cons]
        omega
      rw [this, List.take_left _ _]
    have h6 : ((R ++ p) ++ '/' :: w).take (((R ++ p) ++ '/' :: w).length - (w.length + 1))
        = R ++ p := by
      have : ((R ++ p) ++ '/' :: w).length - (w.length + 1) = (R ++ p).length := by
        simp only [List.length_append, List.length_cons]
        omega
      rw [this, List.take_left _ _]
    have h7 : ((R ++ p) ++ '/' :: w).take (R ++ p).length = R ++ p := List.take_left _ _
    rw [if_pos h1, hn, if_pos ⟨h2, h3.trans h4.symm⟩, h5, h6, h7]
    by_cases hl : env.lstat σ.ops (R ++ p) = .error .ENOENT
    · rw [if_pos hl, if_pos ⟨hp, hl⟩]
    · rw [if_neg hl, if_neg (fun h => hl h.2)]

/-- The mount at the end of `handle_copy` where every call succeeds. -/
theorem handle_mount_calls (g : Globals) (env : JailEnv) (σ : JailState) (src dst : Str)
    (hdry : g.dryrun = false) (hs : CallsSucceed env) :
    (match σ.mount_table.lookup src with
      | some it => if it.allowed then handle_mount g env σ it dst else (σ, 0)
      | none => (σ, 0))
      = ({ σ with ops := σ.ops ++ mount_calls σ.mount_table src dst }, 0) := by
  obtain ⟨-, -, -, -, hmount⟩ := hs
  have hh : ∀ ms, handle_mount g env σ ms dst
      = if already_mounted σ.mount_table ms dst then (σ, 0)
        else ({ σ with ops := σ.ops ++ [Op.mount ms.fsname dst ms.type ms.opts ms.data] }, 0) := by
    intro ms
    unfold handle_mount already_mounted
    simp only [hdry, hmount, Bool.false_eq_true, if_false]
  unfold mount_calls
  cases hsrc : List.lookup src σ.mount_table with
  | none => simp
  | some ms =>
    simp only [hh]
    cases ha : ms.allowed <;> cases hmt : already_mounted σ.mount_table ms dst <;> simp

/-- The end of `handle_copy` where every call succeeds. -/
theorem copy_finish_calls (g : Globals) (env : JailEnv) (σ : JailState) (src dst : Str)
    (ds : DsVals) (ss : FileStat) (hdry : g.dryrun = false) (hs : CallsSucceed env) :
    copy_finish g env σ src dst ds ss
      = ({ σ with ops := σ.ops ++ finish_calls σ.mount_table src dst ds ss }, 0) := by
  have hm := handle_mount_calls g env σ src dst hdry hs
  have hm1 : ∀ o : List Op,
      (match σ.mount_table.lookup src with
        | some it =>
          if it.allowed then handle_mount g env { σ with ops := o } it dst
          else ({ σ with ops := o }, 0)
        | none => ({ σ with ops := o }, 0))
      = ({ σ with ops := o ++ mount_calls σ.mount_table src dst }, 0) :=
    fun o => handle_mount_calls g env { σ with ops := o } src dst hdry hs
  obtain ⟨-, hchmod, hlchown, -, -⟩ := hs
  unfold copy_finish finish_calls x_chmod x_lchown
  simp only [hdry, hchmod, hlchown, Bool.false_eq_true, if_false]
  by_cases h1 : ds.st_mode ≠ ss.st_mode <;> by_cases h2 : ds.st_uid ≠ ss.st_uid ∨ ds.st_gid ≠ ss.st_gid
    <;> by_cases h3 : S_ISDIR ss.st_mode = true
    <;> simp only [h1, h2, h3, if_true, if_false, not_true_eq_false, not_false_eq_true,
      List.append_nil, List.nil_append, ne_eq, Bool.false_eq_true, List.append_assoc]
    <;> first
      | exact hm.trans (by simp [List.append_assoc])
      | exact (hm1 _).trans (by simp [List.append_assoc])

/-- The branch of `handle_copy` for a directory where every call succeeds. -/
theorem copy_branch_dir (g : Globals) (env : JailEnv) (jaildev : Nat) (σ : JailState)
    (src dst : Str) (flags : Nat) (ss : FileStat) (hdry : g.dryrun = false)
    (hs : CallsSucceed env) (hd : S_ISDIR ss.st_mode = true) :
    copy_branch g env jaildev σ src dst flags ss
      = ({ σ with ops := σ.ops ++ [Op.mkdir dst
            (ss.st_mode &&& (S_ISUID ||| S_ISGID ||| S_IRWXU ||| S_IRWXG ||| S_IRWXO))] },
          .go ⟨(ss.st_mode &&& (S_ISUID ||| S_ISGID ||| S_IRWXU ||| S_IRWXG ||| S_IRWXO))
            ||| S_IFDIR, ROOT, ROOT⟩ ss) := by
  have hfmt : (ss.st_mode &&& S_IFMT) = S_IFDIR := by simpa [S_ISDIR] using hd
  have hreg : S_ISREG ss.st_mode = false := by simp only [S_ISREG, hfmt]; decide
  have hlnk : S_ISLNK ss.st_mode = false := by simp only [S_ISLNK, hfmt]; decide
  unfold copy_branch v_mkdir
  simp only [hreg, hlnk, hd, hdry, hs.1, Bool.false_eq_true, false_and, false_or, if_false,
    if_true]

/-- The branch of `handle_copy` for a character device where every call succeeds. -/
theorem copy_branch_node (g : Globals) (env : JailEnv) (jaildev : Nat) (σ : JailState)
    (src dst : Str) (flags : Nat) (ss : FileStat) (hdry : g.dryrun = false)
    (hs : CallsSucceed env) (hc : S_ISCHR ss.st_mode = true) :
    copy_branch g env jaildev σ src dst flags ss
      = ({ σ with ops := σ.ops ++ [Op.mknod dst (ss.st_mode &&& 0o176777) ss.st_rdev] },
          .go ⟨ss.st_mode &&& 0o176777, ROOT, ROOT⟩
            { ss with st_mode := ss.st_mode &&& 0o176777 }) := by
  rw [copy_branch_device g env jaildev σ src dst flags ss (Or.inl hc)]
  unfold x_mknod
  simp only [hdry, hs.2.2.2.1, Bool.false_eq_true, if_false]
  rfl

/-- The call of `handle_copy` for a directory that is not in `dst_table`, once the parent
directory is dealt with, where every call succeeds: the directory is made, its mode and owner
are set where they differ, it is mounted where `mount_table` allows, and 0 is returned. -/
theorem handle_copy_dir_calls (g : Globals) (env : JailEnv) (jaildev fuel : Nat)
    (σ σp : JailState) (src dst : Str) (ss : FileStat) (hdry : g.dryrun = false)
    (hs : CallsSucceed env) (hnew : σ.dst_table.contains dst = false)
    (hpar : copy_parents env (fun σ s d => handle_copy g env jaildev fuel σ s d true 0)
      { σ with dst_table := σ.dst_table ++ [dst] } src dst true = (σp, .ok ()))
    (hl : env.lstat σp.ops src = .ok ss) (hd : S_ISDIR ss.st_mode = true) :
    handle_copy g env jaildev (fuel + 1) σ src dst true 0
      = ({ σp with ops := σp.ops ++ dir_copy_calls σp.mount_table src dst ss },
          .ok (0, some ss.st_mode)) := by
  simp only [handle_copy, hnew, Bool.false_eq_true, if_false, hpar, hl,
    copy_branch_dir g env jaildev σp src dst 0 ss hdry hs hd,
    copy_finish_calls g env _ src dst _ ss hdry hs]
  simp [dir_copy_calls]

/-- The call of `handle_copy` for a character device that is not in `dst_table`, once the
parent directory is dealt with, where every call succeeds: the device is made, its owner is
set where it differs, and 0 is returned. -/
theorem handle_copy_node_calls (g : Globals) (env : JailEnv) (jaildev fuel : Nat)
    (σ σp : JailState) (src dst : Str) (ss : FileStat) (hdry : g.dryrun = false)
    (hs : CallsSucceed env) (hnew : σ.dst_table.contains dst = false)
    (hpar : copy_parents env (fun σ s d => handle_copy g env jaildev fuel σ s d true 0)
      { σ with dst_table := σ.dst_table ++ [dst] } src dst true = (σp, .ok ()))
    (hl : env.lstat σp.ops src = .ok ss) (hc : S_ISCHR ss.st_mode = true) :
    handle_copy g env jaildev (fuel + 1) σ src dst true 0
      = ({ σp with ops := σp.ops ++ node_copy_calls σp.mount_table src dst ss },
          .ok (0, some ss.st_mode)) := by
  simp only [handle_copy, hnew, Bool.false_eq_true, if_false, hpar, hl,
    copy_branch_node g env jaildev σp src dst 0 ss hdry hs hc,
    copy_finish_calls g env _ src dst _ _ hdry hs]
  simp [node_copy_calls]

/-- What `populate_mount_table` does depends on neither `dst_table` nor the calls issued. -/
theorem populate_mount_table_frame (env : JailEnv) (σ : JailState) (d : List Str)
    (o : List Op) :
    (populate_mount_table env { σ with dst_table := d, ops := o }).1
      = { (populate_mount_table env σ).1 with dst_table := d, ops := o } := by
  unfold populate_mount_table
  split
  · rfl
  · split <;> rfl

theorem populate_mount_table_frame_ops (env : JailEnv) (σ : JailState) (o : List Op) :
    (populate_mount_table env { σ with ops := o }).1
      = { (populate_mount_table env σ).1 with ops := o } := by
  unfold populate_mount_table
  split
  · rfl
  · split <;> rfl

/-- The start of `construct_jail` where every call succeeds and nothing was copied before. -/
theorem jail_root_calls (g : Globals) (env : JailEnv) (σ : JailState)
    (hdry : g.dryrun = false) (hs : CallsSucceed env) (hstart : σ.dst_table = []) :
    jail_root g env σ
      = ({ σ with dst_table := [g.dstroot ++ "/".toList],
                  ops := σ.ops ++ [Op.chmod g.dstroot 0o755, Op.lchown g.dstroot 0 0] }, 0) := by
  unfold jail_root x_chmod x_lchown
  simp [hdry, hs.2.1, hs.2.2.1, hstart]

theorem copy_parents_none (env : JailEnv) (copy : JailState → Str → Str → CopyResult)
    (σ : JailState) (src dst : Str) (h : parent_call env σ src dst = none) :
    copy_parents env copy σ src dst true = (σ, .ok ()) := by
  unfold copy_parents
  rw [if_pos rfl, h]

/-- The parent directory is copied first when the destination has none. -/
theorem copy_parents_of (env : JailEnv) (copy : JailState → Str → Str → CopyResult)
    (σ σ1 : JailState) (R p w : Str) (r : Int × Option Nat) (hw : '/' ∉ w) (hne : w ≠ [])
    (hp : p ≠ []) (hl : env.lstat σ.ops (R ++ p) = .error .ENOENT)
    (hc : copy σ p (R ++ p) = (σ1, .ok r)) :
    copy_parents env copy σ (p ++ '/' :: w) (R ++ (p ++ '/' :: w)) true = (σ1, .ok ()) := by
  unfold copy_parents
  rw [if_pos rfl, parent_call_of env σ R p w hw hne, if_pos ⟨hp, hl⟩]
  simp only [hc]

/-- The parent directory is not copied again when it is in `dst_table`. -/
theorem copy_parents_known (g : Globals) (env : JailEnv) (jaildev fuel : Nat)
    (σ : JailState) (R p w : Str) (hw : '/' ∉ w) (hne : w ≠ [])
    (hknown : σ.dst_table.contains (R ++ p) = true) :
    copy_parents env (fun σ s d => handle_copy g env jaildev (fuel + 1) σ s d true 0) σ
      (p ++ '/' :: w) (R ++ (p ++ '/' :: w)) true = (σ, .ok ()) := by
  unfold copy_parents
  rw [if_pos rfl, parent_call_of env σ R p w hw hne]
  by_cases hc : p ≠ [] ∧ env.lstat σ.ops (R ++ p) = .error .ENOENT
  · rw [if_pos hc]
    simp only [handle_copy, hknown, if_true]
  · rw [if_neg hc]

/-- A path under `R` is not among paths under `R` with other tails. -/
theorem not_contains_under (R : Str) (tails : List Str) (x : Str)
    (h : tails.all (fun y => y != x) = true) :
    (tails.map (fun y => R ++ y)).contains (R ++ x) = false := by
  induction tails with
  | nil => rfl
  | cons y rest ih =>
    simp only [List.all_cons, Bool.and_eq_true, bne_iff_ne, ne_eq] at h
    simp only [List.map_cons, List.contains_cons, Bool.or_eq_false_iff, beq_eq_false_iff_ne,
      ne_eq]
    refine ⟨?_, ih h.2⟩
    intro e
    exact h.1 (List.append_cancel_left e).symm

/-- The three calls of `handle_copy` that precede the manifest, where every call succeeds,
the host has the directories `/proc`, `/dev` and `/dev/pts` and the character device
`/dev/ptmx`, and the jail has no `dev` when `/dev/pts` is copied. -/
theorem jail_mounts_calls (g : Globals) (env : JailEnv) (jaildev fuel : Nat)
    (σ : JailState) (pr dv pts px : FileStat) (hdry : g.dryrun = false)
    (hs : CallsSucceed env) (hdt : σ.dst_table = [g.dstroot ++ "/".toList])
    (hproc : ∀ ops, env.lstat ops "/proc".toList = .ok pr) (hprocd : S_ISDIR pr.st_mode = true)
    (hdev : ∀ ops, env.lstat ops "/dev".toList = .ok dv) (hdevd : S_ISDIR dv.st_mode = true)
    (hpts : ∀ ops, env.lstat ops "/dev/pts".toList = .ok pts)
    (hptsd : S_ISDIR pts.st_mode = true)
    (hptmx : ∀ ops, env.lstat ops "/dev/ptmx".toList = .ok px)
    (hptmxc : S_ISCHR px.st_mode = true)
    (hnodev : env.lstat
        (σ.ops ++ dir_copy_calls σ.mount_table "/proc".toList (g.dstroot ++ "/proc".toList) pr)
        (g.dstroot ++ "/dev".toList) = .error .ENOENT) :
    jail_mounts g env jaildev (fuel + 2) σ
      = ({ σ with
            dst_table := [g.dstroot ++ "/".toList, g.dstroot ++ "/proc".toList,
              g.dstroot ++ "/dev/pts".toList, g.dstroot ++ "/dev".toList,
              g.dstroot ++ "/dev/ptmx".toList],
            ops := σ.ops
              ++ dir_copy_calls σ.mount_table "/proc".toList (g.dstroot ++ "/proc".toList) pr
              ++ dir_copy_calls σ.mount_table "/dev".toList (g.dstroot ++ "/dev".toList) dv
              ++ dir_copy_calls σ.mount_table "/dev/pts".toList
                  (g.dstroot ++ "/dev/pts".toList) pts
              ++ node_copy_calls σ.mount_table "/dev/ptmx".toList
                  (g.dstroot ++ "/dev/ptmx".toList) px },
          .ok ()) := by
  have eproc : "/proc".toList = [] ++ '/' :: "proc".toList := rfl
  have edev : "/dev".toList = [] ++ '/' :: "dev".toList := rfl
  have epts : "/dev/pts".toList = "/dev".toList ++ '/' :: "pts".toList := rfl
  have eptmx : "/dev/ptmx".toList = "/dev".toList ++ '/' :: "ptmx".toList := rfl
  -- `/proc`
  have c1 : handle_copy g env jaildev (fuel + 2) σ "/proc".toList
      (g.dstroot ++ "/proc".toList) true 0
      = ({ σ with
            dst_table := [g.dstroot ++ "/".toList, g.dstroot ++ "/proc".toList],
            ops := σ.ops ++ dir_copy_calls σ.mount_table "/proc".toList
              (g.dstroot ++ "/proc".toList) pr }, .ok (0, some pr.st_mode)) := by
    rw [handle_copy_dir_calls g env jaildev (fuel + 1) σ
      { σ with dst_table := σ.dst_table ++ [g.dstroot ++ "/proc".toList] }
      "/proc".toList (g.dstroot ++ "/proc".toList) pr hdry hs
      (by rw [hdt]; exact not_contains_under g.dstroot ["/".toList] "/proc".toList (by decide))
      (by
        apply copy_parents_none
        rw [eproc, parent_call_of env _ g.dstroot [] "proc".toList (by decide) (by decide)]
        simp)
      (hproc _) hprocd, hdt]
    rfl
  -- `/dev`, the parent directory of `/dev/pts`
  have c2 : handle_copy g env jaildev (fuel + 1)
      { σ with
        dst_table := [g.dstroot ++ "/".toList, g.dstroot ++ "/proc".toList,
          g.dstroot ++ "/dev/pts".toList],
        ops := σ.ops ++ dir_copy_calls σ.mount_table "/proc".toList
          (g.dstroot ++ "/proc".toList) pr }
      "/dev".toList (g.dstroot ++ "/dev".toList) true 0
      = ({ σ with
            dst_table := [g.dstroot ++ "/".toList, g.dstroot ++ "/proc".toList,
              g.dstroot ++ "/dev/pts".toList, g.dstroot ++ "/dev".toList],
            ops := σ.ops
              ++ dir_copy_calls σ.mount_table "/proc".toList (g.dstroot ++ "/proc".toList) pr
              ++ dir_copy_calls σ.mount_table "/dev".toList (g.dstroot ++ "/dev".toList) dv },
          .ok (0, some dv.st_mode)) := by
    rw [handle_copy_dir_calls g env jaildev fuel
      { σ with
        dst_table := [g.dstroot ++ "/".toList, g.dstroot ++ "/proc".toList,
          g.dstroot ++ "/dev/pts".toList],
        ops := σ.ops ++ dir_copy_calls σ.mount_table "/proc".toList
          (g.dstroot ++ "/proc".toList) pr }
      { σ with
        dst_table := [g.dstroot ++ "/".toList, g.dstroot ++ "/proc".toList,
          g.dstroot ++ "/dev/pts".toList, g.dstroot ++ "/dev".toList],
        ops := σ.ops ++ dir_copy_calls σ.mount_table "/proc".toList
          (g.dstroot ++ "/proc".toList) pr }
      "/dev".toList (g.dstroot ++ "/dev".toList) dv hdry hs
      (not_contains_under g.dstroot ["/".toList, "/proc".toList, "/dev/pts".toList]
        "/dev".toList (by decide))
      (by
        apply copy_parents_none
        rw [edev, parent_call_of env _ g.dstroot [] "dev".toList (by decide) (by decide)]
        simp)
      (hdev _) hdevd]
  -- `/dev/pts`
  have c3 : handle_copy g env jaildev (fuel + 2)
      { σ with
        dst_table := [g.dstroot ++ "/".toList, g.dstroot ++ "/proc".toList],
        ops := σ.ops ++ dir_copy_calls σ.mount_table "/proc".toList
          (g.dstroot ++ "/proc".toList) pr }
      "/dev/pts".toList (g.dstroot ++ "/dev/pts".toList) true 0
      = ({ σ with
            dst_table := [g.dstroot ++ "/".toList, g.dstroot ++ "/proc".toList,
              g.dstroot ++ "/dev/pts".toList, g.dstroot ++ "/dev".toList],
            ops := σ.ops
              ++ dir_copy_calls σ.mount_table "/proc".toList (g.dstroot ++ "/proc".toList) pr
              ++ dir_copy_calls σ.mount_table "/dev".toList (g.dstroot ++ "/dev".toList) dv
              ++ dir_copy_calls σ.mount_table "/dev/pts".toList
                  (g.dstroot ++ "/dev/pts".toList) pts },
          .ok (0, some pts.st_mode)) := by
    rw [handle_copy_dir_calls g env jaildev (fuel + 1)
      { σ with
        dst_table := [g.dstroot ++ "/".toList, g.dstroot ++ "/proc".toList],
        ops := σ.ops ++ dir_copy_calls σ.mount_table "/proc".toList
          (g.dstroot ++ "/proc".toList) pr }
      { σ with
        dst_table := [g.dstroot ++ "/".toList, g.dstroot ++ "/proc".toList,
          g.dstroot ++ "/dev/pts".toList, g.dstroot ++ "/dev".toList],
        ops := σ.ops
          ++ dir_copy_calls σ.mount_table "/proc".toList (g.dstroot ++ "/proc".toList) pr
          ++ dir_copy_calls σ.mount_table "/dev".toList (g.dstroot ++ "/dev".toList) dv }
      "/dev/pts".toList (g.dstroot ++ "/dev/pts".toList) pts hdry hs
      (not_contains_under g.dstroot ["/".toList, "/proc".toList] "/dev/pts".toList
        (by decide))
      (copy_parents_of env _ _ _ g.dstroot "/dev".toList "pts".toList _ (by decide)
        (by decide) (by decide) hnodev c2)
      (hpts _) hptsd]
  -- `/dev/ptmx`, whose parent directory `/dev` is in `dst_table` by now
  have c4 : handle_copy g env jaildev (fuel + 2)
      { σ with
        dst_table := [g.dstroot ++ "/".toList, g.dstroot ++ "/proc".toList,
          g.dstroot ++ "/dev/pts".toList, g.dstroot ++ "/dev".toList],
        ops := σ.ops
          ++ dir_copy_calls σ.mount_table "/proc".toList (g.dstroot ++ "/proc".toList) pr
          ++ dir_copy_calls σ.mount_table "/dev".toList (g.dstroot ++ "/dev".toList) dv
          ++ dir_copy_calls σ.mount_table "/dev/pts".toList
              (g.dstroot ++ "/dev/pts".toList) pts }
      "/dev/ptmx".toList (g.dstroot ++ "/dev/ptmx".toList) true 0
      = ({ σ with
            dst_table := [g.dstroot ++ "/".toList, g.dstroot ++ "/proc".toList,
              g.dstroot ++ "/dev/pts".toList, g.dstroot ++ "/dev".toList,
              g.dstroot ++ "/dev/ptmx".toList],
            ops := σ.ops
              ++ dir_copy_calls σ.mount_table "/proc".toList (g.dstroot ++ "/proc".toList) pr
              ++ dir_copy_calls σ.mount_table "/dev".toList (g.dstroot ++ "/dev".toList) dv
              ++ dir_copy_calls σ.mount_table "/dev/pts".toList
                  (g.dstroot ++ "/dev/pts".toList) pts
              ++ node_copy_calls σ.mount_table "/dev/ptmx".toList
                  (g.dstroot ++ "/dev/ptmx".toList) px },
          .ok (0, some px.st_mode)) := by
    rw [handle_copy_node_calls g env jaildev (fuel + 1)
      { σ with
        dst_table := [g.dstroot ++ "/".toList, g.dstroot ++ "/proc".toList,
          g.dstroot ++ "/dev/pts".toList, g.dstroot ++ "/dev".toList],
        ops := σ.ops
          ++ dir_copy_calls σ.mount_table "/proc".toList (g.dstroot ++ "/proc".toList) pr
          ++ dir_copy_calls σ.mount_table "/dev".toList (g.dstroot ++ "/dev".toList) dv
          ++ dir_copy_calls σ.mount_table "/dev/pts".toList
              (g.dstroot ++ "/dev/pts".toList) pts }
      { σ with
        dst_table := [g.dstroot ++ "/".toList, g.dstroot ++ "/proc".toList,
          g.dstroot ++ "/dev/pts".toList, g.dstroot ++ "/dev".toList,
          g.dstroot ++ "/dev/ptmx".toList],
        ops := σ.ops
          ++ dir_copy_calls σ.mount_table "/proc".toList (g.dstroot ++ "/proc".toList) pr
          ++ dir_copy_calls σ.mount_table "/dev".toList (g.dstroot ++ "/dev".toList) dv
          ++ dir_copy_calls σ.mount_table "/dev/pts".toList
              (g.dstroot ++ "/dev/pts".toList) pts }
      "/dev/ptmx".toList (g.dstroot ++ "/dev/ptmx".toList) px hdry hs
      (not_contains_under g.dstroot
        ["/".toList, "/proc".toList, "/dev/pts".toList, "/dev".toList] "/dev/ptmx".toList
        (by decide))
      (copy_parents_known g env jaildev fuel _ g.dstroot "/dev".toList "ptmx".toList
        (by decide) (by decide) (by simp))
      (hptmx _) hptmxc]
  unfold jail_mounts
  rw [c1]
  simp only
  rw [c3]
  simp only
  rw [c4]

theorem finish_calls_no_file (table : List (Str × mountslot)) (src dst : Str) (ds : DsVals)
    (ss : FileStat) : ∀ op ∈ finish_calls table src dst ds ss, op.puts_file = false := by
  intro op hop
  unfold finish_calls mount_calls at hop
  simp only [List.mem_append] at hop
  rcases hop with (hop | hop) | hop
  · split at hop
    · rw [List.mem_singleton.1 hop]; rfl
    · simp at hop
  · split at hop
    · rw [List.mem_singleton.1 hop]; rfl
    · simp at hop
  · split at hop
    · split at hop
      · split at hop
        · rw [List.mem_singleton.1 hop]; rfl
        · simp at hop
      · simp at hop
    · simp at hop

theorem dir_copy_calls_no_file (table : List (Str × mountslot)) (src dst : Str)
    (ss : FileStat) : ∀ op ∈ dir_copy_calls table src dst ss, op.puts_file = false := by
  intro op hop
  unfold dir_copy_calls at hop
  rcases List.mem_cons.1 hop with h | h
  · rw [h]; rfl
  · exact finish_calls_no_file _ _ _ _ _ op h

theorem node_copy_calls_no_file (table : List (Str × mountslot)) (src dst : Str)
    (ss : FileStat) : ∀ op ∈ node_copy_calls table src dst ss, op.puts_file = false := by
  intro op hop
  unfold node_copy_calls at hop
  rcases List.mem_cons.1 hop with h | h
  · rw [h]; rfl
  · exact finish_calls_no_file _ _ _ _ _ op h

/-- The function `construct_jail` on a manifest of no bytes, where every call succeeds, the
host has the directories `/proc`, `/dev` and `/dev/pts` and the character device `/dev/ptmx`,
nothing was copied before, and the jail has no `dev` when `/dev/pts` is copied. -/
theorem construct_jail_empty (g : Globals) (env : JailEnv) (jaildev fuel : Nat)
    (σ : JailState) (pr dv pts px : FileStat) (hdry : g.dryrun = false)
    (hs : CallsSucceed env) (hstart : σ.dst_table = [])
    (hproc : ∀ ops, env.lstat ops "/proc".toList = .ok pr) (hprocd : S_ISDIR pr.st_mode = true)
    (hdev : ∀ ops, env.lstat ops "/dev".toList = .ok dv) (hdevd : S_ISDIR dv.st_mode = true)
    (hpts : ∀ ops, env.lstat ops "/dev/pts".toList = .ok pts)
    (hptsd : S_ISDIR pts.st_mode = true)
    (hptmx : ∀ ops, env.lstat ops "/dev/ptmx".toList = .ok px)
    (hptmxc : S_ISCHR px.st_mode = true)
    (hnodev : env.lstat
        (σ.ops ++ [Op.chmod g.dstroot 0o755, Op.lchown g.dstroot 0 0]
          ++ dir_copy_calls (populate_mount_table env σ).1.mount_table "/proc".toList
              (g.dstroot ++ "/proc".toList) pr)
        (g.dstroot ++ "/dev".toList) = .error .ENOENT) :
    construct_jail g env (fuel + 2) σ jaildev []
      = ({ (populate_mount_table env σ).1 with
            dst_table := [g.dstroot ++ "/".toList, g.dstroot ++ "/proc".toList,
              g.dstroot ++ "/dev/pts".toList, g.dstroot ++ "/dev".toList,
              g.dstroot ++ "/dev/ptmx".toList],
            ops := σ.ops ++ [Op.chmod g.dstroot 0o755, Op.lchown g.dstroot 0 0]
              ++ dir_copy_calls (populate_mount_table env σ).1.mount_table "/proc".toList
                  (g.dstroot ++ "/proc".toList) pr
              ++ dir_copy_calls (populate_mount_table env σ).1.mount_table "/dev".toList
                  (g.dstroot ++ "/dev".toList) dv
              ++ dir_copy_calls (populate_mount_table env σ).1.mount_table "/dev/pts".toList
                  (g.dstroot ++ "/dev/pts".toList) pts
              ++ node_copy_calls (populate_mount_table env σ).1.mount_table "/dev/ptmx".toList
                  (g.dstroot ++ "/dev/ptmx".toList) px },
          .ok (populate_mount_table env σ).1.exit_value) := by
  unfold construct_jail
  rw [jail_root_calls g env σ hdry hs hstart]
  simp only [ne_eq, not_true_eq_false, if_false]
  rw [populate_mount_table_frame env σ, jail_mounts_calls g env jaildev fuel _ pr dv pts px
    hdry hs rfl hproc hprocd hdev hdevd hpts hptsd hptmx hptmxc hnodev]
  rfl

/-- Claim C19, as amended.  Take a run that is not dry, on a host where every call succeeds
and that has the directories `/proc`, `/dev` and `/dev/pts` and the character device
`/dev/ptmx`, for a jail into which nothing was copied before and that has neither a `home`
nor a `dev`.  Then `main` makes `dir + "/home"` with mode 0755 and the home directory of the
user with mode 0700 and gives the latter to the owner wanted.  With a manifest of no bytes,
`construct_jail` reads no line, so it calls `handle_copy` for no entry of a manifest; but it
is not without effect inside the jail.  It sets the mode of the root of the jail to 0755 and
its owner to 0:0; it makes the directories `proc`, `dev` and `dev/pts` of the jail with
`mkdir` and the device `dev/ptmx` with `mknod`, each followed by the `chmod`, `lchown` and
`mount` that the status of the source and the mount table ask for; these are all the calls it
issues, in this order, none of them a `link`, a `cp -p` or a `symlink`; and it returns
`exit_value`. -/
theorem empty_manifest_makes_mount_points (g : Globals) (env : JailEnv) (jaildev fuel : Nat)
    (σ σh : JailState) (action : jailaction) (jailuser : jailownerinfo)
    (caller_owner caller_group : Nat) (dir : Str) (table : List (Str × mountslot))
    (pr dv pts px : FileStat)
    (hdry : g.dryrun = false) (hs : CallsSucceed env) (hstart : σ.dst_table = [])
    (hhome : jailuser.owner_home ≠ [])
    (hnohome : env.stat σ.ops (dir ++ "/home".toList) = .error .ENOENT)
    (hnouser : env.stat (σ.ops ++ [Op.mkdir (dir ++ "/home".toList) 0o755])
      (dir ++ jailuser.owner_home) = .error .ENOENT)
    (hσh : σh = { σ with ops := σ.ops ++
      [Op.mkdir (dir ++ "/home".toList) 0o755,
       Op.mkdir (dir ++ jailuser.owner_home) 0o700,
       Op.lchown (dir ++ jailuser.owner_home)
         (if action = .do_init then caller_owner else jailuser.owner)
         (if action = .do_init then caller_group else jailuser.group)] })
    (htable : table = (populate_mount_table env σ).1.mount_table)
    (hproc : ∀ ops, env.lstat ops "/proc".toList = .ok pr) (hprocd : S_ISDIR pr.st_mode = true)
    (hdev : ∀ ops, env.lstat ops "/dev".toList = .ok dv) (hdevd : S_ISDIR dv.st_mode = true)
    (hpts : ∀ ops, env.lstat ops "/dev/pts".toList = .ok pts)
    (hptsd : S_ISDIR pts.st_mode = true)
    (hptmx : ∀ ops, env.lstat ops "/dev/ptmx".toList = .ok px)
    (hptmxc : S_ISCHR px.st_mode = true)
    (hnodev : env.lstat
        (σh.ops ++ [Op.chmod g.dstroot 0o755, Op.lchown g.dstroot 0 0]
          ++ dir_copy_calls table "/proc".toList (g.dstroot ++ "/proc".toList) pr)
        (g.dstroot ++ "/dev".toList) = .error .ENOENT) :
    main_home g env σ action jailuser caller_owner caller_group dir = .ok σh
    ∧ fgets_chunks BUFSIZ [] [] = []
    ∧ construct_jail g env (fuel + 2) σh jaildev []
      = ({ (populate_mount_table env σ).1 with
            dst_table := [g.dstroot ++ "/".toList, g.dstroot ++ "/proc".toList,
              g.dstroot ++ "/dev/pts".toList, g.dstroot ++ "/dev".toList,
              g.dstroot ++ "/dev/ptmx".toList],
            ops := σh.ops ++ [Op.chmod g.dstroot 0o755, Op.lchown g.dstroot 0 0]
              ++ dir_copy_calls table "/proc".toList (g.dstroot ++ "/proc".toList) pr
              ++ dir_copy_calls table "/dev".toList (g.dstroot ++ "/dev".toList) dv
              ++ dir_copy_calls table "/dev/pts".toList (g.dstroot ++ "/dev/pts".toList) pts
              ++ node_copy_calls table "/dev/ptmx".toList (g.dstroot ++ "/dev/ptmx".toList)
                  px },
          .ok (populate_mount_table env σ).1.exit_value)
    ∧ ∀ op ∈ [Op.chmod g.dstroot 0o755, Op.lchown g.dstroot 0 0]
          ++ dir_copy_calls table "/proc".toList (g.dstroot ++ "/proc".toList) pr
          ++ dir_copy_calls table "/dev".toList (g.dstroot ++ "/dev".toList) dv
          ++ dir_copy_calls table "/dev/pts".toList (g.dstroot ++ "/dev/pts".toList) pts
          ++ node_copy_calls table "/dev/ptmx".toList (g.dstroot ++ "/dev/ptmx".toList) px,
        op.puts_file = false := by
  have hpop1 : (populate_mount_table env σh).1
      = { (populate_mount_table env σ).1 with ops := σh.ops } := by
    rw [hσh]
    exact populate_mount_table_frame_ops env σ _
  refine ⟨?_, rfl, ?_, ?_⟩
  · have e1 : v_ensuredir g env σ (dir ++ "/home".toList) 0o755
        = ({ σ with ops := σ.ops ++ [Op.mkdir (dir ++ "/home".toList) 0o755] }, 1) := by
      simp only [v_ensuredir, hnohome, v_mkdir, hdry, hs.1, if_true, Bool.false_eq_true,
        if_false]
    have e2 : v_ensuredir g env
        { σ with ops := σ.ops ++ [Op.mkdir (dir ++ "/home".toList) 0o755] }
        (dir ++ jailuser.owner_home) 0o700
        = ({ σ with ops := σ.ops ++ [Op.mkdir (dir ++ "/home".toList) 0o755]
              ++ [Op.mkdir (dir ++ jailuser.owner_home) 0o700] }, 1) := by
      simp only [v_ensuredir, hnouser, v_mkdir, hdry, hs.1, if_true, Bool.false_eq_true,
        if_false]
    have e3 : ∀ wo wg, x_lchown g env
        { σ with ops := σ.ops ++ [Op.mkdir (dir ++ "/home".toList) 0o755]
              ++ [Op.mkdir (dir ++ jailuser.owner_home) 0o700] }
        (dir ++ jailuser.owner_home) wo wg
        = ({ σ with ops := σ.ops ++ [Op.mkdir (dir ++ "/home".toList) 0o755]
              ++ [Op.mkdir (dir ++ jailuser.owner_home) 0o700]
              ++ [Op.lchown (dir ++ jailuser.owner_home) wo wg] }, 0) := by
      intro wo wg
      simp only [x_lchown, hdry, hs.2.2.1, Bool.false_eq_true, if_false]
    unfold main_home
    rw [if_pos hhome, e1]
    dsimp only
    rw [if_neg (by decide), e2]
    dsimp only
    rw [if_neg (by decide), if_pos (by decide), e3]
    dsimp only
    rw [if_neg (by decide), hσh]
    simp
  · have hst : σh.dst_table = [] := by rw [hσh]; exact hstart
    have ht : (populate_mount_table env σh).1.mount_table = table := by
      rw [hpop1, htable]
    rw [construct_jail_empty g env jaildev fuel σh pr dv pts px hdry hs hst hproc hprocd
      hdev hdevd hpts hptsd hptmx hptmxc (by rw [ht]; exact hnodev), ht, hpop1]
  · intro op hop
    simp only [List.mem_append] at hop
    rcases hop with (((hop | hop) | hop) | hop) | hop
    · simp only [List.mem_cons, List.mem_singleton, List.not_mem_nil, or_false] at hop
      rcases hop with h | h <;> rw [h] <;> rfl
    · exact dir_copy_calls_no_file _ _ _ _ op hop
    · exact dir_copy_calls_no_file _ _ _ _ op hop
    · exact dir_copy_calls_no_file _ _ _ _ op hop
    · exact node_copy_calls_no_file _ _ _ _ op hop

theorem host_env_calls_succeed : CallsSucceed host_env :=
  ⟨fun _ _ _ => rfl, fun _ _ _ => rfl, fun _ _ _ _ => rfl, fun _ _ _ _ => rfl,
    fun _ _ _ => rfl⟩

theorem host_lstat_dirs :
    host_lstat "/proc".toList = .ok ⟨0o040755, 0, 0, 1, 2, 0, 4096, 0⟩
    ∧ host_lstat "/dev".toList = .ok ⟨0o040755, 0, 0, 1, 2, 0, 4096, 0⟩
    ∧ host_lstat "/dev/pts".toList = .ok ⟨0o040755, 0, 0, 1, 2, 0, 4096, 0⟩
    ∧ host_lstat "/dev/ptmx".toList = .ok ⟨0o020666, 0, 0, 5, 13, 1282, 0, 0⟩ := by
  decide

/-- Claim C19 as amended, exercised on `init /srv/jails/a student` on the host of the
examples with a manifest of no bytes: `main` makes the two home directories, and
`construct_jail` issues six calls, four of which make something in the jail. -/
theorem empty_manifest_makes_mount_points_witness :
    CallsSucceed host_env
    ∧ host_env.stat [] "/srv/jails/a//home".toList = .error .ENOENT
    ∧ (∀ ops, host_env.lstat ops "/proc".toList = .ok ⟨0o040755, 0, 0, 1, 2, 0, 4096, 0⟩)
    ∧ (∀ ops, host_env.lstat ops "/dev/ptmx".toList
        = .ok ⟨0o020666, 0, 0, 5, 13, 1282, 0, 0⟩)
    ∧ main_home jail_a host_env JailState.start .do_init
        ⟨1000, 1000, "/home/student".toList, "/bin/bash".toList⟩ 33 33 "/srv/jails/a/".toList
        = .ok home_made
    ∧ construct_jail jail_a host_env 5 home_made 1 []
      = ({ home_made with
            dst_table := ["/srv/jails/a/".toList, "/srv/jails/a/proc".toList,
              "/srv/jails/a/dev/pts".toList, "/srv/jails/a/dev".toList,
              "/srv/jails/a/dev/ptmx".toList],
            mount_table_populated := true,
            ops := home_made.ops ++
              [Op.chmod "/srv/jails/a".toList 0o755, Op.lchown "/srv/jails/a".toList 0 0,
               Op.mkdir "/srv/jails/a/proc".toList 0o755,
               Op.mkdir "/srv/jails/a/dev".toList 0o755,
               Op.mkdir "/srv/jails/a/dev/pts".toList 0o755,
               Op.mknod "/srv/jails/a/dev/ptmx".toList 0o020666 1282] }, .ok 0) :=
  have h := empty_manifest_makes_mount_points jail_a host_env 1 3 JailState.start home_made
    .do_init ⟨1000, 1000, "/home/student".toList, "/bin/bash".toList⟩ 33 33
    "/srv/jails/a/".toList [] ⟨0o040755, 0, 0, 1, 2, 0, 4096, 0⟩
    ⟨0o040755, 0, 0, 1, 2, 0, 4096, 0⟩ ⟨0o040755, 0, 0, 1, 2, 0, 4096, 0⟩
    ⟨0o020666, 0, 0, 5, 13, 1282, 0, 0⟩ rfl host_env_calls_succeed rfl (by decide)
    (by decide) (by decide) (by decide) (by decide) (fun _ => host_lstat_dirs.1) (by decide)
    (fun _ => host_lstat_dirs.2.1) (by decide) (fun _ => host_lstat_dirs.2.2.1) (by decide)
    (fun _ => host_lstat_dirs.2.2.2) (by decide) (by decide)
  ⟨host_env_calls_succeed, by decide, fun _ => host_lstat_dirs.1,
    fun _ => host_lstat_dirs.2.2.2, h.1, h.2.2.1.trans (by decide)⟩


/-! ## The owner of the home directory (claim C20) -/

/-- Claim C20, refuted as stated: `pa-jail init /srv/jails/a student`, run by the user with uid
and gid 33 for the jail user `student` (uid and gid 1000), makes the home directory with mode
0700 and gives it to uid 33 and gid 33, the caller, not to `student`. -/
theorem init_home_belongs_to_caller :
    main_home jail_a host_env JailState.start .do_init
        ⟨1000, 1000, "/home/student".toList, "/bin/bash".toList⟩ 33 33 "/srv/jails/a/".toList
      = .ok { JailState.start with
          ops := [Op.mkdir "/srv/jails/a//home".toList 0o755,
                  Op.mkdir "/srv/jails/a//home/student".toList 0o700,
                  Op.lchown "/srv/jails/a//home/student".toList 33 33] } := by
  decide

/-- Claim C20, as amended.  When `main` finds no jail home directory (`stat` fails with
`ENOENT`) and `mkdir` makes it, outside a dry run, the directory is made with mode 0700 and
`lchown` is called on it with the uid and gid of the caller (what `getuid()` and `getgid()`
gave before the process made itself root) for the action `init`, and with the uid and gid of
the jail user for the action `run`; these are the two calls issued, and the process goes on
or, when `lchown` fails, ends with `exit(1)`. -/
theorem home_directory_owner (g : Globals) (env : JailEnv) (σ σ1 : JailState)
    (action : jailaction) (jailuser : jailownerinfo) (caller_owner caller_group : Nat)
    (dir : Str) (r1 : Int)
    (hhome : jailuser.owner_home ≠ [])
    (h1 : v_ensuredir g env σ (dir ++ "/home".toList) 0o755 = (σ1, r1)) (hr1 : 0 ≤ r1)
    (hdry : g.dryrun = false)
    (hstat : env.stat σ1.ops (dir ++ jailuser.owner_home) = .error .ENOENT)
    (hmk : env.mkdir σ1.ops (dir ++ jailuser.owner_home) 0o700 = none) :
    ∃ σ2, (main_home g env σ action jailuser caller_owner caller_group dir = .ok σ2
          ∨ main_home g env σ action jailuser caller_owner caller_group dir = .exit 1 σ2)
      ∧ σ2.ops = σ1.ops ++
          [Op.mkdir (dir ++ jailuser.owner_home) 0o700,
           Op.lchown (dir ++ jailuser.owner_home)
             (if action = .do_init then caller_owner else jailuser.owner)
             (if action = .do_init then caller_group else jailuser.group)] := by
  unfold main_home
  rw [if_pos hhome, h1]
  dsimp only
  rw [if_neg (by omega)]
  have hens : v_ensuredir g env σ1 (dir ++ jailuser.owner_home) 0o700
      = ({ σ1 with ops := σ1.ops ++ [Op.mkdir (dir ++ jailuser.owner_home) 0o700] }, 1) := by
    simp [v_ensuredir, hstat, v_mkdir, hdry, hmk]
  rw [hens]
  dsimp only
  rw [if_neg (by decide), if_pos (by decide)]
  generalize (if action = jailaction.do_init then caller_owner else jailuser.owner) = wo
  generalize (if action = jailaction.do_init then caller_group else jailuser.group) = wg
  cases hch : env.lchown (σ1.ops ++ [Op.mkdir (dir ++ jailuser.owner_home) 0o700])
      (dir ++ jailuser.owner_home) wo wg with
  | none =>
    have hx : x_lchown g env
        { σ1 with ops := σ1.ops ++ [Op.mkdir (dir ++ jailuser.owner_home) 0o700] }
        (dir ++ jailuser.owner_home) wo wg
        = ({ σ1 with ops := σ1.ops ++ [Op.mkdir (dir ++ jailuser.owner_home) 0o700]
              ++ [Op.lchown (dir ++ jailuser.owner_home) wo wg] }, 0) := by
      simp [x_lchown, hdry, hch]
    rw [hx]
    exact ⟨_, Or.inl rfl, by simp⟩
  | some e =>
    have hx : x_lchown g env
        { σ1 with ops := σ1.ops ++ [Op.mkdir (dir ++ jailuser.owner_home) 0o700] }
        (dir ++ jailuser.owner_home) wo wg
        = perror_fail { σ1 with ops := σ1.ops ++ [Op.mkdir (dir ++ jailuser.owner_home) 0o700]
              ++ [Op.lchown (dir ++ jailuser.owner_home) wo wg] }
            "chown %s: %s\n".toList (dir ++ jailuser.owner_home) := by
      simp [x_lchown, hdry, hch]
    rw [hx]
    exact ⟨_, Or.inr rfl, by simp [perror_exit, perror_fail]⟩

/-- Claim C20 as amended, exercised on `init` by the caller with uid and gid 33. -/
theorem home_directory_owner_witness :
    (⟨1000, 1000, "/home/student".toList, "/bin/bash".toList⟩ : jailownerinfo).owner_home ≠ []
    ∧ v_ensuredir jail_a host_env JailState.start ("/srv/jails/a/".toList ++ "/home".toList)
          0o755
        = ({ JailState.start with ops := [Op.mkdir "/srv/jails/a//home".toList 0o755] }, 1)
    ∧ ∃ σ2, (main_home jail_a host_env JailState.start .do_init
            ⟨1000, 1000, "/home/student".toList, "/bin/bash".toList⟩ 33 33
            "/srv/jails/a/".toList = .ok σ2
          ∨ main_home jail_a host_env JailState.start .do_init
            ⟨1000, 1000, "/home/student".toList, "/bin/bash".toList⟩ 33 33
            "/srv/jails/a/".toList = .exit 1 σ2)
      ∧ σ2.ops = [Op.mkdir "/srv/jails/a//home".toList 0o755] ++
          [Op.mkdir ("/srv/jails/a/".toList ++ "/home/student".toList) 0o700,
           Op.lchown ("/srv/jails/a/".toList ++ "/home/student".toList)
             (if jailaction.do_init = .do_init then 33 else 1000)
             (if jailaction.do_init = .do_init then 33 else 1000)] :=
  ⟨by decide, by decide,
   home_directory_owner jail_a host_env JailState.start
     { JailState.start with ops := [Op.mkdir "/srv/jails/a//home".toList 0o755] }
     .do_init ⟨1000, 1000, "/home/student".toList, "/bin/bash".toList⟩ 33 33
     "/srv/jails/a/".toList 1 (by decide) (by decide) (by decide) (by decide) (by decide)
     (by decide)⟩

/-! ## Claims C21 and C28: what `rm` and `--replace` unmount -/

/-- The test of lines 1918-1920 is the test whether `dir` is a prefix of the mount point. -/
theorem umount_test_iff (dir first : Str) :
    (first.length ≥ dir.length ∧ first.take dir.length = dir) ↔ dir.isPrefixOf first = true := by
  rw [List.isPrefixOf_iff_prefix, List.prefix_iff_eq_take]
  constructor
  · rintro ⟨-, h⟩
    exact h.symm
  · intro h
    refine ⟨?_, h.symm⟩
    have := congrArg List.length h
    simp only [List.length_take] at this
    omega

/-- In a run that is not dry, the loop issues one `umount` for each mount point of the table
that starts with `dir`, in the order of the table, up to the first one that fails, where it
calls `exit(1)`. -/
theorem umount_loop_spec (g : Globals) (env : JailEnv) (dir : Str) (hdry : g.dryrun = false) :
    ∀ (table : List (Str × mountslot)) (σ : JailState),
      match umount_loop g env dir table σ with
      | .ok σ2 =>
        σ2.ops = σ.ops ++ (umount_targets dir table).map Op.umount
          ∧ ∀ done m, done ++ [m] <+: umount_targets dir table →
              env.umount (σ.ops ++ done.map Op.umount) m = none
      | .exit n σ2 =>
        n = 1 ∧ ∃ done m, done ++ [m] <+: umount_targets dir table
          ∧ σ2.ops = σ.ops ++ (done ++ [m]).map Op.umount
          ∧ env.umount (σ.ops ++ done.map Op.umount) m ≠ none
      | .fault _ => False := by
  intro table
  induction table with
  | nil =>
    intro σ
    simp only [umount_loop, umount_targets, List.map_nil, List.filter_nil, List.append_nil,
      true_and]
    intro done m h
    have := List.eq_nil_of_prefix_nil h
    simp at this
  | cons it rest ih =>
    intro σ
    unfold umount_loop
    by_cases hp : dir.isPrefixOf it.1 = true
    · have hcond : it.1.length ≥ dir.length ∧ it.1.take dir.length = dir :=
        (umount_test_iff dir it.1).2 hp
      have ht : umount_targets dir (it :: rest) = it.1 :: umount_targets dir rest := by
        simp [umount_targets, hp]
      rw [if_pos hcond, ht]
      unfold handle_umount
      simp only [hdry, Bool.false_eq_true, not_false_eq_true, if_true]
      cases hu : env.umount σ.ops it.1 with
      | some e =>
        simp only [true_and]
        refine ⟨[], it.1, ?_, ?_, ?_⟩
        · simp
        · simp
        · simp [hu]
      | none =>
        simp only
        have h := ih { σ with ops := σ.ops ++ [Op.umount it.1] }
        revert h
        cases umount_loop g env dir rest { σ with ops := σ.ops ++ [Op.umount it.1] } with
        | ok σ2 =>
          simp only
          rintro ⟨h1, h2⟩
          refine ⟨by simp [h1], ?_⟩
          intro done m hpre
          cases done with
          | nil =>
            simp only [List.nil_append, List.cons_prefix_cons] at hpre
            simp [hpre.1, hu]
          | cons d done1 =>
            simp only [List.cons_append, List.cons_prefix_cons] at hpre
            have := h2 done1 m hpre.2
            simpa [hpre.1] using this
        | exit n σ2 =>
          simp only
          rintro ⟨h1, done, m, hpre, hops, hfail⟩
          refine ⟨h1, it.1 :: done, m, ?_, ?_, ?_⟩
          · simpa using hpre
          · simp [hops]
          · simpa using hfail
        | fault f => simp
    · have hcond : ¬ (it.1.length ≥ dir.length ∧ it.1.take dir.length = dir) :=
        fun h => hp ((umount_test_iff dir it.1).1 h)
      have ht : umount_targets dir (it :: rest) = umount_targets dir rest := by
        simp [umount_targets, hp]
      rw [if_neg hcond, ht]
      exact ih σ

/-- In a dry run the loop issues no call. -/
theorem umount_loop_dry (g : Globals) (env : JailEnv) (dir : Str) (hdry : g.dryrun = true) :
    ∀ (table : List (Str × mountslot)) (σ : JailState),
      ∃ σ2, umount_loop g env dir table σ = .ok σ2 ∧ σ2.ops = σ.ops := by
  intro table
  induction table with
  | nil => intro σ; exact ⟨σ, rfl, rfl⟩
  | cons it rest ih =>
    intro σ
    unfold umount_loop
    split
    · simp only [handle_umount, hdry, not_true_eq_false, if_false]
      exact ih _
    · exact ih σ

/-- The call `populate_mount_table` issues no call of those recorded. -/
theorem populate_mount_table_ops (env : JailEnv) (σ : JailState) :
    (populate_mount_table env σ).1.ops = σ.ops := by
  unfold populate_mount_table
  split
  · rfl
  · split <;> rfl


/-- Claim C21, as the code has it.  In a run of `rm` or `run --replace` that is not dry, the
mount points unmounted are those entries of the mount table that start with the jail
directory followed by a slash, so those beneath the jail directory and not the jail directory
itself.  When every `umount` succeeds, one is issued for each of them, in the order of the
table, and nothing else is issued; as soon as an `umount` fails the process ends with
`exit(1)`, the failing call being the last one issued. -/
theorem umount_strictly_beneath_jail (g : Globals) (env : JailEnv) (σ : JailState)
    (j : jaildirinfo) (hdry : g.dryrun = false) :
    match main_umount g env σ j with
    | .ok (_, σ2) =>
      σ2.ops = σ.ops ++ (umount_targets (path_endslash j.dir)
          (populate_mount_table env σ).1.mount_table).map Op.umount
        ∧ ∀ done m, done ++ [m] <+: umount_targets (path_endslash j.dir)
              (populate_mount_table env σ).1.mount_table →
            env.umount (σ.ops ++ done.map Op.umount) m = none
    | .exit n σ2 =>
      n = 1 ∧ ∃ done m, done ++ [m] <+: umount_targets (path_endslash j.dir)
            (populate_mount_table env σ).1.mount_table
        ∧ σ2.ops = σ.ops ++ (done ++ [m]).map Op.umount
        ∧ env.umount (σ.ops ++ done.map Op.umount) m ≠ none
    | .fault _ => False := by
  have h := umount_loop_spec g env (path_endslash j.dir) hdry
    (populate_mount_table env σ).1.mount_table (populate_mount_table env σ).1
  rw [populate_mount_table_ops] at h
  unfold main_umount
  simp only
  revert h
  cases umount_loop g env (path_endslash j.dir) (populate_mount_table env σ).1.mount_table
    (populate_mount_table env σ).1 with
  | ok σ2 => exact fun h => h
  | exit n σ2 => exact fun h => h
  | fault f => exact fun h => h

/-- Claim C21, exercised: removing `/srv/jails/a` in the system `mounted_env`, where every
`umount` succeeds, unmounts `/srv/jails/a/dev/pts` and `/srv/jails/a/proc`. -/
theorem umount_strictly_beneath_jail_witness :
    jail_a.dryrun = false
    ∧ umount_targets (path_endslash accepted_a.dir)
        (populate_mount_table mounted_env JailState.start).1.mount_table
      = ["/srv/jails/a/dev/pts".toList, "/srv/jails/a/proc".toList]
    ∧ match main_umount jail_a mounted_env JailState.start accepted_a with
      | .ok (_, σ2) =>
        σ2.ops = JailState.start.ops ++ (umount_targets (path_endslash accepted_a.dir)
            (populate_mount_table mounted_env JailState.start).1.mount_table).map Op.umount
          ∧ ∀ done m, done ++ [m] <+: umount_targets (path_endslash accepted_a.dir)
                (populate_mount_table mounted_env JailState.start).1.mount_table →
              mounted_env.umount (JailState.start.ops ++ done.map Op.umount) m = none
      | .exit n σ2 =>
        n = 1 ∧ ∃ done m, done ++ [m] <+: umount_targets (path_endslash accepted_a.dir)
              (populate_mount_table mounted_env JailState.start).1.mount_table
          ∧ σ2.ops = JailState.start.ops ++ (done ++ [m]).map Op.umount
          ∧ mounted_env.umount (JailState.start.ops ++ done.map Op.umount) m ≠ none
      | .fault _ => False :=
  ⟨by decide, by decide,
   umount_strictly_beneath_jail jail_a mounted_env JailState.start accepted_a (by decide)⟩

/-- Claim C21, refuted as stated: in the system `mounted_env` a file system is mounted on the
jail directory `/srv/jails/a` itself, and the mount table holds it, but removing the jail
ends the loop with two calls of `umount`, for `/srv/jails/a/dev/pts` and `/srv/jails/a/proc`,
and none for `/srv/jails/a`. -/
theorem mount_on_jail_itself_not_unmounted :
    jaildirinfo.construct local_sys "/srv/jails/a".toList .do_rm false = .ok accepted_a
    ∧ "/srv/jails/a".toList ∈
        (populate_mount_table mounted_env JailState.start).1.mount_table.map Prod.fst
    ∧ ((main_umount jail_a mounted_env JailState.start accepted_a).value.map
          (fun r => r.2.ops))
        = some [Op.umount "/srv/jails/a/dev/pts".toList, Op.umount "/srv/jails/a/proc".toList]
    ∧ ∀ r ∈ (main_umount jail_a mounted_env JailState.start accepted_a).value,
        Op.umount "/srv/jails/a".toList ∉ r.2.ops := by
  refine ⟨by decide, by decide, by decide, ?_⟩
  intro r hr
  have h : (main_umount jail_a mounted_env JailState.start accepted_a).value.map
      (fun r => r.2.ops)
      = some [Op.umount "/srv/jails/a/dev/pts".toList, Op.umount "/srv/jails/a/proc".toList] := by
    decide
  rw [Option.mem_def] at hr
  rw [hr] at h
  simp only [Option.map_some', Option.some.injEq] at h
  rw [h]
  decide


/-- In every run, dry or not, the calls that the loop adds are calls of `umount` for a sublist
of the mount points of the table that start with `dir`. -/
theorem umount_loop_issued (g : Globals) (env : JailEnv) (dir : Str)
    (table : List (Str × mountslot)) (σ : JailState) :
    ∃ issued : List Str, issued <+: umount_targets dir table
      ∧ match umount_loop g env dir table σ with
        | .ok σ2 => σ2.ops = σ.ops ++ issued.map Op.umount
        | .exit _ σ2 => σ2.ops = σ.ops ++ issued.map Op.umount
        | .fault _ => False := by
  cases hdry : g.dryrun with
  | true =>
    obtain ⟨σ2, h1, h2⟩ := umount_loop_dry g env dir hdry table σ
    refine ⟨[], List.nil_prefix, ?_⟩
    rw [h1]
    simp [h2]
  | false =>
    have h := umount_loop_spec g env dir hdry table σ
    revert h
    cases umount_loop g env dir table σ with
    | ok σ2 =>
      simp only
      rintro ⟨h1, -⟩
      exact ⟨_, List.prefix_refl _, h1⟩
    | exit n σ2 =>
      simp only
      rintro ⟨-, done, m, hpre, hops, -⟩
      exact ⟨_, hpre, hops⟩
    | fault f => simp

/-- Claim C28.  For every jail the constructor accepts and every run of lines 1915-1921,
whether it comes to the end of the loop or ends in `exit`: the calls issued are calls of
`umount`, each for a mount point of the mount table that has the jail directory followed by a
slash as a prefix.  So no mount point that continues the name of the jail directory with
another character than a slash, such as the sibling `/srv/jails/ab` of `/srv/jails/a`, is
unmounted. -/
theorem umount_only_beneath_jail (sys : Sys) (str : Str) (action : jailaction)
    (doforce : Bool) (j : jaildirinfo)
    (h : jaildirinfo.construct sys str action doforce = .ok j)
    (g : Globals) (env : JailEnv) (σ σ2 : JailState)
    (hrun : (main_umount g env σ j).value.map Prod.snd = some σ2
      ∨ (main_umount g env σ j).final = some σ2) :
    ∃ issued : List Str, σ2.ops = σ.ops ++ issued.map Op.umount
      ∧ (∀ m ∈ issued, path_noendslash j.dir ++ ['/'] <+: m
          ∧ m ∈ (populate_mount_table env σ).1.mount_table.map Prod.fst)
      ∧ ∀ (c : Char) (rest : Str), c ≠ '/' → path_noendslash j.dir ++ c :: rest ∉ issued := by
  obtain ⟨dstroot, hdir, -, -, -, -, -, hno, -⟩ :=
    jail_dir_is_sanitized sys str action doforce j h
  have hend : path_endslash j.dir = j.dir := by
    rw [hdir]
    unfold path_endslash
    simp
  obtain ⟨issued, hpre, hloop⟩ := umount_loop_issued g env (path_endslash j.dir)
    (populate_mount_table env σ).1.mount_table (populate_mount_table env σ).1
  rw [populate_mount_table_ops] at hloop
  have hops : σ2.ops = σ.ops ++ issued.map Op.umount := by
    unfold main_umount at hrun
    simp only at hrun
    revert hloop hrun
    cases umount_loop g env (path_endslash j.dir) (populate_mount_table env σ).1.mount_table
      (populate_mount_table env σ).1 with
    | ok σ3 =>
      simp only [Outcome.value, Outcome.final, Option.map_some', Option.some.injEq]
      intro h2 h1
      rcases h2 with h2 | h2
      · rw [← h2]; exact h1
      · simp at h2
    | exit n σ3 =>
      simp only [Outcome.value, Outcome.final, Option.map_none', Option.some.injEq]
      intro h2 h1
      rcases h2 with h2 | h2
      · simp at h2
      · rw [← h2]; exact h1
    | fault f => simp
  have hmem : ∀ m ∈ issued, path_noendslash j.dir ++ ['/'] <+: m
      ∧ m ∈ (populate_mount_table env σ).1.mount_table.map Prod.fst := by
    intro m hm
    have hm1 := hpre.subset hm
    unfold umount_targets at hm1
    rw [List.mem_filter, List.isPrefixOf_iff_prefix, hend] at hm1
    rw [hno, ← hdir]
    exact ⟨hm1.2, hm1.1⟩
  refine ⟨issued, hops, hmem, ?_⟩
  intro c rest hc hin
  obtain ⟨hp, -⟩ := hmem _ hin
  rw [List.prefix_append_right_inj] at hp
  have := hp.head (by simp)
  simp at this
  exact hc this.symm

/-- Claim C28, exercised on the jail `/srv/jails/a` in the system `mounted_env`, where
`/srv/jails/ab` is a mount point too: the run unmounts `/srv/jails/a/dev/pts` and
`/srv/jails/a/proc` and not `/srv/jails/ab`. -/
theorem umount_only_beneath_jail_witness :
    (main_umount jail_a mounted_env JailState.start accepted_a).value.map Prod.snd
      = some { (populate_mount_table mounted_env JailState.start).1 with
          ops := [Op.umount "/srv/jails/a/dev/pts".toList,
            Op.umount "/srv/jails/a/proc".toList] }
    ∧ "/srv/jails/ab".toList ∈
        (populate_mount_table mounted_env JailState.start).1.mount_table.map Prod.fst
    ∧ ∃ issued : List Str,
      [Op.umount "/srv/jails/a/dev/pts".toList, Op.umount "/srv/jails/a/proc".toList]
        = JailState.start.ops ++ issued.map Op.umount
      ∧ (∀ m ∈ issued, path_noendslash accepted_a.dir ++ ['/'] <+: m
          ∧ m ∈ (populate_mount_table mounted_env JailState.start).1.mount_table.map Prod.fst)
      ∧ ∀ (c : Char) (rest : Str), c ≠ '/' →
          path_noendslash accepted_a.dir ++ c :: rest ∉ issued :=
  ⟨by decide, by decide,
   umount_only_beneath_jail local_sys "/srv/jails/a".toList .do_rm false accepted_a
     (by decide) jail_a mounted_env JailState.start
     { (populate_mount_table mounted_env JailState.start).1 with
       ops := [Op.umount "/srv/jails/a/dev/pts".toList, Op.umount "/srv/jails/a/proc".toList] }
     (Or.inl (by decide))⟩

/-! ## Claims C22 and C23: what `jailownerinfo::init` accepts -/

/-- Claim C22, as the code has it.  For a user name shorter than 1024 bytes whose password
entry has an acceptable home directory and shell, `init` succeeds exactly when the uid of the
entry is not 0, whatever its gid; the owner and group it then stores are the uid and gid of
the entry. -/
theorem init_checks_uid_only (getpwnam : Str → Option passwd) (check_shell : Str → Bool)
    (self : jailownerinfo) (owner_name : Str) (pw : passwd)
    (hlen : owner_name.length < 1024) (hpw : getpwnam owner_name = some pw)
    (hhome : pw.pw_dir = "/".toList ∨ pw.pw_dir.take 6 = "/home/".toList)
    (hshell : pw.pw_shell = "/bin/bash".toList ∨ pw.pw_shell = "/bin/sh".toList
      ∨ check_shell pw.pw_shell = true) :
    ((∃ self1, self.init getpwnam check_shell owner_name = .ok self1) ↔ pw.pw_uid ≠ 0)
    ∧ ∀ self1, self.init getpwnam check_shell owner_name = .ok self1 →
        self1.owner = pw.pw_uid ∧ self1.group = pw.pw_gid := by
  have hlen1 : ¬ owner_name.length ≥ 1024 := by omega
  by_cases huid : pw.pw_uid = 0
  · have : ∃ msg, self.init getpwnam check_shell owner_name = .error msg := by
      unfold jailownerinfo.init
      rw [if_neg hlen1]
      simp only [hpw]
      rcases hhome with hh | hh
      · simp only [hh, if_true, hshell]
        simp [huid, ROOT]
      · by_cases h1 : pw.pw_dir = "/".toList
        · simp only [h1, if_true, hshell]
          simp [huid, ROOT]
        · simp only [h1, hh, if_true, if_false, hshell]
          simp [huid, ROOT]
    obtain ⟨msg, hmsg⟩ := this
    simp [hmsg, huid]
  · have : ∃ self1, self.init getpwnam check_shell owner_name = .ok self1
        ∧ self1.owner = pw.pw_uid ∧ self1.group = pw.pw_gid := by
      unfold jailownerinfo.init
      rw [if_neg hlen1]
      simp only [hpw]
      rcases hhome with hh | hh
      · simp only [hh, if_true, hshell]
        simp [huid, ROOT]
      · by_cases h1 : pw.pw_dir = "/".toList
        · simp only [h1, if_true, hshell]
          simp [huid, ROOT]
        · simp only [h1, hh, if_true, if_false, hshell]
          simp [huid, ROOT]
    obtain ⟨self1, h1, h2, h3⟩ := this
    refine ⟨⟨fun _ => huid, fun _ => ⟨self1, h1⟩⟩, ?_⟩
    intro self2 h4
    rw [h1] at h4
    cases h4
    exact ⟨h2, h3⟩

/-- Claim C22, exercised on the user `student` of `student_db`, with uid and gid 1000. -/
theorem init_checks_uid_only_witness :
    ((∃ self1, jailownerinfo.new.init student_db.getpwnam student_db.check_shell
        "student".toList = .ok self1) ↔ (1000 : Nat) ≠ 0)
    ∧ ∀ self1, jailownerinfo.new.init student_db.getpwnam student_db.check_shell
        "student".toList = .ok self1 → self1.owner = 1000 ∧ self1.group = 1000 :=
  init_checks_uid_only student_db.getpwnam student_db.check_shell jailownerinfo.new
    "student".toList ⟨1000, 1000, "/home/student".toList, "/bin/bash".toList⟩
    (by decide) (by decide) (Or.inr (by decide)) (Or.inl (by decide))

/-- Claim C22, refuted as stated: the entry of `student` in `wheel_db` has the gid 0, and
`init` accepts it and stores the group 0. -/
theorem init_accepts_gid_zero :
    wheel_db "student".toList = some ⟨1000, 0, "/home/student".toList, "/bin/bash".toList⟩
    ∧ jailownerinfo.new.init wheel_db (fun _ => false) "student".toList
      = .ok ⟨1000, 0, "/home/student".toList, "/bin/bash".toList⟩ := by
  decide

/-- Claim C23, as the code has it.  Whenever `init` succeeds, either the home directory of the
password entry is `/` and `owner_home` is `/home/nobody`, or the home directory starts with
the six bytes `/home/` and `owner_home` is that home directory as it stands; every other home
directory is rejected.  Nothing is asked of what follows `/home/`. -/
theorem init_home_starts_with_home (getpwnam : Str → Option passwd)
    (check_shell : Str → Bool) (self self1 : jailownerinfo) (owner_name : Str)
    (h : self.init getpwnam check_shell owner_name = .ok self1) :
    ∃ pw, getpwnam owner_name = some pw
      ∧ ((pw.pw_dir = "/".toList ∧ self1.owner_home = "/home/nobody".toList)
        ∨ ("/home/".toList <+: pw.pw_dir ∧ self1.owner_home = pw.pw_dir)) := by
  unfold jailownerinfo.init at h
  split at h
  · simp at h
  · cases hpw : getpwnam owner_name with
    | none => simp [hpw] at h
    | some pw =>
      refine ⟨pw, rfl, ?_⟩
      simp only [hpw] at h
      by_cases h1 : pw.pw_dir = "/".toList
      · left
        refine ⟨h1, ?_⟩
        simp only [h1, if_true] at h
        split at h
        · split at h
          · simp at h
          · simp only [Except.ok.injEq] at h
            rw [← h]
        · simp at h
      · right
        by_cases h2 : pw.pw_dir.take 6 = "/home/".toList
        · refine ⟨?_, ?_⟩
          · rw [List.prefix_iff_eq_take]
            exact h2.symm
          · simp only [h1, h2, if_true, if_false] at h
            split at h
            · split at h
              · simp at h
              · simp only [Except.ok.injEq] at h
                rw [← h]
            · simp at h
        · simp only [h1, h2, if_false] at h
          simp at h

/-- Claim C23, exercised on the user `student` of `student_db`. -/
theorem init_home_starts_with_home_witness :
    ∃ pw, student_db.getpwnam "student".toList = some pw
      ∧ ((pw.pw_dir = "/".toList
          ∧ (⟨1000, 1000, "/home/student".toList, "/bin/bash".toList⟩ :
              jailownerinfo).owner_home = "/home/nobody".toList)
        ∨ ("/home/".toList <+: pw.pw_dir
          ∧ (⟨1000, 1000, "/home/student".toList, "/bin/bash".toList⟩ :
              jailownerinfo).owner_home = pw.pw_dir)) :=
  init_home_starts_with_home student_db.getpwnam student_db.check_shell jailownerinfo.new
    ⟨1000, 1000, "/home/student".toList, "/bin/bash".toList⟩ "student".toList (by decide)

/-- Claim C23, refuted as stated: `init` accepts the home directories `/home/` (no component
behind `/home/`), `/home/alice/secret` (two components) and `/home/../etc` (which names
`/etc`), and stores each as `owner_home`. -/
theorem init_accepts_any_path_under_home :
    (jailownerinfo.new.init home_db (fun _ => false) "/home/".toList).toOption.map
        (fun s => s.owner_home) = some "/home/".toList
    ∧ (jailownerinfo.new.init home_db (fun _ => false) "/home/alice/secret".toList).toOption.map
        (fun s => s.owner_home) = some "/home/alice/secret".toList
    ∧ (jailownerinfo.new.init home_db (fun _ => false) "/home/../etc".toList).toOption.map
        (fun s => s.owner_home) = some "/home/../etc".toList := by
  decide

/-! ## Claim C26: the invariant of `struct buffer` -/

theorem pending_store (buf data : Str) (head tail : Nat) (h1 : head ≤ tail)
    (h2 : tail + data.length ≤ buf.length) :
    ((buf.take tail ++ data ++ buf.drop (tail + data.length)).drop head).take
        (tail + data.length - head)
      = (buf.drop head).take (tail - head) ++ data := by
  have hl : (buf.take tail).length = tail := by
    rw [List.length_take]; omega
  rw [List.append_assoc, List.drop_append_of_le_length (by omega)]
  have hl2 : ((buf.take tail).drop head).length = tail - head := by
    rw [List.length_drop, hl]
  have : tail + data.length - head = ((buf.take tail).drop head).length + data.length := by
    rw [hl2]; omega
  rw [this, List.take_append, List.take_left', List.drop_take]
  rfl

theorem length_store (buf data : Str) (tail : Nat) (h2 : tail + data.length ≤ buf.length) :
    (buf.take tail ++ data ++ buf.drop (tail + data.length)).length = buf.length := by
  simp only [List.length_append, List.length_take, List.length_drop]
  omega

theorem pending_compact (buf : Str) (head tail : Nat) (h1 : head ≤ tail)
    (h2 : tail ≤ buf.length) :
    (((buf.drop head).take (tail - head) ++ buf.drop (tail - head)).drop 0).take
        (tail - head - 0)
      = (buf.drop head).take (tail - head) := by
  rw [List.drop_zero, Nat.sub_zero]
  apply List.take_left'
  rw [List.length_take, List.length_drop]
  omega

theorem length_compact (buf : Str) (head tail : Nat) (h1 : head ≤ tail)
    (h2 : tail ≤ buf.length) :
    ((buf.drop head).take (tail - head) ++ buf.drop (tail - head)).length = buf.length := by
  simp only [List.length_append, List.length_take, List.length_drop]
  omega


/-- Compaction keeps the invariant and the bytes `buf[head..tail)`. -/
theorem compact_spec (b : buffer) (hinv : b.Inv) :
    ∃ c, b.compact = .ok c ∧ c.Inv ∧ c.pending = b.pending
      ∧ c.input_closed = b.input_closed ∧ c.output_closed = b.output_closed
      ∧ c.rerrno = b.rerrno := by
  obtain ⟨h1, h2, h3⟩ := hinv
  unfold buffer.compact
  by_cases hc : b.tail = SIZEOF_BUF ∧ b.head ≠ 0
  · rw [if_pos hc, if_pos h1]
    refine ⟨_, rfl, ⟨?_, ?_, ?_⟩, ?_, rfl, rfl, rfl⟩
    · exact Nat.zero_le _
    · simp only; omega
    · simp only
      rw [length_compact _ _ _ h1 (by omega), h3]
    · unfold buffer.pending
      simp only
      exact pending_compact _ _ _ h1 (by omega)
  · rw [if_neg hc]
    exact ⟨b, rfl, ⟨h1, h2, h3⟩, rfl, rfl, rfl, rfl⟩

/-- The call of `read` keeps the invariant and appends the bytes read to `buf[head..tail)`,
when `read` returns at most the count asked for. -/
theorem fill_spec (b : buffer) (from_fd : Int) (sys_read : Nat → ReadAnswer)
    (sys_fstat : Except Int Bool) (io : SupIO) (hinv : b.Inv)
    (hb : ∀ count data, sys_read count = .bytes data → data.length ≤ count) :
    ∃ b1 io1 calls, b.fill from_fd sys_read sys_fstat io = .ok (b1, io1)
      ∧ b1.Inv ∧ io1.trace = io.trace ++ calls
      ∧ b1.pending = b.pending ++ stream_in calls ∧ stream_out calls = []
      ∧ b1.output_closed = b.output_closed := by
  obtain ⟨h1, h2, h3⟩ := hinv
  unfold buffer.fill
  split
  · rw [if_neg (by omega)]
    simp only
    cases hr : sys_read (SIZEOF_BUF - b.tail) with
    | bytes data =>
      have hlen := hb _ _ hr
      have htake : data.take (SIZEOF_BUF - b.tail) = data := List.take_of_length_le hlen
      simp only [htake]
      have hmod : (b.tail + data.length) % 2 ^ 64 = b.tail + data.length := by
        apply Nat.mod_eq_of_lt
        unfold SIZEOF_BUF at hlen h2
        omega
      have hstream : stream_in [SupCall.read from_fd (SIZEOF_BUF - b.tail) (.bytes data)]
          = data := by
        simp [stream_in, bytes_in, htake]
      have hout : stream_out [SupCall.read from_fd (SIZEOF_BUF - b.tail) (.bytes data)]
          = [] := by
        simp [stream_out, bytes_out]
      have hfit : b.tail + data.length ≤ b.buf.length := by omega
      split
      · refine ⟨_, _, _, rfl, ⟨?_, ?_, ?_⟩, rfl, ?_, hout, rfl⟩
        · simp only [hmod]; omega
        · simp only [hmod]; omega
        · simp only
          rw [length_store _ _ _ hfit, h3]
        · rw [hstream]
          unfold buffer.pending
          simp only [hmod]
          exact pending_store _ _ _ _ h1 hfit
      · rename_i hz
        have hnil : data = [] := by
          cases data with
          | nil => rfl
          | cons c r => simp at hz
        subst hnil
        have hbuf : b.buf.take b.tail ++ ([] : Str) ++ b.buf.drop (b.tail + ([] : Str).length)
            = b.buf := by
          simp
        simp only [hbuf]
        split
        · split
          · exact ⟨_, _, _, rfl, ⟨h1, h2, h3⟩, rfl, by rw [hstream]; simp [buffer.pending],
              hout, rfl⟩
          · exact ⟨_, _, _, rfl, ⟨h1, h2, h3⟩, rfl, by rw [hstream]; simp [buffer.pending],
              hout, rfl⟩
          · exact ⟨_, _, _, rfl, ⟨h1, h2, h3⟩, rfl, by rw [hstream]; simp [buffer.pending],
              hout, rfl⟩
        · exact ⟨_, _, _, rfl, ⟨h1, h2, h3⟩, rfl, by rw [hstream]; simp [buffer.pending],
            hout, rfl⟩
    | error e =>
      simp only
      split
      · exact ⟨_, _, _, rfl, ⟨h1, h2, h3⟩, rfl, by simp [stream_in, bytes_in, buffer.pending],
          by simp [stream_out, bytes_out], rfl⟩
      · exact ⟨_, _, _, rfl, ⟨h1, h2, h3⟩, rfl, by simp [stream_in, bytes_in],
          by simp [stream_out, bytes_out], rfl⟩
  · exact ⟨b, io, [], rfl, ⟨h1, h2, h3⟩, by simp, by simp [stream_in], by simp [stream_out],
      rfl⟩

/-- The function `transfer_in` keeps the invariant and appends the bytes read to
`buf[head..tail)`, when `read` returns at most the count asked for. -/
theorem transfer_in_spec (b : buffer) (from_fd : Int) (sys_read : Nat → ReadAnswer)
    (sys_fstat : Except Int Bool) (io : SupIO) (hinv : b.Inv)
    (hb : ∀ count data, sys_read count = .bytes data → data.length ≤ count) :
    ∃ b1 io1 calls, b.transfer_in from_fd sys_read sys_fstat io = .ok (b1, io1)
      ∧ b1.Inv ∧ io1.trace = io.trace ++ calls
      ∧ b1.pending = b.pending ++ stream_in calls ∧ stream_out calls = []
      ∧ b1.output_closed = b.output_closed := by
  obtain ⟨c, hc, hcinv, hcp, -, hco, -⟩ := compact_spec b hinv
  obtain ⟨b1, io1, calls, h1, h2, h3, h4, h5, h6⟩ :=
    fill_spec c from_fd sys_read sys_fstat io hcinv hb
  refine ⟨b1, io1, calls, ?_, h2, h3, ?_, h5, ?_⟩
  · unfold buffer.transfer_in
    rw [hc]
    exact h1
  · rw [h4, hcp]
  · rw [h6, hco]

/-- The function `transfer_out` keeps the invariant and takes the bytes written from the
front of `buf[head..tail)`, when `write` returns at most the number of bytes offered. -/
theorem transfer_out_spec (b : buffer) (to_fd : Int) (sys_write : Str → WriteAnswer)
    (io : SupIO) (hinv : b.Inv)
    (hb : ∀ offered nw, sys_write offered = .wrote nw → nw ≤ offered.length) :
    ∃ b1 io1 calls, b.transfer_out to_fd sys_write io = .ok (b1, io1)
      ∧ b1.Inv ∧ io1.trace = io.trace ++ calls
      ∧ b.pending = stream_out calls ++ b1.pending ∧ stream_in calls = []
      ∧ b1.input_closed = b.input_closed ∧ b1.rerrno = b.rerrno := by
  obtain ⟨h1, h2, h3⟩ := hinv
  have hplen : b.pending.length = b.tail - b.head := by
    unfold buffer.pending
    rw [List.length_take, List.length_drop]
    omega
  unfold buffer.transfer_out
  split
  · rw [if_neg (by omega)]
    simp only
    cases hw : sys_write b.pending with
    | wrote nw =>
      have hle := hb _ _ hw
      rw [hplen] at hle
      simp only
      split
      · have hmod : (b.head + nw) % 2 ^ 64 = b.head + nw := by
          apply Nat.mod_eq_of_lt
          unfold SIZEOF_BUF at h2
          omega
        refine ⟨_, _, _, rfl, ⟨?_, h2, h3⟩, rfl, ?_, by simp [stream_in, bytes_in], rfl, rfl⟩
        · simp only [hmod]; omega
        · simp only [stream_out, bytes_out, List.map_cons, List.map_nil, List.flatten_cons,
            List.flatten_nil, List.append_nil, hmod]
          unfold buffer.pending
          simp only
          have h4 : b.tail - (b.head + nw) = b.tail - b.head - nw := by omega
          have h5 : b.tail - b.head = nw + (b.tail - b.head - nw) := by omega
          rw [h4, List.take_take, Nat.min_eq_left hle, ← List.drop_drop]
          nth_rewrite 1 [h5]
          exact List.take_add _ _ _
      · rename_i hz
        have hz0 : nw = 0 := by omega
        subst hz0
        split
        · exact ⟨_, _, _, rfl, ⟨h1, h2, h3⟩, rfl,
            by simp [stream_out, bytes_out, buffer.pending], by simp [stream_in, bytes_in],
            rfl, rfl⟩
        · exact ⟨_, _, _, rfl, ⟨h1, h2, h3⟩, rfl,
            by simp [stream_out, bytes_out], by simp [stream_in, bytes_in], rfl, rfl⟩
    | error e =>
      simp only
      split
      · exact ⟨_, _, _, rfl, ⟨h1, h2, h3⟩, rfl,
          by simp [stream_out, bytes_out, buffer.pending], by simp [stream_in, bytes_in],
          rfl, rfl⟩
      · exact ⟨_, _, _, rfl, ⟨h1, h2, h3⟩, rfl,
          by simp [stream_out, bytes_out], by simp [stream_in, bytes_in], rfl, rfl⟩
  · exact ⟨b, io, [], rfl, ⟨h1, h2, h3⟩, by simp, by simp [stream_out], by simp [stream_in],
      rfl, rfl⟩


/-- Compaction happens exactly when the bytes reach the end of `buf` and do not start at its
beginning, and then they start at offset 0. -/
theorem compact_moves (b : buffer) (hinv : b.Inv) :
    ∃ c, b.compact = .ok c
      ∧ (b.tail = 8192 ∧ b.head ≠ 0 →
          c.head = 0 ∧ c.tail = b.tail - b.head ∧ c.buf.take (b.tail - b.head) = b.pending)
      ∧ (¬ (b.tail = 8192 ∧ b.head ≠ 0) → c = b) := by
  obtain ⟨h1, h2, h3⟩ := hinv
  unfold buffer.compact
  by_cases hc : b.tail = SIZEOF_BUF ∧ b.head ≠ 0
  · rw [if_pos hc, if_pos h1]
    refine ⟨_, rfl, fun _ => ⟨rfl, rfl, ?_⟩, fun hn => absurd hc hn⟩
    simp only
    unfold buffer.pending
    apply List.take_left'
    rw [List.length_take, List.length_drop]
    omega
  · rw [if_neg hc]
    exact ⟨b, rfl, fun hp => absurd hp hc, fun _ => rfl⟩

/-- The second statement of `transfer_in` leaves `head` as it is and issues one `read` for
the room behind `tail`, when the descriptor is valid, the input is open and there is room. -/
theorem fill_calls (b : buffer) (from_fd : Int) (sys_read : Nat → ReadAnswer)
    (sys_fstat : Except Int Bool) (io : SupIO) (hinv : b.Inv) :
    ∃ b1 io1, b.fill from_fd sys_read sys_fstat io = .ok (b1, io1) ∧ b1.head = b.head
      ∧ io1.trace = io.trace ++
          (if from_fd ≥ 0 ∧ b.input_closed = false ∧ b.tail ≠ 8192 then
            [SupCall.read from_fd (8192 - b.tail) (sys_read (8192 - b.tail))] else []) := by
  obtain ⟨h1, h2, h3⟩ := hinv
  unfold buffer.fill
  by_cases hc : from_fd ≥ 0 ∧ ¬ b.input_closed = true ∧ b.tail ≠ SIZEOF_BUF
  · have hc2 : from_fd ≥ 0 ∧ b.input_closed = false ∧ b.tail ≠ 8192 :=
      ⟨hc.1, by simpa using hc.2.1, hc.2.2⟩
    rw [if_pos hc, if_neg (by omega), if_pos hc2]
    have h8 : SIZEOF_BUF = 8192 := rfl
    simp only [h8]
    cases hw : sys_read (8192 - b.tail) with
    | bytes data =>
      simp only
      split
      · exact ⟨_, _, rfl, rfl, rfl⟩
      · split
        · split <;> exact ⟨_, _, rfl, rfl, rfl⟩
        · exact ⟨_, _, rfl, rfl, rfl⟩
    | error e =>
      simp only
      split <;> exact ⟨_, _, rfl, rfl, rfl⟩
  · have hc2 : ¬ (from_fd ≥ 0 ∧ b.input_closed = false ∧ b.tail ≠ 8192) := by
      intro h
      exact hc ⟨h.1, by simp [h.2.1], h.2.2⟩
    rw [if_neg hc, if_neg hc2]
    exact ⟨b, io, rfl, rfl, by simp⟩

/-- The function `transfer_out` leaves `buf` and `tail` as they are and issues one `write` of
the bytes `buf[head..tail)`, when the descriptor is valid, the output is open and there are
bytes; `head` moves on by the number of bytes written. -/
theorem transfer_out_calls (b : buffer) (to_fd : Int) (sys_write : Str → WriteAnswer)
    (io : SupIO) (hinv : b.Inv)
    (hb : ∀ offered nw, sys_write offered = .wrote nw → nw ≤ offered.length) :
    ∃ b1 io1, b.transfer_out to_fd sys_write io = .ok (b1, io1)
      ∧ b1.buf = b.buf ∧ b1.tail = b.tail
      ∧ io1.trace = io.trace ++
          (if to_fd ≥ 0 ∧ b.output_closed = false ∧ b.head ≠ b.tail then
            [SupCall.write to_fd b.pending (sys_write b.pending)] else [])
      ∧ b1.head = b.head + (stream_out
          (if to_fd ≥ 0 ∧ b.output_closed = false ∧ b.head ≠ b.tail then
            [SupCall.write to_fd b.pending (sys_write b.pending)] else [])).length := by
  obtain ⟨h1, h2, h3⟩ := hinv
  have hplen : b.pending.length = b.tail - b.head := by
    unfold buffer.pending
    rw [List.length_take, List.length_drop]
    omega
  unfold buffer.transfer_out
  by_cases hc : to_fd ≥ 0 ∧ ¬ b.output_closed = true ∧ b.head ≠ b.tail
  · have hc2 : to_fd ≥ 0 ∧ b.output_closed = false ∧ b.head ≠ b.tail :=
      ⟨hc.1, by simpa using hc.2.1, hc.2.2⟩
    rw [if_pos hc, if_neg (by omega), if_pos hc2]
    simp only
    cases hw : sys_write b.pending with
    | wrote nw =>
      have hle := hb _ _ hw
      rw [hplen] at hle
      simp only
      split
      · have hmod : (b.head + nw) % 2 ^ 64 = b.head + nw := by
          apply Nat.mod_eq_of_lt
          unfold SIZEOF_BUF at h2
          omega
        refine ⟨_, _, rfl, rfl, rfl, rfl, ?_⟩
        simp only [hmod, stream_out, bytes_out, List.map_cons, List.map_nil,
          List.flatten_cons, List.flatten_nil, List.append_nil, List.length_take, hplen]
        omega
      · rename_i hz
        have hz0 : nw = 0 := by omega
        subst hz0
        split <;> exact ⟨_, _, rfl, rfl, rfl, rfl, by simp [stream_out, bytes_out]⟩
    | error e =>
      simp only
      split <;> exact ⟨_, _, rfl, rfl, rfl, rfl, by simp [stream_out, bytes_out]⟩
  · have hc2 : ¬ (to_fd ≥ 0 ∧ b.output_closed = false ∧ b.head ≠ b.tail) := by
      intro h
      exact hc ⟨h.1, by simp [h.2.1], h.2.2⟩
    rw [if_neg hc, if_neg hc2]
    exact ⟨b, io, rfl, rfl, rfl, by simp, by simp [stream_out]⟩


/-- Claim C26.  The buffer that the constructor makes satisfies `head ≤ tail ≤ 8192`, with
`head = tail = 0`.  Let a buffer `b` satisfy `head ≤ tail ≤ 8192`.  The first statement of
`transfer_in` compacts exactly when `tail = 8192` and `head ≠ 0`: then `head` becomes 0, `tail`
becomes `tail - head`, and the bytes that were `buf[head..tail)` stand at the offset 0 of
`buf`; otherwise the buffer is left as it is; in both cases `head ≤ tail ≤ 8192` holds after
it and the bytes `buf[head..tail)` are the same.  A call of `transfer_in` whose `read` returns
at most the count asked for runs without reaching outside `buf`, keeps `head ≤ tail ≤ 8192`,
leaves `head` where compaction put it, issues exactly one `read`, for the room behind the
compacted `tail`, when the descriptor is valid, the input open and there is room, and no call
otherwise, and appends the bytes read to `buf[head..tail)`.  A call of `transfer_out` whose
`write` returns at most the number of bytes offered runs without reaching outside `buf`, keeps
`head ≤ tail ≤ 8192`, leaves `buf` and `tail` as they are, issues exactly one `write`, of the
bytes `buf[head..tail)`, when the descriptor is valid, the output open and there are bytes,
and no call otherwise, and moves `head` on by the number of bytes written, which leave the
front of `buf[head..tail)`.  And every sequence of such calls runs without reaching outside
`buf`, keeps `head ≤ tail ≤ 8192`, and the bytes written out followed by the bytes left in
`buf[head..tail)` are the bytes that were there at the start followed by the bytes read in;
so from an empty buffer on the bytes written out are a prefix of the bytes read in. -/
theorem buffer_invariant_and_stream (ts : List Transfer) (b : buffer) (io : SupIO)
    (hinv : b.Inv) (hb : ∀ t ∈ ts, t.Bounded) :
    (∀ garbage : Str, garbage.length = 8192 →
      (buffer.new garbage).Inv ∧ (buffer.new garbage).head = 0 ∧ (buffer.new garbage).tail = 0)
    ∧ (∃ c, b.compact = .ok c ∧ c.Inv ∧ c.pending = b.pending
        ∧ (b.tail = 8192 ∧ b.head ≠ 0 →
            c.head = 0 ∧ c.tail = b.tail - b.head ∧ c.buf.take (b.tail - b.head) = b.pending)
        ∧ (¬ (b.tail = 8192 ∧ b.head ≠ 0) → c = b)
        ∧ ∀ (from_fd : Int) (sys_read : Nat → ReadAnswer) (sys_fstat : Except Int Bool),
            (Transfer.transfer_in from_fd sys_read sys_fstat).Bounded →
            ∃ b1 io1, b.transfer_in from_fd sys_read sys_fstat io = .ok (b1, io1)
              ∧ b1.Inv ∧ b1.head = c.head
              ∧ io1.trace = io.trace ++
                  (if from_fd ≥ 0 ∧ c.input_closed = false ∧ c.tail ≠ 8192 then
                    [SupCall.read from_fd (8192 - c.tail) (sys_read (8192 - c.tail))] else [])
              ∧ b1.pending = b.pending ++ stream_in
                  (if from_fd ≥ 0 ∧ c.input_closed = false ∧ c.tail ≠ 8192 then
                    [SupCall.read from_fd (8192 - c.tail) (sys_read (8192 - c.tail))] else []))
    ∧ (∀ (to_fd : Int) (sys_write : Str → WriteAnswer),
        (Transfer.transfer_out to_fd sys_write).Bounded →
        ∃ b1 io1, b.transfer_out to_fd sys_write io = .ok (b1, io1)
          ∧ b1.Inv ∧ b1.buf = b.buf ∧ b1.tail = b.tail
          ∧ io1.trace = io.trace ++
              (if to_fd ≥ 0 ∧ b.output_closed = false ∧ b.head ≠ b.tail then
                [SupCall.write to_fd b.pending (sys_write b.pending)] else [])
          ∧ b1.head = b.head + (stream_out
              (if to_fd ≥ 0 ∧ b.output_closed = false ∧ b.head ≠ b.tail then
                [SupCall.write to_fd b.pending (sys_write b.pending)] else [])).length
          ∧ b.pending = stream_out
              (if to_fd ≥ 0 ∧ b.output_closed = false ∧ b.head ≠ b.tail then
                [SupCall.write to_fd b.pending (sys_write b.pending)] else []) ++ b1.pending)
    ∧ ∃ b1 io1 calls, buffer.transfers ts b io = .ok (b1, io1)
      ∧ b1.head ≤ b1.tail ∧ b1.tail ≤ 8192 ∧ b1.Inv
      ∧ io1.trace = io.trace ++ calls
      ∧ stream_out calls ++ b1.pending = b.pending ++ stream_in calls
      ∧ (b.head = b.tail → stream_out calls <+: stream_in calls) := by
  refine ⟨fun garbage hg => ⟨⟨Nat.le_refl _, Nat.zero_le _, hg⟩, rfl, rfl⟩, ?_, ?_, ?_⟩
  · obtain ⟨c, h1, h2, h3, -⟩ := compact_spec b hinv
    obtain ⟨c2, m1, m2, m3⟩ := compact_moves b hinv
    have hcc : c2 = c := by
      rw [h1] at m1
      exact (Except.ok.inj m1).symm
    subst hcc
    refine ⟨c2, h1, h2, h3, m2, m3, ?_⟩
    intro from_fd sys_read sys_fstat hbd
    obtain ⟨b1, io1, calls, t1, t2, t3, t4, -⟩ :=
      transfer_in_spec b from_fd sys_read sys_fstat io hinv hbd
    obtain ⟨b2, io2, f1, f2, f3⟩ := fill_calls c2 from_fd sys_read sys_fstat io h2
    have hrun : b.transfer_in from_fd sys_read sys_fstat io = .ok (b2, io2) := by
      unfold buffer.transfer_in
      rw [h1]
      exact f1
    rw [hrun] at t1
    have hpair := Except.ok.inj t1
    have hb12 : b2 = b1 := congrArg Prod.fst hpair
    have hio12 : io2 = io1 := congrArg Prod.snd hpair
    subst hb12
    subst hio12
    have hcalls := List.append_cancel_left (t3.symm.trans f3)
    subst hcalls
    exact ⟨b2, io2, hrun, t2, f2, f3, t4⟩
  · intro to_fd sys_write hbd
    obtain ⟨b1, io1, calls, t1, t2, t3, t4, -⟩ :=
      transfer_out_spec b to_fd sys_write io hinv hbd
    obtain ⟨b2, io2, f1, f2, f3, f4, f5⟩ := transfer_out_calls b to_fd sys_write io hinv hbd
    rw [f1] at t1
    have hpair := Except.ok.inj t1
    have hb12 : b2 = b1 := congrArg Prod.fst hpair
    have hio12 : io2 = io1 := congrArg Prod.snd hpair
    subst hb12
    subst hio12
    have hcalls := List.append_cancel_left (t3.symm.trans f4)
    subst hcalls
    exact ⟨b2, io2, f1, t2, f2, f3, f4, f5, t4⟩
  · have key : ∀ (ts : List Transfer) (b : buffer) (io : SupIO), b.Inv →
        (∀ t ∈ ts, t.Bounded) →
        ∃ b1 io1 calls, buffer.transfers ts b io = .ok (b1, io1) ∧ b1.Inv
          ∧ io1.trace = io.trace ++ calls
          ∧ stream_out calls ++ b1.pending = b.pending ++ stream_in calls := by
      intro ts
      induction ts with
      | nil =>
        intro b io hinv _
        exact ⟨b, io, [], rfl, hinv, by simp, by simp [stream_out, stream_in]⟩
      | cons t rest ih =>
        intro b io hinv hb
        have hrest : ∀ t ∈ rest, t.Bounded := fun t ht => hb t (List.mem_cons_of_mem _ ht)
        have ht := hb t (List.mem_cons_self _ _)
        cases t with
        | transfer_in from_fd sys_read sys_fstat =>
          obtain ⟨b1, io1, calls1, h1, h2, h3, h4, h5, -⟩ :=
            transfer_in_spec b from_fd sys_read sys_fstat io hinv ht
          obtain ⟨b2, io2, calls2, k1, k2, k3, k4⟩ := ih b1 io1 h2 hrest
          refine ⟨b2, io2, calls1 ++ calls2, ?_, k2, ?_, ?_⟩
          · simp only [buffer.transfers, h1]
            exact k1
          · rw [k3, h3, List.append_assoc]
          · have e1 : stream_out (calls1 ++ calls2) = stream_out calls1 ++ stream_out calls2 := by
              simp [stream_out]
            have e2 : stream_in (calls1 ++ calls2) = stream_in calls1 ++ stream_in calls2 := by
              simp [stream_in]
            rw [e1, e2, h5, List.nil_append, k4, h4, List.append_assoc]
        | transfer_out to_fd sys_write =>
          obtain ⟨b1, io1, calls1, h1, h2, h3, h4, h5, -⟩ :=
            transfer_out_spec b to_fd sys_write io hinv ht
          obtain ⟨b2, io2, calls2, k1, k2, k3, k4⟩ := ih b1 io1 h2 hrest
          refine ⟨b2, io2, calls1 ++ calls2, ?_, k2, ?_, ?_⟩
          · simp only [buffer.transfers, h1]
            exact k1
          · rw [k3, h3, List.append_assoc]
          · have e1 : stream_out (calls1 ++ calls2) = stream_out calls1 ++ stream_out calls2 := by
              simp [stream_out]
            have e2 : stream_in (calls1 ++ calls2) = stream_in calls1 ++ stream_in calls2 := by
              simp [stream_in]
            rw [e1, e2, h5, List.nil_append, List.append_assoc, k4, h4, List.append_assoc]
    obtain ⟨b1, io1, calls, h1, h2, h3, h4⟩ := key ts b io hinv hb
    refine ⟨b1, io1, calls, h1, h2.1, h2.2.1, h2, h3, h4, ?_⟩
    intro he
    have hp : b.pending = [] := by
      unfold buffer.pending
      rw [he, Nat.sub_self, List.take_zero]
    rw [hp, List.nil_append] at h4
    exact ⟨b1.pending, h4⟩


theorem fresh_buffer_inv : fresh_buffer.Inv := by
  refine ⟨Nat.le_refl _, Nat.zero_le _, ?_⟩
  exact List.length_replicate _ _

theorem demo_transfers_bounded : ∀ t ∈ demo_transfers, t.Bounded := by
  intro t ht
  simp only [demo_transfers, List.mem_cons, List.mem_singleton, List.not_mem_nil,
    or_false] at ht
  rcases ht with h | h | h | h <;> subst h
  · intro count data h
    simp only [ReadAnswer.bytes.injEq] at h
    rw [← h, List.length_take]
    exact Nat.min_le_left _ _
  · intro offered nw h
    simp only [WriteAnswer.wrote.injEq] at h
    rw [← h]
    exact Nat.min_le_right _ _
  · intro count data h
    simp only [ReadAnswer.bytes.injEq] at h
    rw [← h, List.length_take]
    exact Nat.min_le_left _ _
  · intro offered nw h
    simp only [WriteAnswer.wrote.injEq] at h
    rw [← h]

theorem full_buffer_inv : full_buffer.Inv := by
  refine ⟨by decide, by decide, ?_⟩
  show (List.replicate 8187 '\x00' ++ "hello".toList).length = 8192
  rw [List.length_append, List.length_replicate]
  rfl

/-- Claim C26, exercised on a buffer whose bytes reach the end of `buf` and the calls
`demo_transfers`. -/
theorem buffer_invariant_and_stream_witness :
    full_buffer.Inv ∧ (∀ t ∈ demo_transfers, t.Bounded)
    ∧ (∀ garbage : Str, garbage.length = 8192 →
      (buffer.new garbage).Inv ∧ (buffer.new garbage).head = 0 ∧ (buffer.new garbage).tail = 0)
    ∧ (∃ c, full_buffer.compact = .ok c ∧ c.Inv ∧ c.pending = full_buffer.pending
        ∧ (full_buffer.tail = 8192 ∧ full_buffer.head ≠ 0 →
            c.head = 0 ∧ c.tail = full_buffer.tail - full_buffer.head
              ∧ c.buf.take (full_buffer.tail - full_buffer.head) = full_buffer.pending)
        ∧ (¬ (full_buffer.tail = 8192 ∧ full_buffer.head ≠ 0) → c = full_buffer)
        ∧ ∀ (from_fd : Int) (sys_read : Nat → ReadAnswer) (sys_fstat : Except Int Bool),
            (Transfer.transfer_in from_fd sys_read sys_fstat).Bounded →
            ∃ b1 io1, full_buffer.transfer_in from_fd sys_read sys_fstat ⟨0, []⟩ = .ok (b1, io1)
              ∧ b1.Inv ∧ b1.head = c.head
              ∧ io1.trace = (⟨0, []⟩ : SupIO).trace ++
                  (if from_fd ≥ 0 ∧ c.input_closed = false ∧ c.tail ≠ 8192 then
                    [SupCall.read from_fd (8192 - c.tail) (sys_read (8192 - c.tail))] else [])
              ∧ b1.pending = full_buffer.pending ++ stream_in
                  (if from_fd ≥ 0 ∧ c.input_closed = false ∧ c.tail ≠ 8192 then
                    [SupCall.read from_fd (8192 - c.tail) (sys_read (8192 - c.tail))] else []))
    ∧ (∀ (to_fd : Int) (sys_write : Str → WriteAnswer),
        (Transfer.transfer_out to_fd sys_write).Bounded →
        ∃ b1 io1, full_buffer.transfer_out to_fd sys_write ⟨0, []⟩ = .ok (b1, io1)
          ∧ b1.Inv ∧ b1.buf = full_buffer.buf ∧ b1.tail = full_buffer.tail
          ∧ io1.trace = (⟨0, []⟩ : SupIO).trace ++
              (if to_fd ≥ 0 ∧ full_buffer.output_closed = false
                  ∧ full_buffer.head ≠ full_buffer.tail then
                [SupCall.write to_fd full_buffer.pending (sys_write full_buffer.pending)]
              else [])
          ∧ b1.head = full_buffer.head + (stream_out
              (if to_fd ≥ 0 ∧ full_buffer.output_closed = false
                  ∧ full_buffer.head ≠ full_buffer.tail then
                [SupCall.write to_fd full_buffer.pending (sys_write full_buffer.pending)]
              else [])).length
          ∧ full_buffer.pending = stream_out
              (if to_fd ≥ 0 ∧ full_buffer.output_closed = false
                  ∧ full_buffer.head ≠ full_buffer.tail then
                [SupCall.write to_fd full_buffer.pending (sys_write full_buffer.pending)]
              else []) ++ b1.pending)
    ∧ ∃ b1 io1 calls, buffer.transfers demo_transfers full_buffer ⟨0, []⟩ = .ok (b1, io1)
      ∧ b1.head ≤ b1.tail ∧ b1.tail ≤ 8192 ∧ b1.Inv
      ∧ io1.trace = (⟨0, []⟩ : SupIO).trace ++ calls
      ∧ stream_out calls ++ b1.pending = full_buffer.pending ++ stream_in calls
      ∧ (full_buffer.head = full_buffer.tail → stream_out calls <+: stream_in calls) :=
  ⟨full_buffer_inv, demo_transfers_bounded,
   buffer_invariant_and_stream demo_transfers full_buffer ⟨0, []⟩ full_buffer_inv
     demo_transfers_bounded⟩

theorem full_buffer_pending : full_buffer.pending = "hello".toList := by
  show ((List.replicate 8187 '\x00' ++ "hello".toList).drop 8187).take (8192 - 8187)
    = "hello".toList
  rw [List.drop_left' (List.length_replicate _ _)]
  rfl

/-- The call `transfer_in` on `full_buffer`: the bytes `hello` move from the offset 8187 to
the offset 0, `read` is asked for the 8187 bytes of room behind them, and the bytes that it
delivers follow them. -/
theorem full_buffer_transfer_in_run :
    ∃ b1 io1, full_buffer.transfer_in 0 (fun count => .bytes (", world".toList.take count))
        (.ok false) ⟨0, []⟩ = .ok (b1, io1)
      ∧ b1.head = 0 ∧ b1.tail = 12 ∧ b1.buf.take 12 = "hello, world".toList
      ∧ io1.trace = [SupCall.read 0 8187 (.bytes ", world".toList)] := by
  obtain ⟨c, c1, c2, -⟩ := compact_moves full_buffer full_buffer_inv
  obtain ⟨d, d1, d2, d3, d4, -⟩ := compact_spec full_buffer full_buffer_inv
  have hcd : d = c := by
    rw [c1] at d1
    exact (Except.ok.inj d1).symm
  subst hcd
  obtain ⟨e1, e2, -⟩ := c2 ⟨rfl, by decide⟩
  have e3 : d.tail = 5 := e2
  have e4 : d.input_closed = false := d4
  obtain ⟨b1, io1, f1, f2, f3⟩ := fill_calls d 0
    (fun count => .bytes (", world".toList.take count)) (.ok false) ⟨0, []⟩ d2
  obtain ⟨b2, io2, calls, t1, t2, t3, t4, -⟩ := transfer_in_spec full_buffer 0
    (fun count => .bytes (", world".toList.take count)) (.ok false) ⟨0, []⟩ full_buffer_inv
    (by
      intro count data h
      simp only [ReadAnswer.bytes.injEq] at h
      rw [← h, List.length_take]
      exact Nat.min_le_left _ _)
  have hrun : full_buffer.transfer_in 0 (fun count => .bytes (", world".toList.take count))
      (.ok false) ⟨0, []⟩ = .ok (b1, io1) := by
    unfold buffer.transfer_in
    rw [c1]
    exact f1
  rw [hrun] at t1
  have hpair := Except.ok.inj t1
  have hb12 : b1 = b2 := congrArg Prod.fst hpair
  have hio12 : io1 = io2 := congrArg Prod.snd hpair
  subst hb12
  subst hio12
  rw [e3, e4] at f3
  have htrace : io1.trace = [SupCall.read 0 8187 (.bytes ", world".toList)] := by
    rw [f3]
    decide
  have hcalls : calls = [SupCall.read 0 8187 (.bytes ", world".toList)] := by
    rw [htrace] at t3
    exact (List.nil_append _ ▸ t3).symm
  have hpend : b1.pending = "hello, world".toList := by
    rw [t4, full_buffer_pending, hcalls]
    decide
  have hhead : b1.head = 0 := f2.trans e1
  have hlen : b1.pending.length = 12 := by rw [hpend]; rfl
  have htail : b1.tail = 12 := by
    obtain ⟨i1, i2, i3⟩ := t2
    unfold buffer.pending at hlen
    rw [hhead, List.length_take, List.length_drop, i3] at hlen
    unfold SIZEOF_BUF at hlen i2
    omega
  refine ⟨b1, io1, hrun, hhead, htail, ?_, htrace⟩
  rw [← hpend]
  unfold buffer.pending
  rw [hhead, htail]
  rfl

set_option maxRecDepth 100000 in
/-- The run of `demo_transfers` on a fresh buffer, evaluated: twelve bytes are read in, and
twelve written out. -/
theorem demo_transfers_run :
    (buffer.transfers demo_transfers fresh_buffer ⟨0, []⟩).toOption.map
        (fun r => (r.1.head, r.1.tail, stream_in r.2.trace, stream_out r.2.trace))
      = some (12, 12, "hello, world".toList, "hello, world".toList) := by
  decide


/-! ## Claim C24: the escape sequence in the input -/

/-- Where the needle occurs, `strstr` finds an occurrence. -/
theorem strstr_of_infix (needle hay : Str) (h : needle <:+: hay) : strstr needle hay ≠ none := by
  obtain ⟨s, t, hst⟩ := h
  induction s generalizing hay with
  | nil =>
    have hp : needle <+: hay := ⟨t, by simpa using hst⟩
    cases hay with
    | nil =>
      have : needle = [] := List.eq_nil_of_prefix_nil hp
      simp [strstr, this]
    | cons c rest =>
      simp only [strstr]
      rw [if_pos (List.isPrefixOf_iff_prefix.mpr hp)]
      simp
  | cons d s ih =>
    cases hay with
    | nil => simp at hst
    | cons c rest =>
      simp only [List.cons_append, List.cons.injEq] at hst
      have := ih rest hst.2
      simp only [strstr]
      split
      · simp
      · cases hr : strstr needle rest with
        | none => exact absurd hr this
        | some i => simp

/-- The function `block` changes nothing but `errno`. -/
theorem block_keeps (r : Round) (s : Supervisor) :
    (block r s).to_slave = s.to_slave ∧ (block r s).from_slave = s.from_slave
      ∧ (block r s).inputfd = s.inputfd ∧ (block r s).timeout = s.timeout
      ∧ (block r s).io.trace = s.io.trace ∧ (block r s).stdout = s.stdout
      ∧ (block r s).stderr = s.stderr := by
  unfold block
  split <;> simp

/-- The calls that `transfer_in` issues are calls of `read` on its descriptor. -/
theorem transfer_in_trace (b : buffer) (from_fd : Int) (sys_read : Nat → ReadAnswer)
    (sys_fstat : Except Int Bool) (io : SupIO) (b1 : buffer) (io1 : SupIO)
    (h : b.transfer_in from_fd sys_read sys_fstat io = .ok (b1, io1)) :
    ∃ calls, io1.trace = io.trace ++ calls
      ∧ ∀ c ∈ calls, ∃ count answer, c = SupCall.read from_fd count answer := by
  unfold buffer.transfer_in at h
  split at h
  · simp at h
  · rename_i c _
    unfold buffer.fill at h
    have one : ∀ count answer, ∀ x ∈ [SupCall.read from_fd count answer],
        ∃ count answer, x = SupCall.read from_fd count answer := by
      intro count answer x hx
      simp only [List.mem_singleton] at hx
      exact ⟨count, answer, hx⟩
    split at h
    · split at h
      · simp at h
      · simp only at h
        split at h
        · split at h
          · simp only [Except.ok.injEq, Prod.mk.injEq] at h
            exact ⟨_, by rw [← h.2], one _ _⟩
          · split at h
            · split at h
              · simp only [Except.ok.injEq, Prod.mk.injEq] at h
                exact ⟨_, by rw [← h.2], one _ _⟩
              · simp only [Except.ok.injEq, Prod.mk.injEq] at h
                exact ⟨_, by rw [← h.2], one _ _⟩
              · simp only [Except.ok.injEq, Prod.mk.injEq] at h
                exact ⟨_, by rw [← h.2], one _ _⟩
            · simp only [Except.ok.injEq, Prod.mk.injEq] at h
              exact ⟨_, by rw [← h.2], one _ _⟩
        · split at h
          · simp only [Except.ok.injEq, Prod.mk.injEq] at h
            exact ⟨_, by rw [← h.2], one _ _⟩
          · simp only [Except.ok.injEq, Prod.mk.injEq] at h
            exact ⟨_, by rw [← h.2], one _ _⟩
    · simp only [Except.ok.injEq, Prod.mk.injEq] at h
      exact ⟨[], by rw [← h.2]; simp, by simp⟩

/-- Claim C24.  In a round of the loop of `handle_child`, let `transfer_in` have read the
input into the buffer `to_slave`.  If the bytes `buf[head..tail)` then contain the two
consecutive bytes `0x1B 0x03`, the round ends the process with the status
`128 + SIGTERM = 143`; `transfer_out` has not run: the calls issued in the round are calls of
`read` on the input, none is a `write`, so none of the bytes in the buffer went to the pty. -/
theorem escape_sequence_ends_round (quiet : Bool) (ptymaster : Int) (r : Round)
    (s : Supervisor) (b : buffer) (io1 : SupIO) (hinv : s.to_slave.Inv)
    (hb : ∀ count data, r.input_read count = .bytes data → data.length ≤ count)
    (hin : s.to_slave.transfer_in s.inputfd r.input_read r.input_fstat (block r s).io
      = .ok (b, io1))
    (hesc : escape_sequence <:+: b.pending) :
    (128 + SIGTERM).toNat = 143
    ∧ ∃ final, handle_child_round quiet ptymaster r s = .exit 143 final
      ∧ final.to_slave = b ∧ final.from_slave = s.from_slave
      ∧ ∃ calls, final.io.trace = s.io.trace ++ calls
        ∧ (∀ c ∈ calls, ∃ count answer, c = SupCall.read s.inputfd count answer)
        ∧ ∀ c ∈ calls, ∀ fd offered answer, c ≠ SupCall.write fd offered answer := by
  refine ⟨by decide, ?_⟩
  obtain ⟨k1, k2, k3, k4, k5, k6, k7⟩ := block_keeps r s
  obtain ⟨b1, io2, calls0, h1, h2, -⟩ :=
    transfer_in_spec s.to_slave s.inputfd r.input_read r.input_fstat (block r s).io hinv hb
  rw [hin] at h1
  simp only [Except.ok.injEq, Prod.mk.injEq] at h1
  obtain ⟨hb1, -⟩ := h1
  subst hb1
  obtain ⟨calls, hc1, hc2⟩ := transfer_in_trace _ _ _ _ _ _ _ hin
  have hfound := strstr_of_infix _ _ hesc
  have hne : b.head ≠ b.tail := by
    intro he
    have hp : b.pending = [] := by
      unfold buffer.pending
      rw [he, Nat.sub_self, List.take_zero]
    rw [hp] at hesc
    have := List.eq_nil_of_infix_nil hesc
    simp [escape_sequence] at this
  have hnofault : ¬ (b.head ≠ b.tail ∧ (b.head > b.tail ∨ b.tail > SIZEOF_BUF)) := by
    obtain ⟨i1, i2, -⟩ := h2
    omega
  unfold handle_child_round
  simp only [k1, k3, hin]
  rw [if_neg hnofault, if_pos ⟨hne, hfound⟩]
  unfold exec_done
  have h143 : (128 + SIGTERM).toNat = 143 := by decide
  rw [h143]
  refine ⟨_, rfl, ?_, ?_, calls, ?_, hc2, ?_⟩
  · split <;> split <;> rfl
  · split <;> split <;> simp [k2]
  · split <;> split <;> simp [hc1, k5]
  · intro c hc fd offered answer heq
    obtain ⟨count, ans, hr⟩ := hc2 c hc
    rw [hr] at heq
    cases heq


/-! ## Claim C25: the order of the checks in `check_child_timeout` -/

/-- The loop of `x_waitpid` calls `waitpid` again as long as it fails with `EINTR`. -/
theorem x_waitpid_retries (k : Nat) (answers : List WaitAnswer) (errno : Int) :
    x_waitpid (List.replicate k (.error EINTR) ++ answers) errno
      = x_waitpid answers (if k = 0 then errno else EINTR) := by
  induction k generalizing errno with
  | zero => simp
  | succ k ih =>
    rw [List.replicate_succ, List.cons_append]
    simp only [x_waitpid, ne_eq, not_true_eq_false, if_false]
    rw [ih]
    simp

/-- For times with `0 ≤ tv_usec < 1000000`, `timercmp(a, b, >)` holds exactly when `a` is
later than `b`. -/
theorem timercmp_gt_iff (a b : timeval) (ha : a.Normal) (hb : b.Normal) :
    timercmp_gt a b = true ↔ a.micros > b.micros := by
  unfold timercmp_gt timeval.micros
  obtain ⟨a1, a2⟩ := ha
  obtain ⟨b1, b2⟩ := hb
  split
  · rename_i h
    rw [h]
    simp only [decide_eq_true_eq]
    omega
  · simp only [decide_eq_true_eq]
    omega

/-- Claim C25.  Let `waitpid` answer `EINTR` any number of times and then `a`.  Then
`check_child_timeout` returns a value `r`, found in this order.  When the argument `waitpid`
is set (the pty read side is closed): the exit status of the child if it exited, `128 + N` if
the signal `N` ended it, and 125 if `waitpid` failed with another `errno` than `EAGAIN`.
Otherwise, so when `waitpid` was not called or the child still runs: `128 + SIGTERM` if
`got_sigterm` is set; else 124 if a deadline is set and the time of `gettimeofday` is later
than the deadline; else `-1`, with `errno` set to `EAGAIN`, which is also the result when the
time is exactly the deadline.  What the child has written plays no part. -/
theorem check_child_timeout_priority (timeout : timeval) (waitpid : Bool) (k : Nat)
    (a : WaitAnswer) (rest : List WaitAnswer) (got_sigterm : Bool)
    (gettimeofday : Option timeval) (errno : Int)
    (ha : a ≠ .error EINTR) (hnt : timeout.Normal)
    (hnn : ∀ now, gettimeofday = some now → now.Normal) :
    ∃ r e, check_child_timeout timeout waitpid (List.replicate k (.error EINTR) ++ a :: rest)
        got_sigterm gettimeofday errno = .ok (r, e)
      ∧ (waitpid = true → ∀ status, a = .exited status → r = status)
      ∧ (waitpid = true → ∀ sig, a = .signaled sig → r = 128 + sig)
      ∧ (waitpid = true → ∀ e1, a = .error e1 → e1 ≠ EAGAIN → r = 125)
      ∧ ((waitpid = false ∨ a = .running ∨ a = .error EAGAIN) →
          (got_sigterm = true → r = 128 + SIGTERM)
          ∧ (got_sigterm = false → timerisset timeout = true →
              ∀ now, gettimeofday = some now → now.micros > timeout.micros → r = 124)
          ∧ (got_sigterm = false →
              (timerisset timeout = false ∨ gettimeofday = none
                ∨ ∃ now, gettimeofday = some now ∧ now.micros ≤ timeout.micros) →
              r = -1 ∧ e = EAGAIN)) := by
  -- the three checks behind `waitpid`
  have later : ∀ errno1 : Int, ∃ r e,
      (if got_sigterm = true then (Except.ok (128 + SIGTERM, errno1) : Except Fault (Int × Int))
        else if (timerisset timeout
            && (match gettimeofday with
                | some now => timercmp_gt now timeout
                | none => false)) = true then
          .ok (124, errno1)
        else .ok (-1, EAGAIN)) = .ok (r, e)
      ∧ (got_sigterm = true → r = 128 + SIGTERM)
      ∧ (got_sigterm = false → timerisset timeout = true →
          ∀ now, gettimeofday = some now → now.micros > timeout.micros → r = 124)
      ∧ (got_sigterm = false →
          (timerisset timeout = false ∨ gettimeofday = none
            ∨ ∃ now, gettimeofday = some now ∧ now.micros ≤ timeout.micros) →
          r = -1 ∧ e = EAGAIN) := by
    intro errno1
    cases got_sigterm with
    | true => exact ⟨_, _, rfl, fun _ => rfl, by simp, by simp⟩
    | false =>
      simp only [Bool.false_eq_true, if_false]
      cases hg : gettimeofday with
      | none =>
        simp only [Bool.and_false, Bool.false_eq_true, if_false]
        exact ⟨_, _, rfl, by simp, by simp, by simp⟩
      | some now =>
        have hcmp := timercmp_gt_iff now timeout (hnn now hg) hnt
        by_cases hlate : now.micros > timeout.micros
        · have hc := hcmp.2 hlate
          cases hset : timerisset timeout with
          | true =>
            simp only [hc, Bool.and_self, if_true]
            refine ⟨_, _, rfl, by simp, by simp, ?_⟩
            intro _ h
            rcases h with h | h | ⟨now1, h1, h2⟩
            · simp at h
            · simp at h
            · simp only [Option.some.injEq] at h1
              subst h1
              omega
          | false =>
            simp only [Bool.false_and, Bool.false_eq_true, if_false]
            exact ⟨_, _, rfl, by simp, by simp, by simp⟩
        · have hc : timercmp_gt now timeout = false := by
            cases h : timercmp_gt now timeout with
            | false => rfl
            | true => exact absurd (hcmp.1 h) hlate
          simp only [hc, Bool.and_false, Bool.false_eq_true, if_false]
          refine ⟨_, _, rfl, by simp, ?_, by simp⟩
          intro _ _ now1 h1 h2
          simp only [Option.some.injEq] at h1
          subst h1
          exact absurd h2 hlate
  unfold check_child_timeout
  cases waitpid with
  | false =>
    simp only [Bool.false_eq_true, if_false]
    obtain ⟨r, e, h1, h2, h3, h4⟩ := later errno
    exact ⟨r, e, h1, by simp, by simp, by simp, fun _ => ⟨h2, h3, h4⟩⟩
  | true =>
    simp only [if_true]
    rw [x_waitpid_retries]
    generalize (if k = 0 then errno else EINTR) = errno0
    cases a with
    | exited status =>
      simp only [x_waitpid]
      have hne : (status : Int) ≠ -1 := by omega
      rw [if_pos hne]
      exact ⟨_, _, rfl, by simp, by simp, by simp, by simp⟩
    | signaled sig =>
      simp only [x_waitpid]
      have hne : (128 + (sig : Int)) ≠ -1 := by omega
      rw [if_pos hne]
      exact ⟨_, _, rfl, by simp, by simp, by simp, by simp⟩
    | running =>
      simp only [x_waitpid, ne_eq, not_true_eq_false, if_false]
      obtain ⟨r, e, h1, h2, h3, h4⟩ := later EAGAIN
      exact ⟨r, e, h1, by simp, by simp, by simp, fun _ => ⟨h2, h3, h4⟩⟩
    | error e1 =>
      have hne : e1 ≠ EINTR := fun h => ha (by rw [h])
      simp only [x_waitpid, ne_eq, hne, not_false_eq_true, if_true, not_true_eq_false,
        if_false]
      by_cases hag : e1 = EAGAIN
      · subst hag
        simp only [not_true_eq_false, if_false]
        obtain ⟨r, e, h1, h2, h3, h4⟩ := later EAGAIN
        exact ⟨r, e, h1, by simp, by simp, by simp, fun _ => ⟨h2, h3, h4⟩⟩
      · simp only [hag, not_false_eq_true, if_true]
        refine ⟨_, _, rfl, by simp, by simp, by simp, ?_⟩
        intro h
        rcases h with h | h | h
        · simp at h
        · simp at h
        · simp only [WaitAnswer.error.injEq] at h
          exact absurd h hag


set_option maxRecDepth 100000 in
/-- Claim C24, exercised on the round `escape_round`: the input delivers six bytes with the
escape sequence in their middle, and the round ends with the status 143 after the one call of
`read`, with the six bytes still in the buffer. -/
theorem escape_sequence_ends_round_witness :
    (handle_child_round false 5 escape_round sup_start).status = some 143
    ∧ (handle_child_round false 5 escape_round sup_start).final.map
        (fun final => (final.io.trace, final.to_slave.pending))
      = some ([SupCall.read 0 8192 (.bytes "ab\x1b\x03cd".toList)], "ab\x1b\x03cd".toList)
    ∧ ∃ b io1,
      sup_start.to_slave.transfer_in sup_start.inputfd escape_round.input_read
          escape_round.input_fstat (block escape_round sup_start).io = .ok (b, io1)
      ∧ escape_sequence <:+: b.pending
      ∧ (128 + SIGTERM).toNat = 143
      ∧ ∃ final, handle_child_round false 5 escape_round sup_start = .exit 143 final
        ∧ final.to_slave = b ∧ final.from_slave = sup_start.from_slave
        ∧ ∃ calls, final.io.trace = sup_start.io.trace ++ calls
          ∧ (∀ c ∈ calls, ∃ count answer, c = SupCall.read sup_start.inputfd count answer)
          ∧ ∀ c ∈ calls, ∀ fd offered answer, c ≠ SupCall.write fd offered answer := by
  have hb : ∀ count data, escape_round.input_read count = .bytes data → data.length ≤ count := by
    intro count data h
    simp only [escape_round, ReadAnswer.bytes.injEq] at h
    rw [← h, List.length_take]
    exact Nat.min_le_left _ _
  have hpend : (sup_start.to_slave.transfer_in sup_start.inputfd escape_round.input_read
      escape_round.input_fstat (block escape_round sup_start).io).toOption.map
        (fun res => res.1.pending) = some "ab\x1b\x03cd".toList := by
    decide
  obtain ⟨b, io1, calls, hin, -⟩ := transfer_in_spec sup_start.to_slave sup_start.inputfd
    escape_round.input_read escape_round.input_fstat (block escape_round sup_start).io
    fresh_buffer_inv hb
  have hesc : escape_sequence <:+: b.pending := by
    rw [hin] at hpend
    simp only [Except.toOption, Option.map_some', Option.some.injEq] at hpend
    rw [hpend]
    exact ⟨"ab".toList, "cd".toList, by decide⟩
  exact ⟨by decide, by decide, b, io1, hin, hesc,
    escape_sequence_ends_round false 5 escape_round sup_start b io1 fresh_buffer_inv hb hin hesc⟩


/-- Claim C25, exercised: the pty read side is closed, `waitpid` answers `EINTR` twice and
then that the child runs, no `SIGTERM` came, and the time is one microsecond past the
deadline of 100 seconds. -/
theorem check_child_timeout_priority_witness :
    check_child_timeout ⟨100, 0⟩ true [.error EINTR, .error EINTR, .running] false
        (some ⟨100, 1⟩) 0 = .ok (124, EAGAIN)
    ∧ check_child_timeout ⟨100, 0⟩ true [.error EINTR, .error EINTR, .running] false
        (some ⟨100, 0⟩) 0 = .ok (-1, EAGAIN)
    ∧ ∃ r e, check_child_timeout ⟨100, 0⟩ true
        (List.replicate 2 (.error EINTR) ++ WaitAnswer.running :: []) false (some ⟨100, 1⟩) 0
          = .ok (r, e)
      ∧ (true = true → ∀ status, WaitAnswer.running = .exited status → r = status)
      ∧ (true = true → ∀ sig, WaitAnswer.running = .signaled sig → r = 128 + sig)
      ∧ (true = true → ∀ e1, WaitAnswer.running = .error e1 → e1 ≠ EAGAIN → r = 125)
      ∧ ((true = false ∨ WaitAnswer.running = .running ∨ WaitAnswer.running = .error EAGAIN) →
          (false = true → r = 128 + SIGTERM)
          ∧ (false = false → timerisset ⟨100, 0⟩ = true →
              ∀ now, some (⟨100, 1⟩ : timeval) = some now →
                now.micros > (⟨100, 0⟩ : timeval).micros → r = 124)
          ∧ (false = false →
              (timerisset ⟨100, 0⟩ = false ∨ some (⟨100, 1⟩ : timeval) = none
                ∨ ∃ now, some (⟨100, 1⟩ : timeval) = some now
                  ∧ now.micros ≤ (⟨100, 0⟩ : timeval).micros) →
              r = -1 ∧ e = EAGAIN)) :=
  ⟨by decide, by decide,
   check_child_timeout_priority ⟨100, 0⟩ true 2 .running [] false (some ⟨100, 1⟩) 0
    (by decide) ⟨by decide, by decide⟩
    (by
      intro now h
      simp only [Option.some.injEq] at h
      rw [← h]
      exact ⟨by decide, by decide⟩)⟩

/-- Where `strstr` finds nothing, the needle does not occur. -/
theorem strstr_none_of_not_infix (needle hay : Str) (h : ¬ needle <:+: hay) :
    strstr needle hay = none := by
  cases hs : strstr needle hay with
  | none => rfl
  | some i =>
    exfalso
    apply h
    obtain ⟨t, ht⟩ := strstr_some needle hay i hs
    refine ⟨hay.take i, t, ?_⟩
    rw [List.append_assoc, ht, List.take_append_drop]

/-- A `read` that delivers bytes leaves the input of the buffer open. -/
theorem transfer_in_stays_open (b : buffer) (from_fd : Int) (sys_read : Nat → ReadAnswer)
    (sys_fstat : Except Int Bool) (io : SupIO) (b1 : buffer) (io1 : SupIO)
    (hopen : b.input_closed = false)
    (hlive : ∀ count, count ≠ 0 → ∃ data, sys_read count = .bytes data ∧ data ≠ [])
    (h : b.transfer_in from_fd sys_read sys_fstat io = .ok (b1, io1)) :
    b1.input_closed = false := by
  unfold buffer.transfer_in at h
  split at h
  · simp at h
  · rename_i c hc
    have hcopen : c.input_closed = false := by
      unfold buffer.compact at hc
      split at hc
      · split at hc
        · simp only [Except.ok.injEq] at hc
          rw [← hc]
          exact hopen
        · simp at hc
      · simp only [Except.ok.injEq] at hc
        rw [← hc]
        exact hopen
    unfold buffer.fill at h
    split at h
    · rename_i hcond
      split at h
      · simp at h
      · rename_i hle
        have hcount : SIZEOF_BUF - c.tail ≠ 0 := by
          have := hcond.2.2
          omega
        obtain ⟨data, hd, hne⟩ := hlive _ hcount
        simp only [hd] at h
        have hlen : data.length ≠ 0 := by
          cases data with
          | nil => exact absurd rfl hne
          | cons x xs => simp
        rw [if_pos hlen] at h
        simp only [Except.ok.injEq, Prod.mk.injEq] at h
        rw [← h.1]
        exact hcopen
    · simp only [Except.ok.injEq, Prod.mk.injEq] at h
      rw [← h.1]
      exact hcopen

/-- A round in which the child runs and writes to the pty, and in which the deadline has
passed, ends the process with the status 124, whatever the child writes: provided that the
input holds no escape sequence, no `SIGTERM` came, and `read` and `write` keep to what they
were asked. -/
theorem live_child_past_deadline (quiet : Bool) (ptymaster : Int) (r : Round)
    (s : Supervisor) (now : timeval)
    (hinv1 : s.to_slave.Inv) (hinv2 : s.from_slave.Inv)
    (hr1 : ∀ count data, r.input_read count = .bytes data → data.length ≤ count)
    (hw1 : ∀ offered nw, r.pty_write offered = .wrote nw → nw ≤ offered.length)
    (hr2 : ∀ count data, r.pty_read count = .bytes data → data.length ≤ count)
    (hw2 : ∀ offered nw, r.stdout_write offered = .wrote nw → nw ≤ offered.length)
    (hnoesc : ∀ b io1,
      s.to_slave.transfer_in s.inputfd r.input_read r.input_fstat (block r s).io = .ok (b, io1) →
      ¬ escape_sequence <:+: b.pending)
    (hopen : s.from_slave.input_closed = false)
    (hlive : ∀ count, count ≠ 0 → ∃ data, r.pty_read count = .bytes data ∧ data ≠ [])
    (hterm : r.got_sigterm = false) (hset : timerisset s.timeout = true)
    (hnow : r.gettimeofday = some now) (hn1 : now.Normal) (hn2 : s.timeout.Normal)
    (hlate : now.micros > s.timeout.micros) :
    ∃ final, handle_child_round quiet ptymaster r s = .exit 124 final := by
  obtain ⟨k1, k2, k3, k4, -⟩ := block_keeps r s
  obtain ⟨b1, io1, -, hin1, inv1, -⟩ :=
    transfer_in_spec s.to_slave s.inputfd r.input_read r.input_fstat (block r s).io hinv1 hr1
  have hnone := strstr_none_of_not_infix _ _ (hnoesc b1 io1 hin1)
  obtain ⟨b2, io2, -, hout1, -⟩ := transfer_out_spec b1 ptymaster r.pty_write io1 inv1 hw1
  obtain ⟨b3, io3, -, hin2, inv3, -⟩ :=
    transfer_in_spec s.from_slave ptymaster r.pty_read r.pty_fstat io2 hinv2 hr2
  have hopen3 := transfer_in_stays_open _ _ _ _ _ _ _ hopen hlive hin2
  obtain ⟨b4, io4, -, hout2, -, -, -, -, hopen4, -⟩ :=
    transfer_out_spec b3 STDOUT_FILENO r.stdout_write io3 inv3 hw2
  rw [hopen3] at hopen4
  have hcheck : check_child_timeout s.timeout false r.waitpid r.got_sigterm r.gettimeofday
      io4.errno = .ok (124, io4.errno) := by
    unfold check_child_timeout
    simp [hterm, hset, hnow, (timercmp_gt_iff now s.timeout hn1 hn2).2 hlate]
  have hnofault : ¬ (b1.head ≠ b1.tail ∧ (b1.head > b1.tail ∨ b1.tail > SIZEOF_BUF)) := by
    obtain ⟨i1, i2, -⟩ := inv1
    omega
  unfold handle_child_round
  simp only [k1, k2, k3, k4, hin1]
  rw [if_neg hnofault, if_neg (by simp [hnone])]
  simp only [hout1, hin2, hout2, hopen4, hcheck]
  rw [if_pos (by decide)]
  unfold exec_done
  exact ⟨_, rfl⟩


set_option maxRecDepth 100000 in
/-- The round `late_round` on the supervisor `sup_start`, evaluated: the child has written
200 bytes, which went to the standard output, and the round ends with the status 124. -/
theorem late_round_run :
    (handle_child_round false 5 late_round sup_start).status = some 124
    ∧ (handle_child_round false 5 late_round sup_start).final.map
        (fun final => (stream_out final.io.trace).length) = some 200 := by
  decide

/-! ## Claim C27: the options of a mount table entry -/

set_option maxRecDepth 100000 in
/-- Claim C27, refuted as stated: for the options `ro,ro` the loop over `mountargs` cuts out
the first `ro` only, so `opts` is `MS_RDONLY` and `data` is `ro`, a recognized option; and for
`nodev,ro,nodev,noexec` the three flags are set and `data` is `nodev`.  For the options
`rw,nosuid,data=ordered,relatime`, in which no option occurs twice, `opts` holds the flags of
`nosuid` and `relatime` and `data` is `data=ordered`. -/
theorem repeated_option_stays_in_data :
    ((mount_slot_of ⟨"/dev/sda1".toList, "/mnt".toList, "ext4".toList, "ro,ro".toList⟩).opts,
      (mount_slot_of ⟨"/dev/sda1".toList, "/mnt".toList, "ext4".toList, "ro,ro".toList⟩).data)
      = (1, "ro".toList)
    ∧ ((mount_slot_of ⟨"/dev/sda1".toList, "/mnt".toList, "ext4".toList,
          "nodev,ro,nodev,noexec".toList⟩).opts,
        (mount_slot_of ⟨"/dev/sda1".toList, "/mnt".toList, "ext4".toList,
          "nodev,ro,nodev,noexec".toList⟩).data)
      = (4 ||| 8 ||| 1, "nodev".toList)
    ∧ ((mount_slot_of ⟨"/dev/sda1".toList, "/mnt".toList, "ext4".toList,
          "rw,nosuid,data=ordered,relatime".toList⟩).opts,
        (mount_slot_of ⟨"/dev/sda1".toList, "/mnt".toList, "ext4".toList,
          "rw,nosuid,data=ordered,relatime".toList⟩).data)
      = (2 ||| 2097152, "data=ordered".toList) := by
  decide


/-! ## Claim C29: `shell_quote` and the words of the shell -/

/-- Claim C29, refuted as stated: `shell_quote` returns the empty string as it is, and the
empty string is no word at all for the shell, so the command built from `echo`, the empty
string and `x` is `echo  x` and has the two words `echo` and `x`.  Arguments with a quote, a
blank or a leading `~` are quoted and read back as they were. -/
theorem shell_quote_drops_empty_argument :
    shell_quote [] = []
    ∧ posix_words (shell_quote []) = some []
    ∧ exec_command ["echo".toList, [], "x".toList] = "echo  x".toList
    ∧ posix_words (exec_command ["echo".toList, [], "x".toList])
        = some ["echo".toList, "x".toList]
    ∧ shell_quote "it's".toList = "'it'\\''s'".toList
    ∧ posix_words (shell_quote "it's".toList) = some ["it's".toList]
    ∧ posix_words (shell_quote "~root".toList) = some ["~root".toList]
    ∧ posix_words (exec_command ["echo".toList, "a b".toList, "'".toList, "~".toList])
        = some ["echo".toList, "a b".toList, "'".toList, "~".toList] := by
  decide


/-! ## Claim C30: the reads of the scanning loop of `check_filename` -/

/-- Claim C30, refuted as stated.  Let a name pass the initial checks of `check_filename`
(every character allowed, not empty, not starting with `~`, shorter than 1024 bytes), have no
path component `..`, and end in `/.`.  Then the scanning loop reads beyond the terminator of
the name: the branch for the component `.` leaves the pointer on the terminator, at the index
`name.length()`, the `++s` of the `for` statement moves it to the index `name.length() + 1`,
and the test `*s` of the loop reads there. -/
theorem scan_reads_beyond_terminator (name : Str)
    (h1 : strspn name allowed_chars = name.length) (h2 : name ≠ [])
    (h3 : name.head? ≠ some '~') (h4 : name.length < BUFSIZE)
    (h5 : ['.', '.'] ∉ components name) (h6 : ['/', '.'] <:+ name) :
    check_filename_scan (name.length + 1) none name [] = .error .overread
    ∧ check_filename name = .error .overread := by
  have hany : name.any (fun c => !allowed_chars.contains c) = false := by
    cases h : name.any (fun c => !allowed_chars.contains c) with
    | false => rfl
    | true => exact absurd h1 ((strspn_allowed name).2 h)
  have hrej : rejected_by_spec name = false := by
    unfold rejected_by_spec
    have e1 : (name == []) = false := by simpa using h2
    have e2 : (name.head? == some '~') = false := by simpa using h3
    have e3 : decide (name.length ≥ 1024) = false := by
      unfold BUFSIZE at h4
      simp only [decide_eq_false_iff_not]
      omega
    have e4 : (components name).contains ['.', '.'] = false := by simpa using h5
    rw [e1, e2, e3, hany, e4]
    rfl
  have hcf := (check_filename_spec name).2.1 hrej h6
  refine ⟨?_, hcf⟩
  unfold check_filename at hcf
  have hcond : ¬ (strspn name allowed_chars ≠ name.length ∨ name = []
      ∨ name.head? = some '~' ∨ name.length ≥ BUFSIZE) := by
    rintro (h | h | h | h)
    · exact h h1
    · exact h2 h
    · exact h3 h
    · omega
  rw [if_neg hcond] at hcf
  split at hcf
  · simp at hcf
  · simp at hcf
  · rename_i e he
    simp only [Except.error.injEq] at hcf
    rw [he, hcf]

/-- Claim C30, exercised on the names `/.` and `/srv/jails/a/./.`. -/
theorem scan_reads_beyond_terminator_witness :
    (check_filename_scan ("/.".toList.length + 1) none "/.".toList [] = .error .overread
      ∧ check_filename "/.".toList = .error .overread)
    ∧ check_filename "/srv/jails/a/./.".toList = .error .overread
    ∧ check_filename "/srv/jails/a/./b".toList = .ok "/srv/jails/a/b".toList :=
  ⟨scan_reads_beyond_terminator "/.".toList (by decide) (by decide) (by decide) (by decide)
    (by decide) (by decide), by decide, by decide⟩

/-! ## `shell_quote` on arguments that are not empty -/

theorem sq_escape_cons_quote (r : Str) :
    sq_escape ('\'' :: r) = '\'' :: '\\' :: '\'' :: '\'' :: sq_escape r := by
  simp [sq_escape]

theorem sq_escape_cons_other (c : Char) (r : Str) (hc : c ≠ '\'') :
    sq_escape (c :: r) = c :: sq_escape r := by
  simp [sq_escape, hc]

theorem sq_escape_of_no_quote (a : Str) (h : ∀ c ∈ a, c ≠ '\'') : sq_escape a = a := by
  induction a with
  | nil => rfl
  | cons c r ih =>
    rw [sq_escape_cons_other c r (h c (List.mem_cons_self _ _)),
      ih (fun d hd => h d (List.mem_cons_of_mem _ hd))]

/-- The single quote is a character that `shell_quote` quotes, wherever it stands. -/
theorem needs_quote_quote (pos : Nat) : needs_quote pos '\'' = true := by
  unfold needs_quote
  have : (isalnum '\'' || '\'' == '_' || '\'' == '-' || '\'' == '~' || '\'' == '.'
      || '\'' == '/') = false := by decide
  rw [this]
  simp

theorem take_succ_of_split (pre rest : Str) (c : Char) (last : Nat)
    (hl : last ≤ pre.length) :
    ((pre ++ c :: rest).drop last).take (pre.length + 1 - last)
      = ((pre ++ c :: rest).drop last).take (pre.length - last) ++ [c] := by
  have h1 : (pre ++ c :: rest).drop last = pre.drop last ++ c :: rest :=
    List.drop_append_of_le_length hl
  have h2 : (pre.drop last).length = pre.length - last := List.length_drop _ _
  rw [h1]
  have e1 : pre.length + 1 - last = (pre.drop last).length + 1 := by rw [h2]; omega
  have e2 : pre.length - last = (pre.drop last).length + 0 := by rw [h2]; rfl
  rw [e1, e2, List.take_append, List.take_append]
  simp

/-- The loop of `shell_quote` once `quoted` is not empty: from then on it copies the argument
with every single quote replaced. -/
theorem shell_quote_loop_quoted (a : Str) :
    ∀ (rest pre quoted : Str) (last : Nat), a = pre ++ rest → quoted ≠ [] →
      last ≤ pre.length →
      (shell_quote_loop a rest pre.length quoted last).1 ≠ []
      ∧ (shell_quote_loop a rest pre.length quoted last).1
          ++ a.drop (shell_quote_loop a rest pre.length quoted last).2
        = quoted ++ (a.drop last).take (pre.length - last) ++ sq_escape rest := by
  intro rest
  induction rest with
  | nil =>
    intro pre quoted last ha hq hl
    simp only [shell_quote_loop]
    refine ⟨hq, ?_⟩
    rw [ha, List.append_nil]
    have : (pre.drop last).length = pre.length - last := List.length_drop _ _
    rw [← this, List.take_length]
    simp [sq_escape]
  | cons c r ih =>
    intro pre quoted last ha hq hl
    have ha1 : a = (pre ++ [c]) ++ r := by rw [ha]; simp
    have hlen : (pre ++ [c]).length = pre.length + 1 := by simp
    have hstep := take_succ_of_split pre r c last hl
    rw [← ha] at hstep
    by_cases hc : c = '\''
    · subst hc
      have h := ih (pre ++ ['\''])
        (quoted ++ (a.drop last).take (pre.length - last) ++ "'\\''".toList) (pre.length + 1)
        ha1 (by simp) (by rw [hlen])
      rw [hlen] at h
      simp only [shell_quote_loop, needs_quote_quote, if_true, if_neg hq]
      refine ⟨h.1, ?_⟩
      rw [h.2, sq_escape_cons_quote]
      simp
    · have h := ih (pre ++ [c]) quoted last ha1 hq (by rw [hlen]; omega)
      rw [hlen] at h
      have hloop : shell_quote_loop a (c :: r) pre.length quoted last
          = shell_quote_loop a r (pre.length + 1) quoted last := by
        simp only [shell_quote_loop, if_neg hq, if_neg hc]
        split <;> rfl
      rw [hloop]
      refine ⟨h.1, ?_⟩
      rw [h.2, hstep, sq_escape_cons_other c r hc]
      simp

/-- The loop of `shell_quote` while `quoted` is empty: either no character is quoted up to
the end, or the rest is copied with every single quote replaced. -/
theorem shell_quote_loop_start (a : Str) :
    ∀ (rest pre : Str), a = pre ++ rest → (∀ c ∈ pre, c ≠ '\'') →
      ((shell_quote_loop a rest pre.length [] 0).1 = []
        ∧ ∀ i c, rest.get? i = some c → needs_quote (pre.length + i) c = false)
      ∨ ((shell_quote_loop a rest pre.length [] 0).1 ≠ []
        ∧ (shell_quote_loop a rest pre.length [] 0).1
            ++ a.drop (shell_quote_loop a rest pre.length [] 0).2
          = '\'' :: (pre ++ sq_escape rest)) := by
  intro rest
  induction rest with
  | nil =>
    intro pre ha hpre
    left
    simp [shell_quote_loop]
  | cons c r ih =>
    intro pre ha hpre
    have ha1 : a = (pre ++ [c]) ++ r := by rw [ha]; simp
    have hlen : (pre ++ [c]).length = pre.length + 1 := by simp
    have htake : (a.drop 0).take (pre.length - 0) = pre := by
      rw [ha]
      simp
    by_cases hn : needs_quote pre.length c = true
    · right
      by_cases hc : c = '\''
      · subst hc
        have h := shell_quote_loop_quoted a r (pre ++ ['\''])
          ("'".toList ++ (a.drop 0).take (pre.length - 0) ++ "'\\''".toList) (pre.length + 1)
          ha1 (by simp) (by rw [hlen])
        rw [hlen] at h
        simp only [shell_quote_loop, hn, if_true]
        refine ⟨h.1, ?_⟩
        rw [h.2, htake, sq_escape_cons_quote]
        simp
      · have h := shell_quote_loop_quoted a r (pre ++ [c]) "'".toList 0 ha1 (by simp)
          (Nat.zero_le _)
        rw [hlen] at h
        have hloop : shell_quote_loop a (c :: r) pre.length [] 0
            = shell_quote_loop a r (pre.length + 1) "'".toList 0 := by
          simp only [shell_quote_loop, hn, if_true, if_neg hc]
        rw [hloop]
        refine ⟨h.1, ?_⟩
        have hstep := take_succ_of_split pre r c 0 (Nat.zero_le _)
        rw [← ha] at hstep
        rw [h.2, hstep, htake, sq_escape_cons_other c r hc]
        simp
    · have hc : c ≠ '\'' := by
        intro h
        rw [h] at hn
        exact hn (needs_quote_quote _)
      have hloop : shell_quote_loop a (c :: r) pre.length [] 0
          = shell_quote_loop a r (pre.length + 1) [] 0 := by
        simp only [shell_quote_loop, if_neg hn]
      rw [hloop]
      have hpre1 : ∀ d ∈ pre ++ [c], d ≠ '\'' := by
        intro d hd
        rcases List.mem_append.mp hd with h | h
        · exact hpre d h
        · simp only [List.mem_singleton] at h
          rw [h]; exact hc
      have h := ih (pre ++ [c]) ha1 hpre1
      rw [hlen] at h
      rcases h with ⟨h1, h2⟩ | ⟨h1, h2⟩
      · left
        refine ⟨h1, ?_⟩
        intro i d hd
        cases i with
        | zero =>
          simp only [List.get?_cons_zero, Option.some.injEq] at hd
          rw [← hd]
          simpa using hn
        | succ i =>
          simp only [List.get?_cons_succ] at hd
          have := h2 i d hd
          rw [Nat.add_assoc, Nat.add_comm 1 i] at this
          exact this
      · right
        refine ⟨h1, ?_⟩
        rw [h2, sq_escape_cons_other c r hc]
        simp

/-- What `shell_quote` returns: the argument as it is when none of its characters is one to
quote, and else the argument between single quotes, with every single quote replaced. -/
theorem shell_quote_cases (a : Str) :
    (shell_quote a = a ∧ ∀ i c, a.get? i = some c → needs_quote i c = false)
    ∨ shell_quote a = '\'' :: (sq_escape a ++ ['\'']) := by
  have h := shell_quote_loop_start a a [] rfl (by simp)
  simp only [List.length_nil, Nat.zero_add, List.nil_append] at h
  unfold shell_quote
  rcases h with ⟨h1, h2⟩ | ⟨h1, h2⟩
  · left
    refine ⟨?_, h2⟩
    generalize shell_quote_loop a a 0 [] 0 = res at h1
    obtain ⟨q, l⟩ := res
    simp only at h1
    simp [h1]
  · right
    generalize shell_quote_loop a a 0 [] 0 = res at h1 h2
    obtain ⟨q, l⟩ := res
    simp only at h1 h2
    simp only [if_neg h1]
    rw [h2]
    simp


/-! ## The shell reads back what `shell_quote` wrote -/

/-- Between single quotes the reader takes the text for `a` as `a`. -/
theorem posix_read_single (a : Str) :
    ∀ (cur : Str) (acc : List Str) (rest : Str),
      posix_read (sq_escape a ++ '\'' :: rest) .single (some cur) acc
        = posix_read rest .plain (some (cur ++ a)) acc := by
  induction a with
  | nil =>
    intro cur acc rest
    simp [sq_escape, posix_read]
  | cons c r ih =>
    intro cur acc rest
    by_cases hc : c = '\''
    · subst hc
      have step : ∀ t : Str,
          posix_read ('\'' :: '\\' :: '\'' :: '\'' :: t) .single (some cur) acc
            = posix_read t .single (some (cur ++ ['\''])) acc := by
        intro t
        have hb : sh_blank '\\' = false := by decide
        have hb2 : sh_blank '\'' = false := by decide
        simp [posix_read, sh_push, hb, hb2]
      rw [sq_escape_cons_quote]
      simp only [List.cons_append]
      rw [step, ih]
      simp
    · have step : ∀ t : Str,
          posix_read (c :: t) .single (some cur) acc
            = posix_read t .single (some (cur ++ [c])) acc := by
        intro t
        simp [posix_read, sh_push, hc]
      rw [sq_escape_cons_other c r hc]
      simp only [List.cons_append]
      rw [step, ih]
      simp

/-- The characters that `shell_quote` leaves unquoted. -/
theorem needs_quote_false (pos : Nat) (c : Char) (h : needs_quote pos c = false) :
    sh_blank c = false ∧ c ≠ '\'' ∧ c ≠ '\\' ∧ sh_special c = false
      ∧ (pos = 0 → c ≠ '~') := by
  have bad : ∀ d ∈ " \t\n'\\|&;<>()$`\"*?[#=%!\x7b\x7d".toList,
      (isalnum d || d == '_' || d == '-' || d == '~' || d == '.' || d == '/') = false := by
    decide
  unfold needs_quote at h
  simp only [Bool.or_eq_false_iff, Bool.and_eq_false_iff, Bool.not_eq_false'] at h
  obtain ⟨h0, hsafe⟩ := h
  have notbad : c ∉ " \t\n'\\|&;<>()$`\"*?[#=%!\x7b\x7d".toList := by
    intro hmem
    have := bad c hmem
    rw [hsafe] at this
    exact absurd this (by decide)
  simp only [String.toList, List.mem_cons, List.not_mem_nil, or_false, not_or] at notbad
  refine ⟨?_, ?_, ?_, ?_, ?_⟩
  · unfold sh_blank
    simp [notbad.1, notbad.2.1, notbad.2.2.1]
  · exact notbad.2.2.2.1
  · exact notbad.2.2.2.2.1
  · unfold sh_special
    simp only [String.toList, List.contains_eq_any_beq, List.any_cons, List.any_nil,
      Bool.or_false, Bool.or_eq_false_iff, beq_eq_false_iff_ne, ne_eq]
    obtain ⟨-, -, -, -, -, h⟩ := notbad
    tauto
  · intro hp hc
    rcases h0 with h0 | h0
    · simp [hp] at h0
    · simp [hc] at h0

/-- Outside quotes the reader takes a run of characters that `shell_quote` leaves unquoted as
it is, once the word has begun. -/
theorem posix_read_plain (w : Str) :
    ∀ (pos : Nat) (cur : Str) (acc : List Str) (rest : Str),
      (∀ i c, w.get? i = some c → needs_quote (pos + 1 + i) c = false) →
      posix_read (w ++ rest) .plain (some cur) acc
        = posix_read rest .plain (some (cur ++ w)) acc := by
  induction w with
  | nil =>
    intro pos cur acc rest _
    simp
  | cons c r ih =>
    intro pos cur acc rest h
    obtain ⟨h1, h2, h3, h4, -⟩ := needs_quote_false _ c (h 0 c rfl)
    have hrest : ∀ i d, r.get? i = some d → needs_quote (pos + 1 + 1 + i) d = false := by
      intro i d hd
      have := h (i + 1) d (by simpa using hd)
      rw [show pos + 1 + (i + 1) = pos + 1 + 1 + i by omega] at this
      exact this
    have step : ∀ t : Str,
        posix_read (c :: t) .plain (some cur) acc
          = posix_read t .plain (some (cur ++ [c])) acc := by
      intro t
      simp [posix_read, sh_push, h1, h2, h3, h4]
    simp only [List.cons_append]
    rw [step, ih (pos + 1) (cur ++ [c]) acc rest hrest]
    simp

/-- The reader takes what `shell_quote` made of an argument that is not empty as the
beginning of a word that is this argument. -/
theorem posix_read_shell_quote (a : Str) (ha : a ≠ []) (acc : List Str) (rest : Str) :
    posix_read (shell_quote a ++ rest) .plain none acc
      = posix_read rest .plain (some a) acc := by
  rcases shell_quote_cases a with ⟨h1, h2⟩ | h1
  · rw [h1]
    cases a with
    | nil => exact absurd rfl ha
    | cons c r =>
      obtain ⟨k1, k2, k3, k4, k5⟩ := needs_quote_false 0 c (h2 0 c rfl)
      have hrest : ∀ i d, r.get? i = some d → needs_quote (0 + 1 + i) d = false := by
        intro i d hd
        have := h2 (i + 1) d (by simpa using hd)
        rw [show i + 1 = 0 + 1 + i by omega] at this
        exact this
      have step : ∀ t : Str,
          posix_read (c :: t) .plain none acc = posix_read t .plain (some [c]) acc := by
        intro t
        simp [posix_read, sh_push, k1, k2, k3, k4, k5 rfl]
      simp only [List.cons_append]
      rw [step, posix_read_plain r 0 [c] acc rest hrest]
      simp
  · rw [h1]
    have step : ∀ t : Str,
        posix_read ('\'' :: t) .plain none acc = posix_read t .single (some []) acc := by
      intro t
      have hb : sh_blank '\'' = false := by decide
      simp [posix_read, hb]
    simp only [List.cons_append, List.append_assoc, List.singleton_append]
    rw [step, posix_read_single]
    simp

/-- Claim C29, as far as it holds and where it fails.  For every argument `a`, what a POSIX
shell reads from `shell_quote(a)` is the one word `a` when `a` is not empty, whatever single
quotes, blanks or `~` it holds, and no word at all when `a` is empty, where the claim asks for
one empty word. -/
theorem shell_quote_reads_back_unless_empty (a : Str) :
    posix_words (shell_quote a) = some (if a = [] then [] else [a]) := by
  by_cases ha : a = []
  · subst ha
    decide
  · rw [if_neg ha]
    have h := posix_read_shell_quote a ha [] []
    rw [List.append_nil] at h
    unfold posix_words
    rw [h]
    simp [posix_read]

/-- The command of `exec` for two or more arguments is the quoted arguments with a blank
before each but the first. -/
theorem exec_command_spec (a b : Str) (rest : List Str) :
    exec_command (a :: b :: rest)
      = shell_quote a ++ ((b :: rest).map (fun arg => ' ' :: shell_quote arg)).flatten := by
  have key : ∀ (args : List Str) (start : Str),
      args.foldl (fun command arg => command ++ " ".toList ++ shell_quote arg) start
        = start ++ (args.map (fun arg => ' ' :: shell_quote arg)).flatten := by
    intro args
    induction args with
    | nil => intro start; simp
    | cons x xs ih =>
      intro start
      simp only [List.foldl_cons, List.map_cons, List.flatten_cons]
      rw [ih]
      simp
  simp only [exec_command]
  exact key (b :: rest) (shell_quote a)

/-- For two or more arguments of which none is empty, the shell reads the command of `exec`
back into the arguments. -/
theorem posix_words_exec_command (a b : Str) (rest : List Str)
    (h : ∀ arg ∈ a :: b :: rest, arg ≠ []) :
    posix_words (exec_command (a :: b :: rest)) = some (a :: b :: rest) := by
  have key : ∀ (args : List Str) (cur : Str) (acc : List Str), (∀ arg ∈ args, arg ≠ []) →
      posix_read ((args.map (fun arg => ' ' :: shell_quote arg)).flatten) .plain (some cur) acc
        = some (acc ++ cur :: args) := by
    intro args
    induction args with
    | nil =>
      intro cur acc _
      simp [posix_read]
    | cons x xs ih =>
      intro cur acc hne
      have step : ∀ t : Str,
          posix_read (' ' :: t) .plain (some cur) acc = posix_read t .plain none (acc ++ [cur]) := by
        intro t
        have hb : sh_blank ' ' = true := by decide
        simp [posix_read, hb]
      simp only [List.map_cons, List.flatten_cons, List.cons_append]
      rw [step, posix_read_shell_quote x (hne x (List.mem_cons_self _ _)),
        ih x (acc ++ [cur]) (fun arg harg => hne arg (List.mem_cons_of_mem _ harg))]
      simp
  rw [exec_command_spec]
  unfold posix_words
  rw [posix_read_shell_quote a (h a (List.mem_cons_self _ _)),
    key (b :: rest) a [] (fun arg harg => h arg (List.mem_cons_of_mem _ harg))]
  simp

/-! ## `mount_slot_of` on every list of options -/

theorem enc_options_cons (t : Str) (ts : List Str) :
    enc_options (t :: ts) = ',' :: (t ++ enc_options ts) := by
  simp [enc_options]

theorem enc_options_head (ts : List Str) : ∃ r, enc_options ts = ',' :: r := by
  cases ts with
  | nil => exact ⟨[], rfl⟩
  | cons t ts => exact ⟨_, enc_options_cons t ts⟩

/-- Inside a token `strstr` finds no needle that starts with a comma. -/
theorem strstr_skip_token (needle t r : Str) (ht : ∀ c ∈ t, c ≠ ',')
    (hn : ∃ n, needle = ',' :: n) :
    strstr needle (t ++ r) = (strstr needle r).map (fun p => p + t.length) := by
  induction t with
  | nil => simp
  | cons c t ih =>
    obtain ⟨n, hn1⟩ := hn
    have hc : c ≠ ',' := ht c (List.mem_cons_self _ _)
    have hpre : needle.isPrefixOf (c :: (t ++ r)) = false := by
      rw [hn1]
      simp [List.isPrefixOf, Ne.symm hc]
    rw [List.cons_append]
    simp only [strstr, hpre, Bool.false_eq_true, if_false]
    rw [ih (fun d hd => ht d (List.mem_cons_of_mem _ hd))]
    cases strstr needle r with
    | none => rfl
    | some p => simp [Nat.add_assoc]

/-- Two texts without a comma that are followed by a comma are the same when the whole is the
same. -/
theorem comma_split_unique (t nm r x : Str) (ht : ∀ c ∈ t, c ≠ ',') (hnm : ∀ c ∈ nm, c ≠ ',')
    (h : t ++ ',' :: r = nm ++ ',' :: x) : t = nm := by
  induction t generalizing nm with
  | nil =>
    cases nm with
    | nil => rfl
    | cons d nm =>
      simp only [List.nil_append, List.cons_append, List.cons.injEq] at h
      exact absurd h.1.symm (hnm d (List.mem_cons_self _ _))
  | cons c t ih =>
    cases nm with
    | nil =>
      simp only [List.nil_append, List.cons_append, List.cons.injEq] at h
      exact absurd h.1 (ht c (List.mem_cons_self _ _))
    | cons d nm =>
      simp only [List.cons_append, List.cons.injEq] at h
      rw [h.1, ih nm (fun e he => ht e (List.mem_cons_of_mem _ he))
        (fun e he => hnm e (List.mem_cons_of_mem _ he)) h.2]

/-- In the buffer of the tokens, `strstr` finds `,name,` at the first token that is `name`. -/
theorem strstr_enc_options (nm : Str) (hnm : ∀ c ∈ nm, c ≠ ',') :
    ∀ ts : List Str, (∀ t ∈ ts, ∀ c ∈ t, c ≠ ',') →
      strstr (',' :: (nm ++ [','])) (enc_options ts) = token_pos nm ts := by
  intro ts
  induction ts with
  | nil =>
    intro _
    cases nm with
    | nil => simp [enc_options, strstr, token_pos, List.isPrefixOf]
    | cons d nm => simp [enc_options, strstr, token_pos, List.isPrefixOf]
  | cons t ts ih =>
    intro hts
    have ht : ∀ c ∈ t, c ≠ ',' := hts t (List.mem_cons_self _ _)
    obtain ⟨r, hr⟩ := enc_options_head ts
    rw [enc_options_cons]
    simp only [strstr, token_pos]
    by_cases htn : t = nm
    · subst htn
      have : (',' :: (t ++ [','])).isPrefixOf (',' :: (t ++ enc_options ts)) = true := by
        rw [List.isPrefixOf_iff_prefix, hr]
        exact ⟨r, by simp⟩
      rw [if_pos this, if_pos rfl]
    · have : ¬ (',' :: (nm ++ [','])).isPrefixOf (',' :: (t ++ enc_options ts)) = true := by
        rw [List.isPrefixOf_iff_prefix, hr]
        rintro ⟨x, hx⟩
        simp only [List.cons_append, List.append_assoc, List.singleton_append,
          List.cons.injEq, true_and] at hx
        exact htn (comma_split_unique t nm r x ht hnm hx.symm)
      rw [if_neg this, if_neg htn,
        strstr_skip_token _ t _ ht ⟨nm ++ [','], rfl⟩,
        ih (fun u hu => hts u (List.mem_cons_of_mem _ hu))]
      cases token_pos nm ts with
      | none => rfl
      | some p => simp [Nat.add_assoc]

/-- Cutting `,name` out of the buffer at the place of the first token `name` leaves the buffer
of the tokens without that token. -/
theorem cut_enc_options (nm : Str) :
    ∀ (ts : List Str) (p : Nat), token_pos nm ts = some p →
      (enc_options ts).take p ++ (enc_options ts).drop (p + (nm.length + 2) - 1)
        = enc_options (ts.erase nm) ∧ nm ∈ ts := by
  intro ts
  induction ts with
  | nil => intro p h; simp [token_pos] at h
  | cons t ts ih =>
    intro p h
    simp only [token_pos] at h
    by_cases htn : t = nm
    · subst htn
      rw [if_pos rfl] at h
      simp only [Option.some.injEq] at h
      subst h
      refine ⟨?_, List.mem_cons_self _ _⟩
      rw [enc_options_cons, List.erase_cons_head]
      have : 0 + (t.length + 2) - 1 = (',' :: t).length := by simp
      rw [this, List.take_zero, List.nil_append, ← List.cons_append, List.drop_left]
    · rw [if_neg htn] at h
      cases hp : token_pos nm ts with
      | none => simp [hp] at h
      | some q =>
        simp only [hp, Option.map_some', Option.some.injEq] at h
        subst h
        obtain ⟨h1, h2⟩ := ih q hp
        refine ⟨?_, List.mem_cons_of_mem _ h2⟩
        have hne : (t == nm) = false := by simpa using htn
        rw [enc_options_cons, List.erase_cons_tail (by simpa using htn), enc_options_cons, ← h1]
        have e1 : q + (t.length + 1) = (',' :: t).length + q := by simp; omega
        have e2 : q + (t.length + 1) + (nm.length + 2) - 1
            = (',' :: t).length + (q + (nm.length + 2) - 1) := by simp; omega
        rw [← List.cons_append, e2, e1, List.take_append, List.drop_append]
        simp

theorem token_pos_none (nm : Str) :
    ∀ ts : List Str, token_pos nm ts = none → nm ∉ ts := by
  intro ts
  induction ts with
  | nil => intro _; simp
  | cons t ts ih =>
    intro h
    simp only [token_pos] at h
    by_cases htn : t = nm
    · rw [if_pos htn] at h
      simp at h
    · rw [if_neg htn] at h
      cases hp : token_pos nm ts with
      | none =>
        have := ih hp
        simp only [List.mem_cons, not_or]
        exact ⟨fun e => htn e.symm, this⟩
      | some q => simp [hp] at h

/-- One round of the loop over `mountargs` on the buffer of the tokens: the first token
`name`, if there is one, is taken out, and its flag is set. -/
theorem mount_option_enc (nm : Str) (v o : Nat) (hnm : ∀ c ∈ nm, c ≠ ',') (ts : List Str)
    (hts : ∀ t ∈ ts, ∀ c ∈ t, c ≠ ',') :
    mount_option (enc_options ts, o) (',' :: (nm ++ [',']), v)
      = (enc_options (ts.erase nm), if nm ∈ ts then o ||| v else o) := by
  unfold mount_option
  simp only
  rw [strstr_enc_options nm hnm ts hts]
  cases hp : token_pos nm ts with
  | none =>
    have := token_pos_none nm ts hp
    simp only [if_neg this]
    rw [List.erase_of_not_mem this]
  | some p =>
    obtain ⟨h1, h2⟩ := cut_enc_options nm ts p hp
    simp only [if_pos h2]
    have : (',' :: (nm ++ [','])).length = nm.length + 2 := by simp
    rw [this, h1]


/-- The loop over `mountargs` on the buffer of the tokens. -/
theorem mountargs_fold_enc (flags : List (Str × Nat)) :
    ∀ (ts : List Str) (o : Nat), (∀ f ∈ flags, ∀ c ∈ f.1, c ≠ ',') →
      (∀ t ∈ ts, ∀ c ∈ t, c ≠ ',') →
      (flags.map (fun f => (',' :: (f.1 ++ [',']), f.2))).foldl mount_option (enc_options ts, o)
        = (enc_options (flags_fold flags ts o).1, (flags_fold flags ts o).2) := by
  induction flags with
  | nil => intro ts o _ _; rfl
  | cons f fs ih =>
    intro ts o hf hts
    simp only [List.map_cons, List.foldl_cons, flags_fold]
    rw [mount_option_enc f.1 f.2 o (hf f (List.mem_cons_self _ _)) ts hts]
    exact ih _ _ (fun g hg => hf g (List.mem_cons_of_mem _ hg))
      (fun t ht => hts t (List.mem_of_mem_erase ht))

/-- With recognized options that differ from one another, the flags set are those of the
options among the tokens, and the tokens left are the tokens without the first of each. -/
theorem flags_fold_spec (flags : List (Str × Nat)) :
    ∀ (ts : List Str) (o : Nat), (flags.map Prod.fst).Nodup →
      (flags_fold flags ts o).1 = flags.foldl (fun ts f => ts.erase f.1) ts
      ∧ (flags_fold flags ts o).2
          = (flags.filter (fun f => decide (f.1 ∈ ts))).foldl (fun o f => o ||| f.2) o := by
  induction flags with
  | nil => intro ts o _; exact ⟨rfl, rfl⟩
  | cons f fs ih =>
    intro ts o hnd
    simp only [List.map_cons, List.nodup_cons] at hnd
    obtain ⟨h1, h2⟩ := ih (ts.erase f.1) (if f.1 ∈ ts then o ||| f.2 else o) hnd.2
    have hfilter : fs.filter (fun g => decide (g.1 ∈ ts.erase f.1))
        = fs.filter (fun g => decide (g.1 ∈ ts)) := by
      apply List.filter_congr
      intro g hg
      have hne : g.1 ≠ f.1 := by
        intro e
        exact hnd.1 (e ▸ List.mem_map_of_mem Prod.fst hg)
      simp only [decide_eq_decide]
      exact List.mem_erase_of_ne hne
    simp only [flags_fold, List.foldl_cons]
    refine ⟨h1, ?_⟩
    rw [h2, hfilter]
    by_cases hm : f.1 ∈ ts
    · simp [List.filter_cons, hm]
    · simp [List.filter_cons, hm]

theorem enc_options_of_join :
    ∀ ts : List Str, ts ≠ [] → ',' :: (join_commas ts ++ [',']) = enc_options ts := by
  intro ts
  induction ts with
  | nil => intro h; exact absurd rfl h
  | cons t ts ih =>
    intro _
    cases ts with
    | nil => simp [join_commas, enc_options]
    | cons u us =>
      rw [enc_options_cons, ← ih (by simp)]
      simp [join_commas]

theorem join_commas_last :
    ∀ ts : List Str, ts ≠ [] → (∀ t ∈ ts, t ≠ [] ∧ ∀ c ∈ t, c ≠ ',') →
      ∃ pre x, join_commas ts = pre ++ [x] ∧ x ≠ ',' := by
  intro ts
  induction ts with
  | nil => intro h; exact absurd rfl h
  | cons t ts ih =>
    intro _ hts
    cases ts with
    | nil =>
      obtain ⟨hne, hc⟩ := hts t (List.mem_cons_self _ _)
      refine ⟨t.dropLast, t.getLast hne, ?_, hc _ (List.getLast_mem hne)⟩
      simp only [join_commas]
      exact (List.dropLast_append_getLast hne).symm
    | cons u us =>
      obtain ⟨pre, x, h1, h2⟩ := ih (by simp) (fun v hv => hts v (List.mem_cons_of_mem _ hv))
      refine ⟨t ++ ',' :: pre, x, ?_, h2⟩
      simp only [join_commas] at h1 ⊢
      rw [h1]
      simp

theorem strip_commas_rev_other (x : Char) (r : Str) (hx : x ≠ ',') :
    strip_commas_rev (x :: r) = x :: r := by
  rw [strip_commas_rev]
  intro c r1 h
  simp only [List.cons.injEq] at h
  exact hx h.1

/-- The loop that takes the commas from the end of the buffer, and the step over its first
comma, leave the tokens joined by commas. -/
theorem strip_enc_options (ts : List Str) (hts : ∀ t ∈ ts, t ≠ [] ∧ ∀ c ∈ t, c ≠ ',') :
    ((strip_commas_rev (enc_options ts).reverse).reverse).drop 1 = join_commas ts := by
  cases ts with
  | nil => decide
  | cons t us =>
    obtain ⟨pre, x, h1, h2⟩ := join_commas_last (t :: us) (by simp) hts
    rw [← enc_options_of_join (t :: us) (by simp), h1]
    have : (',' :: (pre ++ [x] ++ [','])).reverse = ',' :: x :: (pre.reverse ++ [',']) := by
      simp
    rw [this]
    have hs : strip_commas_rev (',' :: x :: (pre.reverse ++ [','])) = x :: (pre.reverse ++ [',']) := by
      rw [strip_commas_rev, strip_commas_rev_other x _ h2]
    rw [hs]
    simp

theorem erase_eq_filter_of_count (nm : Str) :
    ∀ ts : List Str, ts.count nm ≤ 1 → ts.erase nm = ts.filter (fun t => decide (t ≠ nm)) := by
  intro ts
  induction ts with
  | nil => intro _; rfl
  | cons t ts ih =>
    intro h
    by_cases htn : t = nm
    · subst htn
      rw [List.count_cons_self] at h
      have h0 : ts.count t = 0 := by omega
      have hnot : t ∉ ts := List.count_eq_zero.mp h0
      rw [List.erase_cons_head]
      simp only [List.filter_cons, ne_eq, not_true_eq_false, decide_False, Bool.false_eq_true,
        if_false]
      symm
      rw [List.filter_eq_self]
      intro a ha
      simp only [decide_not, Bool.not_eq_true', decide_eq_false_iff_not]
      intro e
      exact hnot (e ▸ ha)
    · rw [List.count_cons_of_ne (fun e => htn e.symm)] at h
      rw [List.erase_cons_tail (by simpa using htn), ih h]
      simp [List.filter_cons, htn]

/-- When no recognized option stands twice among the tokens, the tokens left are those that
are no recognized option. -/
theorem erase_all_eq_filter (flags : List (Str × Nat)) :
    ∀ ts : List Str, (∀ f ∈ flags, ts.count f.1 ≤ 1) →
      flags.foldl (fun ts f => ts.erase f.1) ts
        = ts.filter (fun t => decide (t ∉ flags.map Prod.fst)) := by
  induction flags with
  | nil => intro ts _; simp
  | cons f fs ih =>
    intro ts h
    simp only [List.foldl_cons]
    have hcount : ∀ g ∈ fs, (ts.erase f.1).count g.1 ≤ 1 := by
      intro g hg
      exact Nat.le_trans (List.Sublist.count_le (List.erase_sublist _ _) _)
        (h g (List.mem_cons_of_mem _ hg))
    rw [ih _ hcount, erase_eq_filter_of_count f.1 ts (h f (List.mem_cons_self _ _)),
      List.filter_filter]
    apply List.filter_congr
    intro t _
    simp only [List.map_cons, List.mem_cons, not_or, decide_not, Bool.and_eq_true,
      Bool.not_eq_true', decide_eq_false_iff_not, Bool.decide_and, ne_eq]
    exact Bool.and_comm _ _


/-- Claim C27, as far as it holds and where it fails.  Let the option string of an entry be
the tokens `tokens` joined by commas, none of them empty, and let it fit the buffer of 8192
bytes with its two commas.  Then `opts` is the bitwise OR of the flag bits of the recognized
options among the tokens, and `data` is the tokens in their order, joined by commas, without
the first occurrence of each recognized option.  So `data` holds no recognized option when
none occurs twice among the tokens, as the claim says; a recognized option that occurs twice
stays in `data`, against the claim. -/
theorem mount_slot_of_tokens (me : mntent) (tokens : List Str)
    (h1 : me.mnt_opts = join_commas tokens) (h2 : tokens ≠ [])
    (h3 : ∀ t ∈ tokens, t ≠ [] ∧ ∀ c ∈ t, c ≠ ',') (h4 : me.mnt_opts.length + 2 < BUFSIZ) :
    (mount_slot_of me).opts
      = (mount_flags.filter (fun f => decide (f.1 ∈ tokens))).foldl (fun o f => o ||| f.2) 0
    ∧ (mount_slot_of me).data
      = join_commas (mount_flags.foldl (fun ts f => ts.erase f.1) tokens)
    ∧ ((∀ f ∈ mount_flags, tokens.count f.1 ≤ 1) →
        (mount_slot_of me).data
          = join_commas (tokens.filter (fun t => decide (t ∉ mount_flags.map Prod.fst)))) := by
  have hinit : (",".toList ++ me.mnt_opts ++ ",".toList).take (BUFSIZ - 1)
      = enc_options tokens := by
    rw [List.take_of_length_le]
    · rw [h1, ← enc_options_of_join tokens h2]
      simp
    · have hc : ",".toList = [','] := rfl
      rw [hc]
      simp only [List.length_append, List.length_singleton]
      unfold BUFSIZ at h4 ⊢
      omega
  have hargs : mountargs = mount_flags.map (fun f => (',' :: (f.1 ++ [',']), f.2)) := by
    decide
  have hflags : ∀ f ∈ mount_flags, ∀ c ∈ f.1, c ≠ ',' := by decide
  have hnodup : (mount_flags.map Prod.fst).Nodup := by decide
  have htok : ∀ t ∈ tokens, ∀ c ∈ t, c ≠ ',' := fun t ht => (h3 t ht).2
  have hfold := mountargs_fold_enc mount_flags tokens 0 hflags htok
  rw [← hargs] at hfold
  obtain ⟨k1, k2⟩ := flags_fold_spec mount_flags tokens 0 hnodup
  have hleft : ∀ t ∈ mount_flags.foldl (fun ts f => ts.erase f.1) tokens,
      t ≠ [] ∧ ∀ c ∈ t, c ≠ ',' := by
    have sub : ∀ (flags : List (Str × Nat)) (ts : List Str),
        ∀ t ∈ flags.foldl (fun ts f => ts.erase f.1) ts, t ∈ ts := by
      intro flags
      induction flags with
      | nil => intro ts t ht; exact ht
      | cons f fs ih =>
        intro ts t ht
        exact List.mem_of_mem_erase (ih _ t ht)
    intro t ht
    exact h3 t (sub _ _ t ht)
  have hopts : (mount_slot_of me).opts
      = (mount_flags.filter (fun f => decide (f.1 ∈ tokens))).foldl (fun o f => o ||| f.2) 0 := by
    unfold mount_slot_of
    simp only [hinit, hfold]
    exact k2
  have hdata : (mount_slot_of me).data
      = join_commas (mount_flags.foldl (fun ts f => ts.erase f.1) tokens) := by
    unfold mount_slot_of
    simp only [hinit, hfold, k1]
    exact strip_enc_options _ hleft
  refine ⟨hopts, hdata, ?_⟩
  intro hcount
  rw [hdata, erase_all_eq_filter mount_flags tokens hcount]

/-- Claim C27, exercised on the options `rw,nosuid,data=ordered,relatime`. -/
theorem mount_slot_of_tokens_witness :
    (mount_slot_of ⟨"/dev/sda1".toList, "/mnt".toList, "ext4".toList,
        "rw,nosuid,data=ordered,relatime".toList⟩).opts
      = (mount_flags.filter (fun f => decide (f.1 ∈
          ["rw".toList, "nosuid".toList, "data=ordered".toList, "relatime".toList]))).foldl
            (fun o f => o ||| f.2) 0
    ∧ (mount_slot_of ⟨"/dev/sda1".toList, "/mnt".toList, "ext4".toList,
        "rw,nosuid,data=ordered,relatime".toList⟩).data
      = join_commas (mount_flags.foldl (fun ts f => ts.erase f.1)
          ["rw".toList, "nosuid".toList, "data=ordered".toList, "relatime".toList])
    ∧ ((∀ f ∈ mount_flags,
          ["rw".toList, "nosuid".toList, "data=ordered".toList, "relatime".toList].count f.1
            ≤ 1) →
        (mount_slot_of ⟨"/dev/sda1".toList, "/mnt".toList, "ext4".toList,
            "rw,nosuid,data=ordered,relatime".toList⟩).data
          = join_commas
              (["rw".toList, "nosuid".toList, "data=ordered".toList, "relatime".toList].filter
                (fun t => decide (t ∉ mount_flags.map Prod.fst)))) :=
  mount_slot_of_tokens
    ⟨"/dev/sda1".toList, "/mnt".toList, "ext4".toList, "rw,nosuid,data=ordered,relatime".toList⟩
    ["rw".toList, "nosuid".toList, "data=ordered".toList, "relatime".toList]
    (by decide) (by decide) (by decide) (by decide)

end PaJail
